import Mathlib

/-!
# Structural analysis of finite Markov chains (`src/probabilistic.cpp`)

A shallow embedding of the classification kernel (`commClassesKernel`), of the
wrappers that enumerate communicating / recurrent / transient classes, of
`canonicForm` and of the assembling part of `steadyStatesByRecurrentClasses`.

Conventions of the embedding:

* a `NumericMatrix` is its two dimensions together with the entry function
  `data i j` (the value of `P(i, j)`); only entries inside the dimensions are
  ever meaningful.  Entries are exact rationals: the classification code only
  tests `P(i, j) > 0` and copies entries;
* `vector<bool>` rows and `LogicalMatrix` / `LogicalVector` values are functions
  into `Bool`, updated functionally;
* the `while (!notVisited.empty())` loop is run with an explicit amount of fuel
  and yields `none` when the fuel is exhausted before the stack is empty.
-/

namespace MarkovChain

/-! ## Data model -/

/-- An `Rcpp::NumericMatrix`: `nrow`, `ncol` and the entries `data i j = P(i, j)`. -/
structure NumericMatrix where
  nrow : Nat
  ncol : Nat
  data : Nat → Nat → ℚ

/-- The Rcpp sugar function `transpose`. -/
def transpose (m : NumericMatrix) : NumericMatrix :=
  { nrow := m.ncol, ncol := m.nrow, data := fun i j => m.data j i }

/-- The list returned by `commClassesKernel`: the matrix `classes` and the vector `closed`. -/
structure KernelResult where
  classes : Nat → Nat → Bool
  closed : Nat → Bool

/-- The slots of an S4 object of class `markovchain` that the analysis reads and writes; the
labels are strings in the program, any type with decidable equality here. -/
structure Markovchain (α : Type) where
  transitionMatrix : NumericMatrix
  states : List α
  byrow : Bool

/-! ## `commClassesKernel` -/

/-- The list `adjacencies[i]`: the columns `j`, in increasing order, with `P(i, j) > 0`. -/
def adjacencies (P : NumericMatrix) (i : Nat) : List Nat :=
  (List.range P.ncol).filter (fun j => decide (P.data i j > 0))

/-- The inner `for (int k : adjacencies[j])` loop: every successor that is not yet marked in
the current row is pushed on the stack (the head of the list is the top of the stack). -/
def pushUnvisited (row : Nat → Bool) (adj : List Nat) (notVisited : List Nat) : List Nat :=
  adj.foldl (fun st k => if row k then st else k :: st) notVisited

/-- The loop `while (!notVisited.empty())` for one start state, on the row `communicates[i]`:
pop `j`, set `communicates[i][j]`, push the unmarked successors of `j`. -/
def traverse (adj : Nat → List Nat) : Nat → (Nat → Bool) → List Nat → Option (Nat → Bool)
  | _, row, [] => some row
  | 0, _, _ :: _ => none
  | fuel + 1, row, j :: rest =>
      traverse adj fuel (fun x => if x = j then true else row x)
        (pushUnvisited (fun x => if x = j then true else row x) (adj j) rest)

/-- The matrix `communicates` after the first `k` iterations of the outer loop
`for (int i = 0; i < numStates; ++i)`; it starts all `false`. -/
def communicatesLoop (fuel : Nat) (P : NumericMatrix) : Nat → Option (Nat → Nat → Bool)
  | 0 => some (fun _ _ => false)
  | k + 1 =>
      match communicatesLoop fuel P k with
      | none => none
      | some c =>
          match traverse (adjacencies P) fuel (c k) [k] with
          | none => none
          | some row => some (fun a => if a = k then row else c a)

/-- The matrix `communicates` when all `numStates` traversals are done. -/
def communicates (fuel : Nat) (P : NumericMatrix) : Option (Nat → Nat → Bool) :=
  communicatesLoop fuel P P.ncol

/-- The counter `classSize` of state `i` after the loop over `j`. -/
def classSize (n : Nat) (comm : Nat → Nat → Bool) (i : Nat) : Nat :=
  (List.range n).countP (fun j => comm i j && comm j i)

/-- The counter `numReachable` of state `i` after the loop over `j`. -/
def numReachable (n : Nat) (comm : Nat → Nat → Bool) (i : Nat) : Nat :=
  (List.range n).countP (fun j => comm i j)

/-- The second half of `commClassesKernel`: `classes` and `closed` from `communicates`.
Both are created all `FALSE` with `numStates` rows (and columns). -/
def classify (n : Nat) (comm : Nat → Nat → Bool) : KernelResult :=
  { classes := fun i j => decide (i < n) && decide (j < n) && (comm i j && comm j i)
    closed := fun i => decide (i < n) && decide (classSize n comm i = numReachable n comm i) }

/-- The function `commClassesKernel`. -/
def commClassesKernel (fuel : Nat) (P : NumericMatrix) : Option KernelResult :=
  match communicates fuel P with
  | none => none
  | some comm => some (classify P.ncol comm)

/-! ## Enumerating the classes -/

/-- The inner loop `for (int j = 0; j < numStates; ++j)` shared by the three class wrappers:
the labels `states[j]` with `commClasses(i, j)` are appended to `currentClass` (first
component) and `computed[j]` is set (second component). -/
def collectClass {α : Type} (commClasses : Nat → Nat → Bool) (states : List α) (i : Nat)
    (computed : Nat → Bool) : List α × (Nat → Bool) :=
  states.enum.foldl
    (fun acc js =>
      if commClasses i js.1 then (acc.1 ++ [js.2], fun x => if x = js.1 then true else acc.2 x)
      else acc)
    ([], computed)

/-- The function `computeCommunicatingClasses`; the loop state is `(computed, classesList)`. -/
def computeCommunicatingClasses {α : Type} (commClasses : Nat → Nat → Bool) (states : List α) :
    List (List α) :=
  ((List.range states.length).foldl
    (fun (st : (Nat → Bool) × List (List α)) i =>
      if !st.1 i then
        ((collectClass commClasses states i st.1).2,
          st.2 ++ [(collectClass commClasses states i st.1).1])
      else st)
    (fun _ => false, [])).2

/-- The function `computeTransientStates`. -/
def computeTransientStates {α : Type} (states : List α) (closedClass : Nat → Bool) : List α :=
  (states.enum.filter (fun js => !closedClass js.1)).map Prod.snd

/-- The function `computeRecurrentStates`. -/
def computeRecurrentStates {α : Type} (states : List α) (closedClass : Nat → Bool) : List α :=
  (states.enum.filter (fun js => closedClass js.1)).map Prod.snd

/-- The function `computeRecurrentClasses`; the loop state is `(computed, recurrentClassesList)`
and the test is `isRecurrentClass = closedClass(i) && !computed[i]`. -/
def computeRecurrentClasses {α : Type} (commClasses : Nat → Nat → Bool)
    (closedClass : Nat → Bool) (states : List α) : List (List α) :=
  ((List.range states.length).foldl
    (fun (st : (Nat → Bool) × List (List α)) i =>
      if closedClass i && !st.1 i then
        ((collectClass commClasses states i st.1).2,
          st.2 ++ [(collectClass commClasses states i st.1).1])
      else st)
    (fun _ => false, [])).2

/-- The function `computeTransientClasses`; the test is
`isTransientClass = !closedClass(i) && !computed[i]`. -/
def computeTransientClasses {α : Type} (commClasses : Nat → Nat → Bool)
    (closedClass : Nat → Bool) (states : List α) : List (List α) :=
  ((List.range states.length).foldl
    (fun (st : (Nat → Bool) × List (List α)) i =>
      if !closedClass i && !st.1 i then
        ((collectClass commClasses states i st.1).2,
          st.2 ++ [(collectClass commClasses states i st.1).1])
      else st)
    (fun _ => false, [])).2

/-- The matrix the exported wrappers hand to the kernel: `transitionMatrix`, transposed when
the chain is stored by columns. -/
def byRowMatrix {α : Type} (object : Markovchain α) : NumericMatrix :=
  if object.byrow then object.transitionMatrix else transpose object.transitionMatrix

/-- The exported function `communicatingClasses`. -/
def communicatingClasses {α : Type} (fuel : Nat) (object : Markovchain α) :
    Option (List (List α)) :=
  match commClassesKernel fuel (byRowMatrix object) with
  | none => none
  | some r => some (computeCommunicatingClasses r.classes object.states)

/-- The exported function `transientStates`. -/
def transientStates {α : Type} (fuel : Nat) (object : Markovchain α) : Option (List α) :=
  match commClassesKernel fuel (byRowMatrix object) with
  | none => none
  | some r => some (computeTransientStates object.states r.closed)

/-- The exported function `recurrentStates`. -/
def recurrentStates {α : Type} (fuel : Nat) (object : Markovchain α) : Option (List α) :=
  match commClassesKernel fuel (byRowMatrix object) with
  | none => none
  | some r => some (computeRecurrentStates object.states r.closed)

/-- The exported function `recurrentClasses`. -/
def recurrentClasses {α : Type} (fuel : Nat) (object : Markovchain α) :
    Option (List (List α)) :=
  match commClassesKernel fuel (byRowMatrix object) with
  | none => none
  | some r => some (computeRecurrentClasses r.classes r.closed object.states)

/-- The exported function `transientClasses`. -/
def transientClasses {α : Type} (fuel : Nat) (object : Markovchain α) :
    Option (List (List α)) :=
  match commClassesKernel fuel (byRowMatrix object) with
  | none => none
  | some r => some (computeTransientClasses r.classes r.closed object.states)

/-! ## `canonicForm` -/

/-- The map `stateToIndex` after the loop `stateToIndex[state] = i`; a label that was never
inserted reads as `0` (the value `operator[]` default-constructs). -/
def stateToIndex {α : Type} [DecidableEq α] (states : List α) : α → Nat :=
  states.enum.foldl (fun m js => fun s => if s = js.2 then js.1 else m s) (fun _ => 0)

/-- The assignment `indexPermutation[pos] = x`; `none` when `pos` is past the end. -/
def writeAt (v : List Nat) (pos x : Nat) : Option (List Nat) :=
  if pos < v.length then some (v.set pos x) else none

/-- The loop `for (auto state : recClass)` of `canonicForm` on the state
`(indexPermutation, toFill, usedIndices)`. -/
def fillClass {α : Type} (toIndex : α → Nat) :
    List α → List Nat × Nat × List Nat → Option (List Nat × Nat × List Nat)
  | [], st => some st
  | state :: rest, (perm, toFill, used) =>
      match writeAt perm toFill (toIndex state) with
      | none => none
      | some perm' => fillClass toIndex rest (perm', toFill + 1, toIndex state :: used)

/-- The loop `for (CharacterVector recClass : recClasses)` of `canonicForm`. -/
def fillClasses {α : Type} (toIndex : α → Nat) :
    List (List α) → List Nat × Nat × List Nat → Option (List Nat × Nat × List Nat)
  | [], st => some st
  | recClass :: rest, st =>
      match fillClass toIndex recClass st with
      | none => none
      | some st' => fillClasses toIndex rest st'

/-- The loop of `canonicForm` that appends the indices `i` with `usedIndices.count(i) == 0`,
on the state `(indexPermutation, toFill)`. -/
def fillUnused (used : List Nat) : List Nat → List Nat × Nat → Option (List Nat × Nat)
  | [], st => some st
  | i :: rest, (perm, toFill) =>
      if i ∈ used then fillUnused used rest (perm, toFill)
      else
        match writeAt perm toFill i with
        | none => none
        | some perm' => fillUnused used rest (perm', toFill + 1)

/-- The chain `input` that `canonicForm` classifies: the argument itself, or its transpose
marked as stored by rows. -/
def canonicInput {α : Type} (obj : Markovchain α) : Markovchain α :=
  if !obj.byrow then
    { transitionMatrix := transpose obj.transitionMatrix, states := obj.states, byrow := true }
  else obj

/-- The vector `indexPermutation` that `canonicForm` builds; `none` when the classification
runs out of fuel or a write falls outside the vector. -/
def canonicPermutation {α : Type} [DecidableEq α] (fuel : Nat) (obj : Markovchain α) :
    Option (List Nat) :=
  match recurrentClasses fuel (canonicInput obj) with
  | none => none
  | some recClasses =>
      match fillClasses (stateToIndex obj.states) recClasses
          (List.replicate obj.transitionMatrix.nrow 0, 0, []) with
      | none => none
      | some (perm, toFill, used) =>
          match fillUnused used (List.range obj.states.length) (perm, toFill) with
          | none => none
          | some (perm', _) => some perm'

/-- The reads `newStates(i) = states(r)` for `r = indexPermutation[i]`; `none` when some `r`
is not an index of `states`. -/
def readStates {α : Type} (states : List α) : List Nat → Option (List α)
  | [] => some []
  | r :: rest =>
      match states[r]?, readStates states rest with
      | some s, some ss => some (s :: ss)
      | _, _ => none

/-- The function `canonicForm` (the slot `name`, which is only copied, is not modelled). -/
def canonicForm {α : Type} [DecidableEq α] (fuel : Nat) (obj : Markovchain α) :
    Option (Markovchain α) :=
  match canonicPermutation fuel obj with
  | none => none
  | some perm =>
      match readStates obj.states perm with
      | none => none
      | some newStates =>
          some
            { transitionMatrix :=
                if !obj.byrow then
                  transpose
                    { nrow := obj.transitionMatrix.nrow
                      ncol := obj.transitionMatrix.ncol
                      data := fun i j =>
                        (transpose obj.transitionMatrix).data (perm.getD i 0) (perm.getD j 0) }
                else
                  { nrow := obj.transitionMatrix.nrow
                    ncol := obj.transitionMatrix.ncol
                    data := fun i j =>
                      obj.transitionMatrix.data (perm.getD i 0) (perm.getD j 0) }
              states := newStates
              byrow := obj.byrow }

/-! ## `steadyStatesByRecurrentClasses` -/

/-- The matrix `subMatrix` that `steadyStatesByRecurrentClasses` fills for one recurrent class:
`subMatrix(i, j) = transitionMatrix(r, c)` with `r`, `c` the indices of the `i`-th and `j`-th
label of the class. -/
def subMatrix {α : Type} (transitionMatrix : NumericMatrix) (toIndex : α → Nat)
    (recurrentClass : List α) : NumericMatrix :=
  { nrow := recurrentClass.length
    ncol := recurrentClass.length
    data := fun i j =>
      transitionMatrix.data ((recurrentClass.map toIndex).getD i 0)
        ((recurrentClass.map toIndex).getD j 0) }

/-- The loop `for (int i = 0; i < recClassSize && !negativeFound; ++i)` on the state
`(steady, negativeFound)`; the list is the class with its positions. -/
def fillSteadyRow {α : Type} (toIndex : α → Nat) (steadySubMatrix : NumericMatrix)
    (steadyStateIndex : Nat) : List (Nat × α) → (Nat → Nat → ℚ) × Bool → (Nat → Nat → ℚ) × Bool
  | [], st => st
  | (i, state) :: rest, (steady, negativeFound) =>
      if negativeFound then (steady, negativeFound)
      else
        fillSteadyRow toIndex steadySubMatrix steadyStateIndex rest
          (fun a b =>
            if a = steadyStateIndex ∧ b = toIndex state then steadySubMatrix.data 0 i
            else steady a b,
            decide (steadySubMatrix.data 0 i < 0))

/-- The loop `for (CharacterVector recurrentClass : recClasses)` on the state
`(steady, steadyStateIndex, negativeFound)`; `none` is a call of `stop`.  The function
`computeSteadyStates`, whose value comes from the eigen-solver, is a parameter. -/
def steadyLoop {α : Type} (computeSteadyStates : NumericMatrix → Bool → Option NumericMatrix)
    (transitionMatrix : NumericMatrix) (toIndex : α → Nat) :
    List (List α) → (Nat → Nat → ℚ) × Nat × Bool → Option (Nat → Nat → ℚ)
  | [], (steady, _, _) => some steady
  | recurrentClass :: rest, (steady, steadyStateIndex, negativeFound) =>
      match computeSteadyStates (subMatrix transitionMatrix toIndex recurrentClass) true with
      | none => none
      | some steadySubMatrix =>
          if steadySubMatrix.nrow ≠ 1 then none
          else if (fillSteadyRow toIndex steadySubMatrix steadyStateIndex recurrentClass.enum
              (steady, negativeFound)).2 then none
          else
            steadyLoop computeSteadyStates transitionMatrix toIndex rest
              ((fillSteadyRow toIndex steadySubMatrix steadyStateIndex recurrentClass.enum
                (steady, negativeFound)).1, steadyStateIndex + 1, false)

/-- The function `steadyStatesByRecurrentClasses`; the matrix `steady` starts all zero. -/
def steadyStatesByRecurrentClasses {α : Type} [DecidableEq α]
    (computeSteadyStates : NumericMatrix → Bool → Option NumericMatrix) (fuel : Nat)
    (object : Markovchain α) : Option NumericMatrix :=
  match recurrentClasses fuel object with
  | none => none
  | some recClasses =>
      match steadyLoop computeSteadyStates object.transitionMatrix
          (stateToIndex object.states) recClasses (fun _ _ => 0, 0, false) with
      | none => none
      | some steady =>
          some { nrow := recClasses.length, ncol := object.transitionMatrix.ncol, data := steady }

/-! ## Specification vocabulary -/

/-- The sum of row `i` of a matrix. -/
def rowSum (m : NumericMatrix) (i : Nat) : ℚ :=
  ((List.range m.ncol).map (fun j => m.data i j)).sum

/-- One positive-probability transition between two states of the chain. -/
def Edge (P : NumericMatrix) (a b : Nat) : Prop := b ∈ adjacencies P a

/-- Reachability in the transition graph (paths of length zero included). -/
def Reach (P : NumericMatrix) (i j : Nat) : Prop := Relation.ReflTransGen (Edge P) i j

/-- A path `i = x 0, x 1, ..., x m = j` through states of the chain, every step of which has
positive probability. -/
def IsPath (P : NumericMatrix) (i j : Nat) : Prop :=
  ∃ (m : Nat) (x : Nat → Nat), x 0 = i ∧ x m = j ∧ (∀ t, t ≤ m → x t < P.ncol) ∧
    ∀ t, t < m → P.data (x t) (x (t + 1)) > 0

/-- The labels of the class of `i`, in index order: what the inner loop appends. -/
def classLabels {α : Type} (commClasses : Nat → Nat → Bool) (states : List α) (i : Nat) :
    List α :=
  (states.enum.filter (fun js => commClasses i js.1)).map Prod.snd

/-- State `i` is the lowest index of its class: no smaller index is in the same class. -/
def isSeed (commClasses : Nat → Nat → Bool) (i : Nat) : Bool :=
  (List.range i).all (fun j => !commClasses j i)

/-- The indices at which a class wrapper with selection test `sel` starts a new class. -/
def seedsOf (sel : Nat → Bool) (commClasses : Nat → Nat → Bool) (n : Nat) : List Nat :=
  (List.range n).filter (fun i => sel i && isSeed commClasses i)

/-- The common shape of the three class wrappers: a new class is started at `i` when
`sel i && !computed[i]`. -/
def classesLoop {α : Type} (sel : Nat → Bool) (commClasses : Nat → Nat → Bool)
    (states : List α) (k : Nat) : (Nat → Bool) × List (List α) :=
  (List.range k).foldl
    (fun (st : (Nat → Bool) × List (List α)) i =>
      if sel i && !st.1 i then
        ((collectClass commClasses states i st.1).2,
          st.2 ++ [(collectClass commClasses states i st.1).1])
      else st)
    (fun _ => false, [])

/-- What the class wrappers rely on: `classes` is an equivalence relation on the states below
`n`, false elsewhere, and `closed` is constant on each class. -/
structure ClassData (n : Nat) (cls : Nat → Nat → Bool) (closed : Nat → Bool) : Prop where
  lt : ∀ i j, cls i j = true → i < n ∧ j < n
  refl : ∀ i, i < n → cls i i = true
  symm : ∀ i j, cls i j = true → cls j i = true
  trans : ∀ i j k, cls i j = true → cls j k = true → cls i k = true
  closed_eq : ∀ i j, cls i j = true → closed i = closed j
  closed_lt : ∀ i, closed i = true → i < n

/-- The closed form of `indexPermutation`: the classes of the closed seeds, each in index
order, followed by the indices that are not closed. -/
def canonicOrder (n : Nat) (r : KernelResult) : List Nat :=
  ((seedsOf r.closed r.classes n).map (fun s => (List.range n).filter (r.classes s))).flatten
    ++ (List.range n).filter (fun i => !r.closed i)

/-- The least `j` with `k ≤ j < k + d` and `p j`, or `k + d` when there is none. -/
def leastFrom (p : Nat → Bool) : Nat → Nat → Nat
  | k, 0 => k
  | k, d + 1 => if p k then k else leastFrom p (k + 1) d

/-- The lowest index in the class of `i`. -/
def classMin (cls : Nat → Nat → Bool) (i : Nat) : Nat :=
  leastFrom (fun j => cls j i) 0 i

/-- The order in which `canonicForm` lists the states: closed states before the others;
closed states by the lowest index of their class, then by index; the others by index. -/
def keyLt (r : KernelResult) (i j : Nat) : Prop :=
  (r.closed i = true ∧ r.closed j = false) ∨
  (r.closed i = true ∧ r.closed j = true ∧
    (classMin r.classes i < classMin r.classes j ∨
      (classMin r.classes i = classMin r.classes j ∧ i < j))) ∨
  (r.closed i = false ∧ r.closed j = false ∧ i < j)

/-! ## `hittingProbabilities` -/

/-- The body `coeffs(i, j) = 0; coeffs(i, i) -= 1;` of the first loop of
`hittingProbabilities` for the target `j`. -/
def hittingShiftStep (j i : Nat) (coeffs : Nat → Nat → ℚ) : Nat → Nat → ℚ :=
  fun a b =>
    if a = i ∧ b = i then (fun a b => if a = i ∧ b = j then (0 : ℚ) else coeffs a b) i i - 1
    else (fun a b => if a = i ∧ b = j then (0 : ℚ) else coeffs a b) a b

/-- The first loop over `i` of `hittingProbabilities` for the target `j`, on `coeffs`. -/
def hittingShift (numStates j : Nat) (coeffs : Nat → Nat → ℚ) : Nat → Nat → ℚ :=
  (List.range numStates).foldl (fun c i => hittingShiftStep j i c) coeffs

/-- The loop over `k` that overwrites row `i` of `coeffs` for a closed state `i`:
`if (k != i) coeffs(i, k) = 0; else coeffs(i, i) = 1;`. -/
def hittingIdentityRow (numStates i : Nat) (coeffs : Nat → Nat → ℚ) : Nat → Nat → ℚ :=
  (List.range numStates).foldl
    (fun c k =>
      if k ≠ i then (fun a b => if a = i ∧ b = k then 0 else c a b)
      else (fun a b => if a = i ∧ b = i then 1 else c a b))
    coeffs

/-- The second loop over `i` of `hittingProbabilities` for the target `j`, on the state
`(coeffs, right_part)`: the row of a closed state becomes an identity row, its right-hand side
`1` or `0` according to `communicating(i, j)`. -/
def hittingClosedRows (numStates j : Nat) (closedClass : Nat → Bool)
    (communicating : Nat → Nat → Bool) (st : (Nat → Nat → ℚ) × (Nat → ℚ)) :
    (Nat → Nat → ℚ) × (Nat → ℚ) :=
  (List.range numStates).foldl
    (fun st i =>
      if closedClass i then
        (hittingIdentityRow numStates i st.1,
          fun a => if a = i then (if communicating i j then 1 else 0) else st.2 a)
      else st)
    st

/-- The pair `(coeffs, right_part)` that `hittingProbabilities` hands to `arma::solve` for the
target `j`; `coeffs` starts as the transition matrix and `right_part` as minus its column `j`. -/
def hittingSystem (transitionMatrix : NumericMatrix) (r : KernelResult) (j : Nat) :
    (Nat → Nat → ℚ) × (Nat → ℚ) :=
  hittingClosedRows transitionMatrix.nrow j r.closed r.classes
    (hittingShift transitionMatrix.nrow j transitionMatrix.data,
      fun i => - transitionMatrix.data i j)

/-- The loop over the targets `j` of `hittingProbabilities`, filling the columns of
`hittingProbs`; `arma::solve` is a parameter and `none` is its failure. -/
def hittingColumns (solve : Nat → (Nat → Nat → ℚ) → (Nat → ℚ) → Option (Nat → ℚ))
    (transitionMatrix : NumericMatrix) (r : KernelResult) : Nat → Option (Nat → Nat → ℚ)
  | 0 => some (fun _ _ => 0)
  | j + 1 =>
      match hittingColumns solve transitionMatrix r j with
      | none => none
      | some hittingProbs =>
          match solve transitionMatrix.nrow (hittingSystem transitionMatrix r j).1
              (hittingSystem transitionMatrix r j).2 with
          | none => none
          | some col => some (fun a b => if b = j then col a else hittingProbs a b)

/-- The function `hittingProbabilities`. -/
def hittingProbabilities {α : Type}
    (solve : Nat → (Nat → Nat → ℚ) → (Nat → ℚ) → Option (Nat → ℚ)) (fuel : Nat)
    (object : Markovchain α) : Option NumericMatrix :=
  match commClassesKernel fuel (byRowMatrix object) with
  | none => none
  | some r =>
      match hittingColumns solve (byRowMatrix object) r (byRowMatrix object).nrow with
      | none => none
      | some hittingProbs =>
          if !object.byrow then
            some (transpose
              { nrow := (byRowMatrix object).nrow, ncol := (byRowMatrix object).nrow,
                data := hittingProbs })
          else
            some
              { nrow := (byRowMatrix object).nrow, ncol := (byRowMatrix object).nrow,
                data := hittingProbs }

/-- The vector `h` solves the linear system `coeffs * h = right_part` of order `n`. -/
def Solves (n : Nat) (coeffs : Nat → Nat → ℚ) (rightPart : Nat → ℚ) (h : Nat → ℚ) : Prop :=
  ∀ i, i < n → (Finset.range n).sum (fun k => coeffs i k * h k) = rightPart i

/-! ## First passage and expected rewards -/

/-- The product `A * B` of two matrices with inner dimension `s` (`arma::operator*`). -/
def matMul (s : Nat) (A B : Nat → Nat → ℚ) : Nat → Nat → ℚ :=
  fun a b => (Finset.range s).sum (fun k => A a k * B k b)

/-- The product `A * x` of a matrix with `s` columns and a column vector. -/
def matVec (s : Nat) (A : Nat → Nat → ℚ) (x : Nat → ℚ) : Nat → ℚ :=
  fun a => (Finset.range s).sum (fun k => A a k * x k)

/-- The element-wise product `A % B`. -/
def schur (A B : Nat → Nat → ℚ) : Nat → Nat → ℚ := fun a b => A a b * B a b

/-- The matrix `1 - arma::eye(s, s)`: zero on the diagonal, one elsewhere. -/
def offDiagonal : Nat → Nat → ℚ := fun a b => 1 - (if a = b then 1 else 0)

/-- One pass `m` of the loop of `firstpassageKernel` on the pair `(G, H)`:
`G = Pa * (G % E)`, then row `m` of `H` is row `i - 1` of `G`. -/
def firstpassageStep (P : NumericMatrix) (i : Int)
    (st : (Nat → Nat → ℚ) × (Nat → Nat → ℚ)) (m : Nat) :
    (Nat → Nat → ℚ) × (Nat → Nat → ℚ) :=
  (matMul P.ncol P.data (schur st.1 offDiagonal),
   fun a b => if a = m ∧ b < P.ncol
     then matMul P.ncol P.data (schur st.1 offDiagonal) (i - 1).toNat b else st.2 a b)

/-- The function `firstpassageKernel`. `none` stands for a call that does not return a matrix:
`H` cannot be allocated (`n < 0`), an access `H(0, j)` or `G(i - 1, j)` is out of bounds, or the
shapes of `Pa * (G % E)` do not fit. -/
def firstpassageKernel (P : NumericMatrix) (i n : Int) : Option NumericMatrix :=
  if n < 0 then none
  else if 0 < P.ncol ∧ (n = 0 ∨ i < 1 ∨ (P.nrow : Int) < i) then none
  else if 2 ≤ n ∧ P.nrow ≠ P.ncol then none
  else
    some
      { nrow := n.toNat
        ncol := P.ncol
        data := ((List.range (n.toNat - 1)).foldl
          (fun st t => firstpassageStep P i st (t + 1))
          (P.data, fun a b => if a = 0 ∧ b < P.ncol then P.data (i - 1).toNat b else 0)).2 }

/-- The inner loop of `firstPassageMultipleRCpp`: `H[m] += G(i - 1, setno[k] - 1)` for every
entry of `setno`. -/
def firstPassageAccumulate (G : Nat → Nat → ℚ) (i : Int) (setno : List Int) (m : Nat)
    (H : Nat → ℚ) : Nat → ℚ :=
  setno.foldl (fun H k => fun a => if a = m then H a + G (i - 1).toNat (k - 1).toNat else H a) H

/-- One pass `m` of the loop of `firstPassageMultipleRCpp` on the pair `(G, H)`. -/
def firstPassageMultipleStep (P : NumericMatrix) (i : Int) (setno : List Int)
    (st : (Nat → Nat → ℚ) × (Nat → ℚ)) (m : Nat) : (Nat → Nat → ℚ) × (Nat → ℚ) :=
  (matMul P.ncol P.data (schur st.1 offDiagonal),
   firstPassageAccumulate (matMul P.ncol P.data (schur st.1 offDiagonal)) i setno m st.2)

/-- The function `firstPassageMultipleRCpp`; the entries of `setno` are taken to be whole
numbers. `none` stands for a call that does not return a vector (no allocation, an access out
of bounds, or shapes that do not fit). -/
def firstPassageMultipleRCpp (P : NumericMatrix) (i : Int) (setno : List Int) (n : Int) :
    Option (List ℚ) :=
  if n < 0 then none
  else if setno ≠ [] ∧ (n = 0 ∨ i < 1 ∨ (P.nrow : Int) < i ∨
      ∃ k ∈ setno, k < 1 ∨ (P.ncol : Int) < k) then none
  else if 2 ≤ n ∧ P.nrow ≠ P.ncol then none
  else
    some ((List.range n.toNat).map
      ((List.range (n.toNat - 1)).foldl
        (fun st t => firstPassageMultipleStep P i setno st (t + 1))
        (P.data, firstPassageAccumulate P.data i setno 0 (fun _ => 0))).2)

/-- The function `expectedRewardsRCpp`: `temp = v + matr * temp`, `n` times, from
`temp = v = rewards`. `none` stands for a call that reads past the end of `rewards` or whose
shapes do not fit. -/
def expectedRewardsRCpp (matrix : NumericMatrix) (n : Int) (rewards : List ℚ) :
    Option (List ℚ) :=
  if rewards.length < matrix.ncol then none
  else if 1 ≤ n ∧ matrix.nrow ≠ matrix.ncol then none
  else
    some ((List.range matrix.ncol).map
      ((List.range n.toNat).foldl
        (fun temp _ => fun a => rewards.getD a 0 + matVec matrix.ncol matrix.data temp a)
        (fun a => rewards.getD a 0)))

/-- The function `expectedRewardsBeforeHittingARCpp`, in exact arithmetic: the loop state is
the pair `(result, temp)`. `none` stands for a call that does not return a number (the write
`I(0, s0 - 1)` is out of bounds, or the shapes do not fit). -/
def expectedRewardsBeforeHittingARCpp (matrix : NumericMatrix) (s0 : Int) (rewards : List ℚ)
    (n : Int) : Option ℚ :=
  if s0 < 1 ∨ (rewards.length : Int) < s0 then none
  else if 1 ≤ n ∧ (matrix.nrow ≠ rewards.length ∨ matrix.ncol ≠ rewards.length) then none
  else
    some ((List.range n.toNat).foldl
      (fun (st : ℚ × (Nat → Nat → ℚ)) _ =>
        (st.1 + (Finset.range rewards.length).sum
            (fun a => (if a = (s0 - 1).toNat then 1 else 0)
              * matVec rewards.length st.2 (fun k => rewards.getD k 0) a),
         matMul rewards.length st.2 matrix.data))
      (0, matrix.data)).1

/-- All sequences of `len` states of a chain with `s` states. -/
def stateSequences (s : Nat) : Nat → List (List Nat)
  | 0 => [[]]
  | len + 1 => (List.range s).flatMap (fun x => (stateSequences s len).map (fun xs => x :: xs))

/-- The product of the entries `P(x t, x (t + 1))` along a sequence of states. -/
def pathProduct (P : NumericMatrix) : List Nat → ℚ
  | [] => 1
  | [_] => 1
  | x :: y :: rest => P.data x y * pathProduct P (y :: rest)

/-- The first-passage probability at step `m` in the words of the specification: the sum, over
all state sequences `start = x 0, x 1, ..., x m = j` whose intermediate states are all
different from `j`, of the product of the entries `P(x t, x (t + 1))`. -/
def firstPassageSum (P : NumericMatrix) (start j m : Nat) : ℚ :=
  (((stateSequences P.ncol (m - 1)).filter (fun xs => xs.all (fun x => decide (x ≠ j)))).map
    (fun xs => pathProduct P (start :: (xs ++ [j])))).sum

/-- The entries of a square matrix of order `s` as a matrix over `Fin s`. -/
def toMatrix (s : Nat) (A : Nat → Nat → ℚ) : Matrix (Fin s) (Fin s) ℚ :=
  fun a b => A a.val b.val

/-- The first `s` entries of a vector as a vector over `Fin s`. -/
def toVector (s : Nat) (x : Nat → ℚ) : Fin s → ℚ := fun a => x a.val

/-- The entry `a` of `P ^ t * r`, which is the product `e_a^T * P ^ t * r`. -/
def powerApply (P : NumericMatrix) (r : List ℚ) (t : Nat) (a : Fin P.ncol) : ℚ :=
  Matrix.mulVec (toMatrix P.ncol P.data ^ t) (toVector P.ncol (fun k => r.getD k 0)) a

/-- The value recurrence of the specification: `v 0 = r` and `v (k + 1) = r + P * v k`. -/
def valueRecurrence (P : NumericMatrix) (r : List ℚ) : Nat → Fin P.ncol → ℚ
  | 0 => toVector P.ncol (fun k => r.getD k 0)
  | k + 1 => fun a => toVector P.ncol (fun k => r.getD k 0) a
      + Matrix.mulVec (toMatrix P.ncol P.data) (valueRecurrence P r k) a

/-- The two-state chain `[[0, 1], [1, 0]]` that alternates between its states. -/
def swapMatrix : NumericMatrix :=
  { nrow := 2
    ncol := 2
    data := fun i j => if i = j then 0 else 1 }

/-- The chain with the matrix `[[0, 1], [1, 0]]` and the labels `a`, `b`. -/
def swapChain : Markovchain String :=
  { transitionMatrix := swapMatrix, states := ["a", "b"], byrow := true }

/-! ## `period` -/

/-- The loop of `gcd` on the pair `(a, b)`: `c = a; a = b % a; b = c` while `a != 0`. The
remainder is the truncating one of C++; `none` stands for a loop that has not ended within
`fuel` tests of its condition. -/
def gcdLoop : Nat → Int → Int → Option Int
  | 0, _, _ => none
  | fuel + 1, a, b => if a ≠ 0 then gcdLoop fuel (Int.tmod b a) a else some b

/-- The function `gcd`: both arguments are replaced by their absolute values first. -/
def gcd (fuel : Nat) (a b : Int) : Option Int :=
  gcdLoop fuel (Int.natAbs a) (Int.natAbs b)

/-- The variables of the labelling loop of `period`: the vectors `r`, `T`, `w`, the labels `v`
and the accumulator `d`. -/
structure PeriodState where
  r : List Nat
  T : List Nat
  w : List Nat
  v : Nat → Int
  d : Int

/-- One pass of the inner loop of `period`, for the column `j` of the row `i`: if `P(i, j) > 0`
the vectors `w` and `T` are appended to `r`; if `j` occurs in `r` then `d = gcd(d, v[i] + 1 -
v[j])`, and otherwise `j` is appended to `T` and labelled `v[i] + 1`. -/
def periodVisit (gcdFuel : Nat) (P : NumericMatrix) (i : Nat) (st : PeriodState) (j : Nat) :
    Option PeriodState :=
  if P.data i j > 0 then
    if 0 < (st.r ++ st.w ++ st.T).count j then
      (gcd gcdFuel st.d (st.v i + 1 - st.v j)).map
        (fun g => { st with r := st.r ++ st.w ++ st.T, d := g })
    else
      some { st with
        r := st.r ++ st.w ++ st.T
        T := st.T ++ [j]
        v := fun x => if x = j then st.v i + 1 else st.v x }
  else some st

/-- The inner loop of `period` for the row `i`: the columns `j = 0..n-1` in order. -/
def periodRow (gcdFuel : Nat) (P : NumericMatrix) (n i : Nat) (st : PeriodState) :
    Option PeriodState :=
  (List.range n).foldl (fun acc j => acc.bind (fun s => periodVisit gcdFuel P i s j)) (some st)

/-- The outer loop of `period`: while `T` is not empty and `d != 1`, the first element of `T`
is moved to the end of `w` and its row is processed. `none` stands for a run that has not
ended within `fuel` tests of the condition, or in which a call of `gcd` has not ended. -/
def periodLoop (gcdFuel : Nat) (P : NumericMatrix) (n : Nat) : Nat → PeriodState → Option Int
  | 0, _ => none
  | fuel + 1, st =>
    match st.T with
    | [] => some st.d
    | i :: rest =>
      if st.d ≠ 1 then
        (periodRow gcdFuel P n i { st with T := rest, w := st.w ++ [i] }).bind
          (periodLoop gcdFuel P n fuel)
      else some st.d

/-- The function `period`. The answer of the R function `is.irreducible` is the argument
`isIrreducible`; the labels other than `v[0]`, which the program leaves unset, are 0. -/
def period {α : Type} (isIrreducible : Bool) (fuel : Nat) (object : Markovchain α) :
    Option Int :=
  if !isIrreducible then some 0
  else if 0 < object.transitionMatrix.ncol then
    periodLoop fuel object.transitionMatrix object.transitionMatrix.ncol fuel
      { r := [], T := [0], w := [], v := fun x => if x = 0 then 1 else 0, d := 0 }
  else some 0

/-- A walk of `L` steps from `i` to `j`: states `i = x 0, x 1, ..., x L = j` of the chain with
every step of positive probability. -/
def IsWalk (P : NumericMatrix) (i j L : Nat) : Prop :=
  ∃ x : Nat → Nat, x 0 = i ∧ x L = j ∧ (∀ t, t ≤ L → x t < P.ncol) ∧
    ∀ t, t < L → P.data (x t) (x (t + 1)) > 0

/-- A cycle of length `L` of the transition graph: a walk of `L ≥ 1` steps that ends where it
starts. -/
def IsCycle (P : NumericMatrix) (L : Nat) : Prop := 1 ≤ L ∧ ∃ i, IsWalk P i i L

/-- A cycle of length `L` that visits no state twice. -/
def IsSimpleCycle (P : NumericMatrix) (L : Nat) : Prop :=
  1 ≤ L ∧ ∃ x : Nat → Nat, x 0 = x L ∧ (∀ t, t ≤ L → x t < P.ncol) ∧
    (∀ t, t < L → P.data (x t) (x (t + 1)) > 0) ∧
    ∀ s t, s < t → t < L → x s ≠ x t

/-- The number `d` is the period of the chain: the greatest common divisor of the lengths of
all cycles. It is not negative, it divides the length of every cycle, and every common divisor
of the lengths of the cycles that visit no state twice divides it. -/
def IsPeriod (P : NumericMatrix) (d : Int) : Prop :=
  0 ≤ d ∧ (∀ L, IsCycle P L → d ∣ (L : Int)) ∧
    ∀ g : Int, (∀ L, IsSimpleCycle P L → g ∣ (L : Int)) → g ∣ d

/-- The invariant of the labelling loop while the row `cur` has been processed up to the
column `upto`. -/
structure PeriodInv (P : NumericMatrix) (st : PeriodState) (cur upto : Nat) : Prop where
  lt : ∀ x ∈ st.w ++ st.T, x < P.ncol
  nodup : (st.w ++ st.T).Nodup
  seen : ∀ x ∈ st.r, x ∈ st.w ++ st.T
  root : 0 ∈ st.w ++ st.T
  walk : ∀ x ∈ st.w ++ st.T, 1 ≤ st.v x ∧ IsWalk P 0 x (st.v x - 1).toNat
  bound : ∀ x ∈ st.w ++ st.T, st.v x ≤ (st.w ++ st.T).length
  edges : ∀ a ∈ st.w, ∀ b, b < P.ncol → 0 < P.data a b → (a ≠ cur ∨ b < upto) →
    b ∈ st.w ++ st.T ∧ st.d ∣ st.v a + 1 - st.v b
  common : ∀ g : Int, (∀ L, IsCycle P L → g ∣ (L : Int)) → g ∣ st.d
  dnonneg : 0 ≤ st.d
  dbound : st.d ≤ P.ncol

/-! ## `predictiveDistribution` -/

/-- A numeric matrix with its `dimnames` attribute: the row names and the column names. -/
structure NamedMatrix (α : Type) where
  matrix : NumericMatrix
  rowNames : List α
  colNames : List α

/-- Modelled from the spec: `sortByDimNames` rearranges the rows and the columns of a matrix so
that the row names and the column names are sorted; the entry in row `i` and column `j` of the
result is the entry of the argument in the row named like the `i`-th sorted row name and the
column named like the `j`-th sorted column name. -/
def sortByDimNames {α : Type} [LinearOrder α] (m : NamedMatrix α) : NamedMatrix α :=
  { matrix :=
      { nrow := m.matrix.nrow
        ncol := m.matrix.ncol
        data := fun i j =>
          match (m.rowNames.insertionSort (· ≤ ·))[i]?, (m.colNames.insertionSort (· ≤ ·))[j]? with
          | some a, some b => m.matrix.data (m.rowNames.indexOf a) (m.colNames.indexOf b)
          | _, _ => 0 }
    rowNames := m.rowNames.insertionSort (· ≤ ·)
    colNames := m.colNames.insertionSort (· ≤ ·) }

/-- The hyperparameter matrix that `predictiveDistribution` builds when the argument is a
1-by-1 matrix: all entries 1, rows and columns named by the states. -/
def defaultHyperparam {α : Type} (elements : List α) : NamedMatrix α :=
  { matrix := { nrow := elements.length, ncol := elements.length, data := fun _ _ => 1 }
    rowNames := elements
    colNames := elements }

/-- One pass `i` of the loop of `predictiveDistribution` over the sorted names: it stops
(`none`) when a name repeats or the row and column names differ, and appends to `elements` a
name that is not among its first `sizeMatr` entries. -/
def predictiveNamesStep {α : Type} [DecidableEq α] (sizeMatr : Nat)
    (sortedColNames sortedRowNames : List α) (acc : Option (List α)) (i : Nat) :
    Option (List α) :=
  acc.bind (fun elements =>
    if 0 < i ∧ (sortedColNames[i]? = sortedColNames[i - 1]? ∨
        sortedRowNames[i]? = sortedRowNames[i - 1]?) then none
    else if sortedColNames[i]? ≠ sortedRowNames[i]? then none
    else
      match sortedColNames[i]? with
      | none => none
      | some c => if c ∈ elements.take sizeMatr then some elements else some (elements ++ [c]))

/-- The inner loop of a frequency loop of `predictiveDistribution`: `posFrom` and `posTo`
become the positions of `data[i]` and `data[i + 1]` in `elements`. -/
def findPositions {α : Type} [DecidableEq α] (elements data : List α) (i posFrom posTo : Nat) :
    Nat × Nat :=
  (List.range elements.length).foldl
    (fun (p : Nat × Nat) j =>
      (if data[i]? = elements[j]? then j else p.1,
       if data[i + 1]? = elements[j]? then j else p.2)) (posFrom, posTo)

/-- One pass `i` of a frequency loop of `predictiveDistribution` on the triple
`(posFrom, posTo, freqMatr)`. -/
def countTransitionsStep {α : Type} [DecidableEq α] (elements data : List α)
    (st : Nat × Nat × (Nat → Nat → ℚ)) (i : Nat) : Nat × Nat × (Nat → Nat → ℚ) :=
  ((findPositions elements data i st.1 st.2.1).1,
   (findPositions elements data i st.1 st.2.1).2,
   fun a b =>
    if a = (findPositions elements data i st.1 st.2.1).1 ∧
      b = (findPositions elements data i st.1 st.2.1).2
    then st.2.2 a b + 1 else st.2.2 a b)

/-- A frequency loop of `predictiveDistribution`: the transitions of `data` are counted in a
matrix that starts at zero; `posFrom` and `posTo` keep their values from before the loop. -/
def countTransitions {α : Type} [DecidableEq α] (elements data : List α) (posFrom posTo : Nat) :
    Nat × Nat × (Nat → Nat → ℚ) :=
  (List.range (data.length - 1)).foldl (countTransitionsStep elements data)
    (posFrom, posTo, fun _ _ => 0)

/-- The inner loop of the last loop of `predictiveDistribution` for the row `i`, on
`(rowSum, newRowSum, paramRowSum, predictiveDist)`. -/
def predictiveInner (lgamma : ℚ → ℚ) (sizeMatr : Nat)
    (freqMatr newFreqMatr hyperparam : Nat → Nat → ℚ) (predictiveDist : ℚ) (i : Nat) :
    ℚ × ℚ × ℚ × ℚ :=
  (List.range sizeMatr).foldl
    (fun (st : ℚ × ℚ × ℚ × ℚ) j =>
      (st.1 + freqMatr i j, st.2.1 + newFreqMatr i j, st.2.2.1 + hyperparam i j,
       st.2.2.2 + (lgamma (freqMatr i j + newFreqMatr i j + hyperparam i j)
         - lgamma (freqMatr i j + hyperparam i j))))
    (0, 0, 0, predictiveDist)

/-- The pass of the last loop of `predictiveDistribution` for the row `i`. -/
def predictiveRow (lgamma : ℚ → ℚ) (sizeMatr : Nat)
    (freqMatr newFreqMatr hyperparam : Nat → Nat → ℚ) (predictiveDist : ℚ) (i : Nat) : ℚ :=
  (predictiveInner lgamma sizeMatr freqMatr newFreqMatr hyperparam predictiveDist i).2.2.2
    + (lgamma ((predictiveInner lgamma sizeMatr freqMatr newFreqMatr hyperparam
            predictiveDist i).1
          + (predictiveInner lgamma sizeMatr freqMatr newFreqMatr hyperparam
            predictiveDist i).2.2.1)
      - lgamma ((predictiveInner lgamma sizeMatr freqMatr newFreqMatr hyperparam
            predictiveDist i).1
          + (predictiveInner lgamma sizeMatr freqMatr newFreqMatr hyperparam
            predictiveDist i).2.1
          + (predictiveInner lgamma sizeMatr freqMatr newFreqMatr hyperparam
            predictiveDist i).2.2.1))

/-- The end of `predictiveDistribution`: the two frequency matrices over the sorted states
and the sum of the log-gamma terms. -/
def predictiveSum {α : Type} [DecidableEq α] (lgamma : ℚ → ℚ) (stringchar newData : List α)
    (elements : List α) (hyperparam : Nat → Nat → ℚ) : ℚ :=
  (List.range elements.length).foldl
    (predictiveRow lgamma elements.length
      (countTransitions elements stringchar 0 0).2.2
      (countTransitions elements newData
        (countTransitions elements stringchar 0 0).1
        (countTransitions elements stringchar 0 0).2.1).2.2
      hyperparam) 0

/-- The part of `predictiveDistribution` after the default for the hyperparameters: the
checks, each of which stops the function (`none`), the alignment of the matrix with the sorted
states, and the sum. -/
def predictiveCore {α : Type} [LinearOrder α] (lgamma : ℚ → ℚ) (stringchar newData : List α)
    (elements : List α) (hyperparam : NamedMatrix α) : Option ℚ :=
  if hyperparam.matrix.nrow ≠ hyperparam.matrix.ncol then none
  else if hyperparam.matrix.nrow < elements.length then none
  else if hyperparam.colNames.length < hyperparam.matrix.ncol ∨
      hyperparam.rowNames.length < hyperparam.matrix.ncol then none
  else
    match (List.range hyperparam.matrix.ncol).foldl
        (predictiveNamesStep elements.length
          ((hyperparam.colNames.take hyperparam.matrix.ncol).insertionSort (· ≤ ·))
          ((hyperparam.rowNames.take hyperparam.matrix.ncol).insertionSort (· ≤ ·)))
        (some elements) with
    | none => none
    | some elements2 =>
      if ¬ (∀ e ∈ elements2.take elements.length,
          e ∈ (hyperparam.colNames.take hyperparam.matrix.ncol).insertionSort (· ≤ ·)) then none
      else if ∃ i ∈ List.range (elements2.insertionSort (· ≤ ·)).length,
          ∃ j ∈ List.range (elements2.insertionSort (· ≤ ·)).length,
            hyperparam.matrix.data i j < 1 then none
      else
        some (predictiveSum lgamma stringchar newData (elements2.insertionSort (· ≤ ·))
          (sortByDimNames hyperparam).matrix.data)

/-- The function `predictiveDistribution`, with the log-gamma function as an argument: the
states are the sorted distinct entries of the two sequences, and a 1-by-1 hyperparameter
matrix is replaced by the default. -/
def predictiveDistribution {α : Type} [LinearOrder α] (lgamma : ℚ → ℚ)
    (stringchar newData : List α) (hyperparam : NamedMatrix α) : Option ℚ :=
  if hyperparam.matrix.nrow = 1 ∧ hyperparam.matrix.ncol = 1 then
    predictiveCore lgamma stringchar newData
      ((stringchar ++ newData).dedup.insertionSort (· ≤ ·))
      (defaultHyperparam ((stringchar ++ newData).dedup.insertionSort (· ≤ ·)))
  else
    predictiveCore lgamma stringchar newData
      ((stringchar ++ newData).dedup.insertionSort (· ≤ ·)) hyperparam

/-- The position to which a permutation of the indices below `n` sends `i`; positions from `n`
on stay. -/
def permuteIndex {n : Nat} (s : Equiv.Perm (Fin n)) (i : Nat) : Nat :=
  if h : i < n then (s ⟨i, h⟩).val else i

/-- A list of names rearranged by a permutation of its first `n` positions: position `i` of
the result holds the name at position `s i`. -/
def permuteNames {α : Type} {n : Nat} (s : Equiv.Perm (Fin n)) (names : List α) : List α :=
  (List.finRange n).filterMap (fun i => names[(s i).val]?)

/-- The hyperparameter matrix with a permutation applied to its rows and columns and to its
row and column names, as `H[s, s]` does in R. -/
def permuteHyperparam {α : Type} (hyperparam : NamedMatrix α)
    (s : Equiv.Perm (Fin hyperparam.matrix.ncol)) : NamedMatrix α :=
  { matrix :=
      { nrow := hyperparam.matrix.nrow
        ncol := hyperparam.matrix.ncol
        data := fun i j => hyperparam.matrix.data (permuteIndex s i) (permuteIndex s j) }
    rowNames := permuteNames s hyperparam.rowNames
    colNames := permuteNames s hyperparam.colNames }

/-- A hyperparameter matrix `[[1, 2], [3, 4]]` for two states named 1 and 0, in this order. -/
def exampleHyperparam : NamedMatrix Nat :=
  { matrix :=
      { nrow := 2
        ncol := 2
        data := fun i j => if i = 0 then (if j = 0 then 1 else 2) else (if j = 0 then 3 else 4) }
    rowNames := [1, 0]
    colNames := [1, 0] }

/-- A 1-by-1 hyperparameter matrix with the entry 0, for one state named 0. -/
def oneStateHyperparam : NamedMatrix Nat :=
  { matrix := { nrow := 1, ncol := 1, data := fun _ _ => 0 }
    rowNames := [0]
    colNames := [0] }

/-- A hyperparameter matrix `[[0, 1], [1, 1]]` for two states named 0 and 1. -/
def lowHyperparam : NamedMatrix Nat :=
  { matrix := { nrow := 2, ncol := 2, data := fun i j => if i = 0 ∧ j = 0 then 0 else 1 }
    rowNames := [0, 1]
    colNames := [0, 1] }

/-! ## `priorDistribution` -/

/-- The inner loop of the last loop of `priorDistribution` for the row `i`, on the pair
`(hyperparamRowSum, logProb_i)`; `log` and `lgamma` are arguments. -/
def priorInner (log lgamma : ℚ → ℚ) (sizeMatr : Nat) (transMatr hyperparam : Nat → Nat → ℚ)
    (i : Nat) : ℚ × ℚ :=
  (List.range sizeMatr).foldl
    (fun (st : ℚ × ℚ) j =>
      (st.1 + hyperparam i j,
       st.2 + ((hyperparam i j - 1) * log (transMatr i j) - lgamma (hyperparam i j))))
    (0, 0)

/-- The value `logProb_i` that the last loop of `priorDistribution` appends for the row `i`. -/
def priorRow (log lgamma : ℚ → ℚ) (sizeMatr : Nat) (transMatr hyperparam : Nat → Nat → ℚ)
    (i : Nat) : ℚ :=
  (priorInner log lgamma sizeMatr transMatr hyperparam i).2
    + lgamma (priorInner log lgamma sizeMatr transMatr hyperparam i).1

/-- The part of `priorDistribution` after the default for the hyperparameters. The vectors
`_sortedColNames` and `_sortedRowNames` are filled from `colNames` and `rowNames`, the names
of the transition matrix, as in the source. `none` stands for a call of `stop`; an absent
`dimnames` attribute is a pair of empty name lists. -/
def priorCore {α : Type} [LinearOrder α] (log lgamma : ℚ → ℚ)
    (transMatr hyperparam : NamedMatrix α) : Option (List ℚ) :=
  if hyperparam.matrix.nrow ≠ hyperparam.matrix.ncol then none
  else if hyperparam.matrix.nrow ≠ transMatr.matrix.nrow then none
  else if hyperparam.rowNames = [] ∧ hyperparam.colNames = [] then none
  else if ∃ i ∈ List.range hyperparam.matrix.ncol,
      ((transMatr.colNames.take transMatr.matrix.nrow).insertionSort (· ≤ ·))[i]?
        ≠ ((transMatr.colNames.take hyperparam.matrix.ncol).insertionSort (· ≤ ·))[i]? ∨
      ((transMatr.rowNames.take transMatr.matrix.nrow).insertionSort (· ≤ ·))[i]?
        ≠ ((transMatr.rowNames.take hyperparam.matrix.ncol).insertionSort (· ≤ ·))[i]?
    then none
  else if ∃ i ∈ List.range transMatr.matrix.nrow, ∃ j ∈ List.range transMatr.matrix.nrow,
      hyperparam.matrix.data i j < 1 then none
  else
    some ((List.range transMatr.matrix.nrow).map
      (priorRow log lgamma transMatr.matrix.nrow (sortByDimNames transMatr).matrix.data
        (sortByDimNames hyperparam).matrix.data))

/-- The function `priorDistribution`, in exact arithmetic, with `log` and `lgamma` as
arguments: the checks of the transition matrix (shape, entries in `[0, 1]`, row sums within
`1e-10` of 1, names present, unique and the same for rows and columns), then the default for a
1-by-1 hyperparameter matrix. `none` stands for a call of `stop` or an access out of
bounds. -/
def priorDistribution {α : Type} [LinearOrder α] (log lgamma : ℚ → ℚ)
    (transMatr hyperparam : NamedMatrix α) : Option (List ℚ) :=
  if transMatr.matrix.nrow ≠ transMatr.matrix.ncol then none
  else if ∃ i ∈ List.range transMatr.matrix.nrow,
      (∃ j ∈ List.range transMatr.matrix.nrow,
        transMatr.matrix.data i j < 0 ∨ transMatr.matrix.data i j > 1) ∨
      (List.range transMatr.matrix.nrow).foldl (fun s j => s + transMatr.matrix.data i j) 0
        ≤ 1 - 1 / 10000000000 ∨
      (List.range transMatr.matrix.nrow).foldl (fun s j => s + transMatr.matrix.data i j) 0
        ≥ 1 + 1 / 10000000000 then none
  else if transMatr.rowNames = [] ∧ transMatr.colNames = [] then none
  else if transMatr.colNames.length < transMatr.matrix.nrow ∨
      transMatr.rowNames.length < transMatr.matrix.nrow then none
  else if ∃ i ∈ List.range transMatr.matrix.nrow,
      (0 < i ∧
        (((transMatr.colNames.take transMatr.matrix.nrow).insertionSort (· ≤ ·))[i]?
            = ((transMatr.colNames.take transMatr.matrix.nrow).insertionSort (· ≤ ·))[i - 1]? ∨
          ((transMatr.rowNames.take transMatr.matrix.nrow).insertionSort (· ≤ ·))[i]?
            = ((transMatr.rowNames.take transMatr.matrix.nrow).insertionSort (· ≤ ·))[i - 1]?)) ∨
      ((transMatr.colNames.take transMatr.matrix.nrow).insertionSort (· ≤ ·))[i]?
        ≠ ((transMatr.rowNames.take transMatr.matrix.nrow).insertionSort (· ≤ ·))[i]? then none
  else if hyperparam.matrix.nrow = 1 ∧ hyperparam.matrix.ncol = 1 then
    priorCore log lgamma transMatr
      { matrix :=
          { nrow := transMatr.matrix.nrow, ncol := transMatr.matrix.nrow, data := fun _ _ => 1 }
        rowNames := (transMatr.colNames.take transMatr.matrix.nrow).insertionSort (· ≤ ·)
        colNames := (transMatr.colNames.take transMatr.matrix.nrow).insertionSort (· ≤ ·) }
  else priorCore log lgamma transMatr hyperparam

/-- The transition matrix `[[1/2, 1/2], [1/2, 1/2]]` for two states named 0 and 1. -/
def priorTransition : NamedMatrix Nat :=
  { matrix := { nrow := 2, ncol := 2, data := fun _ _ => 1 / 2 }
    rowNames := [0, 1]
    colNames := [0, 1] }

/-- A hyperparameter matrix `[[2, 2], [2, 2]]` whose rows and columns are named 2 and 3. -/
def priorHyperparam : NamedMatrix Nat :=
  { matrix := { nrow := 2, ncol := 2, data := fun _ _ => 2 }
    rowNames := [2, 3]
    colNames := [2, 3] }

/-! ## `lexicographicalSort` -/

/-- The rows of a matrix, top to bottom: the vector `x` that `lexicographicalSort` fills. -/
def matrixRows (m : NumericMatrix) : List (List ℚ) :=
  (List.range m.nrow).map (fun i => (List.range m.ncol).map (fun j => m.data i j))

/-- The function `lexicographicalSort`. The call `sort(x.begin(), x.end())` orders the rows by
`operator<` of `std::vector`, the lexicographic comparison, which is the order of lists here;
the library sort is taken to be insertion sort. -/
def lexicographicalSort (m : NumericMatrix) : NumericMatrix :=
  if 0 < m.nrow ∧ 0 < m.ncol then
    { nrow := m.nrow
      ncol := m.ncol
      data := fun i j => (((matrixRows m).insertionSort (· ≤ ·)).getD i []).getD j 0 }
  else m

/-- The matrix `[[2, 1], [1, 3], [1, 2]]`. -/
def unsortedMatrix : NumericMatrix :=
  { nrow := 3
    ncol := 2
    data := fun i j => if i = 0 then (if j = 0 then 2 else 1)
      else if i = 1 then (if j = 0 then 1 else 3) else (if j = 0 then 1 else 2) }

/-! ## `commStatesFinder` -/

/-- The sign of a number, which `arma::sign` takes entry by entry. -/
def signum (x : ℚ) : ℚ := if 0 < x then 1 else if x < 0 then -1 else 0

/-- The function `_pow` for a matrix with `s` rows: `R` starts as the identity and `R = A * R`
is run `n` times. -/
def _pow (s : Nat) (A : Nat → Nat → ℚ) (n : Int) : Nat → Nat → ℚ :=
  (List.range n.toNat).foldl (fun R _ => matMul s A R) (fun a b => if a = b then 1 else 0)

/-- The function `commStatesFinder`, in exact arithmetic: the sign of the power `dimMatr - 1`
of the identity plus the sign of the matrix, where `dimMatr` is the number of rows. -/
def commStatesFinder (matr : NumericMatrix) : NumericMatrix :=
  { nrow := matr.nrow
    ncol := matr.nrow
    data := fun a b =>
      signum (_pow matr.nrow (fun a b => (if a = b then 1 else 0) + signum (matr.data a b))
        ((matr.nrow : Int) - 1) a b) }

/-- One pass of the loop `while (!notVisited.empty())` of `commClassesKernel` on the pair
`(communicates[i], notVisited)`: pop `j`, set `communicates[i][j]`, push the unmarked
successors of `j`. With the stack empty the loop has ended and the pair stays as it is. -/
def traverseStep (adj : Nat → List Nat) (st : (Nat → Bool) × List Nat) :
    (Nat → Bool) × List Nat :=
  match st.2 with
  | [] => st
  | j :: rest =>
      (fun x => if x = j then true else st.1 x,
        pushUnvisited (fun x => if x = j then true else st.1 x) (adj j) rest)

/-- The matrix `[[0, 1, 1], [0, 1, 0], [0, 1, 0]]`: from state 0 the states 1 and 2 are
successors, and 1 is the successor of 1 and of 2. -/
def doublePushMatrix : NumericMatrix :=
  { nrow := 3
    ncol := 3
    data := fun i j => if i = 0 then (if j = 0 then 0 else 1) else (if j = 1 then 1 else 0) }

/-! ## A worked example -/

/-- The absorbing chain `[[0, 1, 0], [0, 1, 0], [0, 0, 1]]`: state `0` is transient, states
`1` and `2` are absorbing. -/
def exampleMatrix : NumericMatrix :=
  { nrow := 3
    ncol := 3
    data := fun i j =>
      if i = 0 then (if j = 1 then 1 else 0)
      else if i = 1 then (if j = 1 then 1 else 0)
      else (if j = 2 then 1 else 0) }

/-- A stand-in for `computeSteadyStates` on the example chain: one row of ones. -/
def exampleSolver (m : NumericMatrix) (_ : Bool) : Option NumericMatrix :=
  some { nrow := 1, ncol := m.ncol, data := fun _ _ => 1 }

/-- The labels of the example chain. -/
def exampleStates : List String := ["a", "b", "c"]

/-- The example chain, stored by rows. -/
def exampleChain : Markovchain String :=
  { transitionMatrix := exampleMatrix, states := exampleStates, byrow := true }

/-- The number of states below `n` that are not marked in `row`. -/
def unmarked (n : Nat) (row : Nat → Bool) : Nat :=
  ((Finset.range n).filter (fun x => row x = false)).card

/-- The loop invariant of `traverse` for the start state `i` on a graph with states below `n`:
marked and stacked states are reachable from `i`; `i` is marked or stacked; the successors of a
marked state are marked or stacked; and an unmarked successor of a marked state lies on the
stack above every occurrence of that state. -/
structure TraverseInv (adj : Nat → List Nat) (n i : Nat) (row : Nat → Bool)
    (stack : List Nat) : Prop where
  stack_lt : ∀ x ∈ stack, x < n
  row_sound : ∀ x, row x = true → Relation.ReflTransGen (fun a b => b ∈ adj a) i x
  stack_sound : ∀ x ∈ stack, Relation.ReflTransGen (fun a b => b ∈ adj a) i x
  start : row i = true ∨ i ∈ stack
  lifo : ∀ pre j post, stack = pre ++ j :: post → row j = true →
    ∀ k ∈ adj j, row k = true ∨ k ∈ pre
  closure : ∀ j, row j = true → ∀ k ∈ adj j, row k = true ∨ k ∈ stack

/-! ## The traversal -/

theorem mem_adjacencies (P : NumericMatrix) (a b : Nat) :
    b ∈ adjacencies P a ↔ b < P.ncol ∧ 0 < P.data a b := by
  simp [adjacencies]

theorem length_adjacencies_le (P : NumericMatrix) (a : Nat) :
    (adjacencies P a).length ≤ P.ncol := by
  unfold adjacencies
  calc ((List.range P.ncol).filter _).length ≤ (List.range P.ncol).length :=
        List.length_filter_le _ _
    _ = P.ncol := List.length_range _

theorem pushUnvisited_eq (row : Nat → Bool) (adj st : List Nat) :
    pushUnvisited row adj st = (adj.filter (fun k => !row k)).reverse ++ st := by
  unfold pushUnvisited
  induction adj generalizing st with
  | nil => simp
  | cons k ks ih =>
    simp only [List.foldl_cons]
    rw [ih]
    cases h : row k <;> simp [List.filter_cons, h]

theorem unmarked_mark_le (n j : Nat) (row : Nat → Bool) :
    unmarked n (fun x => if x = j then true else row x) ≤ unmarked n row := by
  unfold unmarked
  apply Finset.card_le_card
  intro x
  simp only [Finset.mem_filter, Finset.mem_range]
  rintro ⟨hx, h⟩
  refine ⟨hx, ?_⟩
  by_cases hxj : x = j
  · simp [hxj] at h
  · simpa [hxj] using h

theorem unmarked_mark_lt (n j : Nat) (row : Nat → Bool) (hj : j < n) (hrow : row j = false) :
    unmarked n (fun x => if x = j then true else row x) + 1 = unmarked n row := by
  unfold unmarked
  have hmem : j ∈ (Finset.range n).filter (fun x => row x = false) := by
    simp [hj, hrow]
  have heq : (Finset.range n).filter (fun x => (if x = j then true else row x) = false)
      = ((Finset.range n).filter (fun x => row x = false)).erase j := by
    ext x
    simp only [Finset.mem_filter, Finset.mem_range, Finset.mem_erase]
    by_cases hxj : x = j
    · simp [hxj]
    · simp [hxj]
  rw [heq, Finset.card_erase_of_mem hmem]
  have : 0 < ((Finset.range n).filter (fun x => row x = false)).card :=
    Finset.card_pos.mpr ⟨j, hmem⟩
  omega

theorem TraverseInv.step {adj : Nat → List Nat} {n i : Nat} {row : Nat → Bool} {j : Nat}
    {rest : List Nat} (hadj : ∀ a b, b ∈ adj a → b < n)
    (h : TraverseInv adj n i row (j :: rest)) :
    TraverseInv adj n i (fun x => if x = j then true else row x)
      (pushUnvisited (fun x => if x = j then true else row x) (adj j) rest) := by
  rw [pushUnvisited_eq]
  have hj : Relation.ReflTransGen (fun a b => b ∈ adj a) i j :=
    h.stack_sound j (List.mem_cons_self _ _)
  refine ⟨?_, ?_, ?_, ?_, ?_, ?_⟩
  · intro x hx
    rcases List.mem_append.mp hx with hx | hx
    · have hx2 := (List.mem_filter.mp (List.mem_reverse.mp hx)).1
      exact hadj _ _ hx2
    · exact h.stack_lt x (List.mem_cons_of_mem _ hx)
  · intro x hx
    by_cases hxj : x = j
    · rw [hxj]; exact hj
    · simp only [hxj, if_false] at hx
      exact h.row_sound x hx
  · intro x hx
    rcases List.mem_append.mp hx with hx | hx
    · have hx2 := (List.mem_filter.mp (List.mem_reverse.mp hx)).1
      exact Relation.ReflTransGen.tail hj hx2
    · exact h.stack_sound x (List.mem_cons_of_mem _ hx)
  · rcases h.start with hs | hs
    · left
      by_cases hij : i = j
      · simp [hij]
      · simpa [hij] using hs
    · rcases List.mem_cons.mp hs with hs | hs
      · left; simp [hs]
      · right; exact List.mem_append.mpr (Or.inr hs)
  · intro pre a post hsplit ha k hk
    have main : ∀ as, pre = (List.filter (fun k => !(if k = j then true else row k))
        (adj j)).reverse ++ as → rest = as ++ a :: post →
        ((if k = j then true else row k) = true ∨ k ∈ pre) := by
      intro as h1 h2
      by_cases hka : k = j
      · left; simp [hka]
      · by_cases hrk : row k = true
        · left; simp [hka, hrk]
        · right
          by_cases haj : a = j
          · subst haj
            rw [h1]
            apply List.mem_append.mpr
            left
            apply List.mem_reverse.mpr
            apply List.mem_filter.mpr
            refine ⟨hk, ?_⟩
            simp [hka, hrk]
          · simp only [haj, if_false] at ha
            rcases h.lifo (j :: as) a post (by rw [h2]; rfl) ha k hk with hr | hr
            · exact absurd hr hrk
            · rcases List.mem_cons.mp hr with hr | hr
              · exact absurd hr hka
              · rw [h1]; exact List.mem_append.mpr (Or.inr hr)
    rcases List.append_eq_append_iff.mp hsplit with ⟨as, h1, h2⟩ | ⟨bs, h1, h2⟩
    · exact main as h1 h2
    · cases bs with
      | nil =>
        simp only [List.append_nil, List.nil_append] at h1 h2
        exact main [] (by rw [List.append_nil]; exact h1.symm) (by rw [← h2]; rfl)
      | cons b bs =>
        simp only [List.cons_append, List.cons.injEq] at h2
        obtain ⟨hb, -⟩ := h2
        subst hb
        exfalso
        have hmem : a ∈ (List.filter (fun k => !(if k = j then true else row k))
            (adj j)).reverse := by
          rw [h1]; simp
        have := (List.mem_filter.mp (List.mem_reverse.mp hmem)).2
        simp [ha] at this
  · intro a ha k hk
    by_cases hka : k = j
    · left; simp [hka]
    · by_cases hrk : row k = true
      · left; simp [hka, hrk]
      · by_cases haj : a = j
        · subst haj
          right
          apply List.mem_append.mpr
          left
          apply List.mem_reverse.mpr
          apply List.mem_filter.mpr
          refine ⟨hk, ?_⟩
          simp [hka, hrk]
        · simp only [haj, if_false] at ha
          rcases h.closure a ha k hk with hr | hr
          · exact absurd hr hrk
          · rcases List.mem_cons.mp hr with hr | hr
            · exact absurd hr hka
            · right; exact List.mem_append.mpr (Or.inr hr)

theorem TraverseInv.potential {adj : Nat → List Nat} {n i : Nat} {row : Nat → Bool} {j : Nat}
    {rest : List Nat} (hlen : ∀ a, (adj a).length ≤ n)
    (h : TraverseInv adj n i row (j :: rest)) :
    unmarked n (fun x => if x = j then true else row x) * (n + 1)
      + (pushUnvisited (fun x => if x = j then true else row x) (adj j) rest).length + 1
      ≤ unmarked n row * (n + 1) + (j :: rest).length := by
  rw [pushUnvisited_eq]
  simp only [List.length_append, List.length_reverse, List.length_cons]
  cases hrow : row j with
  | true =>
    have hle := Nat.mul_le_mul_right (n + 1) (unmarked_mark_le n j row)
    have hnil : (adj j).filter (fun k => !(if k = j then true else row k)) = [] := by
      apply List.filter_eq_nil_iff.mpr
      intro k hk
      rcases h.lifo [] j rest rfl hrow k hk with hr | hr
      · simp [hr]
      · simp at hr
    rw [hnil]
    simp only [List.length_nil]
    omega
  | false =>
    have hlt := unmarked_mark_lt n j row (h.stack_lt j (List.mem_cons_self _ _)) hrow
    have hfl : ((adj j).filter (fun k => !(if k = j then true else row k))).length ≤ n :=
      le_trans (List.length_filter_le _ _) (hlen j)
    rw [← hlt]
    have : (unmarked n (fun x => if x = j then true else row x) + 1) * (n + 1)
        = unmarked n (fun x => if x = j then true else row x) * (n + 1) + (n + 1) := by ring
    rw [this]
    omega

theorem TraverseInv.finished {adj : Nat → List Nat} {n i : Nat} {row : Nat → Bool}
    (h : TraverseInv adj n i row []) (x : Nat) :
    row x = true ↔ Relation.ReflTransGen (fun a b => b ∈ adj a) i x := by
  constructor
  · exact h.row_sound x
  · intro hx
    induction hx with
    | refl =>
      rcases h.start with hs | hs
      · exact hs
      · simp at hs
    | tail _ hbc ih =>
      rcases h.closure _ ih _ hbc with hr | hr
      · exact hr
      · simp at hr

/-- Total correctness of the stack loop: with fuel at least the potential of the state it
returns, and the row it returns marks exactly the states reachable from the start state. -/
theorem traverse_spec {adj : Nat → List Nat} {n i : Nat} (hadj : ∀ a b, b ∈ adj a → b < n)
    (hlen : ∀ a, (adj a).length ≤ n) :
    ∀ (fuel : Nat) (row : Nat → Bool) (stack : List Nat), TraverseInv adj n i row stack →
      unmarked n row * (n + 1) + stack.length ≤ fuel →
      ∃ row', traverse adj fuel row stack = some row' ∧
        ∀ x, row' x = true ↔ Relation.ReflTransGen (fun a b => b ∈ adj a) i x := by
  intro fuel
  induction fuel with
  | zero =>
    intro row stack hinv hpot
    cases stack with
    | nil => exact ⟨row, by simp [traverse], hinv.finished⟩
    | cons j rest => simp at hpot
  | succ fuel ih =>
    intro row stack hinv hpot
    cases stack with
    | nil => exact ⟨row, by simp [traverse], hinv.finished⟩
    | cons j rest =>
      have hp := hinv.potential hlen
      simp only [traverse]
      exact ih _ _ (hinv.step hadj) (by omega)

theorem TraverseInv.init (adj : Nat → List Nat) (n i : Nat) (hi : i < n) :
    TraverseInv adj n i (fun _ => false) [i] := by
  refine ⟨?_, ?_, ?_, ?_, ?_, ?_⟩
  · intro x hx
    rw [List.mem_singleton.mp hx]; exact hi
  · intro x hx; simp at hx
  · intro x hx
    rw [List.mem_singleton.mp hx]
  · right; simp
  · intro pre j post _ hj; simp at hj
  · intro j hj; simp at hj

theorem unmarked_le (n : Nat) (row : Nat → Bool) : unmarked n row ≤ n := by
  unfold unmarked
  calc ((Finset.range n).filter (fun x => row x = false)).card ≤ (Finset.range n).card :=
        Finset.card_filter_le _ _
    _ = n := Finset.card_range n

/-- The fuel that is always enough for one traversal of a graph with `n` states. -/
theorem traverse_from_start {adj : Nat → List Nat} {n i : Nat}
    (hadj : ∀ a b, b ∈ adj a → b < n) (hlen : ∀ a, (adj a).length ≤ n) (hi : i < n)
    (fuel : Nat) (hfuel : n * (n + 1) + 1 ≤ fuel) :
    ∃ row', traverse adj fuel (fun _ => false) [i] = some row' ∧
      ∀ x, row' x = true ↔ Relation.ReflTransGen (fun a b => b ∈ adj a) i x := by
  apply traverse_spec hadj hlen fuel _ _ (TraverseInv.init adj n i hi)
  have h1 := unmarked_le n (fun _ => false)
  have h2 : unmarked n (fun _ => false) * (n + 1) ≤ n * (n + 1) := Nat.mul_le_mul_right _ h1
  simp only [List.length_singleton]
  omega

/-- More fuel never changes a result of the stack loop. -/
theorem traverse_fuel_mono (adj : Nat → List Nat) :
    ∀ (fuel fuel' : Nat) (row : Nat → Bool) (stack : List Nat) (r : Nat → Bool),
      traverse adj fuel row stack = some r → fuel ≤ fuel' →
      traverse adj fuel' row stack = some r := by
  intro fuel
  induction fuel with
  | zero =>
    intro fuel' row stack r h _
    cases stack with
    | nil => cases fuel' <;> simpa [traverse] using h
    | cons j rest => simp [traverse] at h
  | succ fuel ih =>
    intro fuel' row stack r h hle
    cases stack with
    | nil => cases fuel' <;> simpa [traverse] using h
    | cons j rest =>
      cases fuel' with
      | zero => omega
      | succ fuel' =>
        simp only [traverse] at h ⊢
        exact ih fuel' _ _ r h (by omega)

/-! ## The matrix `communicates` -/

theorem communicatesLoop_fuel_mono (P : NumericMatrix) (fuel fuel' : Nat) (hle : fuel ≤ fuel') :
    ∀ (k : Nat) (c : Nat → Nat → Bool), communicatesLoop fuel P k = some c →
      communicatesLoop fuel' P k = some c := by
  intro k
  induction k with
  | zero => intro c h; simpa [communicatesLoop] using h
  | succ k ih =>
    intro c h
    simp only [communicatesLoop] at h ⊢
    cases hc : communicatesLoop fuel P k with
    | none => simp [hc] at h
    | some c0 =>
      rw [hc] at h
      rw [ih c0 hc]
      simp only at h ⊢
      cases ht : traverse (adjacencies P) fuel (c0 k) [k] with
      | none => simp [ht] at h
      | some row =>
        rw [ht] at h
        rw [traverse_fuel_mono _ fuel fuel' _ _ row ht hle]
        exact h

/-- Two runs of the reachability loops that both return, return the same matrix. -/
theorem communicates_unique (P : NumericMatrix) (f1 f2 : Nat) (c1 c2 : Nat → Nat → Bool)
    (h1 : communicates f1 P = some c1) (h2 : communicates f2 P = some c2) : c1 = c2 := by
  unfold communicates at h1 h2
  have e1 := communicatesLoop_fuel_mono P f1 (max f1 f2) (le_max_left _ _) _ _ h1
  have e2 := communicatesLoop_fuel_mono P f2 (max f1 f2) (le_max_right _ _) _ _ h2
  rw [e1] at e2
  exact Option.some.inj e2

theorem communicatesLoop_spec (P : NumericMatrix) (fuel : Nat)
    (hfuel : P.ncol * (P.ncol + 1) + 1 ≤ fuel) :
    ∀ k, k ≤ P.ncol → ∃ c, communicatesLoop fuel P k = some c ∧
      (∀ a, a < k → ∀ x, c a x = true ↔ Reach P a x) ∧
      (∀ a, k ≤ a → ∀ x, c a x = false) := by
  intro k
  induction k with
  | zero =>
    intro _
    exact ⟨fun _ _ => false, rfl, fun a ha => absurd ha (Nat.not_lt_zero a), fun _ _ _ => rfl⟩
  | succ k ih =>
    intro hk
    obtain ⟨c, hc, hlow, hhigh⟩ := ih (by omega)
    have hrow : c k = fun _ => false := funext (hhigh k (le_refl k))
    obtain ⟨row, hrow2, hspec⟩ := @traverse_from_start (adjacencies P) P.ncol k
      (fun a b hb => ((mem_adjacencies P a b).mp hb).1) (length_adjacencies_le P)
      (by omega) fuel hfuel
    refine ⟨fun a => if a = k then row else c a, ?_, ?_, ?_⟩
    · simp only [communicatesLoop, hc, hrow, hrow2]
    · intro a ha x
      by_cases hak : a = k
      · subst hak
        simp only [if_true]
        exact hspec x
      · simp only [hak, if_false]
        exact hlow a (by omega) x
    · intro a ha x
      have hak : a ≠ k := by omega
      simp only [hak, if_false]
      exact hhigh a (by omega) x

/-- The reachability loops of `commClassesKernel` return, and entry `(i, j)` of the matrix
they return says whether `j` is reachable from `i`. -/
theorem communicates_spec (P : NumericMatrix) :
    ∃ c, communicates (P.ncol * (P.ncol + 1) + 1) P = some c ∧
      (∀ a, a < P.ncol → ∀ x, c a x = true ↔ Reach P a x) ∧
      (∀ a, P.ncol ≤ a → ∀ x, c a x = false) :=
  communicatesLoop_spec P _ (le_refl _) P.ncol (le_refl _)

/-! ## Reachability and paths -/

theorem Reach.lt {P : NumericMatrix} {i j : Nat} (h : Reach P i j) (hi : i < P.ncol) :
    j < P.ncol := by
  induction h with
  | refl => exact hi
  | tail _ hbc _ => exact ((mem_adjacencies P _ _).mp hbc).1

theorem reach_iff_isPath (P : NumericMatrix) (i j : Nat) (hi : i < P.ncol) :
    Reach P i j ↔ IsPath P i j := by
  constructor
  · intro h
    induction h with
    | refl => exact ⟨0, fun _ => i, rfl, rfl, fun _ _ => hi, fun t ht => absurd ht (by omega)⟩
    | tail hab hbc ih =>
      rename_i b c
      obtain ⟨m, x, h0, hm, hlt, hstep⟩ := ih
      have hbc2 := (mem_adjacencies P _ _).mp hbc
      refine ⟨m + 1, fun t => if t ≤ m then x t else c, ?_, ?_, ?_, ?_⟩
      · simp [h0]
      · simp
      · intro t ht
        by_cases htm : t ≤ m
        · simp only [htm, if_true]; exact hlt t htm
        · simp only [htm, if_false]; exact hbc2.1
      · intro t ht
        by_cases htm : t + 1 ≤ m
        · have htm2 : t ≤ m := by omega
          simp only [htm, htm2, if_true]
          exact hstep t (by omega)
        · have htm2 : t = m := by omega
          subst htm2
          simp only [le_refl, if_true, htm, if_false, hm]
          exact hbc2.2
  · rintro ⟨m, x, h0, hm, hlt, hstep⟩
    have key : ∀ t, t ≤ m → Reach P i (x t) := by
      intro t
      induction t with
      | zero => intro _; rw [h0]; exact Relation.ReflTransGen.refl
      | succ t ih =>
        intro ht
        refine Relation.ReflTransGen.tail (ih (by omega)) ?_
        exact (mem_adjacencies P _ _).mpr ⟨hlt (t + 1) ht, hstep t (by omega)⟩
    rw [← hm]
    exact key m (le_refl m)

/-- C1: `communicates[i][j]`, as `commClassesKernel` computes it, is true exactly when there is
a path `i = x 0, ..., x m = j` (`m ≥ 0`) through states of the chain with `P(x t, x (t+1)) > 0`
at every step; in particular `communicates[i][i]` is true.  The loops return (for some amount of
fuel), and every run that returns yields this matrix. -/
theorem communicates_iff_path (P : NumericMatrix) :
    ∃ comm, (∃ fuel, communicates fuel P = some comm) ∧
      (∀ fuel c, communicates fuel P = some c → c = comm) ∧
      (∀ i j, i < P.ncol → j < P.ncol → (comm i j = true ↔ IsPath P i j)) ∧
      (∀ i, i < P.ncol → comm i i = true) := by
  obtain ⟨c, hc, hlow, -⟩ := communicates_spec P
  refine ⟨c, ⟨_, hc⟩, fun fuel c2 h2 => communicates_unique P _ _ _ _ h2 hc, ?_, ?_⟩
  · intro i j hi _
    rw [hlow i hi j, reach_iff_isPath P i j hi]
  · intro i hi
    exact (hlow i hi i).mpr Relation.ReflTransGen.refl

/-! ## `classes` and `closed` -/

theorem commClassesKernel_unique (P : NumericMatrix) (f1 f2 : Nat) (r1 r2 : KernelResult)
    (h1 : commClassesKernel f1 P = some r1) (h2 : commClassesKernel f2 P = some r2) :
    r1 = r2 := by
  unfold commClassesKernel at h1 h2
  cases hc1 : communicates f1 P with
  | none => simp [hc1] at h1
  | some c1 =>
    cases hc2 : communicates f2 P with
    | none => simp [hc2] at h2
    | some c2 =>
      rw [hc1] at h1
      rw [hc2] at h2
      have := communicates_unique P f1 f2 c1 c2 hc1 hc2
      subst this
      simp only [Option.some.injEq] at h1 h2
      rw [← h1, ← h2]

theorem countP_and_eq_iff (l : List Nat) (p q : Nat → Bool) :
    l.countP (fun x => p x && q x) = l.countP p ↔ ∀ x ∈ l, p x = true → q x = true := by
  have hle : ∀ l : List Nat, l.countP (fun x => p x && q x) ≤ l.countP p := by
    intro l
    apply List.countP_mono_left
    intro x _ hx
    simp only [Bool.and_eq_true] at hx
    exact hx.1
  induction l with
  | nil => simp
  | cons a l ih =>
    have h1 := hle l
    simp only [List.countP_cons, List.mem_cons, forall_eq_or_imp]
    cases hp : p a <;> cases hq : q a <;> simp [← ih]
    omega

theorem classify_classes_iff (n : Nat) (comm : Nat → Nat → Bool) (i j : Nat) :
    (classify n comm).classes i j = true ↔
      i < n ∧ j < n ∧ comm i j = true ∧ comm j i = true := by
  simp [classify, and_assoc]

theorem classify_closed_iff (n : Nat) (comm : Nat → Nat → Bool) (i : Nat) :
    (classify n comm).closed i = true ↔
      i < n ∧ ∀ j, j < n → comm i j = true → comm j i = true := by
  simp only [classify, classSize, numReachable, Bool.and_eq_true, decide_eq_true_eq,
    countP_and_eq_iff, List.mem_range]

/-- The kernel returns, and what it returns is `classify` of the reachability matrix. -/
theorem commClassesKernel_spec (P : NumericMatrix) :
    ∃ comm, communicates (P.ncol * (P.ncol + 1) + 1) P = some comm ∧
      commClassesKernel (P.ncol * (P.ncol + 1) + 1) P = some (classify P.ncol comm) ∧
      (∀ a, a < P.ncol → ∀ x, comm a x = true ↔ Reach P a x) ∧
      (∀ a, P.ncol ≤ a → ∀ x, comm a x = false) := by
  obtain ⟨c, hc, hlow, hhigh⟩ := communicates_spec P
  exact ⟨c, hc, by simp [commClassesKernel, hc], hlow, hhigh⟩

theorem Reach.trans {P : NumericMatrix} {i j k : Nat} (h1 : Reach P i j) (h2 : Reach P j k) :
    Reach P i k :=
  Relation.ReflTransGen.trans h1 h2

/-- C2: the reachability relation that `commClassesKernel` computes is reflexive and transitive
on the states, and the returned matrix `classes` (`classes(i, j)` = `i` reaches `j` and `j`
reaches `i`) is reflexive, symmetric and transitive on the states. -/
theorem communicates_preorder_classes_equivalence (P : NumericMatrix) :
    ∃ comm r, (∃ fuel, communicates fuel P = some comm ∧ commClassesKernel fuel P = some r) ∧
      (∀ fuel r', commClassesKernel fuel P = some r' → r' = r) ∧
      (∀ i, i < P.ncol → comm i i = true) ∧
      (∀ i j k, i < P.ncol → j < P.ncol → k < P.ncol →
        comm i j = true → comm j k = true → comm i k = true) ∧
      (∀ i j, i < P.ncol → j < P.ncol →
        (r.classes i j = true ↔ comm i j = true ∧ comm j i = true)) ∧
      (∀ i, i < P.ncol → r.classes i i = true) ∧
      (∀ i j, i < P.ncol → j < P.ncol → r.classes i j = true → r.classes j i = true) ∧
      (∀ i j k, i < P.ncol → j < P.ncol → k < P.ncol →
        r.classes i j = true → r.classes j k = true → r.classes i k = true) := by
  obtain ⟨c, hc, hk, hlow, -⟩ := commClassesKernel_spec P
  refine ⟨c, classify P.ncol c, ⟨_, hc, hk⟩,
    fun fuel r2 h2 => commClassesKernel_unique P _ _ _ _ h2 hk, ?_, ?_, ?_, ?_, ?_, ?_⟩
  · intro i hi
    exact (hlow i hi i).mpr Relation.ReflTransGen.refl
  · intro i j k hi hj _ hij hjk
    exact (hlow i hi k).mpr (((hlow i hi j).mp hij).trans ((hlow j hj k).mp hjk))
  · intro i j hi hj
    rw [classify_classes_iff]
    tauto
  · intro i hi
    rw [classify_classes_iff]
    have := (hlow i hi i).mpr Relation.ReflTransGen.refl
    exact ⟨hi, hi, this, this⟩
  · intro i j _ _ h
    rw [classify_classes_iff] at h ⊢
    tauto
  · intro i j k hi hj hk2 hij hjk
    rw [classify_classes_iff] at hij hjk ⊢
    obtain ⟨-, -, a1, a2⟩ := hij
    obtain ⟨-, -, b1, b2⟩ := hjk
    refine ⟨hi, hk2, ?_, ?_⟩
    · exact (hlow i hi k).mpr (((hlow i hi j).mp a1).trans ((hlow j hj k).mp b1))
    · exact (hlow k hk2 i).mpr (((hlow k hk2 j).mp b2).trans ((hlow j hj i).mp a2))

/-- The entries of `classes` and `closed` in terms of reachability. -/
theorem kernel_classes_closed (P : NumericMatrix) (comm : Nat → Nat → Bool)
    (hlow : ∀ a, a < P.ncol → ∀ x, comm a x = true ↔ Reach P a x) :
    (∀ i j, (classify P.ncol comm).classes i j = true ↔
      i < P.ncol ∧ j < P.ncol ∧ Reach P i j ∧ Reach P j i) ∧
    (∀ i, (classify P.ncol comm).closed i = true ↔
      i < P.ncol ∧ ∀ j, Reach P i j → Reach P j i) := by
  constructor
  · intro i j
    rw [classify_classes_iff]
    constructor
    · rintro ⟨hi, hj, h1, h2⟩
      exact ⟨hi, hj, (hlow i hi j).mp h1, (hlow j hj i).mp h2⟩
    · rintro ⟨hi, hj, h1, h2⟩
      exact ⟨hi, hj, (hlow i hi j).mpr h1, (hlow j hj i).mpr h2⟩
  · intro i
    rw [classify_closed_iff]
    constructor
    · rintro ⟨hi, h⟩
      refine ⟨hi, fun j hj => ?_⟩
      have hjn := hj.lt hi
      exact (hlow j hjn i).mp (h j hjn ((hlow i hi j).mpr hj))
    · rintro ⟨hi, h⟩
      refine ⟨hi, fun j hjn hj => ?_⟩
      exact (hlow j hjn i).mpr (h j ((hlow i hi j).mp hj))

theorem closed_of_same_class {P : NumericMatrix} {i j : Nat} (hij : Reach P i j)
    (h : ∀ x, Reach P i x → Reach P x i) :
    ∀ x, Reach P j x → Reach P x j :=
  fun x hx => (h x (hij.trans hx)).trans hij

theorem returns_back_iff_no_exit (P : NumericMatrix) (i : Nat) (hi : i < P.ncol) :
    (∀ j, Reach P i j → Reach P j i) ↔
      ∀ a b, a < P.ncol → b < P.ncol → (Reach P i a ∧ Reach P a i) → P.data a b > 0 →
        (Reach P i b ∧ Reach P b i) := by
  constructor
  · intro h a b _ hb hia hab
    have hib : Reach P i b :=
      Relation.ReflTransGen.tail hia.1 ((mem_adjacencies P a b).mpr ⟨hb, hab⟩)
    exact ⟨hib, h b hib⟩
  · intro h j hj
    have key : Reach P i j ∧ Reach P j i := by
      induction hj with
      | refl => exact ⟨Relation.ReflTransGen.refl, Relation.ReflTransGen.refl⟩
      | tail hab hbc ih =>
        have hbc2 := (mem_adjacencies P _ _).mp hbc
        exact h _ _ (Reach.lt hab hi) hbc2.1 ih hbc2.2
    exact key.2

/-- C3: `closed(i)` is true exactly when no state of the class of `i` has a positive entry
`P(a, b) > 0` towards a state `b` outside that class, equivalently when every state reachable
from `i` reaches `i` back; and `closed(i) = closed(j)` whenever `classes(i, j)` is true. -/
theorem closed_iff_no_exit (P : NumericMatrix) :
    ∃ comm r, (∃ fuel, communicates fuel P = some comm ∧ commClassesKernel fuel P = some r) ∧
      (∀ fuel r', commClassesKernel fuel P = some r' → r' = r) ∧
      (∀ i, i < P.ncol → (r.closed i = true ↔
        ∀ a b, a < P.ncol → b < P.ncol → r.classes i a = true → P.data a b > 0 →
          r.classes i b = true)) ∧
      (∀ i, i < P.ncol → (r.closed i = true ↔
        ∀ j, j < P.ncol → comm i j = true → comm j i = true)) ∧
      (∀ i j, i < P.ncol → j < P.ncol → r.classes i j = true → r.closed i = r.closed j) := by
  obtain ⟨c, hc, hk, hlow, -⟩ := commClassesKernel_spec P
  obtain ⟨hcl, hclosed⟩ := kernel_classes_closed P c hlow
  refine ⟨c, classify P.ncol c, ⟨_, hc, hk⟩,
    fun fuel r2 h2 => commClassesKernel_unique P _ _ _ _ h2 hk, ?_, ?_, ?_⟩
  · intro i hi
    rw [hclosed i, returns_back_iff_no_exit P i hi]
    constructor
    · rintro ⟨-, h⟩ a b ha hb hia hab
      have := h a b ha hb ⟨((hcl i a).mp hia).2.2.1, ((hcl i a).mp hia).2.2.2⟩ hab
      exact (hcl i b).mpr ⟨hi, hb, this.1, this.2⟩
    · intro h
      refine ⟨hi, fun a b ha hb hia hab => ?_⟩
      have := (hcl i b).mp (h a b ha hb ((hcl i a).mpr ⟨hi, ha, hia.1, hia.2⟩) hab)
      exact ⟨this.2.2.1, this.2.2.2⟩
  · intro i hi
    rw [classify_closed_iff]
    exact ⟨fun h => h.2, fun h => ⟨hi, h⟩⟩
  · intro i j hi hj hij
    have h := (hcl i j).mp hij
    rw [Bool.eq_iff_iff, hclosed i, hclosed j]
    constructor
    · rintro ⟨-, hx⟩
      exact ⟨hj, closed_of_same_class h.2.2.1 hx⟩
    · rintro ⟨-, hx⟩
      exact ⟨hi, closed_of_same_class h.2.2.2 hx⟩

/-! ## The class wrappers -/

theorem collectClass_foldl {α : Type} (cls : Nat → Nat → Bool) (i : Nat)
    (l : List (Nat × α)) (acc : List α) (computed : Nat → Bool) :
    l.foldl
      (fun (acc : List α × (Nat → Bool)) js =>
        if cls i js.1 then (acc.1 ++ [js.2], fun x => if x = js.1 then true else acc.2 x)
        else acc)
      (acc, computed)
    = (acc ++ (l.filter (fun js => cls i js.1)).map Prod.snd,
        fun x => (l.any (fun js => decide (x = js.1) && cls i js.1)) || computed x) := by
  induction l generalizing acc computed with
  | nil => simp
  | cons js l ih =>
    simp only [List.foldl_cons]
    cases h : cls i js.1
    · simp only [Bool.false_eq_true, if_false]
      rw [ih]
      simp [List.filter_cons, h]
    · simp only [if_true]
      rw [ih]
      refine Prod.ext ?_ ?_
      · simp [List.filter_cons, h]
      · funext x
        by_cases hx : x = js.1
        · simp [hx, h]
        · simp [hx, h]

theorem any_enum_eq {α : Type} (cls : Nat → Nat → Bool) (states : List α) (i x : Nat) :
    (states.enum.any (fun js => decide (x = js.1) && cls i js.1))
      = (decide (x < states.length) && cls i x) := by
  rw [Bool.eq_iff_iff]
  simp only [List.any_eq_true, Bool.and_eq_true, decide_eq_true_eq]
  constructor
  · rintro ⟨js, hjs, hx, hc⟩
    subst hx
    exact ⟨List.fst_lt_of_mem_enum hjs, hc⟩
  · rintro ⟨hx, hc⟩
    refine ⟨(x, states[x]), ?_, rfl, hc⟩
    rw [List.mk_mem_enum_iff_getElem?]
    simp [hx]

theorem collectClass_eq {α : Type} (cls : Nat → Nat → Bool) (states : List α) (i : Nat)
    (computed : Nat → Bool) :
    collectClass cls states i computed
      = (classLabels cls states i,
          fun x => (decide (x < states.length) && cls i x) || computed x) := by
  unfold collectClass classLabels
  rw [collectClass_foldl]
  refine Prod.ext (by simp) ?_
  funext x
  simp only [any_enum_eq]

theorem computeCommunicatingClasses_eq_loop {α : Type} (cls : Nat → Nat → Bool)
    (states : List α) :
    computeCommunicatingClasses cls states
      = (classesLoop (fun _ => true) cls states states.length).2 := rfl

theorem computeRecurrentClasses_eq_loop {α : Type} (cls : Nat → Nat → Bool)
    (closed : Nat → Bool) (states : List α) :
    computeRecurrentClasses cls closed states
      = (classesLoop closed cls states states.length).2 := rfl

theorem computeTransientClasses_eq_loop {α : Type} (cls : Nat → Nat → Bool)
    (closed : Nat → Bool) (states : List α) :
    computeTransientClasses cls closed states
      = (classesLoop (fun i => !closed i) cls states states.length).2 := rfl

theorem isSeed_iff (cls : Nat → Nat → Bool) (i : Nat) :
    isSeed cls i = true ↔ ∀ j, j < i → cls j i = false := by
  simp [isSeed]

/-- The closed form of the outer loop of a class wrapper after `k` iterations. -/
theorem classesLoop_spec {α : Type} {n : Nat} {cls : Nat → Nat → Bool} {closed : Nat → Bool}
    (hc : ClassData n cls closed) (sel : Nat → Bool)
    (hsel : ∀ i j, cls i j = true → sel i = sel j) (states : List α)
    (hlen : states.length = n) :
    ∀ k, k ≤ n →
      (∀ x, (classesLoop sel cls states k).1 x = true ↔
        ∃ j, j < k ∧ sel j = true ∧ cls j x = true) ∧
      (classesLoop sel cls states k).2 = (seedsOf sel cls k).map (classLabels cls states) := by
  intro k
  induction k with
  | zero =>
    intro _
    simp [classesLoop, seedsOf]
  | succ k ih =>
    intro hk
    obtain ⟨ih1, ih2⟩ := ih (by omega)
    have hstep : classesLoop sel cls states (k + 1)
        = (if sel k && !(classesLoop sel cls states k).1 k then
            ((collectClass cls states k (classesLoop sel cls states k).1).2,
              (classesLoop sel cls states k).2
                ++ [(collectClass cls states k (classesLoop sel cls states k).1).1])
          else classesLoop sel cls states k) := by
      simp only [classesLoop, List.range_succ, List.foldl_append, List.foldl_cons,
        List.foldl_nil]
    have hcond : (sel k && !(classesLoop sel cls states k).1 k) = (sel k && isSeed cls k) := by
      cases hs : sel k
      · simp
      · simp only [Bool.true_and]
        rw [Bool.eq_iff_iff]
        simp only [Bool.not_eq_true', isSeed_iff]
        constructor
        · intro h j hj
          by_contra hcj
          have hcj2 : cls j k = true := by simpa using hcj
          have : (classesLoop sel cls states k).1 k = true :=
            (ih1 k).mpr ⟨j, hj, by rw [hsel j k hcj2]; exact hs, hcj2⟩
          rw [h] at this
          exact Bool.false_ne_true this
        · intro h
          by_contra hne
          have hne2 : (classesLoop sel cls states k).1 k = true := by simpa using hne
          obtain ⟨j, hj, -, hcj⟩ := (ih1 k).mp hne2
          rw [h j hj] at hcj
          exact Bool.false_ne_true hcj
    rw [hstep, hcond]
    have hseeds : seedsOf sel cls (k + 1)
        = seedsOf sel cls k ++ (if sel k && isSeed cls k then [k] else []) := by
      simp only [seedsOf, List.range_succ, List.filter_append, List.filter_cons,
        List.filter_nil]
    cases hcnd : (sel k && isSeed cls k)
    · simp only [Bool.false_eq_true, if_false]
      refine ⟨?_, ?_⟩
      · intro x
        rw [ih1 x]
        constructor
        · rintro ⟨j, hj, h1, h2⟩
          exact ⟨j, by omega, h1, h2⟩
        · rintro ⟨j, hj, h1, h2⟩
          by_cases hjk : j = k
          · subst hjk
            -- `j` is selected but is not a seed, so an earlier index is in its class
            have hns : isSeed cls j = false := by simpa [h1] using hcnd
            have : ¬ ∀ j0, j0 < j → cls j0 j = false := by
              rw [← isSeed_iff]; simp [hns]
            push_neg at this
            obtain ⟨j0, hj0, hcj0⟩ := this
            have hcj0t : cls j0 j = true := by simpa using hcj0
            exact ⟨j0, hj0, by rw [hsel j0 j hcj0t]; exact h1, hc.trans _ _ _ hcj0t h2⟩
          · exact ⟨j, by omega, h1, h2⟩
      · rw [ih2, hseeds, hcnd]
        simp
    · simp only [if_true]
      rw [collectClass_eq]
      have hsk : sel k = true ∧ isSeed cls k = true := by simpa using hcnd
      refine ⟨?_, ?_⟩
      · intro x
        simp only [Bool.or_eq_true, Bool.and_eq_true, decide_eq_true_eq]
        rw [ih1 x]
        constructor
        · rintro (⟨-, h⟩ | ⟨j, hj, h1, h2⟩)
          · exact ⟨k, by omega, hsk.1, h⟩
          · exact ⟨j, by omega, h1, h2⟩
        · rintro ⟨j, hj, h1, h2⟩
          by_cases hjk : j = k
          · subst hjk
            left
            exact ⟨by rw [hlen]; exact (hc.lt _ _ h2).2, h2⟩
          · right
            exact ⟨j, by omega, h1, h2⟩
      · rw [ih2, hseeds, hcnd]
        simp

theorem filter_or_perm {β : Type} (l : List β) (p r : β → Bool)
    (h : ∀ x ∈ l, ¬ (p x = true ∧ r x = true)) :
    (l.filter (fun x => p x || r x)).Perm (l.filter p ++ l.filter r) := by
  induction l with
  | nil => simp
  | cons a l ih =>
    have ih2 := ih (fun x hx => h x (List.mem_cons_of_mem _ hx))
    have ha := h a (List.mem_cons_self _ _)
    cases hp : p a <;> cases hr : r a
    · simpa [List.filter_cons, hp, hr] using ih2
    · simp only [List.filter_cons, hp, hr, Bool.or_true, if_true, Bool.false_eq_true, if_false]
      exact (List.Perm.cons a ih2).trans List.perm_middle.symm
    · simp only [List.filter_cons, hp, hr, Bool.or_false, if_true, Bool.false_eq_true,
        if_false, List.cons_append]
      exact List.Perm.cons a ih2
    · exact absurd ⟨hp, hr⟩ ha

theorem flatten_filter_perm {β : Type} (l : List β) (q : Nat → β → Bool) (seeds : List Nat)
    (h : seeds.Pairwise (fun s t => ∀ x ∈ l, ¬ (q s x = true ∧ q t x = true))) :
    ((seeds.map (fun s => l.filter (q s))).flatten).Perm
      (l.filter (fun x => seeds.any (fun s => q s x))) := by
  induction seeds with
  | nil => simp
  | cons s seeds ih =>
    rw [List.pairwise_cons] at h
    simp only [List.map_cons, List.flatten_cons, List.any_cons]
    refine ((ih h.2).append_left _).trans (filter_or_perm l _ _ ?_).symm
    rintro x hx ⟨h1, h2⟩
    obtain ⟨t, ht, hqt⟩ := List.any_eq_true.mp h2
    exact h.1 t ht x hx ⟨h1, hqt⟩

theorem mem_seedsOf (sel : Nat → Bool) (cls : Nat → Nat → Bool) (n s : Nat) :
    s ∈ seedsOf sel cls n ↔ s < n ∧ sel s = true ∧ ∀ j, j < s → cls j s = false := by
  simp [seedsOf, isSeed_iff]

/-- Every state has a lowest member of its class, and that member is a seed. -/
theorem exists_seed {n : Nat} {cls : Nat → Nat → Bool} {closed : Nat → Bool}
    (hc : ClassData n cls closed) (sel : Nat → Bool)
    (hsel : ∀ i j, cls i j = true → sel i = sel j) (x : Nat) (hx : x < n)
    (hsx : sel x = true) :
    ∃ s, s ∈ seedsOf sel cls n ∧ cls s x = true := by
  have hex : ∃ j, cls j x = true := ⟨x, hc.refl x hx⟩
  refine ⟨Nat.find hex, ?_, Nat.find_spec hex⟩
  rw [mem_seedsOf]
  refine ⟨(hc.lt _ _ (Nat.find_spec hex)).1, ?_, ?_⟩
  · rw [hsel _ _ (Nat.find_spec hex)]; exact hsx
  · intro j hj
    by_contra hne
    have hjt : cls j (Nat.find hex) = true := by simpa using hne
    exact Nat.find_min hex hj (hc.trans _ _ _ hjt (Nat.find_spec hex))

/-- Two seeds that share a state are equal. -/
theorem seed_unique {n : Nat} {cls : Nat → Nat → Bool} {closed : Nat → Bool}
    (hc : ClassData n cls closed) (sel : Nat → Bool) (s t x : Nat)
    (hs : s ∈ seedsOf sel cls n) (ht : t ∈ seedsOf sel cls n)
    (hsx : cls s x = true) (htx : cls t x = true) : s = t := by
  rw [mem_seedsOf] at hs ht
  have hst : cls s t = true := hc.trans _ _ _ hsx (hc.symm _ _ htx)
  rcases Nat.lt_trichotomy s t with h | h | h
  · have := ht.2.2 s h
    rw [hst] at this
    exact absurd this (by simp)
  · exact h
  · have := hs.2.2 t h
    rw [hc.symm _ _ hst] at this
    exact absurd this (by simp)

theorem seedsOf_pairwise_lt (sel : Nat → Bool) (cls : Nat → Nat → Bool) (n : Nat) :
    (seedsOf sel cls n).Pairwise (fun s t => s < t) :=
  (List.pairwise_lt_range n).filter _

theorem classLabels_flatten {α : Type} (cls : Nat → Nat → Bool) (states : List α)
    (seeds : List Nat) :
    (seeds.map (classLabels cls states)).flatten
      = ((seeds.map (fun s => states.enum.filter (fun js => cls s js.1))).flatten).map
          Prod.snd := by
  rw [List.map_flatten, List.map_map]
  rfl

/-- The classes a wrapper emits, laid end to end, are a rearrangement of the selected
labels. -/
theorem seeds_flatten_perm {α : Type} {n : Nat} {cls : Nat → Nat → Bool} {closed : Nat → Bool}
    (hc : ClassData n cls closed) (sel : Nat → Bool)
    (hsel : ∀ i j, cls i j = true → sel i = sel j) (states : List α)
    (hlen : states.length = n) :
    (((seedsOf sel cls n).map (classLabels cls states)).flatten).Perm
      ((states.enum.filter (fun js => sel js.1)).map Prod.snd) := by
  rw [classLabels_flatten]
  apply List.Perm.map
  have hpw : (seedsOf sel cls n).Pairwise
      (fun s t => ∀ x ∈ states.enum, ¬ (cls s x.1 = true ∧ cls t x.1 = true)) := by
    refine List.Pairwise.imp_of_mem ?_ (seedsOf_pairwise_lt sel cls n)
    intro s t hs ht hlt x _ hx
    have := seed_unique hc sel s t x.1 hs ht hx.1 hx.2
    omega
  refine (flatten_filter_perm states.enum (fun s js => cls s js.1) _ hpw).trans ?_
  apply List.Perm.of_eq
  apply List.filter_congr
  intro js hjs
  have hlt : js.1 < n := by rw [← hlen]; exact List.fst_lt_of_mem_enum hjs
  rw [Bool.eq_iff_iff, List.any_eq_true]
  constructor
  · rintro ⟨s, hs, hsx⟩
    rw [← hsel s js.1 hsx]
    exact ((mem_seedsOf _ _ _ _).mp hs).2.1
  · intro h
    exact exists_seed hc sel hsel js.1 hlt h

/-- The output of the kernel has the properties the class wrappers rely on. -/
theorem kernel_classData (P : NumericMatrix) (comm : Nat → Nat → Bool)
    (hlow : ∀ a, a < P.ncol → ∀ x, comm a x = true ↔ Reach P a x) :
    ClassData P.ncol (classify P.ncol comm).classes (classify P.ncol comm).closed := by
  obtain ⟨hcl, hclosed⟩ := kernel_classes_closed P comm hlow
  refine ⟨?_, ?_, ?_, ?_, ?_, ?_⟩
  · intro i j h
    have := (hcl i j).mp h
    exact ⟨this.1, this.2.1⟩
  · intro i hi
    exact (hcl i i).mpr ⟨hi, hi, Relation.ReflTransGen.refl, Relation.ReflTransGen.refl⟩
  · intro i j h
    have := (hcl i j).mp h
    exact (hcl j i).mpr ⟨this.2.1, this.1, this.2.2.2, this.2.2.1⟩
  · intro i j k h1 h2
    have a := (hcl i j).mp h1
    have b := (hcl j k).mp h2
    exact (hcl i k).mpr ⟨a.1, b.2.1, a.2.2.1.trans b.2.2.1, b.2.2.2.trans a.2.2.2⟩
  · intro i j h
    have a := (hcl i j).mp h
    rw [Bool.eq_iff_iff, hclosed i, hclosed j]
    constructor
    · rintro ⟨-, hx⟩
      exact ⟨a.2.1, closed_of_same_class a.2.2.1 hx⟩
    · rintro ⟨-, hx⟩
      exact ⟨a.1, closed_of_same_class a.2.2.2 hx⟩
  · intro i h
    exact ((hclosed i).mp h).1

theorem mem_classLabels {α : Type} (cls : Nat → Nat → Bool) (states : List α) (i : Nat)
    (a : α) :
    a ∈ classLabels cls states i ↔ ∃ j, cls i j = true ∧ states[j]? = some a := by
  unfold classLabels
  simp only [List.mem_map, List.mem_filter]
  constructor
  · rintro ⟨js, ⟨hjs, hc⟩, rfl⟩
    exact ⟨js.1, hc, List.mem_enum_iff_getElem?.mp hjs⟩
  · rintro ⟨j, hc, hj⟩
    exact ⟨(j, a), ⟨List.mk_mem_enum_iff_getElem?.mpr hj, hc⟩, rfl⟩

/-- A class wrapper returns the classes of its seeds, in the order of the seeds. -/
theorem classesLoop_eq {α : Type} {n : Nat} {cls : Nat → Nat → Bool} {closed : Nat → Bool}
    (hc : ClassData n cls closed) (sel : Nat → Bool)
    (hsel : ∀ i j, cls i j = true → sel i = sel j) (states : List α)
    (hlen : states.length = n) :
    (classesLoop sel cls states states.length).2
      = (seedsOf sel cls n).map (classLabels cls states) := by
  rw [hlen]
  exact (classesLoop_spec hc sel hsel states hlen n (le_refl n)).2

theorem seed_class_ne_nil {α : Type} {n : Nat} {cls : Nat → Nat → Bool} {closed : Nat → Bool}
    (hc : ClassData n cls closed) (sel : Nat → Bool) (states : List α)
    (hlen : states.length = n) :
    ∀ c ∈ (seedsOf sel cls n).map (classLabels cls states), c ≠ [] := by
  intro c hcm
  obtain ⟨s, hs, rfl⟩ := List.mem_map.mp hcm
  have hsn : s < n := ((mem_seedsOf _ _ _ _).mp hs).1
  have hsl : s < states.length := by omega
  have : states[s] ∈ classLabels cls states s :=
    (mem_classLabels cls states s _).mpr ⟨s, hc.refl s hsn, by simp [hsl]⟩
  exact List.ne_nil_of_mem this

theorem filter_true_enum {α : Type} (states : List α) :
    (states.enum.filter (fun _ => true)).map Prod.snd = states := by
  rw [List.filter_eq_self.mpr (fun _ _ => rfl), List.enum_map_snd]

/-- C4: the list that `computeCommunicatingClasses` returns for the `classes` matrix of the
kernel, on `n` pairwise distinct state labels, is a partition of the states: no class is empty,
the classes are pairwise disjoint and without repetition, laid end to end they are a
rearrangement of the list of states, and every state lies in exactly one class. -/
theorem communicatingClasses_partition {α : Type} (P : NumericMatrix) (states : List α)
    (hlen : states.length = P.ncol) (hnd : states.Nodup) :
    ∃ r, (∃ fuel, commClassesKernel fuel P = some r) ∧
      (∀ fuel r', commClassesKernel fuel P = some r' → r' = r) ∧
      (∀ c ∈ computeCommunicatingClasses r.classes states, c ≠ []) ∧
      (computeCommunicatingClasses r.classes states).Pairwise List.Disjoint ∧
      (∀ c ∈ computeCommunicatingClasses r.classes states, c.Nodup) ∧
      ((computeCommunicatingClasses r.classes states).flatten).Perm states ∧
      (∀ s ∈ states, ∃! c, c ∈ computeCommunicatingClasses r.classes states ∧ s ∈ c) := by
  obtain ⟨c, -, hk, hlow, -⟩ := commClassesKernel_spec P
  have hcd := kernel_classData P c hlow
  refine ⟨classify P.ncol c, ⟨_, hk⟩,
    fun fuel r2 h2 => commClassesKernel_unique P _ _ _ _ h2 hk, ?_⟩
  have heq : computeCommunicatingClasses (classify P.ncol c).classes states
      = (seedsOf (fun _ => true) (classify P.ncol c).classes P.ncol).map
          (classLabels (classify P.ncol c).classes states) := by
    rw [computeCommunicatingClasses_eq_loop]
    exact classesLoop_eq hcd (fun _ => true) (fun _ _ _ => rfl) states hlen
  have hperm : ((computeCommunicatingClasses (classify P.ncol c).classes states).flatten).Perm
      states := by
    rw [heq]
    have := seeds_flatten_perm hcd (fun _ => true) (fun _ _ _ => rfl) states hlen
    rwa [filter_true_enum] at this
  have hne : ∀ cl ∈ computeCommunicatingClasses (classify P.ncol c).classes states,
      cl ≠ [] := by
    rw [heq]
    exact seed_class_ne_nil hcd _ states hlen
  have hndf := List.nodup_flatten.mp (hperm.nodup_iff.mpr hnd)
  refine ⟨hne, hndf.2, hndf.1, hperm, ?_⟩
  intro s hs
  have hsf : s ∈ (computeCommunicatingClasses (classify P.ncol c).classes states).flatten :=
    hperm.mem_iff.mpr hs
  obtain ⟨cl, hcl, hscl⟩ := List.mem_flatten.mp hsf
  refine ⟨cl, ⟨hcl, hscl⟩, ?_⟩
  rintro cl2 ⟨hcl2, hscl2⟩
  by_contra hne2
  have hdis : List.Disjoint cl2 cl :=
    List.Pairwise.forall (fun _ _ h => h.symm) hndf.2 hcl2 hcl hne2
  exact hdis hscl2 hscl

theorem seedsOf_eq_filter (sel : Nat → Bool) (cls : Nat → Nat → Bool) (n : Nat) :
    seedsOf sel cls n = (seedsOf (fun _ => true) cls n).filter sel := by
  simp only [seedsOf, List.filter_filter, Bool.true_and]

/-- With pairwise distinct labels, the classes of two seeds are equal only for equal seeds
of the same selection. -/
theorem classLabels_eq_closed {α : Type} {n : Nat} {cls : Nat → Nat → Bool}
    {closed : Nat → Bool} (hc : ClassData n cls closed) (states : List α)
    (hlen : states.length = n) (hnd : states.Nodup) (s t : Nat) (hs : s < n)
    (h : classLabels cls states s = classLabels cls states t) : closed s = closed t := by
  have hsl : s < states.length := by omega
  have hmem : states[s] ∈ classLabels cls states t := by
    rw [← h]
    exact (mem_classLabels cls states s _).mpr ⟨s, hc.refl s hs, by simp [hsl]⟩
  obtain ⟨j, hcj, hj⟩ := (mem_classLabels cls states t _).mp hmem
  have hjs : s = j := by
    apply List.getElem?_inj hsl hnd
    rw [hj]
    simp [hsl]
  subst hjs
  exact (hc.closed_eq _ _ hcj).symm

/-- C5: every communicating class is in exactly one of the lists of `computeRecurrentClasses`
and `computeTransientClasses` (which together are a rearrangement of the communicating
classes); the labels in the recurrent classes are those of `computeRecurrentStates`, the labels
in the transient classes those of `computeTransientStates`; and the two flat lists are disjoint
and together a rearrangement of the list of states. -/
theorem recurrent_transient_split {α : Type} (P : NumericMatrix) (states : List α)
    (hlen : states.length = P.ncol) (hnd : states.Nodup) :
    ∃ r, (∃ fuel, commClassesKernel fuel P = some r) ∧
      (∀ fuel r', commClassesKernel fuel P = some r' → r' = r) ∧
      (∀ c ∈ computeCommunicatingClasses r.classes states,
        (c ∈ computeRecurrentClasses r.classes r.closed states ∧
          c ∉ computeTransientClasses r.classes r.closed states) ∨
        (c ∈ computeTransientClasses r.classes r.closed states ∧
          c ∉ computeRecurrentClasses r.classes r.closed states)) ∧
      (computeRecurrentClasses r.classes r.closed states
          ++ computeTransientClasses r.classes r.closed states).Perm
        (computeCommunicatingClasses r.classes states) ∧
      ((computeRecurrentClasses r.classes r.closed states).flatten).Perm
        (computeRecurrentStates states r.closed) ∧
      ((computeTransientClasses r.classes r.closed states).flatten).Perm
        (computeTransientStates states r.closed) ∧
      List.Disjoint (computeRecurrentStates states r.closed)
        (computeTransientStates states r.closed) ∧
      (computeRecurrentStates states r.closed
          ++ computeTransientStates states r.closed).Perm states := by
  obtain ⟨c, -, hk, hlow, -⟩ := commClassesKernel_spec P
  have hcd := kernel_classData P c hlow
  refine ⟨classify P.ncol c, ⟨_, hk⟩,
    fun fuel r2 h2 => commClassesKernel_unique P _ _ _ _ h2 hk, ?_⟩
  generalize classify P.ncol c = r at hcd
  have hselR : ∀ i j, r.classes i j = true → r.closed i = r.closed j := hcd.closed_eq
  have hselT : ∀ i j, r.classes i j = true → (!r.closed i) = (!r.closed j) :=
    fun i j h => congrArg _ (hcd.closed_eq i j h)
  have hCC : computeCommunicatingClasses r.classes states
      = (seedsOf (fun _ => true) r.classes P.ncol).map (classLabels r.classes states) := by
    rw [computeCommunicatingClasses_eq_loop]
    exact classesLoop_eq hcd (fun _ => true) (fun _ _ _ => rfl) states hlen
  have hRC : computeRecurrentClasses r.classes r.closed states
      = ((seedsOf (fun _ => true) r.classes P.ncol).filter r.closed).map
          (classLabels r.classes states) := by
    rw [computeRecurrentClasses_eq_loop, classesLoop_eq hcd r.closed hselR states hlen,
      seedsOf_eq_filter]
  have hTC : computeTransientClasses r.classes r.closed states
      = ((seedsOf (fun _ => true) r.classes P.ncol).filter (fun i => !r.closed i)).map
          (classLabels r.classes states) := by
    rw [computeTransientClasses_eq_loop,
      classesLoop_eq hcd (fun i => !r.closed i) hselT states hlen, seedsOf_eq_filter]
  have hsplit : (computeRecurrentStates states r.closed
      ++ computeTransientStates states r.closed).Perm states := by
    unfold computeRecurrentStates computeTransientStates
    rw [← List.map_append]
    have := (List.filter_append_perm (fun js : Nat × α => r.closed js.1) states.enum).map
      Prod.snd
    rwa [List.enum_map_snd] at this
  refine ⟨?_, ?_, ?_, ?_, ?_, hsplit⟩
  · intro cl hcl
    rw [hCC] at hcl
    obtain ⟨s, hs, rfl⟩ := List.mem_map.mp hcl
    have hsn : s < P.ncol := ((mem_seedsOf _ _ _ _).mp hs).1
    rw [hRC, hTC]
    cases hcs : r.closed s
    · right
      refine ⟨List.mem_map.mpr ⟨s, List.mem_filter.mpr ⟨hs, by simp [hcs]⟩, rfl⟩, ?_⟩
      intro hmem
      obtain ⟨t, ht, hteq⟩ := List.mem_map.mp hmem
      have h1 := classLabels_eq_closed hcd states hlen hnd s t hsn hteq.symm
      have h2 := (List.mem_filter.mp ht).2
      rw [← h1, hcs] at h2
      exact Bool.false_ne_true h2
    · left
      refine ⟨List.mem_map.mpr ⟨s, List.mem_filter.mpr ⟨hs, hcs⟩, rfl⟩, ?_⟩
      intro hmem
      obtain ⟨t, ht, hteq⟩ := List.mem_map.mp hmem
      have h1 := classLabels_eq_closed hcd states hlen hnd s t hsn hteq.symm
      have h2 := (List.mem_filter.mp ht).2
      rw [← h1, hcs] at h2
      simp at h2
  · rw [hCC, hRC, hTC, ← List.map_append]
    exact (List.filter_append_perm _ _).map _
  · rw [computeRecurrentClasses_eq_loop, classesLoop_eq hcd r.closed hselR states hlen]
    exact seeds_flatten_perm hcd r.closed hselR states hlen
  · rw [computeTransientClasses_eq_loop,
      classesLoop_eq hcd (fun i => !r.closed i) hselT states hlen]
    exact seeds_flatten_perm hcd (fun i => !r.closed i) hselT states hlen
  · exact (List.nodup_append.mp (hsplit.nodup_iff.mpr hnd)).2.2

/-! ## `canonicForm`: the index permutation -/

theorem stateToIndex_foldl_not_mem {α : Type} [DecidableEq α] (l : List (Nat × α))
    (m : α → Nat) (a : α) (h : a ∉ l.map Prod.snd) :
    (l.foldl (fun m js => fun s => if s = js.2 then js.1 else m s) m) a = m a := by
  induction l generalizing m with
  | nil => rfl
  | cons x xs ih =>
    simp only [List.map_cons, List.mem_cons, not_or] at h
    simp only [List.foldl_cons]
    rw [ih _ h.2]
    simp [h.1]

theorem stateToIndex_foldl_mem {α : Type} [DecidableEq α] (l : List (Nat × α))
    (m : α → Nat) (hnd : (l.map Prod.snd).Nodup) (js : Nat × α) (h : js ∈ l) :
    (l.foldl (fun m js => fun s => if s = js.2 then js.1 else m s) m) js.2 = js.1 := by
  induction l generalizing m with
  | nil => simp at h
  | cons x xs ih =>
    simp only [List.map_cons, List.nodup_cons] at hnd
    simp only [List.foldl_cons]
    rcases List.mem_cons.mp h with h | h
    · subst h
      rw [stateToIndex_foldl_not_mem _ _ _ hnd.1]
      simp
    · exact ih _ hnd.2 h

/-- With pairwise distinct labels, `stateToIndex` maps every label to its index. -/
theorem stateToIndex_enum {α : Type} [DecidableEq α] (states : List α) (hnd : states.Nodup)
    (js : Nat × α) (h : js ∈ states.enum) : stateToIndex states js.2 = js.1 := by
  unfold stateToIndex
  apply stateToIndex_foldl_mem _ _ _ js h
  rw [List.enum_map_snd]
  exact hnd

theorem take_set_succ (l : List Nat) (t x : Nat) (h : t < l.length) :
    (l.set t x).take (t + 1) = l.take t ++ [x] := by
  rw [List.take_succ, List.set_take]
  have h1 : (l.take t).set t x = l.take t := by
    apply List.set_eq_of_length_le
    simp
  rw [h1]
  simp [h]

theorem fillClass_spec {α : Type} (toIndex : α → Nat) (xs : List α) :
    ∀ (perm : List Nat) (toFill : Nat) (used : List Nat),
      toFill + xs.length ≤ perm.length →
      ∃ perm', fillClass toIndex xs (perm, toFill, used)
          = some (perm', toFill + xs.length, (xs.map toIndex).reverse ++ used) ∧
        perm'.length = perm.length ∧
        perm'.take (toFill + xs.length) = perm.take toFill ++ xs.map toIndex := by
  induction xs with
  | nil =>
    intro perm toFill used _
    exact ⟨perm, by simp [fillClass], rfl, by simp⟩
  | cons x xs ih =>
    intro perm toFill used h
    simp only [List.length_cons] at h
    have hlt : toFill < perm.length := by omega
    obtain ⟨perm', h1, h2, h3⟩ := ih (perm.set toFill (toIndex x)) (toFill + 1)
      (toIndex x :: used) (by rw [List.length_set]; omega)
    refine ⟨perm', ?_, ?_, ?_⟩
    · simp only [fillClass, writeAt, hlt, if_true, h1, List.length_cons, List.map_cons,
        List.reverse_cons, List.append_assoc, List.singleton_append]
      rw [show toFill + 1 + xs.length = toFill + (xs.length + 1) by omega]
    · rw [h2]; simp
    · have : toFill + (xs.length + 1) = toFill + 1 + xs.length := by omega
      rw [List.length_cons, this, h3, take_set_succ _ _ _ hlt]
      simp

theorem fillClass_append {α : Type} (toIndex : α → Nat) (xs ys : List α) :
    ∀ st, fillClass toIndex (xs ++ ys) st
      = (fillClass toIndex xs st).bind (fillClass toIndex ys) := by
  induction xs with
  | nil => intro st; simp [fillClass]
  | cons x xs ih =>
    intro st
    obtain ⟨perm, toFill, used⟩ := st
    simp only [List.cons_append, fillClass]
    cases writeAt perm toFill (toIndex x) with
    | none => simp
    | some perm' => simp [ih]

theorem fillClasses_eq_flatten {α : Type} (toIndex : α → Nat) (cs : List (List α)) :
    ∀ st, fillClasses toIndex cs st = fillClass toIndex cs.flatten st := by
  induction cs with
  | nil => intro st; simp [fillClasses, fillClass]
  | cons c cs ih =>
    intro st
    simp only [fillClasses, List.flatten_cons, fillClass_append]
    cases fillClass toIndex c st with
    | none => simp
    | some st' => simp [ih]

theorem fillUnused_spec (used : List Nat) (is : List Nat) :
    ∀ (perm : List Nat) (toFill : Nat),
      toFill + (is.filter (fun i => !decide (i ∈ used))).length ≤ perm.length →
      ∃ perm', fillUnused used is (perm, toFill)
          = some (perm', toFill + (is.filter (fun i => !decide (i ∈ used))).length) ∧
        perm'.length = perm.length ∧
        perm'.take (toFill + (is.filter (fun i => !decide (i ∈ used))).length)
          = perm.take toFill ++ is.filter (fun i => !decide (i ∈ used)) := by
  induction is with
  | nil =>
    intro perm toFill _
    exact ⟨perm, by simp [fillUnused], rfl, by simp⟩
  | cons i is ih =>
    intro perm toFill h
    by_cases hi : i ∈ used
    · have hf : (i :: is).filter (fun i => !decide (i ∈ used))
          = is.filter (fun i => !decide (i ∈ used)) := by
        simp [List.filter_cons, hi]
      rw [hf] at h ⊢
      obtain ⟨perm', h1, h2, h3⟩ := ih perm toFill h
      exact ⟨perm', by simp only [fillUnused, hi, if_true, h1], h2, h3⟩
    · have hf : (i :: is).filter (fun i => !decide (i ∈ used))
          = i :: is.filter (fun i => !decide (i ∈ used)) := by
        simp [List.filter_cons, hi]
      rw [hf] at h ⊢
      simp only [List.length_cons] at h ⊢
      have hlt : toFill < perm.length := by omega
      obtain ⟨perm', h1, h2, h3⟩ := ih (perm.set toFill i) (toFill + 1) (by rw [List.length_set]; omega)
      refine ⟨perm', ?_, ?_, ?_⟩
      · simp only [fillUnused, hi, if_false, writeAt, hlt, if_true, h1]
        rw [show toFill + 1 + (is.filter (fun i => !decide (i ∈ used))).length
          = toFill + ((is.filter (fun i => !decide (i ∈ used))).length + 1) by omega]
      · rw [h2]; simp
      · have : toFill + ((is.filter (fun i => !decide (i ∈ used))).length + 1)
            = toFill + 1 + (is.filter (fun i => !decide (i ∈ used))).length := by omega
        rw [this, h3, take_set_succ _ _ _ hlt]
        simp

theorem readStates_spec {α : Type} (states : List α) (perm : List Nat)
    (h : ∀ r ∈ perm, r < states.length) :
    ∃ ns, readStates states perm = some ns ∧ ns.map some = perm.map (fun r => states[r]?) := by
  induction perm with
  | nil => exact ⟨[], rfl, rfl⟩
  | cons r rest ih =>
    obtain ⟨ns, h1, h2⟩ := ih (fun x hx => h x (List.mem_cons_of_mem _ hx))
    have hr : r < states.length := h r (List.mem_cons_self _ _)
    refine ⟨states[r] :: ns, ?_, ?_⟩
    · simp [readStates, h1, hr]
    · simp [h2, hr]

/-- The members of the classes of the seeds, as indices, are a rearrangement of the selected
indices. -/
theorem seeds_flatten_perm_range {n : Nat} {cls : Nat → Nat → Bool} {closed : Nat → Bool}
    (hc : ClassData n cls closed) (sel : Nat → Bool)
    (hsel : ∀ i j, cls i j = true → sel i = sel j) :
    (((seedsOf sel cls n).map (fun s => (List.range n).filter (cls s))).flatten).Perm
      ((List.range n).filter sel) := by
  have hpw : (seedsOf sel cls n).Pairwise
      (fun s t => ∀ x ∈ List.range n, ¬ (cls s x = true ∧ cls t x = true)) := by
    refine List.Pairwise.imp_of_mem ?_ (seedsOf_pairwise_lt sel cls n)
    intro s t hs ht hlt x _ hx
    have := seed_unique hc sel s t x hs ht hx.1 hx.2
    omega
  refine (flatten_filter_perm (List.range n) (fun s x => cls s x) _ hpw).trans ?_
  apply List.Perm.of_eq
  apply List.filter_congr
  intro x hx
  rw [Bool.eq_iff_iff, List.any_eq_true]
  constructor
  · rintro ⟨s, hs, hsx⟩
    rw [← hsel s x hsx]
    exact ((mem_seedsOf _ _ _ _).mp hs).2.1
  · intro h
    exact exists_seed hc sel hsel x (List.mem_range.mp hx) h

theorem map_stateToIndex_classLabels {α : Type} [DecidableEq α] (cls : Nat → Nat → Bool)
    (states : List α) (hnd : states.Nodup) (s : Nat) :
    (classLabels cls states s).map (stateToIndex states)
      = (List.range states.length).filter (cls s) := by
  unfold classLabels
  rw [List.map_map, ← List.enum_map_fst, List.filter_map]
  apply List.map_congr_left
  intro js hjs
  exact stateToIndex_enum states hnd js (List.mem_filter.mp hjs).1

theorem length_canonicOrder {n : Nat} {r : KernelResult}
    (hc : ClassData n r.classes r.closed) : (canonicOrder n r).length = n := by
  unfold canonicOrder
  rw [List.length_append, (seeds_flatten_perm_range hc r.closed hc.closed_eq).length_eq]
  have := (List.filter_append_perm r.closed (List.range n)).length_eq
  simp only [List.length_append, List.length_range] at this
  exact this

theorem canonicOrder_perm {n : Nat} {r : KernelResult}
    (hc : ClassData n r.classes r.closed) : (canonicOrder n r).Perm (List.range n) := by
  unfold canonicOrder
  exact ((seeds_flatten_perm_range hc r.closed hc.closed_eq).append_right _).trans
    (List.filter_append_perm r.closed (List.range n))

theorem mem_closed_part {n : Nat} {r : KernelResult}
    (hc : ClassData n r.classes r.closed) (i : Nat) :
    i ∈ ((seedsOf r.closed r.classes n).map
        (fun s => (List.range n).filter (r.classes s))).flatten ↔ r.closed i = true := by
  rw [(seeds_flatten_perm_range hc r.closed hc.closed_eq).mem_iff, List.mem_filter,
    List.mem_range]
  exact ⟨fun h => h.2, fun h => ⟨hc.closed_lt i h, h⟩⟩

/-- The two filling loops of `canonicForm` never write past the end of `indexPermutation`
and leave `canonicOrder` in it. -/
theorem fill_spec {α : Type} [DecidableEq α] {n : Nat} {r : KernelResult}
    (hc : ClassData n r.classes r.closed) (states : List α) (hlen : states.length = n)
    (hnd : states.Nodup) :
    ∃ perm toFill used,
      fillClasses (stateToIndex states) (computeRecurrentClasses r.classes r.closed states)
        (List.replicate n 0, 0, []) = some (perm, toFill, used) ∧
      ∃ k, fillUnused used (List.range states.length) (perm, toFill)
        = some (canonicOrder n r, k) := by
  have hRC : computeRecurrentClasses r.classes r.closed states
      = (seedsOf r.closed r.classes n).map (classLabels r.classes states) := by
    rw [computeRecurrentClasses_eq_loop]
    exact classesLoop_eq hc r.closed hc.closed_eq states hlen
  have hA : ((computeRecurrentClasses r.classes r.closed states).flatten).map
      (stateToIndex states)
      = ((seedsOf r.closed r.classes n).map
          (fun s => (List.range n).filter (r.classes s))).flatten := by
    rw [hRC, List.map_flatten, List.map_map]
    congr 1
    apply List.map_congr_left
    intro s _
    simp only [Function.comp]
    rw [map_stateToIndex_classLabels _ _ hnd, hlen]
  have hlenA : (((computeRecurrentClasses r.classes r.closed states).flatten).map
      (stateToIndex states)).length + ((List.range n).filter (fun i => !r.closed i)).length
      = n := by
    have := length_canonicOrder hc
    unfold canonicOrder at this
    rw [← hA, List.length_append] at this
    exact this
  obtain ⟨perm1, h1, h2, h3⟩ := fillClass_spec (stateToIndex states)
    (computeRecurrentClasses r.classes r.closed states).flatten (List.replicate n 0) 0 []
    (by
      rw [List.length_replicate]
      rw [List.length_map] at hlenA
      omega)
  refine ⟨perm1, _, _, by rw [fillClasses_eq_flatten]; exact h1, ?_⟩
  have hB : (List.range states.length).filter
      (fun i => !decide (i ∈ (((computeRecurrentClasses r.classes r.closed states).flatten).map
        (stateToIndex states)).reverse ++ []))
      = (List.range n).filter (fun i => !r.closed i) := by
    rw [hlen]
    apply List.filter_congr
    intro i _
    rw [List.append_nil, hA]
    congr 1
    rw [Bool.eq_iff_iff, decide_eq_true_eq, List.mem_reverse]
    exact mem_closed_part hc i
  rw [List.length_replicate] at h2
  simp only [Nat.zero_add, List.take_zero, List.nil_append] at h3
  obtain ⟨perm2, g1, g2, g3⟩ := fillUnused_spec
    ((((computeRecurrentClasses r.classes r.closed states).flatten).map
        (stateToIndex states)).reverse ++ []) (List.range states.length) perm1
    (0 + (computeRecurrentClasses r.classes r.closed states).flatten.length)
    (by
      rw [hB, h2]
      rw [List.length_map] at hlenA
      omega)
  have hfull : 0 + (computeRecurrentClasses r.classes r.closed states).flatten.length
      + ((List.range n).filter (fun i => !r.closed i)).length = perm2.length := by
    rw [g2, h2]
    rw [List.length_map] at hlenA
    omega
  rw [hB, hfull, List.take_length, Nat.zero_add, h3, hA] at g3
  have hperm2 : perm2 = canonicOrder n r := g3
  rw [hperm2] at g1
  exact ⟨_, g1⟩

theorem byRowMatrix_canonicInput {α : Type} (obj : Markovchain α) :
    byRowMatrix (canonicInput obj) = byRowMatrix obj := by
  cases h : obj.byrow <;> simp [canonicInput, byRowMatrix, h]

theorem states_canonicInput {α : Type} (obj : Markovchain α) :
    (canonicInput obj).states = obj.states := by
  cases h : obj.byrow <;> simp [canonicInput, h]

theorem byRowMatrix_ncol {α : Type} (obj : Markovchain α)
    (hsq : obj.transitionMatrix.nrow = obj.transitionMatrix.ncol) :
    (byRowMatrix obj).ncol = obj.transitionMatrix.ncol := by
  cases h : obj.byrow <;> simp [byRowMatrix, transpose, h, hsq]

theorem byRowMatrix_data {α : Type} (obj : Markovchain α) (i j : Nat) :
    (byRowMatrix obj).data i j
      = if obj.byrow then obj.transitionMatrix.data i j else obj.transitionMatrix.data j i := by
  cases h : obj.byrow <;> simp [byRowMatrix, transpose, h]

/-- Whenever the kernel returns for the row-oriented matrix, `canonicForm` builds the index
vector `canonicOrder` without writing outside it. -/
theorem canonicPermutation_spec {α : Type} [DecidableEq α] (obj : Markovchain α)
    (hsq : obj.transitionMatrix.nrow = obj.transitionMatrix.ncol)
    (hlen : obj.states.length = obj.transitionMatrix.ncol) (hnd : obj.states.Nodup)
    (fuel : Nat) (r : KernelResult)
    (hk : commClassesKernel fuel (byRowMatrix obj) = some r)
    (hc : ClassData obj.transitionMatrix.ncol r.classes r.closed) :
    canonicPermutation fuel obj = some (canonicOrder obj.transitionMatrix.ncol r) := by
  obtain ⟨perm, toFill, used, h1, k, h2⟩ := fill_spec hc obj.states hlen hnd
  simp only [canonicPermutation, recurrentClasses, byRowMatrix_canonicInput, hk,
    states_canonicInput, hsq, h1, h2]

theorem canonicOrder_lt {n : Nat} {r : KernelResult}
    (hc : ClassData n r.classes r.closed) : ∀ p ∈ canonicOrder n r, p < n := by
  intro p hp
  exact List.mem_range.mp ((canonicOrder_perm hc).mem_iff.mp hp)

/-- The chain `canonicForm` returns for a given index vector and list of new labels. -/
theorem canonicForm_spec {α : Type} [DecidableEq α] (obj : Markovchain α)
    (hsq : obj.transitionMatrix.nrow = obj.transitionMatrix.ncol)
    (hlen : obj.states.length = obj.transitionMatrix.ncol) (hnd : obj.states.Nodup)
    (fuel : Nat) (r : KernelResult)
    (hk : commClassesKernel fuel (byRowMatrix obj) = some r)
    (hc : ClassData obj.transitionMatrix.ncol r.classes r.closed) :
    ∃ res, canonicForm fuel obj = some res ∧
      res.transitionMatrix.nrow = obj.transitionMatrix.ncol ∧
      res.transitionMatrix.ncol = obj.transitionMatrix.ncol ∧
      (∀ i j, res.transitionMatrix.data i j
        = obj.transitionMatrix.data ((canonicOrder obj.transitionMatrix.ncol r).getD i 0)
            ((canonicOrder obj.transitionMatrix.ncol r).getD j 0)) ∧
      res.states.map some
        = (canonicOrder obj.transitionMatrix.ncol r).map (fun p => obj.states[p]?) ∧
      res.byrow = obj.byrow := by
  obtain ⟨ns, hns, hmap⟩ := readStates_spec obj.states
    (canonicOrder obj.transitionMatrix.ncol r) (by rw [hlen]; exact canonicOrder_lt hc)
  have hp := canonicPermutation_spec obj hsq hlen hnd fuel r hk hc
  simp only [canonicForm, hp, hns]
  refine ⟨_, rfl, ?_, ?_, ?_, hmap, rfl⟩
  · cases h : obj.byrow <;> simp [transpose, hsq]
  · cases h : obj.byrow <;> simp [transpose, hsq]
  · intro i j
    cases h : obj.byrow <;> simp [transpose]

/-- The closed part of `classify` is `ClassData` for every run of the kernel that returns. -/
theorem kernel_returns_classData (P : NumericMatrix) (fuel : Nat) (r : KernelResult)
    (hk : commClassesKernel fuel P = some r) : ClassData P.ncol r.classes r.closed := by
  obtain ⟨c, -, hk2, hlow, -⟩ := commClassesKernel_spec P
  have := commClassesKernel_unique P _ _ _ _ hk hk2
  rw [this]
  exact kernel_classData P c hlow

/-- C6: for a square chain with `n` pairwise distinct labels, `canonicForm` builds (without
writing outside the vector) an index vector that is a permutation of `0..n-1`: the closed
classes first, listed by increasing lowest member and each in increasing index order, then the
indices of the states that are not closed in increasing order; the result matrix is
`transitions(perm[i], perm[j])`, the result labels are `states(perm[i])`, `byrow` is kept. -/
theorem canonicForm_indexPermutation {α : Type} [DecidableEq α] (obj : Markovchain α)
    (hsq : obj.transitionMatrix.nrow = obj.transitionMatrix.ncol)
    (hlen : obj.states.length = obj.transitionMatrix.ncol) (hnd : obj.states.Nodup) :
    ∃ (r : KernelResult) (perm : List Nat) (res : Markovchain α) (seeds : List Nat),
      (∃ fuel, commClassesKernel fuel (byRowMatrix obj) = some r ∧
        canonicPermutation fuel obj = some perm ∧ canonicForm fuel obj = some res) ∧
      (∀ fuel res', canonicForm fuel obj = some res' → res' = res) ∧
      perm.Perm (List.range obj.transitionMatrix.ncol) ∧
      perm.length = obj.transitionMatrix.ncol ∧
      seeds.Pairwise (fun s t => s < t) ∧
      (∀ s, s ∈ seeds ↔ s < obj.transitionMatrix.ncol ∧ r.closed s = true ∧
        ∀ j, j < s → r.classes j s = false) ∧
      perm = (seeds.map
          (fun s => (List.range obj.transitionMatrix.ncol).filter (r.classes s))).flatten
        ++ (List.range obj.transitionMatrix.ncol).filter (fun i => !r.closed i) ∧
      res.transitionMatrix.nrow = obj.transitionMatrix.ncol ∧
      res.transitionMatrix.ncol = obj.transitionMatrix.ncol ∧
      (∀ i j, i < obj.transitionMatrix.ncol → j < obj.transitionMatrix.ncol →
        res.transitionMatrix.data i j
          = obj.transitionMatrix.data (perm.getD i 0) (perm.getD j 0)) ∧
      res.states.map some = perm.map (fun p => obj.states[p]?) ∧
      res.byrow = obj.byrow := by
  obtain ⟨c, -, hk, -, -⟩ := commClassesKernel_spec (byRowMatrix obj)
  generalize classify (byRowMatrix obj).ncol c = r at hk
  have hc := kernel_returns_classData _ _ _ hk
  rw [byRowMatrix_ncol obj hsq] at hc
  obtain ⟨res, hres, h1, h2, h3, h4, h5⟩ := canonicForm_spec obj hsq hlen hnd _ _ hk hc
  refine ⟨r, canonicOrder obj.transitionMatrix.ncol r, res,
    seedsOf r.closed r.classes obj.transitionMatrix.ncol,
    ⟨_, hk, canonicPermutation_spec obj hsq hlen hnd _ _ hk hc, hres⟩, ?_,
    canonicOrder_perm hc, length_canonicOrder hc, seedsOf_pairwise_lt _ _ _,
    mem_seedsOf _ _ _, rfl, h1, h2, fun i j _ _ => h3 i j, h4, h5⟩
  intro fuel res2 hres2
  cases hk2 : commClassesKernel fuel (byRowMatrix obj) with
  | none =>
    simp [canonicForm, canonicPermutation, recurrentClasses, byRowMatrix_canonicInput, hk2]
      at hres2
  | some r2 =>
    have hr := commClassesKernel_unique _ _ _ _ _ hk2 hk
    subst hr
    have hp2 := canonicPermutation_spec obj hsq hlen hnd fuel _ hk2 hc
    have hp1 := canonicPermutation_spec obj hsq hlen hnd _ _ hk hc
    simp only [canonicForm, hp2] at hres2
    simp only [canonicForm, hp1] at hres
    rw [hres] at hres2
    exact (Option.some.inj hres2).symm

/-! ## `canonicForm`: the order of the result -/

theorem leastFrom_spec (p : Nat → Bool) :
    ∀ d k, k ≤ leastFrom p k d ∧ leastFrom p k d ≤ k + d ∧
      (∀ j, k ≤ j → j < leastFrom p k d → p j = false) ∧
      (leastFrom p k d < k + d → p (leastFrom p k d) = true) := by
  intro d
  induction d with
  | zero =>
    intro k
    simp only [leastFrom]
    exact ⟨le_refl k, le_refl k, fun j h1 h2 => absurd h2 (by omega), fun h => absurd h (by omega)⟩
  | succ d ih =>
    intro k
    simp only [leastFrom]
    cases hp : p k
    · simp only [Bool.false_eq_true, if_false]
      obtain ⟨h1, h2, h3, h4⟩ := ih (k + 1)
      refine ⟨by omega, by omega, ?_, fun h => h4 (by omega)⟩
      intro j hj1 hj2
      by_cases hjk : j = k
      · rw [hjk]; exact hp
      · exact h3 j (by omega) hj2
    · simp only [if_true]
      exact ⟨le_refl k, by omega, fun j h1 h2 => absurd h2 (by omega), fun _ => hp⟩

theorem classMin_le (cls : Nat → Nat → Bool) (i : Nat) : classMin cls i ≤ i := by
  have := (leastFrom_spec (fun j => cls j i) i 0).2.1
  simpa [classMin] using this

theorem classMin_min (cls : Nat → Nat → Bool) (i j : Nat) (h : j < classMin cls i) :
    cls j i = false :=
  (leastFrom_spec (fun j => cls j i) i 0).2.2.1 j (Nat.zero_le j) h

theorem classMin_cls {n : Nat} {cls : Nat → Nat → Bool} {closed : Nat → Bool}
    (hc : ClassData n cls closed) (i : Nat) (hi : i < n) : cls (classMin cls i) i = true := by
  have hle := classMin_le cls i
  by_cases h : classMin cls i < i
  · exact (leastFrom_spec (fun j => cls j i) i 0).2.2.2 (by simpa [classMin] using h)
  · have : classMin cls i = i := by omega
    rw [this]
    exact hc.refl i hi

theorem classMin_eq_of_seed {n : Nat} {cls : Nat → Nat → Bool} {closed : Nat → Bool}
    (hc : ClassData n cls closed) (s x : Nat) (hs : ∀ j, j < s → cls j s = false)
    (hsx : cls s x = true) : classMin cls x = s := by
  have hx : x < n := (hc.lt _ _ hsx).2
  have h1 : ¬ s < classMin cls x := by
    intro h
    have := classMin_min cls x s h
    rw [hsx] at this
    exact Bool.noConfusion this
  have h2 : ¬ classMin cls x < s := by
    intro h
    have h3 := hc.trans _ _ _ (classMin_cls hc x hx) (hc.symm _ _ hsx)
    rw [hs _ h] at h3
    exact Bool.noConfusion h3
  omega

theorem classMin_congr {n : Nat} {cls : Nat → Nat → Bool} {closed : Nat → Bool}
    (hc : ClassData n cls closed) (i j : Nat) (h : cls i j = true) :
    classMin cls i = classMin cls j := by
  have hi : i < n := (hc.lt _ _ h).1
  symm
  apply classMin_eq_of_seed hc
  · intro k hk
    by_contra hne
    have hkt : cls k (classMin cls i) = true := by simpa using hne
    have := classMin_min cls i k hk
    rw [hc.trans _ _ _ hkt (classMin_cls hc i hi)] at this
    exact Bool.noConfusion this
  · exact hc.trans _ _ _ (classMin_cls hc i hi) h

theorem keyLt_asymm (r : KernelResult) (i j : Nat) (h1 : keyLt r i j) (h2 : keyLt r j i) :
    False := by
  unfold keyLt at h1 h2
  cases hi : r.closed i <;> cases hj : r.closed j <;> simp [hi, hj] at h1 h2 <;> omega

/-- The index vector of `canonicForm` is sorted by `keyLt`. -/
theorem canonicOrder_sorted {n : Nat} {r : KernelResult}
    (hc : ClassData n r.classes r.closed) : (canonicOrder n r).Pairwise (keyLt r) := by
  unfold canonicOrder
  rw [List.pairwise_append]
  refine ⟨?_, ?_, ?_⟩
  · rw [List.pairwise_flatten]
    constructor
    · intro l hl
      obtain ⟨s, hs, rfl⟩ := List.mem_map.mp hl
      have hs2 := (mem_seedsOf _ _ _ _).mp hs
      refine List.Pairwise.imp_of_mem ?_ ((List.pairwise_lt_range n).filter _)
      intro a b ha hb hab
      have ha2 := (List.mem_filter.mp ha).2
      have hb2 := (List.mem_filter.mp hb).2
      right; left
      refine ⟨?_, ?_, Or.inr ⟨?_, hab⟩⟩
      · rw [← hc.closed_eq _ _ ha2]; exact hs2.2.1
      · rw [← hc.closed_eq _ _ hb2]; exact hs2.2.1
      · rw [classMin_eq_of_seed hc s a hs2.2.2 ha2, classMin_eq_of_seed hc s b hs2.2.2 hb2]
    · rw [List.pairwise_map]
      refine List.Pairwise.imp_of_mem ?_ (seedsOf_pairwise_lt _ _ n)
      intro s t hs ht hst a ha b hb
      have hs2 := (mem_seedsOf _ _ _ _).mp hs
      have ht2 := (mem_seedsOf _ _ _ _).mp ht
      have ha2 := (List.mem_filter.mp ha).2
      have hb2 := (List.mem_filter.mp hb).2
      right; left
      refine ⟨?_, ?_, Or.inl ?_⟩
      · rw [← hc.closed_eq _ _ ha2]; exact hs2.2.1
      · rw [← hc.closed_eq _ _ hb2]; exact ht2.2.1
      · rw [classMin_eq_of_seed hc s a hs2.2.2 ha2, classMin_eq_of_seed hc t b ht2.2.2 hb2]
        exact hst
  · refine List.Pairwise.imp_of_mem ?_ ((List.pairwise_lt_range n).filter _)
    intro a b ha hb hab
    have ha2 := (List.mem_filter.mp ha).2
    have hb2 := (List.mem_filter.mp hb).2
    right; right
    exact ⟨by simpa using ha2, by simpa using hb2, hab⟩
  · intro a ha b hb
    left
    exact ⟨(mem_closed_part hc a).mp ha, by simpa using (List.mem_filter.mp hb).2⟩

/-- If the states are renumbered along a list that is sorted by `keyLt`, the renumbered chain
lists its states in the order `0, 1, 2, ...`. -/
theorem keyLt_transport {n : Nat} {r r' : KernelResult}
    (hc : ClassData n r.classes r.closed) (hc' : ClassData n r'.classes r'.closed)
    (f : Nat → Nat) (hf : ∀ i, i < n → f i < n)
    (hcls : ∀ i j, i < n → j < n → r'.classes i j = r.classes (f i) (f j))
    (hclosed : ∀ i, i < n → r'.closed i = r.closed (f i))
    (hsorted : ∀ i j, i < j → j < n → keyLt r (f i) (f j)) :
    ∀ i j, i < j → j < n → keyLt r' i j := by
  intro i j hij hj
  have hi : i < n := by omega
  rcases hsorted i j hij hj with ⟨a, b⟩ | ⟨a, b, c | ⟨c, d⟩⟩ | ⟨a, b, -⟩
  · left
    exact ⟨by rw [hclosed i hi]; exact a, by rw [hclosed j hj]; exact b⟩
  · right; left
    refine ⟨by rw [hclosed i hi]; exact a, by rw [hclosed j hj]; exact b, Or.inl ?_⟩
    have hqle := classMin_le r'.classes j
    have hq := classMin_cls hc' j hj
    have hqn : classMin r'.classes j < n := by omega
    rw [hcls _ _ hqn hj] at hq
    have hmq := classMin_congr hc _ _ hq
    have hcq := hc.closed_eq _ _ hq
    have hile := classMin_le r'.classes i
    by_contra hnot
    have hqi : classMin r'.classes j ≤ i := by omega
    rcases Nat.lt_or_ge (classMin r'.classes j) i with hlt | hge
    · have hk := hsorted _ _ hlt hi
      unfold keyLt at hk
      rw [hcq, b, a, hmq] at hk
      simp at hk
      omega
    · have hqeq : classMin r'.classes j = i := by omega
      rw [hqeq] at hmq
      omega
  · right; left
    refine ⟨by rw [hclosed i hi]; exact a, by rw [hclosed j hj]; exact b, Or.inr ⟨?_, hij⟩⟩
    apply classMin_congr hc'
    rw [hcls i j hi hj]
    have h1 := classMin_cls hc (f i) (hf i hi)
    have h2 := classMin_cls hc (f j) (hf j hj)
    rw [c] at h1
    exact hc.trans _ _ _ (hc.symm _ _ h1) h2
  · right; right
    exact ⟨by rw [hclosed i hi]; exact a, by rw [hclosed j hj]; exact b, hij⟩

/-- A chain whose states are already listed in `keyLt` order is left in place. -/
theorem canonicOrder_eq_range {n : Nat} {r : KernelResult}
    (hc : ClassData n r.classes r.closed)
    (h : ∀ i j, i < j → j < n → keyLt r i j) : canonicOrder n r = List.range n := by
  haveI : IsAntisymm Nat (keyLt r) := ⟨fun a b h1 h2 => (keyLt_asymm r a b h1 h2).elim⟩
  apply List.eq_of_perm_of_sorted (canonicOrder_perm hc) (canonicOrder_sorted hc)
  refine List.Pairwise.imp_of_mem ?_ (List.pairwise_lt_range n)
  intro a b _ hb hab
  exact h a b hab (List.mem_range.mp hb)

/-! ## Renumbering the states -/

theorem kernel_returns_iff (P : NumericMatrix) (fuel : Nat) (r : KernelResult)
    (hk : commClassesKernel fuel P = some r) :
    (∀ i j, r.classes i j = true ↔ i < P.ncol ∧ j < P.ncol ∧ Reach P i j ∧ Reach P j i) ∧
    (∀ i, r.closed i = true ↔ i < P.ncol ∧ ∀ j, Reach P i j → Reach P j i) := by
  obtain ⟨c, -, hk2, hlow, -⟩ := commClassesKernel_spec P
  have := commClassesKernel_unique P _ _ _ _ hk hk2
  rw [this]
  exact kernel_classes_closed P c hlow

theorem reach_renumber {T T' : NumericMatrix} (f : Nat → Nat) (hn : T'.ncol = T.ncol)
    (hf : ∀ i, i < T.ncol → f i < T.ncol)
    (hdata : ∀ i j, i < T.ncol → j < T.ncol → T'.data i j = T.data (f i) (f j))
    (i j : Nat) (hi : i < T.ncol) (h : Reach T' i j) : Reach T (f i) (f j) := by
  induction h with
  | refl => exact Relation.ReflTransGen.refl
  | tail hab hbc ih =>
    rename_i b c
    have hb : b < T.ncol := by rw [← hn]; exact Reach.lt hab (by rw [hn]; exact hi)
    have hbc2 := (mem_adjacencies T' b c).mp hbc
    have hcn : c < T.ncol := by rw [← hn]; exact hbc2.1
    refine Relation.ReflTransGen.tail ih ((mem_adjacencies T _ _).mpr ⟨hf c hcn, ?_⟩)
    rw [← hdata b c hb hcn]
    exact hbc2.2

theorem reach_renumber_inv {T T' : NumericMatrix} (f : Nat → Nat) (hn : T'.ncol = T.ncol)
    (hsurj : ∀ y, y < T.ncol → ∃ k, k < T.ncol ∧ f k = y)
    (hdata : ∀ i j, i < T.ncol → j < T.ncol → T'.data i j = T.data (f i) (f j))
    (i : Nat) (hi : i < T.ncol) (y : Nat) (h : Reach T (f i) y) :
    ∃ j, j < T.ncol ∧ f j = y ∧ Reach T' i j := by
  induction h with
  | refl => exact ⟨i, hi, rfl, Relation.ReflTransGen.refl⟩
  | tail hab hbc ih =>
    rename_i b c
    obtain ⟨j, hj, hfj, hij⟩ := ih
    have hbc2 := (mem_adjacencies T b c).mp hbc
    obtain ⟨k, hk, hfk⟩ := hsurj c hbc2.1
    refine ⟨k, hk, hfk, Relation.ReflTransGen.tail hij ((mem_adjacencies T' _ _).mpr ⟨?_, ?_⟩)⟩
    · rw [hn]; exact hk
    · rw [hdata j k hj hk, hfj, hfk]
      exact hbc2.2

/-- The classification of a renumbered chain is the renumbered classification. -/
theorem kernel_renumber {T T' : NumericMatrix} (f : Nat → Nat) (hn : T'.ncol = T.ncol)
    (hf : ∀ i, i < T.ncol → f i < T.ncol)
    (hinj : ∀ i j, i < T.ncol → j < T.ncol → f i = f j → i = j)
    (hsurj : ∀ y, y < T.ncol → ∃ k, k < T.ncol ∧ f k = y)
    (hdata : ∀ i j, i < T.ncol → j < T.ncol → T'.data i j = T.data (f i) (f j))
    (fuel fuel' : Nat) (r r' : KernelResult) (hk : commClassesKernel fuel T = some r)
    (hk' : commClassesKernel fuel' T' = some r') :
    (∀ i j, i < T.ncol → j < T.ncol → r'.classes i j = r.classes (f i) (f j)) ∧
    (∀ i, i < T.ncol → r'.closed i = r.closed (f i)) := by
  obtain ⟨hcl, hclosed⟩ := kernel_returns_iff T fuel r hk
  obtain ⟨hcl', hclosed'⟩ := kernel_returns_iff T' fuel' r' hk'
  have hfwd := reach_renumber f hn hf hdata
  have hbwd : ∀ i j, i < T.ncol → j < T.ncol → Reach T (f i) (f j) → Reach T' i j := by
    intro i j hi hj h
    obtain ⟨k, hk, hfk, hik⟩ := reach_renumber_inv f hn hsurj hdata i hi (f j) h
    rw [hinj k j hk hj hfk] at hik
    exact hik
  constructor
  · intro i j hi hj
    rw [Bool.eq_iff_iff, hcl', hcl, hn]
    constructor
    · rintro ⟨-, -, h1, h2⟩
      exact ⟨hf i hi, hf j hj, hfwd i j hi h1, hfwd j i hj h2⟩
    · rintro ⟨-, -, h1, h2⟩
      exact ⟨hi, hj, hbwd i j hi hj h1, hbwd j i hj hi h2⟩
  · intro i hi
    rw [Bool.eq_iff_iff, hclosed', hclosed, hn]
    constructor
    · rintro ⟨-, h⟩
      refine ⟨hf i hi, fun y hy => ?_⟩
      obtain ⟨k, hk, hfk, hik⟩ := reach_renumber_inv f hn hsurj hdata i hi y hy
      rw [← hfk]
      exact hfwd k i hk (h k hik)
    · rintro ⟨-, h⟩
      refine ⟨hi, fun j hj => ?_⟩
      have hjn : j < T.ncol := by rw [← hn]; exact Reach.lt hj (by rw [hn]; exact hi)
      exact hbwd j i hjn hi (h (f j) (hfwd i j hi hj))

theorem canonicOrder_getD {n : Nat} {r : KernelResult}
    (hc : ClassData n r.classes r.closed) (i : Nat) (hi : i < n) :
    ∃ h : i < (canonicOrder n r).length,
      (canonicOrder n r).getD i 0 = (canonicOrder n r)[i] := by
  have hl : i < (canonicOrder n r).length := by rw [length_canonicOrder hc]; exact hi
  exact ⟨hl, List.getD_eq_getElem _ _ hl⟩

theorem canonicOrder_getD_lt {n : Nat} {r : KernelResult}
    (hc : ClassData n r.classes r.closed) (i : Nat) (hi : i < n) :
    (canonicOrder n r).getD i 0 < n := by
  obtain ⟨hl, he⟩ := canonicOrder_getD hc i hi
  rw [he]
  exact canonicOrder_lt hc _ (List.getElem_mem _)

theorem canonicOrder_getD_inj {n : Nat} {r : KernelResult}
    (hc : ClassData n r.classes r.closed) (i j : Nat) (hi : i < n) (hj : j < n)
    (h : (canonicOrder n r).getD i 0 = (canonicOrder n r).getD j 0) : i = j := by
  obtain ⟨hli, hei⟩ := canonicOrder_getD hc i hi
  obtain ⟨hlj, hej⟩ := canonicOrder_getD hc j hj
  rw [hei, hej] at h
  have hnd : (canonicOrder n r).Nodup :=
    (canonicOrder_perm hc).nodup_iff.mpr (List.nodup_range n)
  exact (List.Nodup.getElem_inj_iff hnd).mp h

theorem canonicOrder_getD_surj {n : Nat} {r : KernelResult}
    (hc : ClassData n r.classes r.closed) (y : Nat) (hy : y < n) :
    ∃ k, k < n ∧ (canonicOrder n r).getD k 0 = y := by
  have hmem : y ∈ canonicOrder n r :=
    (canonicOrder_perm hc).mem_iff.mpr (List.mem_range.mpr hy)
  obtain ⟨k, hk, hky⟩ := List.mem_iff_getElem.mp hmem
  refine ⟨k, by rw [← length_canonicOrder hc]; exact hk, ?_⟩
  rw [List.getD_eq_getElem _ _ hk]
  exact hky

theorem canonicOrder_getD_sorted {n : Nat} {r : KernelResult}
    (hc : ClassData n r.classes r.closed) (i j : Nat) (hij : i < j) (hj : j < n) :
    keyLt r ((canonicOrder n r).getD i 0) ((canonicOrder n r).getD j 0) := by
  obtain ⟨hli, hei⟩ := canonicOrder_getD hc i (by omega)
  obtain ⟨hlj, hej⟩ := canonicOrder_getD hc j hj
  rw [hei, hej]
  exact List.pairwise_iff_getElem.mp (canonicOrder_sorted hc) i j hli hlj hij

theorem range_map_getElem? {α : Type} (l : List α) :
    (List.range l.length).map (fun i => l[i]?) = l.map some := by
  apply List.ext_getElem?
  intro k
  by_cases hk : k < l.length
  · simp [hk]
  · have hk2 : l.length ≤ k := by omega
    rw [List.getElem?_eq_none (by simpa using hk2), List.getElem?_eq_none (by simpa using hk2)]

theorem perm_of_map_some {α : Type} {l1 l2 : List α} (h : (l1.map some).Perm (l2.map some)) :
    l1.Perm l2 := by
  have := h.filterMap id
  simpa [List.filterMap_map] using this

theorem getD_range (n i : Nat) (hi : i < n) : (List.range n).getD i 0 = i := by
  rw [List.getD_eq_getElem _ _ (by simpa using hi)]
  simp

/-! ## `canonicForm` applied twice -/

/-- What a returning run of `canonicForm` returns. -/
theorem canonicForm_returns {α : Type} [DecidableEq α] (obj : Markovchain α)
    (hsq : obj.transitionMatrix.nrow = obj.transitionMatrix.ncol)
    (hlen : obj.states.length = obj.transitionMatrix.ncol) (hnd : obj.states.Nodup)
    (fuel : Nat) (res : Markovchain α) (h : canonicForm fuel obj = some res) :
    ∃ r, commClassesKernel fuel (byRowMatrix obj) = some r ∧
      ClassData obj.transitionMatrix.ncol r.classes r.closed ∧
      res.transitionMatrix.nrow = obj.transitionMatrix.ncol ∧
      res.transitionMatrix.ncol = obj.transitionMatrix.ncol ∧
      (∀ i j, res.transitionMatrix.data i j
        = obj.transitionMatrix.data ((canonicOrder obj.transitionMatrix.ncol r).getD i 0)
            ((canonicOrder obj.transitionMatrix.ncol r).getD j 0)) ∧
      res.states.map some
        = (canonicOrder obj.transitionMatrix.ncol r).map (fun p => obj.states[p]?) ∧
      res.byrow = obj.byrow := by
  cases hk : commClassesKernel fuel (byRowMatrix obj) with
  | none =>
    simp [canonicForm, canonicPermutation, recurrentClasses, byRowMatrix_canonicInput, hk] at h
  | some r =>
    have hc := kernel_returns_classData _ _ _ hk
    rw [byRowMatrix_ncol obj hsq] at hc
    obtain ⟨res2, hres2, h1, h2, h3, h4, h5⟩ := canonicForm_spec obj hsq hlen hnd _ _ hk hc
    rw [h] at hres2
    have := Option.some.inj hres2
    subst this
    exact ⟨r, rfl, hc, h1, h2, h3, h4, h5⟩

/-- The result of `canonicForm` is again a square chain with pairwise distinct labels. -/
theorem canonicForm_wellformed {α : Type} [DecidableEq α] (obj : Markovchain α)
    (hsq : obj.transitionMatrix.nrow = obj.transitionMatrix.ncol)
    (hlen : obj.states.length = obj.transitionMatrix.ncol) (hnd : obj.states.Nodup)
    (fuel : Nat) (res : Markovchain α) (h : canonicForm fuel obj = some res) :
    res.transitionMatrix.nrow = res.transitionMatrix.ncol ∧
    res.states.length = res.transitionMatrix.ncol ∧ res.states.Nodup ∧
    res.states.Perm obj.states := by
  obtain ⟨r, -, hc, h1, h2, -, h4, -⟩ := canonicForm_returns obj hsq hlen hnd fuel res h
  have hperm : (res.states.map some).Perm (obj.states.map some) := by
    rw [h4, ← range_map_getElem?, hlen]
    exact (canonicOrder_perm hc).map _
  have hp := perm_of_map_some hperm
  refine ⟨by rw [h1, h2], ?_, hp.nodup_iff.mpr hnd, hp⟩
  rw [hp.length_eq, hlen, h2]

/-- The row-oriented matrix of the result of `canonicForm` is the row-oriented matrix of the
argument with its states renumbered along the index vector. -/
theorem byRowMatrix_canonicForm {α : Type} [DecidableEq α] (obj res : Markovchain α)
    (perm : List Nat) (hbyrow : res.byrow = obj.byrow)
    (hdata : ∀ i j, res.transitionMatrix.data i j
      = obj.transitionMatrix.data (perm.getD i 0) (perm.getD j 0)) (i j : Nat) :
    (byRowMatrix res).data i j = (byRowMatrix obj).data (perm.getD i 0) (perm.getD j 0) := by
  rw [byRowMatrix_data, byRowMatrix_data, hbyrow]
  cases obj.byrow <;> simp [hdata]

theorem rowSum_canonicForm (tm tm' : NumericMatrix) (perm : List Nat) (n : Nat)
    (hn : tm.ncol = n) (hn' : tm'.ncol = n) (hperm : perm.Perm (List.range n))
    (hdata : ∀ i j, tm'.data i j = tm.data (perm.getD i 0) (perm.getD j 0)) :
    ((List.range n).map (rowSum tm')).Perm ((List.range n).map (rowSum tm)) := by
  have hlenp : perm.length = n := by rw [hperm.length_eq, List.length_range]
  have hmapD : (List.range n).map (fun j => perm.getD j 0) = perm := by
    apply List.ext_getElem
    · simp [hlenp]
    · intro k h1 h2
      simp [List.getElem?_eq_getElem h2]
  have hrow : ∀ i, rowSum tm' i = rowSum tm (perm.getD i 0) := by
    intro i
    unfold rowSum
    rw [hn, hn']
    have h1 : (List.range n).map (fun j => tm'.data i j)
        = ((List.range n).map (fun j => perm.getD j 0)).map
            (fun j => tm.data (perm.getD i 0) j) := by
      rw [List.map_map]
      apply List.map_congr_left
      intro j _
      exact hdata i j
    rw [h1, hmapD]
    exact (hperm.map _).sum_eq
  have h2 : (List.range n).map (rowSum tm')
      = ((List.range n).map (fun i => perm.getD i 0)).map (rowSum tm) := by
    rw [List.map_map]
    apply List.map_congr_left
    intro i _
    exact hrow i
  rw [h2, hmapD]
  exact hperm.map _

/-- Two returning runs of `canonicForm` on the same chain return the same chain. -/
theorem canonicForm_unique {α : Type} [DecidableEq α] (obj : Markovchain α)
    (hsq : obj.transitionMatrix.nrow = obj.transitionMatrix.ncol)
    (hlen : obj.states.length = obj.transitionMatrix.ncol) (hnd : obj.states.Nodup)
    (f1 f2 : Nat) (a b : Markovchain α) (h1 : canonicForm f1 obj = some a)
    (h2 : canonicForm f2 obj = some b) : a = b := by
  obtain ⟨r1, hk1, hc1, -⟩ := canonicForm_returns obj hsq hlen hnd f1 a h1
  obtain ⟨r2, hk2, -, -⟩ := canonicForm_returns obj hsq hlen hnd f2 b h2
  have hr := commClassesKernel_unique _ _ _ _ _ hk2 hk1
  subst hr
  have hp1 := canonicPermutation_spec obj hsq hlen hnd f1 _ hk1 hc1
  have hp2 := canonicPermutation_spec obj hsq hlen hnd f2 _ hk2 hc1
  simp only [canonicForm, hp1] at h1
  simp only [canonicForm, hp2] at h2
  rw [h1] at h2
  exact Option.some.inj h2

/-- The classification kernel returns with fuel `n * (n + 1) + 1` on the row-oriented matrix of
a square chain with `n` states. -/
theorem kernel_byRowMatrix {α : Type} (obj : Markovchain α)
    (hsq : obj.transitionMatrix.nrow = obj.transitionMatrix.ncol) :
    ∃ r, commClassesKernel
        (obj.transitionMatrix.ncol * (obj.transitionMatrix.ncol + 1) + 1) (byRowMatrix obj)
        = some r ∧
      ClassData obj.transitionMatrix.ncol r.classes r.closed := by
  obtain ⟨c, -, hk, -, -⟩ := commClassesKernel_spec (byRowMatrix obj)
  generalize classify (byRowMatrix obj).ncol c = r at hk
  have hc := kernel_returns_classData _ _ _ hk
  rw [byRowMatrix_ncol obj hsq] at hk hc
  exact ⟨r, hk, hc⟩

/-- C7: `canonicForm` is idempotent on square chains with pairwise distinct labels: applied to
its own result it returns the same transition matrix, the same list of labels and the same
`byrow` flag; and its result has the labels of the argument (rearranged) and the same multiset
of row sums. -/
theorem canonicForm_idempotent {α : Type} [DecidableEq α] (obj : Markovchain α)
    (hsq : obj.transitionMatrix.nrow = obj.transitionMatrix.ncol)
    (hlen : obj.states.length = obj.transitionMatrix.ncol) (hnd : obj.states.Nodup) :
    ∃ res res2 : Markovchain α,
      (∃ fuel, canonicForm fuel obj = some res ∧ canonicForm fuel res = some res2) ∧
      (∀ fuel res', canonicForm fuel obj = some res' → res' = res) ∧
      (∀ fuel res', canonicForm fuel res = some res' → res' = res2) ∧
      res2.transitionMatrix.nrow = res.transitionMatrix.nrow ∧
      res2.transitionMatrix.ncol = res.transitionMatrix.ncol ∧
      (∀ i j, i < res.transitionMatrix.nrow → j < res.transitionMatrix.ncol →
        res2.transitionMatrix.data i j = res.transitionMatrix.data i j) ∧
      res2.states = res.states ∧
      res2.byrow = res.byrow ∧
      res.states.Perm obj.states ∧
      ((List.range obj.transitionMatrix.ncol).map (rowSum res.transitionMatrix)).Perm
        ((List.range obj.transitionMatrix.ncol).map (rowSum obj.transitionMatrix)) := by
  obtain ⟨r, hk, hc⟩ := kernel_byRowMatrix obj hsq
  obtain ⟨res, hres, h1, h2, h3, h4, h5⟩ := canonicForm_spec obj hsq hlen hnd _ _ hk hc
  obtain ⟨hsq', hlen', hnd', hperm⟩ := canonicForm_wellformed obj hsq hlen hnd _ res hres
  obtain ⟨r', hk', hc'⟩ := kernel_byRowMatrix res hsq'
  rw [h2] at hk' hc'
  have hTn := byRowMatrix_ncol obj hsq
  have hTn' : (byRowMatrix res).ncol = (byRowMatrix obj).ncol := by
    rw [byRowMatrix_ncol res hsq', h2, hTn]
  obtain ⟨hcls, hclosed⟩ := kernel_renumber
    (fun i => (canonicOrder obj.transitionMatrix.ncol r).getD i 0) hTn'
    (fun i hi => by rw [hTn] at hi ⊢; exact canonicOrder_getD_lt hc i hi)
    (fun i j hi hj h => by rw [hTn] at hi hj; exact canonicOrder_getD_inj hc i j hi hj h)
    (fun y hy => by rw [hTn] at hy ⊢; exact canonicOrder_getD_surj hc y hy)
    (fun i j _ _ => byRowMatrix_canonicForm obj res _ h5 h3 i j) _ _ r r' hk hk'
  rw [hTn] at hcls hclosed
  have hid : canonicOrder obj.transitionMatrix.ncol r'
      = List.range obj.transitionMatrix.ncol :=
    canonicOrder_eq_range hc' (keyLt_transport hc hc' _
      (fun i hi => canonicOrder_getD_lt hc i hi) hcls hclosed
      (fun i j hij hj => canonicOrder_getD_sorted hc i j hij hj))
  have hc'' : ClassData res.transitionMatrix.ncol r'.classes r'.closed := by rw [h2]; exact hc'
  have hk'' : commClassesKernel
      (obj.transitionMatrix.ncol * (obj.transitionMatrix.ncol + 1) + 1) (byRowMatrix res)
      = some r' := hk'
  obtain ⟨res2, hres2, g1, g2, g3, g4, g5⟩ :=
    canonicForm_spec res hsq' hlen' hnd' _ _ hk'' hc''
  rw [h2, hid] at g3 g4
  refine ⟨res, res2, ⟨_, hres, hres2⟩,
    fun fuel x hx => canonicForm_unique obj hsq hlen hnd _ _ _ _ hx hres,
    fun fuel x hx => canonicForm_unique res hsq' hlen' hnd' _ _ _ _ hx hres2,
    by rw [g1, hsq'], g2, ?_, ?_, g5, hperm, ?_⟩
  · intro i j hi hj
    rw [h1] at hi
    rw [h2] at hj
    rw [g3, getD_range _ _ hi, getD_range _ _ hj]
  · have hl : obj.transitionMatrix.ncol = res.states.length := by rw [hlen', h2]
    rw [hl, range_map_getElem?] at g4
    exact (List.map_injective_iff.mpr (Option.some_injective α)) g4
  · exact rowSum_canonicForm obj.transitionMatrix res.transitionMatrix _ _ rfl h2
      (canonicOrder_perm hc) h3

/-! ## Zero padding of the steady states -/

theorem fillSteadyRow_frame {α : Type} (toIndex : α → Nat) (ssm : NumericMatrix) (k : Nat) :
    ∀ (l : List (Nat × α)) (st : (Nat → Nat → ℚ) × Bool) (a b : Nat),
      (fillSteadyRow toIndex ssm k l st).1 a b ≠ st.1 a b →
      a = k ∧ ∃ js ∈ l, b = toIndex js.2 := by
  intro l
  induction l with
  | nil => intro st a b h; exact absurd rfl h
  | cons x rest ih =>
    intro st a b h
    obtain ⟨i, state⟩ := x
    obtain ⟨steady, neg⟩ := st
    cases neg with
    | true => simp [fillSteadyRow] at h
    | false =>
      simp only [fillSteadyRow, Bool.false_eq_true, if_false] at h
      by_cases hsame : (fillSteadyRow toIndex ssm k rest
          (fun a b => if a = k ∧ b = toIndex state then ssm.data 0 i else steady a b,
            decide (ssm.data 0 i < 0))).1 a b
          = (if a = k ∧ b = toIndex state then ssm.data 0 i else steady a b)
      · rw [hsame] at h
        by_cases hab : a = k ∧ b = toIndex state
        · exact ⟨hab.1, (i, state), List.mem_cons_self _ _, hab.2⟩
        · simp [hab] at h
      · obtain ⟨h1, js, hjs, h2⟩ := ih _ a b hsame
        exact ⟨h1, js, List.mem_cons_of_mem _ hjs, h2⟩

theorem steadyLoop_frame {α : Type}
    (solver : NumericMatrix → Bool → Option NumericMatrix) (tm : NumericMatrix)
    (toIndex : α → Nat) :
    ∀ (cs : List (List α)) (steady : Nat → Nat → ℚ) (k : Nat) (neg : Bool)
      (out : Nat → Nat → ℚ),
      steadyLoop solver tm toIndex cs (steady, k, neg) = some out →
      ∀ a b, out a b ≠ steady a b →
        ∃ m C, cs[m]? = some C ∧ a = k + m ∧ ∃ s ∈ C, b = toIndex s := by
  intro cs
  induction cs with
  | nil =>
    intro steady k neg out h a b hne
    simp only [steadyLoop, Option.some.injEq] at h
    rw [h] at hne
    exact absurd rfl hne
  | cons rc rest ih =>
    intro steady k neg out h a b hne
    simp only [steadyLoop] at h
    cases hs : solver (subMatrix tm toIndex rc) true with
    | none => simp [hs] at h
    | some ssm =>
      simp only [hs] at h
      by_cases hrow : ssm.nrow ≠ 1
      · simp [hrow] at h
      · simp only [hrow, if_false] at h
        cases hneg : (fillSteadyRow toIndex ssm k rc.enum (steady, neg)).2 with
        | true => simp [hneg] at h
        | false =>
          simp only [hneg, Bool.false_eq_true, if_false] at h
          by_cases hsame : out a b = (fillSteadyRow toIndex ssm k rc.enum (steady, neg)).1 a b
          · rw [hsame] at hne
            obtain ⟨h1, js, hjs, h2⟩ := fillSteadyRow_frame toIndex ssm k _ _ a b hne
            exact ⟨0, rc, by simp, by omega, js.2, List.snd_mem_of_mem_enum hjs, h2⟩
          · obtain ⟨m, C, hm, ha, s, hsC, hb⟩ := ih _ _ _ out h a b hsame
            exact ⟨m + 1, C, by simpa using hm, by omega, s, hsC, hb⟩

/-- C10: whenever `steadyStatesByRecurrentClasses` returns, its result has one row per
recurrent class and one column per state, and the row of a class is 0 at every state whose label
is not in the class, whatever `computeSteadyStates` returned for the sub-matrices. -/
theorem steadyStates_zero_outside_class {α : Type} [DecidableEq α]
    (computeSteadyStates : NumericMatrix → Bool → Option NumericMatrix)
    (object : Markovchain α)
    (hsq : object.transitionMatrix.nrow = object.transitionMatrix.ncol)
    (hlen : object.states.length = object.transitionMatrix.ncol) (hnd : object.states.Nodup)
    (fuel : Nat) (res : NumericMatrix)
    (h : steadyStatesByRecurrentClasses computeSteadyStates fuel object = some res) :
    ∃ recClasses, recurrentClasses fuel object = some recClasses ∧
      res.nrow = recClasses.length ∧ res.ncol = object.transitionMatrix.ncol ∧
      ∀ k C c s, recClasses[k]? = some C → object.states[c]? = some s → s ∉ C →
        res.data k c = 0 := by
  unfold steadyStatesByRecurrentClasses at h
  cases hrc : recurrentClasses fuel object with
  | none => simp [hrc] at h
  | some recClasses =>
    simp only [hrc] at h
    cases hloop : steadyLoop computeSteadyStates object.transitionMatrix
        (stateToIndex object.states) recClasses (fun _ _ => 0, 0, false) with
    | none => simp [hloop] at h
    | some steady =>
      simp only [hloop, Option.some.injEq] at h
      subst h
      refine ⟨recClasses, rfl, rfl, rfl, ?_⟩
      intro k C c s hkC hcs hsC
      by_contra hne
      obtain ⟨m, C2, hm, hkm, s2, hs2, hc2⟩ :=
        steadyLoop_frame _ _ _ _ _ _ _ _ hloop k c hne
      have hmk : m = k := by omega
      subst hmk
      rw [hkC] at hm
      have hCC := Option.some.inj hm
      subst hCC
      -- the labels of a class are labels of the chain
      unfold recurrentClasses at hrc
      cases hk : commClassesKernel fuel (byRowMatrix object) with
      | none => simp [hk] at hrc
      | some r =>
        simp only [hk, Option.some.injEq] at hrc
        have hcd := kernel_returns_classData _ _ _ hk
        rw [byRowMatrix_ncol object hsq] at hcd
        rw [computeRecurrentClasses_eq_loop,
          classesLoop_eq hcd r.closed hcd.closed_eq object.states hlen] at hrc
        have hCmem : C ∈ recClasses := List.getElem?_mem hkC
        rw [← hrc] at hCmem
        obtain ⟨seed, -, rfl⟩ := List.mem_map.mp hCmem
        obtain ⟨j, -, hj⟩ := (mem_classLabels _ _ _ _).mp hs2
        have hidx := stateToIndex_enum object.states hnd (j, s2)
          (List.mk_mem_enum_iff_getElem?.mpr hj)
        simp only at hidx
        rw [hidx] at hc2
        subst hc2
        rw [hj] at hcs
        have := Option.some.inj hcs
        subst this
        exact hsC hs2

/-! ## The theorems at the example chain -/

/-- The theorem for C4 at the example chain. -/
theorem communicatingClasses_partition_witness :
    exampleStates.length = exampleMatrix.ncol ∧ exampleStates.Nodup ∧
    (∃ r, (∃ fuel, commClassesKernel fuel exampleMatrix = some r) ∧
      (∀ fuel r', commClassesKernel fuel exampleMatrix = some r' → r' = r) ∧
      (∀ c ∈ computeCommunicatingClasses r.classes exampleStates, c ≠ []) ∧
      (computeCommunicatingClasses r.classes exampleStates).Pairwise List.Disjoint ∧
      (∀ c ∈ computeCommunicatingClasses r.classes exampleStates, c.Nodup) ∧
      ((computeCommunicatingClasses r.classes exampleStates).flatten).Perm exampleStates ∧
      (∀ s ∈ exampleStates, ∃! c, c ∈ computeCommunicatingClasses r.classes exampleStates ∧ s ∈ c)) :=
  ⟨by decide, by decide,
    communicatingClasses_partition exampleMatrix exampleStates (by decide) (by decide)⟩

/-- The theorem for C5 at the example chain. -/
theorem recurrent_transient_split_witness :
    exampleStates.length = exampleMatrix.ncol ∧ exampleStates.Nodup ∧
    (∃ r, (∃ fuel, commClassesKernel fuel exampleMatrix = some r) ∧
      (∀ fuel r', commClassesKernel fuel exampleMatrix = some r' → r' = r) ∧
      (∀ c ∈ computeCommunicatingClasses r.classes exampleStates,
        (c ∈ computeRecurrentClasses r.classes r.closed exampleStates ∧
          c ∉ computeTransientClasses r.classes r.closed exampleStates) ∨
        (c ∈ computeTransientClasses r.classes r.closed exampleStates ∧
          c ∉ computeRecurrentClasses r.classes r.closed exampleStates)) ∧
      (computeRecurrentClasses r.classes r.closed exampleStates
          ++ computeTransientClasses r.classes r.closed exampleStates).Perm
        (computeCommunicatingClasses r.classes exampleStates) ∧
      ((computeRecurrentClasses r.classes r.closed exampleStates).flatten).Perm
        (computeRecurrentStates exampleStates r.closed) ∧
      ((computeTransientClasses r.classes r.closed exampleStates).flatten).Perm
        (computeTransientStates exampleStates r.closed) ∧
      List.Disjoint (computeRecurrentStates exampleStates r.closed)
        (computeTransientStates exampleStates r.closed) ∧
      (computeRecurrentStates exampleStates r.closed
          ++ computeTransientStates exampleStates r.closed).Perm exampleStates) :=
  ⟨by decide, by decide,
    recurrent_transient_split exampleMatrix exampleStates (by decide) (by decide)⟩

/-- The theorem for C6 at the example chain. -/
theorem canonicForm_indexPermutation_witness :
    exampleChain.transitionMatrix.nrow = exampleChain.transitionMatrix.ncol ∧
    exampleChain.states.length = exampleChain.transitionMatrix.ncol ∧
    exampleChain.states.Nodup ∧
    (∃ (r : KernelResult) (perm : List Nat) (res : Markovchain String) (seeds : List Nat),
      (∃ fuel, commClassesKernel fuel (byRowMatrix exampleChain) = some r ∧
        canonicPermutation fuel exampleChain = some perm ∧ canonicForm fuel exampleChain = some res) ∧
      (∀ fuel res', canonicForm fuel exampleChain = some res' → res' = res) ∧
      perm.Perm (List.range exampleChain.transitionMatrix.ncol) ∧
      perm.length = exampleChain.transitionMatrix.ncol ∧
      seeds.Pairwise (fun s t => s < t) ∧
      (∀ s, s ∈ seeds ↔ s < exampleChain.transitionMatrix.ncol ∧ r.closed s = true ∧
        ∀ j, j < s → r.classes j s = false) ∧
      perm = (seeds.map
          (fun s => (List.range exampleChain.transitionMatrix.ncol).filter (r.classes s))).flatten
        ++ (List.range exampleChain.transitionMatrix.ncol).filter (fun i => !r.closed i) ∧
      res.transitionMatrix.nrow = exampleChain.transitionMatrix.ncol ∧
      res.transitionMatrix.ncol = exampleChain.transitionMatrix.ncol ∧
      (∀ i j, i < exampleChain.transitionMatrix.ncol → j < exampleChain.transitionMatrix.ncol →
        res.transitionMatrix.data i j
          = exampleChain.transitionMatrix.data (perm.getD i 0) (perm.getD j 0)) ∧
      res.states.map some = perm.map (fun p => exampleChain.states[p]?) ∧
      res.byrow = exampleChain.byrow) :=
  ⟨by decide, by decide, by decide,
    canonicForm_indexPermutation exampleChain (by decide) (by decide) (by decide)⟩

/-- The theorem for C7 at the example chain. -/
theorem canonicForm_idempotent_witness :
    exampleChain.transitionMatrix.nrow = exampleChain.transitionMatrix.ncol ∧
    exampleChain.states.length = exampleChain.transitionMatrix.ncol ∧
    exampleChain.states.Nodup ∧
    (∃ res res2 : Markovchain String,
      (∃ fuel, canonicForm fuel exampleChain = some res ∧ canonicForm fuel res = some res2) ∧
      (∀ fuel res', canonicForm fuel exampleChain = some res' → res' = res) ∧
      (∀ fuel res', canonicForm fuel res = some res' → res' = res2) ∧
      res2.transitionMatrix.nrow = res.transitionMatrix.nrow ∧
      res2.transitionMatrix.ncol = res.transitionMatrix.ncol ∧
      (∀ i j, i < res.transitionMatrix.nrow → j < res.transitionMatrix.ncol →
        res2.transitionMatrix.data i j = res.transitionMatrix.data i j) ∧
      res2.states = res.states ∧
      res2.byrow = res.byrow ∧
      res.states.Perm exampleChain.states ∧
      ((List.range exampleChain.transitionMatrix.ncol).map (rowSum res.transitionMatrix)).Perm
        ((List.range exampleChain.transitionMatrix.ncol).map (rowSum exampleChain.transitionMatrix))) :=
  ⟨by decide, by decide, by decide,
    canonicForm_idempotent exampleChain (by decide) (by decide) (by decide)⟩

/-! ## The sub-matrix of a recurrent class -/

/-- A closed state has no positive entry towards a state outside its class. -/
theorem closed_row_zero (P : NumericMatrix) (fuel : Nat) (r : KernelResult)
    (hk : commClassesKernel fuel P = some r)
    (hnonneg : ∀ i j, i < P.ncol → j < P.ncol → 0 ≤ P.data i j) (a y : Nat)
    (ha : r.closed a = true) (hy : y < P.ncol) (hay : r.classes a y = false) :
    P.data a y = 0 := by
  obtain ⟨hcl, hclosed⟩ := kernel_returns_iff P fuel r hk
  obtain ⟨han, hback⟩ := (hclosed a).mp ha
  by_contra hne
  have hpos : 0 < P.data a y := lt_of_le_of_ne (hnonneg a y han hy) (Ne.symm hne)
  have hreach : Reach P a y :=
    Relation.ReflTransGen.single ((mem_adjacencies P a y).mpr ⟨hy, hpos⟩)
  have : r.classes a y = true := (hcl a y).mpr ⟨han, hy, hreach, hback y hreach⟩
  rw [hay] at this
  exact Bool.noConfusion this

theorem sum_map_getD_range (l : List Nat) (g : Nat → ℚ) :
    ((List.range l.length).map (fun j => g (l.getD j 0))).sum = (l.map g).sum := by
  have : (List.range l.length).map (fun j => l.getD j 0) = l := by
    apply List.ext_getElem
    · simp
    · intro k h1 h2
      simp [List.getElem?_eq_getElem h2]
  conv_rhs => rw [← this]
  rw [List.map_map]
  rfl

theorem sum_filter_of_zero (l : List Nat) (p : Nat → Bool) (g : Nat → ℚ)
    (h : ∀ y ∈ l, p y = false → g y = 0) :
    ((l.filter p).map g).sum = (l.map g).sum := by
  induction l with
  | nil => rfl
  | cons a l ih =>
    have ih2 := ih (fun y hy => h y (List.mem_cons_of_mem _ hy))
    cases hp : p a
    · have := h a (List.mem_cons_self _ _) hp
      simp [List.filter_cons, hp, ih2, this]
    · simp [List.filter_cons, hp, ih2]

/-- C8: for a row-stochastic matrix with non-negative entries (on pairwise distinct labels),
every row of the sub-matrix that `steadyStatesByRecurrentClasses` extracts for a class returned
by `recurrentClasses` sums to 1. -/
theorem subMatrix_rowStochastic {α : Type} [DecidableEq α] (P : NumericMatrix)
    (states : List α) (hlen : states.length = P.ncol)
    (hnd : states.Nodup) (hnonneg : ∀ i j, i < P.ncol → j < P.ncol → 0 ≤ P.data i j)
    (hstoch : ∀ i, i < P.ncol → rowSum P i = 1) :
    ∃ recClasses,
      (∃ fuel, recurrentClasses fuel
        { transitionMatrix := P, states := states, byrow := true } = some recClasses) ∧
      (∀ fuel cs, recurrentClasses fuel
        { transitionMatrix := P, states := states, byrow := true } = some cs →
          cs = recClasses) ∧
      ∀ C ∈ recClasses, ∀ i, i < C.length →
        rowSum (subMatrix P (stateToIndex states) C) i = 1 := by
  obtain ⟨c, -, hk, -, -⟩ := commClassesKernel_spec P
  generalize classify P.ncol c = r at hk
  have hc := kernel_returns_classData _ _ _ hk
  have hbr : byRowMatrix { transitionMatrix := P, states := states, byrow := true } = P := rfl
  refine ⟨computeRecurrentClasses r.classes r.closed states,
    ⟨P.ncol * (P.ncol + 1) + 1, by simp only [recurrentClasses, hbr, hk]⟩, ?_, ?_⟩
  · intro fuel cs hcs
    simp only [recurrentClasses, hbr] at hcs
    cases hk2 : commClassesKernel fuel P with
    | none => simp [hk2] at hcs
    | some r2 =>
      have := commClassesKernel_unique _ _ _ _ _ hk2 hk
      subst this
      simp only [hk2, Option.some.injEq] at hcs
      exact hcs.symm
  · intro C hC i hi
    rw [computeRecurrentClasses_eq_loop, classesLoop_eq hc r.closed hc.closed_eq states hlen]
      at hC
    obtain ⟨s, hs, rfl⟩ := List.mem_map.mp hC
    have hs2 := (mem_seedsOf _ _ _ _).mp hs
    have hmap := map_stateToIndex_classLabels r.classes states hnd s
    rw [hlen] at hmap
    have hlenC : (classLabels r.classes states s).length
        = ((List.range P.ncol).filter (r.classes s)).length := by
      rw [← hmap, List.length_map]
    unfold rowSum subMatrix
    simp only [hmap]
    rw [hlenC] at hi ⊢
    rw [sum_map_getD_range ((List.range P.ncol).filter (r.classes s))
      (fun y => P.data (((List.range P.ncol).filter (r.classes s)).getD i 0) y)]
    have hmem : ((List.range P.ncol).filter (r.classes s)).getD i 0
        ∈ (List.range P.ncol).filter (r.classes s) := by
      rw [List.getD_eq_getElem _ _ hi]
      exact List.getElem_mem _
    obtain ⟨hm1, hm2⟩ := List.mem_filter.mp hmem
    have hclosed : r.closed (((List.range P.ncol).filter (r.classes s)).getD i 0) = true := by
      rw [← hc.closed_eq _ _ hm2]; exact hs2.2.1
    rw [sum_filter_of_zero]
    · exact hstoch _ (List.mem_range.mp hm1)
    · intro y hy hsy
      apply closed_row_zero P _ r hk hnonneg _ y hclosed (List.mem_range.mp hy)
      cases hay : r.classes (((List.range P.ncol).filter (r.classes s)).getD i 0) y
      · rfl
      · rw [hc.trans _ _ _ hm2 hay] at hsy
        exact Bool.noConfusion hsy

/-- The theorem for C8 at the example chain. -/
theorem subMatrix_rowStochastic_witness :
    exampleStates.length = exampleMatrix.ncol ∧ exampleStates.Nodup ∧
    (∀ i j, i < exampleMatrix.ncol → j < exampleMatrix.ncol → 0 ≤ exampleMatrix.data i j) ∧
    (∀ i, i < exampleMatrix.ncol → rowSum exampleMatrix i = 1) ∧
    (∃ recClasses,
      (∃ fuel, recurrentClasses fuel
        { transitionMatrix := exampleMatrix, states := exampleStates, byrow := true } = some recClasses) ∧
      (∀ fuel cs, recurrentClasses fuel
        { transitionMatrix := exampleMatrix, states := exampleStates, byrow := true } = some cs →
          cs = recClasses) ∧
      ∀ C ∈ recClasses, ∀ i, i < C.length →
        rowSum (subMatrix exampleMatrix (stateToIndex exampleStates) C) i = 1) :=
  have hnonneg : ∀ i j, i < exampleMatrix.ncol → j < exampleMatrix.ncol →
      0 ≤ exampleMatrix.data i j := by
    intro i j _ _
    simp only [exampleMatrix]
    split_ifs <;> simp
  have hstoch : ∀ i, i < exampleMatrix.ncol → rowSum exampleMatrix i = 1 := by
    intro i hi
    have hi3 : i < 3 := hi
    interval_cases i <;> simp [rowSum, exampleMatrix, List.range_succ]
  ⟨by decide, by decide, hnonneg, hstoch,
    subMatrix_rowStochastic exampleMatrix exampleStates (by decide) (by decide) hnonneg hstoch⟩

/-- The theorem for C10 at the example chain, with a stand-in for the eigen-solver. -/
theorem steadyStates_zero_outside_class_witness :
    exampleChain.transitionMatrix.nrow = exampleChain.transitionMatrix.ncol ∧
    exampleChain.states.length = exampleChain.transitionMatrix.ncol ∧
    exampleChain.states.Nodup ∧
    ∃ res, steadyStatesByRecurrentClasses exampleSolver 13 exampleChain = some res ∧
    (∃ recClasses, recurrentClasses 13 exampleChain = some recClasses ∧
      res.nrow = recClasses.length ∧ res.ncol = exampleChain.transitionMatrix.ncol ∧
      ∀ k C c s, recClasses[k]? = some C → exampleChain.states[c]? = some s → s ∉ C →
        res.data k c = 0) :=
  have key : ∃ res, steadyStatesByRecurrentClasses exampleSolver 13 exampleChain = some res :=
    Option.isSome_iff_exists.mp (by decide)
  match key with
  | ⟨res, h⟩ =>
    ⟨by decide, by decide, by decide, res, h,
      steadyStates_zero_outside_class exampleSolver exampleChain (by decide) (by decide)
        (by decide) 13 res h⟩

/-! ## The linear systems of `hittingProbabilities` -/

theorem hittingShiftStep_eq (j i : Nat) (c : Nat → Nat → ℚ) (a b : Nat) :
    hittingShiftStep j i c a b
      = if a = i then (if b = j then 0 else c a b) - (if b = a then 1 else 0) else c a b := by
  unfold hittingShiftStep
  by_cases hai : a = i
  · subst hai
    by_cases hba : b = a
    · subst hba
      by_cases hbj : b = j <;> simp [hbj]
    · by_cases hbj : b = j
      · subst hbj
        simp [hba]
      · simp [hba, hbj]
  · simp [hai]

theorem hittingShift_eq (n j : Nat) (c : Nat → Nat → ℚ) (a b : Nat) :
    hittingShift n j c a b
      = if a < n then (if b = j then 0 else c a b) - (if b = a then 1 else 0) else c a b := by
  unfold hittingShift
  induction n generalizing a b with
  | zero => simp
  | succ n ih =>
    rw [List.range_succ, List.foldl_append]
    simp only [List.foldl_cons, List.foldl_nil]
    rw [hittingShiftStep_eq]
    by_cases han : a = n
    · subst han
      simp only [if_true, ih, lt_irrefl, if_false, Nat.lt_succ_self]
    · have : a < n + 1 ↔ a < n := by omega
      simp only [han, if_false, ih, this]

theorem hittingIdentityRow_eq (n i : Nat) (c : Nat → Nat → ℚ) (a b : Nat) :
    hittingIdentityRow n i c a b
      = if a = i ∧ b < n then (if b = i then 1 else 0) else c a b := by
  unfold hittingIdentityRow
  induction n generalizing a b with
  | zero => simp
  | succ n ih =>
    rw [List.range_succ, List.foldl_append]
    simp only [List.foldl_cons, List.foldl_nil]
    by_cases hni : n = i
    · subst hni
      simp only [ne_eq, not_true_eq_false, if_false]
      by_cases hab : a = n ∧ b = n
      · simp [hab]
      · simp only [hab, if_false, ih]
        by_cases han : a = n
        · have hbn : b ≠ n := fun h => hab ⟨han, h⟩
          have : b < n + 1 ↔ b < n := by omega
          simp [han, this, hbn]
        · simp [han]
    · simp only [ne_eq, hni, not_false_eq_true, if_true]
      by_cases hab : a = i ∧ b = n
      · obtain ⟨ha, hb⟩ := hab
        subst ha hb
        simp [hni]
      · simp only [hab, if_false, ih]
        by_cases hai : a = i
        · have hbn : b ≠ n := fun h => hab ⟨hai, h⟩
          have : b < n + 1 ↔ b < n := by omega
          simp [hai, this]
        · simp [hai]

theorem hittingClosedRows_eq (n j : Nat) (closed : Nat → Bool) (comm : Nat → Nat → Bool)
    (c : Nat → Nat → ℚ) (rp : Nat → ℚ) :
    (∀ a b, (hittingClosedRows n j closed comm (c, rp)).1 a b
      = if a < n ∧ closed a = true ∧ b < n then (if b = a then 1 else 0) else c a b) ∧
    (∀ a, (hittingClosedRows n j closed comm (c, rp)).2 a
      = if a < n ∧ closed a = true then (if comm a j then 1 else 0) else rp a) := by
  -- the loop over `i` is run for the first `m ≤ n` states
  have key : ∀ m, m ≤ n →
      (∀ a b, ((List.range m).foldl
          (fun (st : (Nat → Nat → ℚ) × (Nat → ℚ)) i =>
            if closed i then
              (hittingIdentityRow n i st.1,
                fun a => if a = i then (if comm i j then 1 else 0) else st.2 a)
            else st) (c, rp)).1 a b
        = if a < m ∧ closed a = true ∧ b < n then (if b = a then 1 else 0) else c a b) ∧
      (∀ a, ((List.range m).foldl
          (fun (st : (Nat → Nat → ℚ) × (Nat → ℚ)) i =>
            if closed i then
              (hittingIdentityRow n i st.1,
                fun a => if a = i then (if comm i j then 1 else 0) else st.2 a)
            else st) (c, rp)).2 a
        = if a < m ∧ closed a = true then (if comm a j then 1 else 0) else rp a) := by
    intro m
    induction m with
    | zero => intro _; simp
    | succ m ih =>
      intro hm
      obtain ⟨ih1, ih2⟩ := ih (by omega)
      rw [List.range_succ, List.foldl_append]
      simp only [List.foldl_cons, List.foldl_nil]
      cases hcm : closed m
      · simp only [Bool.false_eq_true, if_false]
        constructor
        · intro a b
          rw [ih1]
          by_cases ham : a = m
          · subst ham; simp [hcm]
          · have : a < m + 1 ↔ a < m := by omega
            simp only [this]
        · intro a
          rw [ih2]
          by_cases ham : a = m
          · subst ham; simp [hcm]
          · have : a < m + 1 ↔ a < m := by omega
            simp only [this]
      · simp only [if_true]
        constructor
        · intro a b
          rw [hittingIdentityRow_eq, ih1]
          by_cases ham : a = m
          · subst ham
            simp only [true_and, lt_irrefl, false_and, if_false, Nat.lt_succ_self, hcm]
          · have : a < m + 1 ↔ a < m := by omega
            simp only [ham, false_and, if_false, this]
        · intro a
          by_cases ham : a = m
          · subst ham
            simp [hcm]
          · have : a < m + 1 ↔ a < m := by omega
            simp only [ham, if_false, ih2, this]
  exact key n (le_refl n)

/-- The entries, inside the matrix, of the system for the target `j`. -/
theorem hittingSystem_eq (T : NumericMatrix) (r : KernelResult) (j : Nat) :
    (∀ a b, a < T.nrow → b < T.nrow → (hittingSystem T r j).1 a b
      = if r.closed a = true then (if b = a then 1 else 0)
        else (if b = j then 0 else T.data a b) - (if b = a then 1 else 0)) ∧
    (∀ a, a < T.nrow → (hittingSystem T r j).2 a
      = if r.closed a = true then (if r.classes a j then 1 else 0) else - T.data a j) := by
  obtain ⟨h1, h2⟩ := hittingClosedRows_eq T.nrow j r.closed r.classes
    (hittingShift T.nrow j T.data) (fun i => - T.data i j)
  constructor
  · intro a b ha hb
    unfold hittingSystem
    rw [h1, hittingShift_eq]
    by_cases hc : r.closed a = true
    · simp [ha, hb, hc]
    · simp [ha, hc]
  · intro a ha
    unfold hittingSystem
    rw [h2]
    by_cases hc : r.closed a = true
    · simp [ha, hc]
    · simp [hc]

theorem solves_identity_row (n : Nat) (coeffs : Nat → Nat → ℚ) (rp h : Nat → ℚ) (i : Nat)
    (hi : i < n) (hrow : ∀ k, k < n → coeffs i k = if k = i then 1 else 0)
    (hs : Solves n coeffs rp h) : h i = rp i := by
  rw [← hs i hi]
  have : ∀ k ∈ Finset.range n, coeffs i k * h k = if k = i then h k else 0 := by
    intro k hk
    rw [hrow k (Finset.mem_range.mp hk)]
    by_cases hki : k = i <;> simp [hki]
  rw [Finset.sum_congr rfl this, Finset.sum_ite_eq' (Finset.range n) i h]
  simp [hi]

/-- For a closed state, being in the same class as `j` is reaching `j`. -/
theorem closed_classes_iff_isPath (T : NumericMatrix) (fuel : Nat) (r : KernelResult)
    (hk : commClassesKernel fuel T = some r) (i j : Nat) (hi : i < T.ncol) (hj : j < T.ncol)
    (hc : r.closed i = true) : r.classes i j = true ↔ IsPath T i j := by
  obtain ⟨hcl, hclosed⟩ := kernel_returns_iff T fuel r hk
  rw [← reach_iff_isPath T i j hi, hcl]
  constructor
  · exact fun h => h.2.2.1
  · exact fun h => ⟨hi, hj, h, ((hclosed i).mp hc).2 j h⟩

/-- C11: in the system that `hittingProbabilities` builds for a target `j`, the row of a state
`i` whose class is closed is the identity row, with right-hand side 1 if `j` is reachable from
`i` and 0 otherwise; so every solution `h` has `h(i) = 1` when `j` is reachable from `i` and
`h(i) = 0` when it is not, in particular when `j` is outside the class of `i`. -/
theorem hitting_closed_rows (T : NumericMatrix) (hsq : T.nrow = T.ncol) :
    ∃ r, (∃ fuel, commClassesKernel fuel T = some r) ∧
      (∀ fuel r', commClassesKernel fuel T = some r' → r' = r) ∧
      ∀ i j, i < T.ncol → j < T.ncol → r.closed i = true →
        (∀ k, k < T.ncol → (hittingSystem T r j).1 i k = if k = i then 1 else 0) ∧
        (IsPath T i j → (hittingSystem T r j).2 i = 1) ∧
        (¬ IsPath T i j → (hittingSystem T r j).2 i = 0) ∧
        (∀ h, Solves T.ncol (hittingSystem T r j).1 (hittingSystem T r j).2 h →
          (IsPath T i j → h i = 1) ∧ (¬ IsPath T i j → h i = 0) ∧
          (r.classes i j = false → h i = 0)) := by
  obtain ⟨c, -, hk, -, -⟩ := commClassesKernel_spec T
  generalize classify T.ncol c = r at hk
  refine ⟨r, ⟨_, hk⟩, fun fuel r2 h2 => commClassesKernel_unique T _ _ _ _ h2 hk, ?_⟩
  intro i j hi hj hc
  obtain ⟨hco, hrp⟩ := hittingSystem_eq T r j
  have hiff := closed_classes_iff_isPath T _ r hk i j hi hj hc
  have hrow : ∀ k, k < T.ncol → (hittingSystem T r j).1 i k = if k = i then 1 else 0 := by
    intro k hkn
    rw [hco i k (by omega) (by omega)]
    simp [hc]
  have hrhs : (hittingSystem T r j).2 i = if r.classes i j then 1 else 0 := by
    rw [hrp i (by omega)]
    simp [hc]
  have h1 : IsPath T i j → (hittingSystem T r j).2 i = 1 := by
    intro hp
    rw [hrhs, hiff.mpr hp]
    rfl
  have h0 : ¬ IsPath T i j → (hittingSystem T r j).2 i = 0 := by
    intro hp
    have : r.classes i j = false := by
      cases hcl : r.classes i j
      · rfl
      · exact absurd (hiff.mp hcl) hp
    rw [hrhs, this]
    rfl
  refine ⟨hrow, h1, h0, ?_⟩
  intro h hs
  have hval := solves_identity_row T.ncol _ _ h i hi hrow hs
  refine ⟨fun hp => by rw [hval, h1 hp], fun hp => by rw [hval, h0 hp], ?_⟩
  intro hcl
  rw [hval, hrhs, hcl]
  rfl

theorem sum_erase_eq_sum_ite (n j : Nat) (f : Nat → ℚ) :
    ((Finset.range n).erase j).sum f = (Finset.range n).sum (fun k => if k = j then 0 else f k) := by
  rw [← Finset.sum_erase (Finset.range n) (a := j) (f := fun k => if k = j then 0 else f k)
    (by simp)]
  apply Finset.sum_congr rfl
  intro k hk
  simp [Finset.ne_of_mem_erase hk]

/-- The equation of a state that is not closed, in the system for the target `j`. -/
theorem solves_open_row (T : NumericMatrix) (r : KernelResult) (j : Nat) (h : Nat → ℚ)
    (hs : Solves T.nrow (hittingSystem T r j).1 (hittingSystem T r j).2 h) (i : Nat)
    (hi : i < T.nrow) (hc : r.closed i = false) :
    h i = T.data i j + ((Finset.range T.nrow).erase j).sum (fun k => T.data i k * h k) := by
  obtain ⟨hco, hrp⟩ := hittingSystem_eq T r j
  have hrow := hs i hi
  rw [hrp i hi] at hrow
  simp only [hc, Bool.false_eq_true, if_false] at hrow
  have hterm : ∀ k ∈ Finset.range T.nrow, (hittingSystem T r j).1 i k * h k
      = (if k = j then 0 else T.data i k * h k) - (if k = i then h k else 0) := by
    intro k hk
    rw [hco i k hi (Finset.mem_range.mp hk)]
    simp only [hc, Bool.false_eq_true, if_false]
    by_cases hkj : k = j
    · subst hkj
      by_cases hki : k = i
      · subst hki; simp
      · simp [hki]
    · by_cases hki : k = i
      · subst hki
        simp only [hkj, if_false, if_true]
        ring
      · simp [hkj, hki]
  rw [Finset.sum_congr rfl hterm, Finset.sum_sub_distrib,
    Finset.sum_ite_eq' (Finset.range T.nrow) i h] at hrow
  simp only [Finset.mem_range, hi, if_true] at hrow
  rw [sum_erase_eq_sum_ite]
  linarith

/-- C12: every solution `h` of the system that `hittingProbabilities` builds for a target `j`
satisfies the first-step equation `h(i) = P(i, j) + sum over k ≠ j of P(i, k) * h(k)` at every
state `i` whose class is not closed, `i = j` included. -/
theorem hitting_first_step (T : NumericMatrix) (hsq : T.nrow = T.ncol) :
    ∃ r, (∃ fuel, commClassesKernel fuel T = some r) ∧
      (∀ fuel r', commClassesKernel fuel T = some r' → r' = r) ∧
      ∀ j h, j < T.ncol →
        Solves T.ncol (hittingSystem T r j).1 (hittingSystem T r j).2 h →
        ∀ i, i < T.ncol → r.closed i = false →
          h i = T.data i j + ((Finset.range T.ncol).erase j).sum (fun k => T.data i k * h k) := by
  obtain ⟨c, -, hk, -, -⟩ := commClassesKernel_spec T
  generalize classify T.ncol c = r at hk
  refine ⟨r, ⟨_, hk⟩, fun fuel r2 h2 => commClassesKernel_unique T _ _ _ _ h2 hk, ?_⟩
  intro j h _ hs i hi hc
  rw [← hsq] at hs hi ⊢
  exact solves_open_row T r j h hs i hi hc

/-! ## Closed states are reachable from everywhere -/

/-- From every state some state of a closed class is reachable. -/
theorem exists_closed_reachable (T : NumericMatrix) (fuel : Nat) (r : KernelResult)
    (hk : commClassesKernel fuel T = some r) (k : Nat) (hkn : k < T.ncol) :
    ∃ c, Reach T k c ∧ r.closed c = true := by
  obtain ⟨comm, -, -, hlow, -⟩ := commClassesKernel_spec T
  obtain ⟨-, hclosed⟩ := kernel_returns_iff T fuel r hk
  have key : ∀ N k, k < T.ncol →
      ((Finset.range T.ncol).filter (fun x => comm k x = true)).card = N →
      ∃ c, Reach T k c ∧ r.closed c = true := by
    intro N
    induction N using Nat.strong_induction_on with
    | _ N ih =>
      intro k hkn hN
      by_cases hc : r.closed k = true
      · exact ⟨k, Relation.ReflTransGen.refl, hc⟩
      · have hnot : ¬ ∀ j, Reach T k j → Reach T j k :=
          fun h => hc ((hclosed k).mpr ⟨hkn, h⟩)
        push_neg at hnot
        obtain ⟨y, hky, hyk⟩ := hnot
        have hyn := hky.lt hkn
        have hlt : ((Finset.range T.ncol).filter (fun x => comm y x = true)).card
            < ((Finset.range T.ncol).filter (fun x => comm k x = true)).card := by
          apply Finset.card_lt_card
          rw [Finset.ssubset_iff_of_subset]
          · refine ⟨k, ?_, ?_⟩
            · simp only [Finset.mem_filter, Finset.mem_range]
              exact ⟨hkn, (hlow k hkn k).mpr Relation.ReflTransGen.refl⟩
            · simp only [Finset.mem_filter, Finset.mem_range, not_and]
              intro _ h
              exact hyk ((hlow y hyn k).mp h)
          · intro x hx
            simp only [Finset.mem_filter, Finset.mem_range] at hx ⊢
            exact ⟨hx.1, (hlow k hkn x).mpr (hky.trans ((hlow y hyn x).mp hx.2))⟩
        obtain ⟨c, hyc, hcc⟩ := ih _ (by rw [← hN]; exact hlt) y hyn rfl
        exact ⟨c, hky.trans hyc, hcc⟩
  exact key _ k hkn rfl

theorem rowSum_eq_sum (T : NumericMatrix) (i : Nat) :
    rowSum T i = (Finset.range T.ncol).sum (fun l => T.data i l) := by
  unfold rowSum
  generalize T.ncol = n
  induction n with
  | zero => simp
  | succ n ih => rw [List.range_succ, List.map_append, List.sum_append, ih,
      Finset.sum_range_succ]; simp

/-- A maximum principle: on a set of states from each of which a state outside the set can be
reached, a function that is at most its own average over the set is nowhere positive. -/
theorem max_principle (T : NumericMatrix)
    (hnonneg : ∀ i j, i < T.ncol → j < T.ncol → 0 ≤ T.data i j)
    (hstoch : ∀ i, i < T.ncol → rowSum T i = 1) (S : Finset Nat)
    (hS : S ⊆ Finset.range T.ncol) (hexit : ∀ k ∈ S, ∃ y, Reach T k y ∧ y ∉ S)
    (u : Nat → ℚ) (hu : ∀ k ∈ S, u k ≤ S.sum (fun l => T.data k l * u l)) :
    ∀ k ∈ S, u k ≤ 0 := by
  by_contra hcon
  push_neg at hcon
  obtain ⟨k1, hk1S, hk1⟩ := hcon
  obtain ⟨k0, hk0S, hmax⟩ := Finset.exists_max_image S u ⟨k1, hk1S⟩
  have hm : 0 < u k0 := lt_of_lt_of_le hk1 (hmax k1 hk1S)
  have hclosure : ∀ k ∈ S, u k = u k0 → ∀ l, l < T.ncol → 0 < T.data k l →
      l ∈ S ∧ u l = u k0 := by
    intro k hkS hkm l hl hpos
    have hkn : k < T.ncol := Finset.mem_range.mp (hS hkS)
    have hrow : (Finset.range T.ncol).sum (fun l => T.data k l) = 1 := by
      rw [← rowSum_eq_sum]; exact hstoch k hkn
    have hnn : ∀ l ∈ Finset.range T.ncol, 0 ≤ T.data k l :=
      fun l hl => hnonneg k l hkn (Finset.mem_range.mp hl)
    -- the chain of inequalities `m ≤ A ≤ m * (sum over S) ≤ m`
    have h1 : u k0 ≤ S.sum (fun l => T.data k l * u l) := by rw [← hkm]; exact hu k hkS
    have h2 : S.sum (fun l => T.data k l * (u k0 - u l)) ≥ 0 := by
      apply Finset.sum_nonneg
      intro l hl
      exact mul_nonneg (hnn l (hS hl)) (sub_nonneg.mpr (hmax l hl))
    have h3 : S.sum (fun l => T.data k l * (u k0 - u l))
        = u k0 * S.sum (fun l => T.data k l) - S.sum (fun l => T.data k l * u l) := by
      rw [Finset.mul_sum, ← Finset.sum_sub_distrib]
      apply Finset.sum_congr rfl
      intro l _
      ring
    have h4 := Finset.sum_sdiff hS (f := fun l => T.data k l)
    have h5 : 0 ≤ (Finset.range T.ncol \ S).sum (fun l => T.data k l) :=
      Finset.sum_nonneg (fun l hl => hnn l (Finset.mem_sdiff.mp hl).1)
    have h6 : u k0 * (Finset.range T.ncol \ S).sum (fun l => T.data k l) ≥ 0 :=
      mul_nonneg hm.le h5
    have hS1 : S.sum (fun l => T.data k l)
        = 1 - (Finset.range T.ncol \ S).sum (fun l => T.data k l) := by linarith
    have hz1 : S.sum (fun l => T.data k l * (u k0 - u l)) = 0 := by
      rw [h3, hS1] at h2
      rw [h3, hS1]
      nlinarith
    have hz2 : (Finset.range T.ncol \ S).sum (fun l => T.data k l) = 0 := by
      rw [h3, hS1] at hz1
      have : u k0 * (Finset.range T.ncol \ S).sum (fun l => T.data k l) ≤ 0 := by nlinarith
      have h7 : u k0 * (Finset.range T.ncol \ S).sum (fun l => T.data k l) = 0 :=
        le_antisymm this h6
      rcases mul_eq_zero.mp h7 with h | h
      · exact absurd h hm.ne'
      · exact h
    have hlS : l ∈ S := by
      by_contra hnot
      have := (Finset.sum_eq_zero_iff_of_nonneg
        (fun l hl => hnn l (Finset.mem_sdiff.mp hl).1)).mp hz2 l
        (Finset.mem_sdiff.mpr ⟨Finset.mem_range.mpr hl, hnot⟩)
      rw [this] at hpos
      exact lt_irrefl _ hpos
    refine ⟨hlS, ?_⟩
    have := (Finset.sum_eq_zero_iff_of_nonneg
      (fun l hl => mul_nonneg (hnn l (hS hl)) (sub_nonneg.mpr (hmax l hl)))).mp hz1 l hlS
    rcases mul_eq_zero.mp this with h | h
    · rw [h] at hpos; exact absurd hpos (lt_irrefl _)
    · linarith
  have hreach : ∀ y, Reach T k0 y → y ∈ S ∧ u y = u k0 := by
    intro y hy
    induction hy with
    | refl => exact ⟨hk0S, rfl⟩
    | tail _ hbc ih =>
      have hbc2 := (mem_adjacencies T _ _).mp hbc
      exact hclosure _ ih.1 ih.2 _ hbc2.1 hbc2.2
  obtain ⟨y, hy, hyS⟩ := hexit k0 hk0S
  exact hyS (hreach y hy).1

/-! ## Solvability of the hitting systems -/

/-- A square system whose homogeneous form has only the zero solution has a solution for every
right-hand side. -/
theorem exists_solution_of_unique (n : Nat) (coeffs : Nat → Nat → ℚ) (rp : Nat → ℚ)
    (huniq : ∀ h : Nat → ℚ,
      (∀ i, i < n → (Finset.range n).sum (fun k => coeffs i k * h k) = 0) →
      ∀ k, k < n → h k = 0) :
    ∃ h, Solves n coeffs rp h := by
  let A : Matrix (Fin n) (Fin n) ℚ := Matrix.of (fun i k => coeffs i.val k.val)
  have hsum : ∀ (x : Fin n → ℚ) (i : Fin n),
      (Finset.range n).sum
        (fun k => coeffs i.val k * (if hk : k < n then x ⟨k, hk⟩ else 0))
      = (A.mulVec x) i := by
    intro x i
    rw [← Fin.sum_univ_eq_sum_range
      (fun k => coeffs i.val k * (if hk : k < n then x ⟨k, hk⟩ else 0)) n]
    simp only [Matrix.mulVec, Matrix.dotProduct, A, Matrix.of_apply]
    apply Finset.sum_congr rfl
    intro k _
    simp
  have hinj : Function.Injective (Matrix.mulVecLin A) := by
    rw [injective_iff_map_eq_zero]
    intro x hx
    have hx2 : ∀ i, (A.mulVec x) i = 0 := fun i => by
      have := congrFun hx i
      simpa using this
    have hz := huniq (fun k => if hk : k < n then x ⟨k, hk⟩ else 0)
      (fun i hi => by rw [hsum x ⟨i, hi⟩]; exact hx2 ⟨i, hi⟩)
    funext k
    have := hz k.val k.isLt
    simpa using this
  have hsurj : Function.Surjective (Matrix.mulVecLin A) :=
    LinearMap.injective_iff_surjective.mp hinj
  obtain ⟨x, hx⟩ := hsurj (fun i => rp i.val)
  refine ⟨fun k => if hk : k < n then x ⟨k, hk⟩ else 0, ?_⟩
  intro i hi
  rw [hsum x ⟨i, hi⟩]
  have := congrFun hx ⟨i, hi⟩
  simpa using this

/-- The left-hand side of the row of a state that is not closed. -/
theorem hitting_open_row_sum (T : NumericMatrix) (r : KernelResult) (j : Nat) (h : Nat → ℚ)
    (i : Nat) (hi : i < T.nrow) (hc : r.closed i = false) :
    (Finset.range T.nrow).sum (fun k => (hittingSystem T r j).1 i k * h k)
      = ((Finset.range T.nrow).erase j).sum (fun k => T.data i k * h k) - h i := by
  obtain ⟨hco, -⟩ := hittingSystem_eq T r j
  have hterm : ∀ k ∈ Finset.range T.nrow, (hittingSystem T r j).1 i k * h k
      = (if k = j then 0 else T.data i k * h k) - (if k = i then h k else 0) := by
    intro k hk
    rw [hco i k hi (Finset.mem_range.mp hk)]
    simp only [hc, Bool.false_eq_true, if_false]
    by_cases hkj : k = j
    · subst hkj
      by_cases hki : k = i
      · subst hki; simp
      · simp [hki]
    · by_cases hki : k = i
      · subst hki
        simp only [hkj, if_false, if_true]
        ring
      · simp [hkj, hki]
  rw [Finset.sum_congr rfl hterm, Finset.sum_sub_distrib,
    Finset.sum_ite_eq' (Finset.range T.nrow) i h, sum_erase_eq_sum_ite]
  simp [hi]

/-- The left-hand side of the row of a closed state. -/
theorem hitting_closed_row_sum (T : NumericMatrix) (r : KernelResult) (j : Nat) (h : Nat → ℚ)
    (i : Nat) (hi : i < T.nrow) (hc : r.closed i = true) :
    (Finset.range T.nrow).sum (fun k => (hittingSystem T r j).1 i k * h k) = h i := by
  obtain ⟨hco, -⟩ := hittingSystem_eq T r j
  have hterm : ∀ k ∈ Finset.range T.nrow, (hittingSystem T r j).1 i k * h k
      = if k = i then h k else 0 := by
    intro k hk
    rw [hco i k hi (Finset.mem_range.mp hk)]
    by_cases hki : k = i <;> simp [hc, hki]
  rw [Finset.sum_congr rfl hterm, Finset.sum_ite_eq' (Finset.range T.nrow) i h]
  simp [hi]

/-- The homogeneous form of a hitting system of a stochastic matrix has only the zero
solution. -/
theorem hitting_homogeneous_zero (T : NumericMatrix) (hsq : T.nrow = T.ncol)
    (hnonneg : ∀ i j, i < T.ncol → j < T.ncol → 0 ≤ T.data i j)
    (hstoch : ∀ i, i < T.ncol → rowSum T i = 1) (fuel : Nat) (r : KernelResult)
    (hk : commClassesKernel fuel T = some r) (j : Nat) (h : Nat → ℚ)
    (hh : ∀ i, i < T.ncol →
      (Finset.range T.ncol).sum (fun k => (hittingSystem T r j).1 i k * h k) = 0) :
    ∀ k, k < T.ncol → h k = 0 := by
  have hclosedz : ∀ c, c < T.ncol → r.closed c = true → h c = 0 := by
    intro c hc hcl
    have := hh c hc
    rw [← hsq] at this hc
    rwa [hitting_closed_row_sum T r j h c hc hcl] at this
  have hopen : ∀ k, k < T.ncol → r.closed k = false →
      h k = (((Finset.range T.ncol).erase j).filter (fun l => r.closed l = false)).sum
        (fun l => T.data k l * h l) := by
    intro k hkn hcl
    have h1 := hh k hkn
    rw [← hsq] at h1 hkn
    rw [hitting_open_row_sum T r j h k hkn hcl, hsq] at h1
    have h2 : (((Finset.range T.ncol).erase j).filter (fun l => r.closed l = false)).sum
        (fun l => T.data k l * h l)
        = ((Finset.range T.ncol).erase j).sum (fun l => T.data k l * h l) := by
      apply Finset.sum_subset (Finset.filter_subset _ _)
      intro l hl hnot
      have hln : l < T.ncol := Finset.mem_range.mp (Finset.mem_of_mem_erase hl)
      have hlc : r.closed l = true := by
        cases hcl2 : r.closed l
        · exact absurd (Finset.mem_filter.mpr ⟨hl, hcl2⟩) hnot
        · rfl
      rw [hclosedz l hln hlc, mul_zero]
    rw [h2]
    linarith
  have hSsub : ((Finset.range T.ncol).erase j).filter (fun l => r.closed l = false)
      ⊆ Finset.range T.ncol :=
    fun l hl => Finset.mem_of_mem_erase (Finset.mem_filter.mp hl).1
  have hexit : ∀ k ∈ ((Finset.range T.ncol).erase j).filter (fun l => r.closed l = false),
      ∃ y, Reach T k y ∧
        y ∉ ((Finset.range T.ncol).erase j).filter (fun l => r.closed l = false) := by
    intro k hkS
    obtain ⟨c, hkc, hcc⟩ := exists_closed_reachable T fuel r hk k
      (Finset.mem_range.mp (hSsub hkS))
    refine ⟨c, hkc, fun hmem => ?_⟩
    rw [(Finset.mem_filter.mp hmem).2] at hcc
    exact Bool.false_ne_true hcc
  have hle := max_principle T hnonneg hstoch _ hSsub hexit h (fun k hkS => by
    rw [← hopen k (Finset.mem_range.mp (hSsub hkS)) (Finset.mem_filter.mp hkS).2])
  have hge := max_principle T hnonneg hstoch _ hSsub hexit (fun l => - h l) (fun k hkS => by
    have := hopen k (Finset.mem_range.mp (hSsub hkS)) (Finset.mem_filter.mp hkS).2
    simp only [mul_neg, Finset.sum_neg_distrib, neg_le_neg_iff]
    exact this.ge)
  have hSz : ∀ l ∈ ((Finset.range T.ncol).erase j).filter (fun l => r.closed l = false),
      h l = 0 := by
    intro l hl
    have a := hle l hl
    have b := hge l hl
    simp only [neg_nonpos] at b
    exact le_antisymm a b
  intro k hkn
  cases hcl : r.closed k
  · rw [hopen k hkn hcl]
    apply Finset.sum_eq_zero
    intro l hl
    rw [hSz l hl, mul_zero]
  · exact hclosedz k hkn hcl

/-- The hitting system of a stochastic matrix has exactly one solution, for every target. -/
theorem hitting_unique_solution (T : NumericMatrix) (hsq : T.nrow = T.ncol)
    (hnonneg : ∀ i j, i < T.ncol → j < T.ncol → 0 ≤ T.data i j)
    (hstoch : ∀ i, i < T.ncol → rowSum T i = 1) (fuel : Nat) (r : KernelResult)
    (hk : commClassesKernel fuel T = some r) (j : Nat) :
    ∃ h, Solves T.ncol (hittingSystem T r j).1 (hittingSystem T r j).2 h ∧
      ∀ h', Solves T.ncol (hittingSystem T r j).1 (hittingSystem T r j).2 h' →
        ∀ k, k < T.ncol → h' k = h k := by
  obtain ⟨h, hs⟩ := exists_solution_of_unique T.ncol (hittingSystem T r j).1
    (hittingSystem T r j).2 (hitting_homogeneous_zero T hsq hnonneg hstoch fuel r hk j)
  refine ⟨h, hs, ?_⟩
  intro h' hs' k hkn
  have := hitting_homogeneous_zero T hsq hnonneg hstoch fuel r hk j (fun l => h' l - h l)
    (fun i hi => by
      have a := hs i hi
      have b := hs' i hi
      simp only [mul_sub, Finset.sum_sub_distrib]
      rw [a, b, sub_self]) k hkn
  simp only at this
  linarith

/-- In the solution for the target `j`, a state from which `j` cannot be reached has the
value 0. -/
theorem hitting_zero_of_unreachable (T : NumericMatrix) (hsq : T.nrow = T.ncol)
    (hnonneg : ∀ i j, i < T.ncol → j < T.ncol → 0 ≤ T.data i j)
    (hstoch : ∀ i, i < T.ncol → rowSum T i = 1) (fuel : Nat) (r : KernelResult)
    (hk : commClassesKernel fuel T = some r) (j : Nat) (hj : j < T.ncol) (h : Nat → ℚ)
    (hs : Solves T.ncol (hittingSystem T r j).1 (hittingSystem T r j).2 h) (i : Nat)
    (hi : i < T.ncol) (hij : ¬ Reach T i j) : h i = 0 := by
  obtain ⟨comm, -, -, hlow, -⟩ := commClassesKernel_spec T
  obtain ⟨hcl, -⟩ := kernel_returns_iff T fuel r hk
  obtain ⟨-, hrp⟩ := hittingSystem_eq T r j
  have hcomm : ∀ k, k < T.ncol → (comm k j = false ↔ ¬ Reach T k j) := by
    intro k hkn
    rw [← hlow k hkn j]
    simp
  -- closed states that do not reach `j` have the value 0
  have hclosedz : ∀ c, c < T.ncol → r.closed c = true → ¬ Reach T c j → h c = 0 := by
    intro c hc hcc hcj
    have h1 := hs c hc
    rw [← hsq] at h1 hc
    rw [hitting_closed_row_sum T r j h c hc hcc, hrp c hc] at h1
    have : r.classes c j = false := by
      cases hx : r.classes c j
      · rfl
      · exact absurd ((hcl c j).mp hx).2.2.1 hcj
    rw [h1]
    simp [hcc, this]
  have hSsub : (Finset.range T.ncol).filter (fun k => comm k j = false ∧ r.closed k = false)
      ⊆ Finset.range T.ncol := Finset.filter_subset _ _
  have hmemS : ∀ k, k ∈ (Finset.range T.ncol).filter
      (fun k => comm k j = false ∧ r.closed k = false) ↔
      k < T.ncol ∧ ¬ Reach T k j ∧ r.closed k = false := by
    intro k
    simp only [Finset.mem_filter, Finset.mem_range]
    constructor
    · rintro ⟨h1, h2, h3⟩
      exact ⟨h1, (hcomm k h1).mp h2, h3⟩
    · rintro ⟨h1, h2, h3⟩
      exact ⟨h1, (hcomm k h1).mpr h2, h3⟩
  have hopen : ∀ k ∈ (Finset.range T.ncol).filter
      (fun k => comm k j = false ∧ r.closed k = false),
      h k = ((Finset.range T.ncol).filter
        (fun k => comm k j = false ∧ r.closed k = false)).sum (fun l => T.data k l * h l) := by
    intro k hkS
    obtain ⟨hkn, hkj, hkc⟩ := (hmemS k).mp hkS
    have h1 : h k = T.data k j
        + ((Finset.range T.ncol).erase j).sum (fun l => T.data k l * h l) := by
      have hs2 := hs
      rw [← hsq] at hs2 hkn ⊢
      exact solves_open_row T r j h hs2 k hkn hkc
    have h2 : T.data k j = 0 := by
      by_contra hne
      have hpos : 0 < T.data k j := lt_of_le_of_ne (hnonneg k j hkn hj) (Ne.symm hne)
      exact hkj (Relation.ReflTransGen.single ((mem_adjacencies T k j).mpr ⟨hj, hpos⟩))
    have h3 : ((Finset.range T.ncol).filter
        (fun k => comm k j = false ∧ r.closed k = false)).sum (fun l => T.data k l * h l)
        = ((Finset.range T.ncol).erase j).sum (fun l => T.data k l * h l) := by
      apply Finset.sum_subset
      · intro l hl
        obtain ⟨hln, hlj, -⟩ := (hmemS l).mp hl
        refine Finset.mem_erase.mpr ⟨?_, Finset.mem_range.mpr hln⟩
        intro hx
        rw [hx] at hlj
        exact hlj Relation.ReflTransGen.refl
      · intro l hl hnot
        have hln : l < T.ncol := Finset.mem_range.mp (Finset.mem_of_mem_erase hl)
        by_cases hz : T.data k l = 0
        · rw [hz, zero_mul]
        · have hpos : 0 < T.data k l := lt_of_le_of_ne (hnonneg k l hkn hln) (Ne.symm hz)
          have hkl : Reach T k l :=
            Relation.ReflTransGen.single ((mem_adjacencies T k l).mpr ⟨hln, hpos⟩)
          have hlj : ¬ Reach T l j := fun hx => hkj (hkl.trans hx)
          have hlc : r.closed l = true := by
            cases hx : r.closed l
            · exact absurd ((hmemS l).mpr ⟨hln, hlj, hx⟩) hnot
            · rfl
          rw [hclosedz l hln hlc hlj, mul_zero]
    rw [h1, h2, h3, zero_add]
  have hexit : ∀ k ∈ (Finset.range T.ncol).filter
      (fun k => comm k j = false ∧ r.closed k = false),
      ∃ y, Reach T k y ∧ y ∉ (Finset.range T.ncol).filter
        (fun k => comm k j = false ∧ r.closed k = false) := by
    intro k hkS
    obtain ⟨c, hkc, hcc⟩ := exists_closed_reachable T fuel r hk k ((hmemS k).mp hkS).1
    refine ⟨c, hkc, fun hmem => ?_⟩
    rw [((hmemS c).mp hmem).2.2] at hcc
    exact Bool.false_ne_true hcc
  by_cases hic : r.closed i = true
  · exact hclosedz i hi hic hij
  · have hic2 : r.closed i = false := by simpa using hic
    have hiS := (hmemS i).mpr ⟨hi, hij, hic2⟩
    have hle := max_principle T hnonneg hstoch _ hSsub hexit h
      (fun k hkS => (hopen k hkS).le) i hiS
    have hge := max_principle T hnonneg hstoch _ hSsub hexit (fun l => - h l)
      (fun k hkS => by
        simp only [mul_neg, Finset.sum_neg_distrib, neg_le_neg_iff]
        exact (hopen k hkS).ge) i hiS
    simp only [neg_nonpos] at hge
    exact le_antisymm hle hge

/-- C14: for a row-stochastic matrix with non-negative entries, a state `i` whose class is not
closed and a state `j` that is not reachable from `i`, the system that `hittingProbabilities`
builds for the target `j` has exactly one solution, and its component `h(i)` is 0. -/
theorem hitting_transient_unreachable (T : NumericMatrix) (hsq : T.nrow = T.ncol)
    (hnonneg : ∀ i j, i < T.ncol → j < T.ncol → 0 ≤ T.data i j)
    (hstoch : ∀ i, i < T.ncol → rowSum T i = 1) :
    ∃ r, (∃ fuel, commClassesKernel fuel T = some r) ∧
      (∀ fuel r', commClassesKernel fuel T = some r' → r' = r) ∧
      ∀ i j, i < T.ncol → j < T.ncol → r.closed i = false → ¬ IsPath T i j →
        ∃ h, Solves T.ncol (hittingSystem T r j).1 (hittingSystem T r j).2 h ∧
          (∀ h', Solves T.ncol (hittingSystem T r j).1 (hittingSystem T r j).2 h' →
            ∀ k, k < T.ncol → h' k = h k) ∧
          h i = 0 := by
  obtain ⟨c, -, hk, -, -⟩ := commClassesKernel_spec T
  generalize classify T.ncol c = r at hk
  refine ⟨r, ⟨_, hk⟩, fun fuel r2 h2 => commClassesKernel_unique T _ _ _ _ h2 hk, ?_⟩
  intro i j hi hj _ hij
  obtain ⟨h, hs, huniq⟩ := hitting_unique_solution T hsq hnonneg hstoch _ r hk j
  refine ⟨h, hs, huniq, ?_⟩
  apply hitting_zero_of_unreachable T hsq hnonneg hstoch _ r hk j hj h hs i hi
  rw [reach_iff_isPath T i j hi]
  exact hij

/-- In the system for a target `j` whose class is not closed, the solution is strictly below 1
at `j` itself. -/
theorem hitting_open_diagonal_lt (T : NumericMatrix) (hsq : T.nrow = T.ncol)
    (hnonneg : ∀ i j, i < T.ncol → j < T.ncol → 0 ≤ T.data i j)
    (hstoch : ∀ i, i < T.ncol → rowSum T i = 1) (fuel : Nat) (r : KernelResult)
    (hk : commClassesKernel fuel T = some r) (j : Nat) (hj : j < T.ncol)
    (hjc : r.closed j = false) (h : Nat → ℚ)
    (hs : Solves T.ncol (hittingSystem T r j).1 (hittingSystem T r j).2 h) : h j < 1 := by
  obtain ⟨hcl, hclosed⟩ := kernel_returns_iff T fuel r hk
  obtain ⟨-, hrp⟩ := hittingSystem_eq T r j
  have hclosedz : ∀ c, c < T.ncol → r.closed c = true → h c = 0 := by
    intro c hc hcc
    have h1 := hs c hc
    rw [← hsq] at h1 hc
    rw [hitting_closed_row_sum T r j h c hc hcc, hrp c hc] at h1
    have hx : r.classes c j = false := by
      cases hx : r.classes c j
      · rfl
      · exfalso
        obtain ⟨-, -, hcj, -⟩ := (hcl c j).mp hx
        have hcall := ((hclosed c).mp hcc).2
        have hjt : r.closed j = true :=
          (hclosed j).mpr ⟨hj, fun y hy => (hcall y (hcj.trans hy)).trans hcj⟩
        rw [hjc] at hjt
        exact Bool.false_ne_true hjt
    rw [h1]
    simp [hcc, hx]
  have hueq : ∀ k, k < T.ncol → r.closed k = false →
      h k - 1 = ((Finset.range T.ncol).erase j).sum (fun l => T.data k l * (h l - 1)) := by
    intro k hkn hkc
    have h1 : h k = T.data k j
        + ((Finset.range T.ncol).erase j).sum (fun l => T.data k l * h l) := by
      have hs2 := hs
      rw [← hsq] at hs2 hkn ⊢
      exact solves_open_row T r j h hs2 k hkn hkc
    have h2 : (Finset.range T.ncol).sum (fun l => T.data k l) = 1 := by
      rw [← rowSum_eq_sum]
      exact hstoch k hkn
    rw [← Finset.add_sum_erase _ _ (Finset.mem_range.mpr hj)] at h2
    simp only [mul_sub, mul_one, Finset.sum_sub_distrib]
    linarith
  have hmemS : ∀ k, k ∈ ((Finset.range T.ncol).erase j).filter (fun k => r.closed k = false) ↔
      k ≠ j ∧ k < T.ncol ∧ r.closed k = false := by
    intro k
    simp only [Finset.mem_filter, Finset.mem_erase, Finset.mem_range]
    tauto
  have hle : ∀ k ∈ ((Finset.range T.ncol).erase j).filter (fun k => r.closed k = false),
      (fun l => h l - 1) k ≤ 0 := by
    apply max_principle T hnonneg hstoch
    · intro k hkS
      exact Finset.mem_range.mpr ((hmemS k).mp hkS).2.1
    · intro k hkS
      obtain ⟨c, hkc, hcc⟩ := exists_closed_reachable T fuel r hk k ((hmemS k).mp hkS).2.1
      refine ⟨c, hkc, fun hmem => ?_⟩
      rw [((hmemS c).mp hmem).2.2] at hcc
      exact Bool.false_ne_true hcc
    · intro k hkS
      obtain ⟨-, hkn, hkc⟩ := (hmemS k).mp hkS
      show h k - 1 ≤ _
      rw [hueq k hkn hkc,
        ← Finset.sum_filter_add_sum_filter_not ((Finset.range T.ncol).erase j)
          (fun k => r.closed k = false)]
      have hneg : (((Finset.range T.ncol).erase j).filter
          (fun k => ¬ r.closed k = false)).sum (fun l => T.data k l * (h l - 1)) ≤ 0 := by
        apply Finset.sum_nonpos
        intro l hl
        simp only [Finset.mem_filter, Finset.mem_erase, Finset.mem_range,
          Bool.not_eq_false] at hl
        rw [hclosedz l hl.1.2 hl.2]
        have := hnonneg k l hkn hl.1.2
        linarith
      linarith
  have hterm : ∀ k, k < T.ncol → ∀ l ∈ (Finset.range T.ncol).erase j,
      T.data k l * (h l - 1) ≤ 0 := by
    intro k hkn l hl
    have hln : l < T.ncol := Finset.mem_range.mp (Finset.mem_of_mem_erase hl)
    have hnn := hnonneg k l hkn hln
    by_cases hlc : r.closed l = true
    · rw [hclosedz l hln hlc]
      linarith
    · have hlc2 : r.closed l = false := by simpa using hlc
      have := hle l ((hmemS l).mpr ⟨Finset.ne_of_mem_erase hl, hln, hlc2⟩)
      exact mul_nonpos_iff.mpr (Or.inl ⟨hnn, this⟩)
  have hjle : h j - 1 ≤ 0 := by
    rw [hueq j hj hjc]
    exact Finset.sum_nonpos (hterm j hj)
  by_contra hcon
  have hj1 : h j = 1 := by
    push_neg at hcon
    linarith
  have hQ : ∀ y, Reach T j y → y < T.ncol ∧ r.closed y = false ∧ h y = 1 := by
    intro y hy
    induction hy with
    | refl => exact ⟨hj, hjc, hj1⟩
    | @tail b c _ hbc ih =>
      obtain ⟨hbn, hbo, hb1⟩ := ih
      obtain ⟨hcn, hpos⟩ := (mem_adjacencies T b c).mp hbc
      by_cases hcj : c = j
      · rw [hcj]
        exact ⟨hj, hjc, hj1⟩
      · have h0 := hueq b hbn hbo
        rw [hb1, sub_self] at h0
        have hz := (Finset.sum_eq_zero_iff_of_nonpos (hterm b hbn)).mp h0.symm c
          (Finset.mem_erase.mpr ⟨hcj, Finset.mem_range.mpr hcn⟩)
        have hc1 : h c = 1 := by
          rcases mul_eq_zero.mp hz with h3 | h3
          · rw [h3] at hpos
            exact absurd hpos (lt_irrefl _)
          · linarith
        refine ⟨hcn, ?_, hc1⟩
        cases hx : r.closed c
        · rfl
        · rw [hclosedz c hcn hx] at hc1
          norm_num at hc1
  obtain ⟨c, hjc2, hcc⟩ := exists_closed_reachable T fuel r hk j hj
  rw [(hQ c hjc2).2.1] at hcc
  exact Bool.false_ne_true hcc

/-- C13: for a row-stochastic matrix with non-negative entries, the system that
`hittingProbabilities` builds for the target `i` has exactly one solution `h`, and the diagonal
entry `h(i)` of the hitting-probability matrix is 1 if and only if the class of `i` is closed;
for a transient state `i` it is strictly less than 1. -/
theorem hitting_diagonal (T : NumericMatrix) (hsq : T.nrow = T.ncol)
    (hnonneg : ∀ i j, i < T.ncol → j < T.ncol → 0 ≤ T.data i j)
    (hstoch : ∀ i, i < T.ncol → rowSum T i = 1) :
    ∃ r, (∃ fuel, commClassesKernel fuel T = some r) ∧
      (∀ fuel r', commClassesKernel fuel T = some r' → r' = r) ∧
      ∀ i, i < T.ncol →
        ∃ h, Solves T.ncol (hittingSystem T r i).1 (hittingSystem T r i).2 h ∧
          (∀ h', Solves T.ncol (hittingSystem T r i).1 (hittingSystem T r i).2 h' →
            ∀ k, k < T.ncol → h' k = h k) ∧
          (h i = 1 ↔ r.closed i = true) ∧
          (r.closed i = false → h i < 1) := by
  obtain ⟨c, -, hk, -, -⟩ := commClassesKernel_spec T
  generalize classify T.ncol c = r at hk
  refine ⟨r, ⟨_, hk⟩, fun fuel r2 h2 => commClassesKernel_unique T _ _ _ _ h2 hk, ?_⟩
  intro i hi
  obtain ⟨h, hs, huniq⟩ := hitting_unique_solution T hsq hnonneg hstoch _ r hk i
  have hlt : r.closed i = false → h i < 1 := fun hc =>
    hitting_open_diagonal_lt T hsq hnonneg hstoch _ r hk i hi hc h hs
  refine ⟨h, hs, huniq, ⟨fun h1 => ?_, fun hc => ?_⟩, hlt⟩
  · cases hx : r.closed i
    · exact absurd h1 (ne_of_lt (hlt hx))
    · rfl
  · obtain ⟨hcl, -⟩ := kernel_returns_iff T _ r hk
    obtain ⟨-, hrp⟩ := hittingSystem_eq T r i
    have h1 := hs i hi
    rw [← hsq] at h1 hi
    rw [hitting_closed_row_sum T r i h i hi hc, hrp i hi] at h1
    have hx : r.classes i i = true :=
      (hcl i i).mpr ⟨hsq ▸ hi, hsq ▸ hi, Relation.ReflTransGen.refl, Relation.ReflTransGen.refl⟩
    rw [h1]
    simp [hc, hx]

theorem exampleMatrix_nonneg :
    ∀ i j, i < exampleMatrix.ncol → j < exampleMatrix.ncol → 0 ≤ exampleMatrix.data i j := by
  intro i j _ _
  simp only [exampleMatrix]
  split_ifs <;> simp

theorem exampleMatrix_rowSum : ∀ i, i < exampleMatrix.ncol → rowSum exampleMatrix i = 1 := by
  intro i hi
  have hi3 : i < 3 := hi
  interval_cases i <;> simp [rowSum, exampleMatrix, List.range_succ]

/-- The theorem for C11 at the example chain. -/
theorem hitting_closed_rows_witness :
    exampleMatrix.nrow = exampleMatrix.ncol ∧
    ∃ r, (∃ fuel, commClassesKernel fuel exampleMatrix = some r) ∧
      (∀ fuel r', commClassesKernel fuel exampleMatrix = some r' → r' = r) ∧
      ∀ i j, i < exampleMatrix.ncol → j < exampleMatrix.ncol → r.closed i = true →
        (∀ k, k < exampleMatrix.ncol →
          (hittingSystem exampleMatrix r j).1 i k = if k = i then 1 else 0) ∧
        (IsPath exampleMatrix i j → (hittingSystem exampleMatrix r j).2 i = 1) ∧
        (¬ IsPath exampleMatrix i j → (hittingSystem exampleMatrix r j).2 i = 0) ∧
        (∀ h, Solves exampleMatrix.ncol (hittingSystem exampleMatrix r j).1
            (hittingSystem exampleMatrix r j).2 h →
          (IsPath exampleMatrix i j → h i = 1) ∧ (¬ IsPath exampleMatrix i j → h i = 0) ∧
          (r.classes i j = false → h i = 0)) :=
  ⟨by decide, hitting_closed_rows exampleMatrix (by decide)⟩

/-- The theorem for C12 at the example chain. -/
theorem hitting_first_step_witness :
    exampleMatrix.nrow = exampleMatrix.ncol ∧
    ∃ r, (∃ fuel, commClassesKernel fuel exampleMatrix = some r) ∧
      (∀ fuel r', commClassesKernel fuel exampleMatrix = some r' → r' = r) ∧
      ∀ j h, j < exampleMatrix.ncol →
        Solves exampleMatrix.ncol (hittingSystem exampleMatrix r j).1
          (hittingSystem exampleMatrix r j).2 h →
        ∀ i, i < exampleMatrix.ncol → r.closed i = false →
          h i = exampleMatrix.data i j
            + ((Finset.range exampleMatrix.ncol).erase j).sum
                (fun k => exampleMatrix.data i k * h k) :=
  ⟨by decide, hitting_first_step exampleMatrix (by decide)⟩

/-- The theorem for C13 at the example chain. -/
theorem hitting_diagonal_witness :
    exampleMatrix.nrow = exampleMatrix.ncol ∧
    (∀ i j, i < exampleMatrix.ncol → j < exampleMatrix.ncol → 0 ≤ exampleMatrix.data i j) ∧
    (∀ i, i < exampleMatrix.ncol → rowSum exampleMatrix i = 1) ∧
    ∃ r, (∃ fuel, commClassesKernel fuel exampleMatrix = some r) ∧
      (∀ fuel r', commClassesKernel fuel exampleMatrix = some r' → r' = r) ∧
      ∀ i, i < exampleMatrix.ncol →
        ∃ h, Solves exampleMatrix.ncol (hittingSystem exampleMatrix r i).1
            (hittingSystem exampleMatrix r i).2 h ∧
          (∀ h', Solves exampleMatrix.ncol (hittingSystem exampleMatrix r i).1
              (hittingSystem exampleMatrix r i).2 h' →
            ∀ k, k < exampleMatrix.ncol → h' k = h k) ∧
          (h i = 1 ↔ r.closed i = true) ∧
          (r.closed i = false → h i < 1) :=
  ⟨by decide, exampleMatrix_nonneg, exampleMatrix_rowSum,
    hitting_diagonal exampleMatrix (by decide) exampleMatrix_nonneg exampleMatrix_rowSum⟩

/-- The theorem for C14 at the example chain. -/
theorem hitting_transient_unreachable_witness :
    exampleMatrix.nrow = exampleMatrix.ncol ∧
    (∀ i j, i < exampleMatrix.ncol → j < exampleMatrix.ncol → 0 ≤ exampleMatrix.data i j) ∧
    (∀ i, i < exampleMatrix.ncol → rowSum exampleMatrix i = 1) ∧
    ∃ r, (∃ fuel, commClassesKernel fuel exampleMatrix = some r) ∧
      (∀ fuel r', commClassesKernel fuel exampleMatrix = some r' → r' = r) ∧
      ∀ i j, i < exampleMatrix.ncol → j < exampleMatrix.ncol → r.closed i = false →
        ¬ IsPath exampleMatrix i j →
        ∃ h, Solves exampleMatrix.ncol (hittingSystem exampleMatrix r j).1
            (hittingSystem exampleMatrix r j).2 h ∧
          (∀ h', Solves exampleMatrix.ncol (hittingSystem exampleMatrix r j).1
              (hittingSystem exampleMatrix r j).2 h' →
            ∀ k, k < exampleMatrix.ncol → h' k = h k) ∧
          h i = 0 :=
  ⟨by decide, exampleMatrix_nonneg, exampleMatrix_rowSum,
    hitting_transient_unreachable exampleMatrix (by decide) exampleMatrix_nonneg
      exampleMatrix_rowSum⟩

/-! ## First passage -/

theorem sum_map_range (f : Nat → ℚ) (n : Nat) :
    ((List.range n).map f).sum = (Finset.range n).sum f := by
  induction n with
  | zero => simp
  | succ n ih => rw [List.range_succ, List.map_append, List.sum_append, ih,
      Finset.sum_range_succ]; simp

theorem sum_filter_flatMap {α β : Type} (L : List α) (g : α → List β) (p : β → Bool)
    (f : β → ℚ) :
    (((L.flatMap g).filter p).map f).sum = (L.map (fun x => (((g x).filter p).map f).sum)).sum := by
  induction L with
  | nil => simp
  | cons x xs ih =>
    rw [List.flatMap_cons, List.filter_append, List.map_append, List.sum_append, ih]
    simp

/-- The state sequences of a given length are the lists of that length over the states. -/
theorem mem_stateSequences (s len : Nat) (xs : List Nat) :
    xs ∈ stateSequences s len ↔ xs.length = len ∧ ∀ x ∈ xs, x < s := by
  induction len generalizing xs with
  | zero =>
    simp only [stateSequences, List.mem_singleton]
    constructor
    · rintro rfl
      simp
    · rintro ⟨h, -⟩
      exact List.length_eq_zero.mp h
  | succ len ih =>
    simp only [stateSequences, List.mem_flatMap, List.mem_range, List.mem_map]
    constructor
    · rintro ⟨x, hx, ys, hys, rfl⟩
      obtain ⟨h1, h2⟩ := (ih ys).mp hys
      refine ⟨by simp [h1], ?_⟩
      intro y hy
      rcases List.mem_cons.mp hy with rfl | hy
      · exact hx
      · exact h2 y hy
    · rintro ⟨h1, h2⟩
      cases xs with
      | nil => simp at h1
      | cons x ys =>
        refine ⟨x, h2 x (List.mem_cons_self _ _), ys, (ih ys).mpr ⟨by simpa using h1, ?_⟩, rfl⟩
        exact fun y hy => h2 y (List.mem_cons_of_mem _ hy)

/-- No state sequence is listed twice. -/
theorem nodup_stateSequences (s len : Nat) : (stateSequences s len).Nodup := by
  induction len with
  | zero => simp [stateSequences]
  | succ len ih =>
    simp only [stateSequences]
    rw [List.nodup_flatMap]
    constructor
    · intro x _
      exact ih.map (fun a b hab => (List.cons.inj hab).2)
    · apply List.Pairwise.imp _ (List.nodup_range s)
      intro a b hab
      simp only [Function.onFun]
      rw [List.disjoint_left]
      intro xs h1 h2
      obtain ⟨ys, -, rfl⟩ := List.mem_map.mp h1
      obtain ⟨zs, -, hz⟩ := List.mem_map.mp h2
      exact hab (List.cons.inj hz).1.symm

theorem firstPassageSum_one (P : NumericMatrix) (a j : Nat) :
    firstPassageSum P a j 1 = P.data a j := by
  simp [firstPassageSum, stateSequences, pathProduct]

/-- The first-step decomposition of the first-passage sums. -/
theorem firstPassageSum_succ (P : NumericMatrix) (a j k : Nat) :
    firstPassageSum P a j (k + 2)
      = (Finset.range P.ncol).sum
          (fun x => if x = j then 0 else P.data a x * firstPassageSum P x j (k + 1)) := by
  unfold firstPassageSum
  rw [show k + 2 - 1 = k + 1 from rfl, show k + 1 - 1 = k from rfl]
  rw [stateSequences, sum_filter_flatMap, sum_map_range]
  apply Finset.sum_congr rfl
  intro x _
  rw [List.filter_map, List.map_map]
  by_cases hxj : x = j
  · rw [if_pos hxj]
    have : (stateSequences P.ncol k).filter
        ((fun xs => xs.all (fun x => decide (x ≠ j))) ∘ fun xs => x :: xs) = [] := by
      rw [List.filter_eq_nil_iff]
      intro xs _
      simp [hxj]
    rw [this]
    rfl
  · rw [if_neg hxj]
    have hf : (stateSequences P.ncol k).filter
        ((fun xs => xs.all (fun x => decide (x ≠ j))) ∘ fun xs => x :: xs)
        = (stateSequences P.ncol k).filter (fun xs => xs.all (fun x => decide (x ≠ j))) := by
      apply List.filter_congr
      intro xs _
      simp [hxj]
    rw [hf, ← List.sum_map_mul_left]
    congr 1

/-- The pair `(G, H)` after `k` passes of the loop of `firstpassageKernel`. -/
theorem firstpassage_fold (P : NumericMatrix) (i : Int) (H0 : Nat → Nat → ℚ) (k : Nat) :
    (List.range k).foldl (fun st t => firstpassageStep P i st (t + 1)) (P.data, H0)
      = ((fun G => matMul P.ncol P.data (schur G offDiagonal))^[k] P.data,
         fun a b => if 1 ≤ a ∧ a ≤ k ∧ b < P.ncol
           then ((fun G => matMul P.ncol P.data (schur G offDiagonal))^[a] P.data) (i - 1).toNat b
           else H0 a b) := by
  induction k with
  | zero =>
    simp only [List.range_zero, List.foldl_nil, Function.iterate_zero, id_eq]
    congr 1
    funext a b
    have : ¬ (1 ≤ a ∧ a ≤ 0 ∧ b < P.ncol) := by omega
    rw [if_neg this]
  | succ k ih =>
    rw [List.range_succ, List.foldl_append, ih]
    simp only [List.foldl_cons, List.foldl_nil, firstpassageStep, Function.iterate_succ_apply']
    congr 1
    funext a b
    by_cases hb : b < P.ncol
    · by_cases ha : a = k + 1
      · subst ha
        simp [hb, Function.iterate_succ_apply']
      · by_cases ha2 : 1 ≤ a ∧ a ≤ k
        · have h3 : 1 ≤ a ∧ a ≤ k + 1 ∧ b < P.ncol := ⟨ha2.1, by omega, hb⟩
          have h4 : 1 ≤ a ∧ a ≤ k ∧ b < P.ncol := ⟨ha2.1, ha2.2, hb⟩
          simp only [ha, false_and, if_false, h3, h4, and_self, if_true]
        · have h3 : ¬ (1 ≤ a ∧ a ≤ k + 1 ∧ b < P.ncol) := by omega
          have h4 : ¬ (1 ≤ a ∧ a ≤ k ∧ b < P.ncol) := by omega
          simp only [ha, false_and, if_false, h3, h4]
    · have h3 : ¬ (1 ≤ a ∧ a ≤ k + 1 ∧ b < P.ncol) := by omega
      have h4 : ¬ (1 ≤ a ∧ a ≤ k ∧ b < P.ncol) := by omega
      have h5 : ¬ (a = k + 1 ∧ b < P.ncol) := by omega
      simp only [h3, h4, h5, if_false]

/-- The matrix `G` after `m` passes holds the first-passage sums at step `m + 1`. -/
theorem firstpassage_iterate (P : NumericMatrix) (m a j : Nat) :
    ((fun G => matMul P.ncol P.data (schur G offDiagonal))^[m] P.data) a j
      = firstPassageSum P a j (m + 1) := by
  induction m generalizing a j with
  | zero => rw [Function.iterate_zero, id_eq, firstPassageSum_one]
  | succ m ih =>
    rw [Function.iterate_succ_apply', firstPassageSum_succ]
    simp only [matMul, schur, offDiagonal]
    apply Finset.sum_congr rfl
    intro x _
    rw [ih]
    by_cases hxj : x = j
    · simp [hxj]
    · simp [hxj]

/-- The matrix that `firstpassageKernel` returns, entry by entry. -/
theorem firstpassageKernel_eq (P : NumericMatrix) (hsq : P.nrow = P.ncol) (i n : Int)
    (hi1 : 1 ≤ i) (hi2 : i ≤ P.ncol) (hn : 1 ≤ n) :
    ∃ R, firstpassageKernel P i n = some R ∧ R.nrow = n.toNat ∧ R.ncol = P.ncol ∧
      ∀ m j, m < n.toNat → j < P.ncol →
        R.data m j = firstPassageSum P (i - 1).toNat j (m + 1) := by
  have h1 : ¬ n < 0 := by omega
  have h2 : ¬ (0 < P.ncol ∧ (n = 0 ∨ i < 1 ∨ (P.nrow : Int) < i)) := by
    rw [hsq]
    omega
  have h3 : ¬ (2 ≤ n ∧ P.nrow ≠ P.ncol) := fun h => h.2 hsq
  unfold firstpassageKernel
  rw [if_neg h1, if_neg h2, if_neg h3]
  refine ⟨_, rfl, rfl, rfl, ?_⟩
  intro m j hm hj
  simp only [firstpassage_fold]
  by_cases hm0 : m = 0
  · subst hm0
    have : ¬ (1 ≤ 0 ∧ 0 ≤ n.toNat - 1 ∧ j < P.ncol) := by omega
    rw [if_neg this]
    simp only [hj, and_self, if_true]
    rw [firstPassageSum_one]
  · have : 1 ≤ m ∧ m ≤ n.toNat - 1 ∧ j < P.ncol := ⟨by omega, by omega, hj⟩
    rw [if_pos this, firstpassage_iterate]

/-- C15: for a square matrix `P` of order `s`, a start index `1 ≤ i ≤ s` and a horizon
`n ≥ 1`, `firstpassageKernel` returns a matrix with `n` rows and `s` columns whose entry
`(m - 1, j)`, for `m = 1..n`, is the sum, over all state sequences `i - 1 = x 0, ..., x m = j`
whose intermediate states differ from `j`, of the product of the entries `P(x t, x (t + 1))`. -/
theorem firstpassageKernel_pathSum (P : NumericMatrix) (hsq : P.nrow = P.ncol) (i n : Int)
    (hi1 : 1 ≤ i) (hi2 : i ≤ P.ncol) (hn : 1 ≤ n) :
    ∃ R, firstpassageKernel P i n = some R ∧ R.nrow = n.toNat ∧ R.ncol = P.ncol ∧
      ∀ m j, 1 ≤ m → m ≤ n.toNat → j < P.ncol →
        R.data (m - 1) j = firstPassageSum P (i - 1).toNat j m := by
  obtain ⟨R, hR, hr, hc, hdata⟩ := firstpassageKernel_eq P hsq i n hi1 hi2 hn
  refine ⟨R, hR, hr, hc, ?_⟩
  intro m j hm1 hm2 hj
  have := hdata (m - 1) j (by omega) hj
  rw [this]
  congr 1
  omega

/-- The inner loop of `firstPassageMultipleRCpp` adds the sum over `setno` to entry `m`. -/
theorem firstPassageAccumulate_eq (G : Nat → Nat → ℚ) (i : Int) (setno : List Int) (m : Nat)
    (H : Nat → ℚ) (a : Nat) :
    firstPassageAccumulate G i setno m H a
      = if a = m then H a + (setno.map (fun k => G (i - 1).toNat (k - 1).toNat)).sum
        else H a := by
  unfold firstPassageAccumulate
  induction setno generalizing H with
  | nil => simp
  | cons k ks ih =>
    rw [List.foldl_cons, ih]
    by_cases ham : a = m
    · simp only [ham, if_true, List.map_cons, List.sum_cons]
      ring
    · simp only [ham, if_false]

/-- The pair `(G, H)` after `k` passes of the loop of `firstPassageMultipleRCpp`. -/
theorem firstPassageMultiple_fold (P : NumericMatrix) (i : Int) (setno : List Int)
    (H0 : Nat → ℚ) (k : Nat) :
    (List.range k).foldl (fun st t => firstPassageMultipleStep P i setno st (t + 1)) (P.data, H0)
      = ((fun G => matMul P.ncol P.data (schur G offDiagonal))^[k] P.data,
         fun a => if 1 ≤ a ∧ a ≤ k
           then H0 a + (setno.map (fun x =>
             ((fun G => matMul P.ncol P.data (schur G offDiagonal))^[a] P.data)
               (i - 1).toNat (x - 1).toNat)).sum
           else H0 a) := by
  induction k with
  | zero =>
    simp only [List.range_zero, List.foldl_nil, Function.iterate_zero, id_eq]
    congr 1
    funext a
    have : ¬ (1 ≤ a ∧ a ≤ 0) := by omega
    rw [if_neg this]
  | succ k ih =>
    rw [List.range_succ, List.foldl_append, ih]
    simp only [List.foldl_cons, List.foldl_nil, firstPassageMultipleStep,
      Function.iterate_succ_apply']
    congr 1
    funext a
    rw [firstPassageAccumulate_eq]
    by_cases ha : a = k + 1
    · subst ha
      have h4 : ¬ (1 ≤ k + 1 ∧ k + 1 ≤ k) := by omega
      simp [h4, Function.iterate_succ_apply']
    · by_cases ha2 : 1 ≤ a ∧ a ≤ k
      · have h3 : 1 ≤ a ∧ a ≤ k + 1 := ⟨ha2.1, by omega⟩
        simp only [ha, if_false, h3, ha2, and_self, if_true]
      · have h3 : ¬ (1 ≤ a ∧ a ≤ k + 1) := by omega
        simp only [ha, if_false, h3, ha2]

/-- C16: for a square matrix `P`, a valid start index `i`, a horizon `n ≥ 1` and a list
`setno` of valid target indices, both functions return, and entry `m` of
`firstPassageMultipleRCpp(P, i, setno, n)` is the sum over the entries `k` of `setno` of entry
`(m, k - 1)` of `firstpassageKernel(P, i, n)`, for every `m` in `0..n-1`. -/
theorem firstPassageMultiple_sum_of_kernel (P : NumericMatrix) (hsq : P.nrow = P.ncol)
    (i n : Int) (setno : List Int) (hi1 : 1 ≤ i) (hi2 : i ≤ P.ncol) (hn : 1 ≤ n)
    (hset : ∀ k ∈ setno, 1 ≤ k ∧ k ≤ P.ncol) :
    ∃ R v, firstpassageKernel P i n = some R ∧ firstPassageMultipleRCpp P i setno n = some v ∧
      v.length = n.toNat ∧
      ∀ m, m < n.toNat → v.getD m 0 = (setno.map (fun k => R.data m (k - 1).toNat)).sum := by
  obtain ⟨R, hR, -, -, hdata⟩ := firstpassageKernel_eq P hsq i n hi1 hi2 hn
  have h1 : ¬ n < 0 := by omega
  have h2 : ¬ (setno ≠ [] ∧ (n = 0 ∨ i < 1 ∨ (P.nrow : Int) < i ∨
      ∃ k ∈ setno, k < 1 ∨ (P.ncol : Int) < k)) := by
    rw [hsq]
    rintro ⟨-, h | h | h | ⟨k, hk, h⟩⟩
    · omega
    · omega
    · omega
    · have := hset k hk
      omega
  have h3 : ¬ (2 ≤ n ∧ P.nrow ≠ P.ncol) := fun h => h.2 hsq
  unfold firstPassageMultipleRCpp
  rw [if_neg h1, if_neg h2, if_neg h3]
  refine ⟨R, _, hR, rfl, by simp, ?_⟩
  intro m hm
  rw [List.getD_eq_getElem _ _ (by simpa using hm), List.getElem_map, List.getElem_range]
  simp only [firstPassageMultiple_fold, firstPassageAccumulate_eq]
  have hsum : (setno.map (fun k => R.data m (k - 1).toNat)).sum
      = (setno.map (fun k => firstPassageSum P (i - 1).toNat (k - 1).toNat (m + 1))).sum := by
    congr 1
    apply List.map_congr_left
    intro k hk
    have := hset k hk
    exact hdata m (k - 1).toNat hm (by omega)
  rw [hsum]
  by_cases hm0 : m = 0
  · subst hm0
    have : ¬ (1 ≤ 0 ∧ 0 ≤ n.toNat - 1) := by omega
    simp only [this, if_false, if_true, zero_add]
    congr 1
    apply List.map_congr_left
    intro k _
    rw [firstPassageSum_one]
  · have h5 : 1 ≤ m ∧ m ≤ n.toNat - 1 := ⟨by omega, by omega⟩
    simp only [h5, and_self, if_true, hm0, if_false, zero_add]
    congr 1
    apply List.map_congr_left
    intro k _
    rw [firstpassage_iterate]

/-! ## Expected rewards -/

theorem foldl_range_const {β : Type} (f : β → β) (x : β) (k : Nat) :
    (List.range k).foldl (fun y _ => f y) x = f^[k] x := by
  induction k with
  | zero => rfl
  | succ k ih => rw [List.range_succ, List.foldl_append, ih, Function.iterate_succ_apply']; rfl

theorem matVec_eq_mulVec (s : Nat) (A : Nat → Nat → ℚ) (x : Nat → ℚ) (a : Fin s) :
    matVec s A x a.val = Matrix.mulVec (toMatrix s A) (toVector s x) a := by
  simp only [matVec, Matrix.mulVec, Matrix.dotProduct, toMatrix, toVector]
  exact (Fin.sum_univ_eq_sum_range (fun k => A a.val k * x k) s).symm

theorem toMatrix_matMul (s : Nat) (A B : Nat → Nat → ℚ) :
    toMatrix s (matMul s A B) = toMatrix s A * toMatrix s B := by
  ext a b
  simp only [matMul, Matrix.mul_apply, toMatrix]
  exact (Fin.sum_univ_eq_sum_range (fun k => A a.val k * B k b.val) s).symm

theorem sum_pow_mulVec {s : Nat} (M : Matrix (Fin s) (Fin s) ℚ) (x : Fin s → ℚ) (k : Nat)
    (a : Fin s) :
    Matrix.mulVec ((Finset.range k).sum (fun t => M ^ t)) x a
      = (Finset.range k).sum (fun t => Matrix.mulVec (M ^ t) x a) := by
  induction k with
  | zero => simp
  | succ k ih => rw [Finset.sum_range_succ, Finset.sum_range_succ, Matrix.add_mulVec,
      Pi.add_apply, ih]

/-- The value recurrence `v 0 = r`, `v (k + 1) = r + P * v k` sums the powers of `P`. -/
theorem valueRecurrence_eq_sum (P : NumericMatrix) (r : List ℚ) (k : Nat) :
    valueRecurrence P r k
      = Matrix.mulVec ((Finset.range (k + 1)).sum (fun t => toMatrix P.ncol P.data ^ t))
          (toVector P.ncol (fun k => r.getD k 0)) := by
  induction k with
  | zero => simp [valueRecurrence]
  | succ k ih =>
    funext a
    have hsum : (Finset.range (k + 1 + 1)).sum (fun t => toMatrix P.ncol P.data ^ t)
        = 1 + toMatrix P.ncol P.data
            * (Finset.range (k + 1)).sum (fun t => toMatrix P.ncol P.data ^ t) := by
      rw [Finset.sum_range_succ' _ (k + 1), Finset.mul_sum, pow_zero, add_comm]
      congr 1
      apply Finset.sum_congr rfl
      intro t _
      rw [pow_succ']
    rw [valueRecurrence, ih, Matrix.mulVec_mulVec, hsum, Matrix.add_mulVec, Matrix.one_mulVec]
    rfl

/-- The vector `temp` after `k` passes of the loop of `expectedRewardsRCpp`. -/
theorem expectedRewards_iterate (P : NumericMatrix) (r : List ℚ) (k : Nat) (a : Fin P.ncol) :
    ((fun (temp : Nat → ℚ) => fun a => r.getD a 0 + matVec P.ncol P.data temp a)^[k]
        (fun a => r.getD a 0)) a.val
      = valueRecurrence P r k a := by
  induction k generalizing a with
  | zero => rfl
  | succ k ih =>
    rw [Function.iterate_succ_apply', valueRecurrence, matVec_eq_mulVec]
    congr 2
    funext b
    exact ih b

/-- C17: for a square matrix `P` of order `s` and a reward vector `r` of length `s`,
`expectedRewardsRCpp(P, n, r)` returns `v_n`, where `v_0 = r` and `v_(k+1) = r + P * v_k`,
which is the sum over `t = 0..n` of `P^t * r`; for `n ≤ 0` it returns `r`. -/
theorem expectedRewards_valueRecurrence (P : NumericMatrix) (hsq : P.nrow = P.ncol)
    (r : List ℚ) (hr : r.length = P.ncol) (n : Int) :
    ∃ out, expectedRewardsRCpp P n r = some out ∧ out.length = P.ncol ∧
      (∀ a : Fin P.ncol, out.getD a.val 0 = valueRecurrence P r n.toNat a ∧
        out.getD a.val 0 = (Finset.range (n.toNat + 1)).sum (fun t => powerApply P r t a)) ∧
      (n ≤ 0 → out = r) := by
  have h1 : ¬ r.length < P.ncol := by omega
  have h2 : ¬ (1 ≤ n ∧ P.nrow ≠ P.ncol) := fun h => h.2 hsq
  unfold expectedRewardsRCpp
  rw [if_neg h1, if_neg h2]
  refine ⟨_, rfl, by simp, ?_, ?_⟩
  · intro a
    have hval : ((List.range P.ncol).map
        ((List.range n.toNat).foldl
          (fun temp _ => fun a => r.getD a 0 + matVec P.ncol P.data temp a)
          (fun a => r.getD a 0))).getD a.val 0 = valueRecurrence P r n.toNat a := by
      rw [List.getD_eq_getElem _ _ (by simp), List.getElem_map, List.getElem_range,
        foldl_range_const (fun (temp : Nat → ℚ) => fun a => r.getD a 0
          + matVec P.ncol P.data temp a)]
      exact expectedRewards_iterate P r n.toNat a
    refine ⟨hval, ?_⟩
    rw [hval, valueRecurrence_eq_sum, sum_pow_mulVec]
    rfl
  · intro hn
    have hz : n.toNat = 0 := by omega
    rw [hz]
    simp only [List.range_zero, List.foldl_nil]
    apply List.ext_getElem
    · simp [hr]
    · intro m h3 h4
      rw [List.getElem_map, List.getElem_range, List.getD_eq_getElem _ _ h4]

/-- The pair `(result, temp)` after `k` passes of the loop of
`expectedRewardsBeforeHittingARCpp`: `temp` is the power `k + 1` of the matrix and `result`
holds the terms of the powers `1..k`. -/
theorem expectedRewardsBeforeHitting_fold (P : NumericMatrix) (r : List ℚ) (a : Fin P.ncol)
    (k : Nat) :
    toMatrix P.ncol ((List.range k).foldl
      (fun (st : ℚ × (Nat → Nat → ℚ)) _ =>
        (st.1 + (Finset.range P.ncol).sum
            (fun b => (if b = a.val then 1 else 0)
              * matVec P.ncol st.2 (fun k => r.getD k 0) b),
         matMul P.ncol st.2 P.data))
      (0, P.data)).2 = toMatrix P.ncol P.data ^ (k + 1) ∧
    ((List.range k).foldl
      (fun (st : ℚ × (Nat → Nat → ℚ)) _ =>
        (st.1 + (Finset.range P.ncol).sum
            (fun b => (if b = a.val then 1 else 0)
              * matVec P.ncol st.2 (fun k => r.getD k 0) b),
         matMul P.ncol st.2 P.data))
      (0, P.data)).1 = (Finset.range k).sum (fun t => powerApply P r (t + 1) a) := by
  induction k with
  | zero => simp
  | succ k ih =>
    obtain ⟨ih1, ih2⟩ := ih
    rw [List.range_succ, List.foldl_append]
    simp only [List.foldl_cons, List.foldl_nil]
    constructor
    · rw [toMatrix_matMul, ih1, pow_succ (toMatrix P.ncol P.data) (k + 1)]
    · rw [ih2, Finset.sum_range_succ]
      congr 1
      have hone : (Finset.range P.ncol).sum
          (fun b => (if b = a.val then (1 : ℚ) else 0)
            * matVec P.ncol ((List.range k).foldl
                (fun (st : ℚ × (Nat → Nat → ℚ)) _ =>
                  (st.1 + (Finset.range P.ncol).sum
                      (fun b => (if b = a.val then 1 else 0)
                        * matVec P.ncol st.2 (fun k => r.getD k 0) b),
                   matMul P.ncol st.2 P.data))
                (0, P.data)).2 (fun k => r.getD k 0) b)
          = matVec P.ncol ((List.range k).foldl
                (fun (st : ℚ × (Nat → Nat → ℚ)) _ =>
                  (st.1 + (Finset.range P.ncol).sum
                      (fun b => (if b = a.val then 1 else 0)
                        * matVec P.ncol st.2 (fun k => r.getD k 0) b),
                   matMul P.ncol st.2 P.data))
                (0, P.data)).2 (fun k => r.getD k 0) a.val := by
        simp only [ite_mul, one_mul, zero_mul]
        rw [Finset.sum_ite_eq']
        simp
      rw [hone, matVec_eq_mulVec, ih1]
      rfl

/-- What `expectedRewardsBeforeHittingARCpp` returns: the terms of the powers `1..n`. -/
theorem expectedRewardsBeforeHitting_eq (P : NumericMatrix) (hsq : P.nrow = P.ncol)
    (r : List ℚ) (hr : r.length = P.ncol) (s0 : Int) (h1 : 1 ≤ s0) (h2 : s0 ≤ P.ncol)
    (n : Int) (a : Fin P.ncol) (ha : a.val = (s0 - 1).toNat) :
    expectedRewardsBeforeHittingARCpp P s0 r n
      = some ((Finset.range n.toNat).sum (fun t => powerApply P r (t + 1) a)) := by
  have h3 : ¬ (s0 < 1 ∨ (r.length : Int) < s0) := by
    rw [hr]
    omega
  have h4 : ¬ (1 ≤ n ∧ (P.nrow ≠ r.length ∨ P.ncol ≠ r.length)) := by
    rw [hr, hsq]
    tauto
  unfold expectedRewardsBeforeHittingARCpp
  rw [if_neg h3, if_neg h4, hr, ← ha, (expectedRewardsBeforeHitting_fold P r a n.toNat).2]

/-- C18, the statement of the specification fails: on `P = [[0, 1], [1, 0]]`, `r = (1, 0)`,
start state 1 and horizon 1 the function returns 0, while the sum over `t = 0..n-1` of
`e^T * P^t * r` is `r(1) = 1`. -/
theorem expectedRewardsBeforeHitting_counterexample :
    swapMatrix.nrow = swapMatrix.ncol ∧ [(1 : ℚ), 0].length = swapMatrix.ncol ∧
    expectedRewardsBeforeHittingARCpp swapMatrix 1 [1, 0] 1 = some 0 ∧
    (Finset.range (1 : Int).toNat).sum
      (fun t => powerApply swapMatrix [1, 0] t ⟨0, by decide⟩) = 1 := by
  refine ⟨rfl, rfl, ?_, ?_⟩
  · simp [expectedRewardsBeforeHittingARCpp, swapMatrix, matVec, Finset.sum_range_succ,
      List.range_succ]
  · simp [powerApply, toVector]

/-- C18, as the code has it: for a square matrix `P`, a reward vector `r` of the same order, a
valid start state `s0` and every horizon `n`, `expectedRewardsBeforeHittingARCpp(P, s0, r, n)`
is the sum over `t = 1..n` of `e_(s0)^T * P^t * r`: the term of `P^n` is included and the term
`r(s0)` of `t = 0` is not. -/
theorem expectedRewardsBeforeHitting_powerSum (P : NumericMatrix) (hsq : P.nrow = P.ncol)
    (r : List ℚ) (hr : r.length = P.ncol) (s0 : Int) (h1 : 1 ≤ s0) (h2 : s0 ≤ P.ncol)
    (n : Int) :
    ∃ a : Fin P.ncol, a.val = (s0 - 1).toNat ∧
      expectedRewardsBeforeHittingARCpp P s0 r n
        = some ((Finset.range n.toNat).sum (fun t => powerApply P r (t + 1) a)) :=
  ⟨⟨(s0 - 1).toNat, by omega⟩, rfl,
    expectedRewardsBeforeHitting_eq P hsq r hr s0 h1 h2 n ⟨(s0 - 1).toNat, by omega⟩ rfl⟩

/-- The theorem for C15 at the example chain, start index 1 and horizon 2. -/
theorem firstpassageKernel_pathSum_witness :
    exampleMatrix.nrow = exampleMatrix.ncol ∧ (1 : Int) ≤ 1 ∧
    (1 : Int) ≤ exampleMatrix.ncol ∧ (1 : Int) ≤ 2 ∧
    ∃ R, firstpassageKernel exampleMatrix 1 2 = some R ∧ R.nrow = (2 : Int).toNat ∧
      R.ncol = exampleMatrix.ncol ∧
      ∀ m j, 1 ≤ m → m ≤ (2 : Int).toNat → j < exampleMatrix.ncol →
        R.data (m - 1) j = firstPassageSum exampleMatrix ((1 : Int) - 1).toNat j m :=
  ⟨by decide, by decide, by decide, by decide,
    firstpassageKernel_pathSum exampleMatrix (by decide) 1 2 (by decide) (by decide)
      (by decide)⟩

/-- The theorem for C16 at the example chain, start index 1, targets 2 and 3, horizon 2. -/
theorem firstPassageMultiple_sum_of_kernel_witness :
    exampleMatrix.nrow = exampleMatrix.ncol ∧ (1 : Int) ≤ 1 ∧
    (1 : Int) ≤ exampleMatrix.ncol ∧ (1 : Int) ≤ 2 ∧
    (∀ k ∈ [(2 : Int), 3], 1 ≤ k ∧ k ≤ exampleMatrix.ncol) ∧
    ∃ R v, firstpassageKernel exampleMatrix 1 2 = some R ∧
      firstPassageMultipleRCpp exampleMatrix 1 [2, 3] 2 = some v ∧
      v.length = (2 : Int).toNat ∧
      ∀ m, m < (2 : Int).toNat →
        v.getD m 0 = ([(2 : Int), 3].map (fun k => R.data m (k - 1).toNat)).sum :=
  ⟨by decide, by decide, by decide, by decide, by decide,
    firstPassageMultiple_sum_of_kernel exampleMatrix (by decide) 1 2 [2, 3] (by decide)
      (by decide) (by decide) (by decide)⟩

/-- The theorem for C17 at the example chain, rewards `(1, 0, 0)` and horizon 2. -/
theorem expectedRewards_valueRecurrence_witness :
    exampleMatrix.nrow = exampleMatrix.ncol ∧ [(1 : ℚ), 0, 0].length = exampleMatrix.ncol ∧
    ∃ out, expectedRewardsRCpp exampleMatrix 2 [1, 0, 0] = some out ∧
      out.length = exampleMatrix.ncol ∧
      (∀ a : Fin exampleMatrix.ncol,
        out.getD a.val 0 = valueRecurrence exampleMatrix [1, 0, 0] (2 : Int).toNat a ∧
        out.getD a.val 0 = (Finset.range ((2 : Int).toNat + 1)).sum
          (fun t => powerApply exampleMatrix [1, 0, 0] t a)) ∧
      ((2 : Int) ≤ 0 → out = [1, 0, 0]) :=
  ⟨by decide, by decide,
    expectedRewards_valueRecurrence exampleMatrix (by decide) [1, 0, 0] (by decide) 2⟩

/-- The theorem for C18 at the example chain, start state 1, rewards `(1, 0, 0)` and
horizon 2. -/
theorem expectedRewardsBeforeHitting_powerSum_witness :
    exampleMatrix.nrow = exampleMatrix.ncol ∧ [(1 : ℚ), 0, 0].length = exampleMatrix.ncol ∧
    (1 : Int) ≤ 1 ∧ (1 : Int) ≤ exampleMatrix.ncol ∧
    ∃ a : Fin exampleMatrix.ncol, a.val = ((1 : Int) - 1).toNat ∧
      expectedRewardsBeforeHittingARCpp exampleMatrix 1 [1, 0, 0] 2
        = some ((Finset.range (2 : Int).toNat).sum
            (fun t => powerApply exampleMatrix [1, 0, 0] (t + 1) a)) :=
  ⟨by decide, by decide, by decide, by decide,
    expectedRewardsBeforeHitting_powerSum exampleMatrix (by decide) [1, 0, 0] (by decide) 1
      (by decide) (by decide) 2⟩

/-! ## The period -/

/-- Whatever the loop of `gcd` returns on two natural numbers is their greatest common
divisor. -/
theorem gcdLoop_sound (fuel : Nat) (a b : Nat) (g : Int)
    (h : gcdLoop fuel (a : Int) (b : Int) = some g) : g = (Nat.gcd a b : Nat) := by
  induction fuel generalizing a b with
  | zero => simp [gcdLoop] at h
  | succ fuel ih =>
    rw [gcdLoop] at h
    by_cases ha : (a : Int) ≠ 0
    · rw [if_pos ha, ← Int.ofNat_tmod] at h
      rw [ih _ _ h, Nat.gcd_rec a b]
    · rw [if_neg ha] at h
      have ha0 : a = 0 := by
        have : (a : Int) = 0 := by simpa using ha
        exact_mod_cast this
      subst ha0
      simp only [Option.some.injEq] at h
      rw [← h]
      simp

/-- The loop of `gcd` ends within `a + 1` tests of its condition. -/
theorem gcdLoop_returns (fuel : Nat) (a b : Nat) (hf : a < fuel) :
    gcdLoop fuel (a : Int) (b : Int) = some ((Nat.gcd a b : Nat) : Int) := by
  induction fuel generalizing a b with
  | zero => omega
  | succ fuel ih =>
    rw [gcdLoop]
    by_cases ha : (a : Int) ≠ 0
    · have hapos : 0 < a := by
        rcases Nat.eq_zero_or_pos a with h0 | h0
        · subst h0
          simp at ha
        · exact h0
      rw [if_pos ha, ← Int.ofNat_tmod, ih (b % a) a (by
        have := Nat.mod_lt b hapos
        omega), Nat.gcd_rec a b]
    · rw [if_neg ha]
      have ha0 : a = 0 := by
        have : (a : Int) = 0 := by simpa using ha
        exact_mod_cast this
      subst ha0
      simp

theorem gcd_sound (fuel : Nat) (a b g : Int) (h : gcd fuel a b = some g) :
    g = (Int.gcd a b : Nat) := by
  unfold gcd at h
  rw [gcdLoop_sound fuel _ _ g h, Int.gcd_eq_natAbs]

theorem gcd_returns (fuel : Nat) (a b : Int) (hf : a.natAbs < fuel) :
    gcd fuel a b = some ((Int.gcd a b : Nat) : Int) := by
  unfold gcd
  rw [gcdLoop_returns fuel _ _ hf, Int.gcd_eq_natAbs]

theorem IsWalk.refl (P : NumericMatrix) (i : Nat) (hi : i < P.ncol) : IsWalk P i i 0 :=
  ⟨fun _ => i, rfl, rfl, fun _ _ => hi, fun t ht => absurd ht (by omega)⟩

/-- Walks compose, and their lengths add. -/
theorem IsWalk.append {P : NumericMatrix} {i j k L M : Nat} (h1 : IsWalk P i j L)
    (h2 : IsWalk P j k M) : IsWalk P i k (L + M) := by
  obtain ⟨x, hx0, hxL, hxlt, hxstep⟩ := h1
  obtain ⟨y, hy0, hyM, hylt, hystep⟩ := h2
  refine ⟨fun t => if t ≤ L then x t else y (t - L), ?_, ?_, ?_, ?_⟩
  · simp [hx0]
  · by_cases hM : M = 0
    · subst hM
      simp only [Nat.add_zero, le_refl, if_true]
      rw [hxL, ← hyM, hy0]
    · have : ¬ (L + M ≤ L) := by omega
      simp only [this, if_false, Nat.add_sub_cancel_left, hyM]
  · intro t ht
    by_cases htL : t ≤ L
    · simp only [htL, if_true]
      exact hxlt t htL
    · simp only [htL, if_false]
      exact hylt (t - L) (by omega)
  · intro t ht
    by_cases htL : t + 1 ≤ L
    · have htL2 : t ≤ L := by omega
      simp only [htL, htL2, if_true]
      exact hxstep t (by omega)
    · by_cases htL2 : t ≤ L
      · have hte : t = L := by omega
        subst hte
        simp only [le_refl, if_true, htL, if_false, Nat.add_sub_cancel_left, hxL, ← hy0]
        exact hystep 0 (by omega)
      · simp only [htL, htL2, if_false]
        have : t + 1 - L = (t - L) + 1 := by omega
        rw [this]
        exact hystep (t - L) (by omega)

theorem IsWalk.single (P : NumericMatrix) (i j : Nat) (hi : i < P.ncol) (hj : j < P.ncol)
    (h : 0 < P.data i j) : IsWalk P i j 1 := by
  refine ⟨fun t => if t = 0 then i else j, rfl, rfl, ?_, ?_⟩
  · intro t _
    by_cases h0 : t = 0
    · simp only [h0, if_true]
      exact hi
    · simp only [h0, if_false]
      exact hj
  · intro t ht
    have : t = 0 := by omega
    subst this
    simpa using h

theorem reach_iff_isWalk (P : NumericMatrix) (i j : Nat) (hi : i < P.ncol) :
    Reach P i j ↔ ∃ L, IsWalk P i j L :=
  reach_iff_isPath P i j hi

/-- Along a walk all of whose steps satisfy `d ∣ v a + 1 - v b`, the number `d` divides the
length of the walk plus the difference of the labels of its ends. -/
theorem walk_telescope (v : Nat → Int) (d : Int) (x : Nat → Nat) (L : Nat)
    (hstep : ∀ t, t < L → d ∣ v (x t) + 1 - v (x (t + 1))) :
    d ∣ (L : Int) + v (x 0) - v (x L) := by
  induction L with
  | zero => simp
  | succ L ih =>
    have h1 := ih (fun t ht => hstep t (by omega))
    have h2 := hstep L (by omega)
    have : ((L + 1 : Nat) : Int) + v (x 0) - v (x (L + 1))
        = ((L : Int) + v (x 0) - v (x L)) + (v (x L) + 1 - v (x (L + 1))) := by
      push_cast
      ring
    rw [this]
    exact dvd_add h1 h2

theorem nodup_length_le (l : List Nat) (n : Nat) (hnd : l.Nodup) (hlt : ∀ x ∈ l, x < n) :
    l.length ≤ n := by
  have h1 : l.toFinset ⊆ Finset.range n := by
    intro x hx
    exact Finset.mem_range.mpr (hlt x (List.mem_toFinset.mp hx))
  have h2 := Finset.card_le_card h1
  rw [List.toFinset_card_of_nodup hnd, Finset.card_range] at h2
  exact h2

/-- In an irreducible chain every common divisor of the cycle lengths divides
`v a + 1 - v b` when `v a - 1` and `v b - 1` are lengths of walks from the root to `a` and to
`b` and there is a step from `a` to `b`. -/
theorem common_dvd_label_difference (P : NumericMatrix)
    (hirr : ∀ a b, a < P.ncol → b < P.ncol → Reach P a b) (g : Int)
    (hg : ∀ L, IsCycle P L → g ∣ (L : Int)) (a b : Nat) (la lb : Int) (hla : 1 ≤ la)
    (hlb : 1 ≤ lb) (hwa : IsWalk P 0 a (la - 1).toNat) (hwb : IsWalk P 0 b (lb - 1).toNat)
    (ha : a < P.ncol) (hb : b < P.ncol) (hab : 0 < P.data a b) : g ∣ la + 1 - lb := by
  have h0 : 0 < P.ncol := by omega
  obtain ⟨R, hR⟩ := (reach_iff_isWalk P b 0 hb).mp (hirr b 0 hb h0)
  have hc1 : IsCycle P ((la - 1).toNat + 1 + R) :=
    ⟨by omega, 0, (hwa.append (IsWalk.single P a b ha hb hab)).append hR⟩
  have hd1 := hg _ hc1
  have hd2 : g ∣ (((lb - 1).toNat + R : Nat) : Int) := by
    by_cases hz : (lb - 1).toNat + R = 0
    · rw [hz]
      exact dvd_zero g
    · exact hg _ ⟨by omega, 0, hwb.append hR⟩
  have : la + 1 - lb = (((la - 1).toNat + 1 + R : Nat) : Int) - (((lb - 1).toNat + R : Nat) : Int) := by
    push_cast
    rw [Int.toNat_of_nonneg (by omega), Int.toNat_of_nonneg (by omega)]
    ring
  rw [this]
  exact dvd_sub hd1 hd2

/-- One pass of the inner loop keeps the invariant and leaves `w` as it is. -/
theorem periodVisit_inv (gcdFuel : Nat) (P : NumericMatrix)
    (hirr : ∀ a b, a < P.ncol → b < P.ncol → Reach P a b) (i j : Nat) (st st' : PeriodState)
    (hiw : i ∈ st.w) (hj : j < P.ncol) (hinv : PeriodInv P st i j)
    (h : periodVisit gcdFuel P i st j = some st') :
    PeriodInv P st' i (j + 1) ∧ st'.w = st.w := by
  have hiwT : i ∈ st.w ++ st.T := List.mem_append_left _ hiw
  have hi : i < P.ncol := hinv.lt i hiwT
  have hlen : (st.w ++ st.T).length ≤ P.ncol := nodup_length_le _ _ hinv.nodup hinv.lt
  unfold periodVisit at h
  by_cases hpos : P.data i j > 0
  · rw [if_pos hpos] at h
    by_cases hcount : 0 < (st.r ++ st.w ++ st.T).count j
    · rw [if_pos hcount] at h
      have hjmem : j ∈ st.w ++ st.T := by
        have := List.count_pos_iff.mp hcount
        rw [List.append_assoc] at this
        rcases List.mem_append.mp this with h1 | h1
        · exact hinv.seen j h1
        · exact h1
      cases hg : gcd gcdFuel st.d (st.v i + 1 - st.v j) with
      | none =>
        rw [hg] at h
        simp at h
      | some g =>
        rw [hg] at h
        simp only [Option.map_some', Option.some.injEq] at h
        subst h
        have hgv := gcd_sound _ _ _ _ hg
        have hgd : g ∣ st.d := by
          rw [hgv]
          exact Int.gcd_dvd_left
        have hgb : g ∣ st.v i + 1 - st.v j := by
          rw [hgv]
          exact Int.gcd_dvd_right
        refine ⟨⟨hinv.lt, hinv.nodup, ?_, hinv.root, hinv.walk, hinv.bound, ?_, ?_, ?_, ?_⟩,
          rfl⟩
        · intro x hx
          dsimp only at hx ⊢
          rw [List.append_assoc] at hx
          rcases List.mem_append.mp hx with h1 | h1
          · exact hinv.seen x h1
          · exact h1
        · intro a ha b hb hab hcond
          dsimp only at ha ⊢
          by_cases hold : a ≠ i ∨ b < j
          · obtain ⟨h1, h2⟩ := hinv.edges a ha b hb hab hold
            exact ⟨h1, dvd_trans hgd h2⟩
          · have hai : a = i := by
              by_contra hne
              exact hold (Or.inl hne)
            have hbj : b = j := by
              have : ¬ b < j := fun hlt => hold (Or.inr hlt)
              rcases hcond with h3 | h3
              · exact absurd hai h3
              · omega
            subst hai
            subst hbj
            exact ⟨hjmem, hgb⟩
        · intro g2 hg2
          dsimp only
          rw [hgv]
          apply Int.dvd_gcd (hinv.common g2 hg2)
          exact common_dvd_label_difference P hirr g2 hg2 i j (st.v i) (st.v j)
            (hinv.walk i hiwT).1 (hinv.walk j hjmem).1 (hinv.walk i hiwT).2
            (hinv.walk j hjmem).2 hi hj hpos
        · dsimp only
          rw [hgv]
          exact Int.natCast_nonneg _
        · dsimp only
          rw [hgv, Int.gcd_eq_natAbs]
          have hvi := hinv.bound i hiwT
          have hvj := hinv.bound j hjmem
          have hvi1 := (hinv.walk i hiwT).1
          have hvj1 := (hinv.walk j hjmem).1
          have hb : (st.v i + 1 - st.v j).natAbs ≤ P.ncol := by omega
          by_cases hd0 : st.d = 0
          · rw [hd0]
            simp only [Int.natAbs_zero, Nat.gcd_zero_left]
            exact_mod_cast hb
          · have hdpos : 0 < st.d.natAbs := Int.natAbs_pos.mpr hd0
            have h1 := Nat.gcd_le_left (st.v i + 1 - st.v j).natAbs hdpos
            have h2 := hinv.dbound
            have h3 := hinv.dnonneg
            have h4 : ((st.d.natAbs.gcd (st.v i + 1 - st.v j).natAbs : Nat) : Int)
                ≤ (st.d.natAbs : Int) := by exact_mod_cast h1
            omega
    · rw [if_neg hcount] at h
      simp only [Option.some.injEq] at h
      subst h
      have hjnot : j ∉ st.w ++ st.T := by
        intro hmem
        apply hcount
        apply List.count_pos_iff.mpr
        rw [List.append_assoc]
        exact List.mem_append_right _ hmem
      have hmem_new : ∀ x, x ∈ st.w ++ (st.T ++ [j]) ↔ x ∈ st.w ++ st.T ∨ x = j := by
        intro x
        simp only [List.mem_append, List.mem_singleton]
        tauto
      refine ⟨⟨?_, ?_, ?_, ?_, ?_, ?_, ?_, hinv.common, hinv.dnonneg, hinv.dbound⟩, rfl⟩
      · intro x hx
        dsimp only at hx
        rcases (hmem_new x).mp hx with h1 | h1
        · exact hinv.lt x h1
        · rw [h1]
          exact hj
      · dsimp only
        rw [← List.append_assoc]
        apply List.Nodup.append hinv.nodup (List.nodup_singleton j)
        intro x hx1 hx2
        rw [List.mem_singleton] at hx2
        rw [hx2] at hx1
        exact hjnot hx1
      · intro x hx
        dsimp only at hx ⊢
        rw [List.append_assoc] at hx
        apply (hmem_new x).mpr
        left
        rcases List.mem_append.mp hx with h1 | h1
        · exact hinv.seen x h1
        · exact h1
      · dsimp only
        exact (hmem_new 0).mpr (Or.inl hinv.root)
      · intro x hx
        dsimp only at hx ⊢
        by_cases hxj : x = j
        · subst hxj
          simp only [if_true]
          obtain ⟨h1, h2⟩ := hinv.walk i hiwT
          refine ⟨by omega, ?_⟩
          have := h2.append (IsWalk.single P i x hi hj hpos)
          have he : (st.v i + 1 - 1).toNat = (st.v i - 1).toNat + 1 := by omega
          rw [he]
          exact this
        · simp only [hxj, if_false]
          rcases (hmem_new x).mp hx with h1 | h1
          · exact hinv.walk x h1
          · exact absurd h1 hxj
      · intro x hx
        dsimp only at hx ⊢
        have hl : (st.w ++ (st.T ++ [j])).length = (st.w ++ st.T).length + 1 := by
          simp only [List.length_append, List.length_singleton]
          omega
        rw [hl]
        by_cases hxj : x = j
        · subst hxj
          simp only [if_true]
          have := hinv.bound i hiwT
          push_cast
          omega
        · simp only [hxj, if_false]
          rcases (hmem_new x).mp hx with h1 | h1
          · have := hinv.bound x h1
            push_cast
            omega
          · exact absurd h1 hxj
      · intro a ha b hb hab hcond
        dsimp only at ha ⊢
        have haj : a ≠ j := by
          intro hx
          rw [hx] at ha
          exact hjnot (List.mem_append_left _ ha)
        by_cases hold : a ≠ i ∨ b < j
        · obtain ⟨h1, h2⟩ := hinv.edges a ha b hb hab hold
          have hbj : b ≠ j := by
            intro hx
            rw [hx] at h1
            exact hjnot h1
          simp only [haj, hbj, if_false]
          exact ⟨(hmem_new b).mpr (Or.inl h1), h2⟩
        · have hai : a = i := by
            by_contra hne
            exact hold (Or.inl hne)
          have hbj : b = j := by
            have : ¬ b < j := fun hlt => hold (Or.inr hlt)
            rcases hcond with h3 | h3
            · exact absurd hai h3
            · omega
          subst hai
          subst hbj
          refine ⟨(hmem_new b).mpr (Or.inr rfl), ?_⟩
          simp only [haj, if_false, if_true]
          simp
  · rw [if_neg hpos] at h
    simp only [Option.some.injEq] at h
    subst h
    refine ⟨⟨hinv.lt, hinv.nodup, hinv.seen, hinv.root, hinv.walk, hinv.bound, ?_, hinv.common,
      hinv.dnonneg, hinv.dbound⟩, rfl⟩
    intro a ha b hb hab hcond
    apply hinv.edges a ha b hb hab
    by_cases hai : a = i
    · right
      rcases hcond with h3 | h3
      · exact absurd hai h3
      · by_contra hlt
        have hbj : b = j := by omega
        rw [hai, hbj] at hab
        exact hpos hab
    · exact Or.inl hai

/-- With more fuel than the number of states, one pass of the inner loop returns. -/
theorem periodVisit_returns (gcdFuel : Nat) (P : NumericMatrix) (hf : P.ncol < gcdFuel)
    (i j : Nat) (st : PeriodState) (hinv : PeriodInv P st i j) :
    ∃ st', periodVisit gcdFuel P i st j = some st' := by
  unfold periodVisit
  by_cases hpos : P.data i j > 0
  · rw [if_pos hpos]
    by_cases hcount : 0 < (st.r ++ st.w ++ st.T).count j
    · rw [if_pos hcount, gcd_returns]
      · exact ⟨_, rfl⟩
      · have h1 := hinv.dbound
        have h2 := hinv.dnonneg
        omega
    · rw [if_neg hcount]
      exact ⟨_, rfl⟩
  · rw [if_neg hpos]
    exact ⟨_, rfl⟩

theorem periodRow_succ (gcdFuel : Nat) (P : NumericMatrix) (k i : Nat) (st : PeriodState) :
    periodRow gcdFuel P (k + 1) i st
      = (periodRow gcdFuel P k i st).bind (fun s => periodVisit gcdFuel P i s k) := by
  unfold periodRow
  rw [List.range_succ, List.foldl_append]
  rfl

/-- The inner loop keeps the invariant and leaves `w` as it is. -/
theorem periodRow_inv (gcdFuel : Nat) (P : NumericMatrix)
    (hirr : ∀ a b, a < P.ncol → b < P.ncol → Reach P a b) (i : Nat) (st : PeriodState)
    (hiw : i ∈ st.w) (hinv : PeriodInv P st i 0) (k : Nat) (hk : k ≤ P.ncol)
    (st' : PeriodState) (h : periodRow gcdFuel P k i st = some st') :
    PeriodInv P st' i k ∧ st'.w = st.w := by
  induction k generalizing st' with
  | zero =>
    simp only [periodRow, List.range_zero, List.foldl_nil, Option.some.injEq] at h
    subst h
    exact ⟨hinv, rfl⟩
  | succ k ih =>
    rw [periodRow_succ] at h
    cases hrow : periodRow gcdFuel P k i st with
    | none =>
      rw [hrow] at h
      simp at h
    | some s =>
      rw [hrow] at h
      simp only [Option.some_bind] at h
      obtain ⟨h1, h2⟩ := ih (by omega) s hrow
      obtain ⟨h3, h4⟩ := periodVisit_inv gcdFuel P hirr i k s st' (h2 ▸ hiw) (by omega) h1 h
      exact ⟨h3, h4.trans h2⟩

/-- With more fuel than the number of states, the inner loop returns. -/
theorem periodRow_returns (gcdFuel : Nat) (P : NumericMatrix)
    (hirr : ∀ a b, a < P.ncol → b < P.ncol → Reach P a b) (hf : P.ncol < gcdFuel) (i : Nat)
    (st : PeriodState) (hiw : i ∈ st.w) (hinv : PeriodInv P st i 0) (k : Nat)
    (hk : k ≤ P.ncol) : ∃ st', periodRow gcdFuel P k i st = some st' := by
  induction k with
  | zero => exact ⟨st, rfl⟩
  | succ k ih =>
    obtain ⟨s, hs⟩ := ih (by omega)
    obtain ⟨h1, -⟩ := periodRow_inv gcdFuel P hirr i st hiw hinv k (by omega) s hs
    obtain ⟨s2, hs2⟩ := periodVisit_returns gcdFuel P hf i k s h1
    exact ⟨s2, by rw [periodRow_succ, hs]; exact hs2⟩

/-- The invariant at the head of the outer loop gives the invariant at the start of the row of
the first element of `T`, once it has been moved to `w`. -/
theorem periodInv_pop (P : NumericMatrix) (st : PeriodState) (cur i : Nat) (rest : List Nat)
    (hT : st.T = i :: rest) (hinv : PeriodInv P st cur P.ncol) :
    PeriodInv P { st with T := rest, w := st.w ++ [i] } i 0 := by
  have happ : (st.w ++ [i]) ++ rest = st.w ++ st.T := by
    rw [hT, List.append_assoc]
    rfl
  refine ⟨?_, ?_, ?_, ?_, ?_, ?_, ?_, hinv.common, hinv.dnonneg, hinv.dbound⟩
  · dsimp only
    rw [happ]
    exact hinv.lt
  · dsimp only
    rw [happ]
    exact hinv.nodup
  · dsimp only
    rw [happ]
    exact hinv.seen
  · dsimp only
    rw [happ]
    exact hinv.root
  · dsimp only
    rw [happ]
    exact hinv.walk
  · dsimp only
    rw [happ]
    exact hinv.bound
  · intro a ha b hb hab hcond
    dsimp only at ha ⊢
    rw [happ]
    have hai : a ≠ i := by
      rcases hcond with h1 | h1
      · exact h1
      · omega
    have haw : a ∈ st.w := by
      rcases List.mem_append.mp ha with h1 | h1
      · exact h1
      · exact absurd (List.mem_singleton.mp h1) hai
    exact hinv.edges a haw b hb hab (Or.inr hb)

/-- When the frontier `T` is empty, every state has been processed. -/
theorem periodInv_all_processed (P : NumericMatrix)
    (hirr : ∀ a b, a < P.ncol → b < P.ncol → Reach P a b) (st : PeriodState) (cur : Nat)
    (hT : st.T = []) (hinv : PeriodInv P st cur P.ncol) (x : Nat) (hx : x < P.ncol) :
    x ∈ st.w := by
  have hroot : 0 ∈ st.w := by
    have := hinv.root
    rwa [hT, List.append_nil] at this
  have h0 : 0 < P.ncol := by omega
  have hreach := hirr 0 x h0 hx
  induction hreach with
  | refl => exact hroot
  | @tail b c hab hbc ih =>
    obtain ⟨hc, hpos⟩ := (mem_adjacencies P b c).mp hbc
    have hb : b < P.ncol := Reach.lt hab h0
    have := (hinv.edges b (ih hb) c hc hpos (Or.inr hc)).1
    rwa [hT, List.append_nil] at this

/-- What the outer loop returns divides the length of every cycle and is divisible by every
common divisor of the cycle lengths. -/
theorem periodLoop_sound (gcdFuel : Nat) (P : NumericMatrix)
    (hirr : ∀ a b, a < P.ncol → b < P.ncol → Reach P a b) (fuel : Nat) (st : PeriodState)
    (cur : Nat) (hinv : PeriodInv P st cur P.ncol) (d : Int)
    (h : periodLoop gcdFuel P P.ncol fuel st = some d) :
    0 ≤ d ∧ (∀ L, IsCycle P L → d ∣ (L : Int)) ∧
      ∀ g : Int, (∀ L, IsCycle P L → g ∣ (L : Int)) → g ∣ d := by
  induction fuel generalizing st cur with
  | zero => simp [periodLoop] at h
  | succ fuel ih =>
    rw [periodLoop] at h
    cases hT : st.T with
    | nil =>
      rw [hT] at h
      simp only [Option.some.injEq] at h
      subst h
      refine ⟨hinv.dnonneg, ?_, hinv.common⟩
      rintro L ⟨-, i, x, hx0, hxL, hxlt, hxstep⟩
      have hall := periodInv_all_processed P hirr st cur hT hinv
      have htel := walk_telescope st.v st.d x L (fun t ht =>
        (hinv.edges (x t) (hall _ (hxlt t (by omega))) (x (t + 1)) (hxlt (t + 1) (by omega))
          (hxstep t ht) (Or.inr (hxlt (t + 1) (by omega)))).2)
      rw [hx0, hxL] at htel
      simpa using htel
    | cons i rest =>
      rw [hT] at h
      by_cases hd : st.d ≠ 1
      · simp only [hd, ne_eq, not_false_eq_true, if_true] at h
        cases hrow : periodRow gcdFuel P P.ncol i { st with T := rest, w := st.w ++ [i] } with
        | none =>
          rw [hrow] at h
          simp at h
        | some s =>
          rw [hrow] at h
          simp only [Option.some_bind] at h
          have hpop := periodInv_pop P st cur i rest hT hinv
          obtain ⟨h1, -⟩ := periodRow_inv gcdFuel P hirr i _ (by simp) hpop P.ncol
            (le_refl _) s hrow
          exact ih s i h1 h
      · have hd1 : st.d = 1 := by simpa using hd
        simp only [hd1, ne_eq, not_true_eq_false, if_false, Option.some.injEq] at h
        subst h
        refine ⟨by omega, fun L _ => one_dvd _, fun g hg => ?_⟩
        rw [← hd1]
        exact hinv.common g hg

/-- The outer loop returns when the fuel exceeds the number of states not yet processed. -/
theorem periodLoop_returns (gcdFuel : Nat) (P : NumericMatrix)
    (hirr : ∀ a b, a < P.ncol → b < P.ncol → Reach P a b) (hf : P.ncol < gcdFuel) (fuel : Nat)
    (st : PeriodState) (cur : Nat) (hinv : PeriodInv P st cur P.ncol)
    (hfuel : P.ncol - st.w.length < fuel) :
    ∃ d, periodLoop gcdFuel P P.ncol fuel st = some d := by
  induction fuel generalizing st cur with
  | zero => omega
  | succ fuel ih =>
    rw [periodLoop]
    cases hT : st.T with
    | nil => exact ⟨_, rfl⟩
    | cons i rest =>
      by_cases hd : st.d ≠ 1
      · simp only [hd, ne_eq, not_false_eq_true, if_true]
        have hpop := periodInv_pop P st cur i rest hT hinv
        obtain ⟨s, hs⟩ := periodRow_returns gcdFuel P hirr hf i
          { st with T := rest, w := st.w ++ [i] } (by simp) hpop P.ncol (le_refl _)
        obtain ⟨h1, h2⟩ := periodRow_inv gcdFuel P hirr i _ (by simp) hpop P.ncol
          (le_refl _) s hs
        rw [hs]
        simp only [Option.some_bind]
        apply ih s i h1
        rw [h2]
        have hlen := nodup_length_le _ _ hinv.nodup hinv.lt
        rw [hT] at hlen
        simp only [List.length_append, List.length_cons, List.length_singleton] at hlen ⊢
        omega
      · have hd1 : st.d = 1 := by simpa using hd
        simp only [hd1, ne_eq, not_true_eq_false, if_false]
        exact ⟨_, rfl⟩

/-- Every cycle splits into cycles that visit no state twice: a common divisor of the lengths
of those divides the length of every cycle. -/
theorem cycle_dvd_of_simple (P : NumericMatrix) (g : Int)
    (hg : ∀ L, IsSimpleCycle P L → g ∣ (L : Int)) : ∀ L, IsCycle P L → g ∣ (L : Int) := by
  intro L
  induction L using Nat.strong_induction_on with
  | _ L ih =>
    rintro ⟨hL, i, x, hx0, hxL, hxlt, hxstep⟩
    by_cases hsimple : ∀ s t, s < t → t < L → x s ≠ x t
    · exact hg L ⟨hL, x, by rw [hx0, hxL], hxlt, hxstep, hsimple⟩
    · push_neg at hsimple
      obtain ⟨s, t, hst, htL, hxst⟩ := hsimple
      have hin : IsCycle P (t - s) := by
        refine ⟨by omega, x s, fun u => x (s + u), rfl, ?_, fun u hu => hxlt _ (by omega), ?_⟩
        · show x (s + (t - s)) = x s
          rw [show s + (t - s) = t by omega]
          exact hxst.symm
        · intro u hu
          exact hxstep (s + u) (by omega)
      have hout : IsCycle P (L - (t - s)) := by
        refine ⟨by omega, i, fun u => if u ≤ s then x u else x (u + (t - s)), ?_, ?_, ?_, ?_⟩
        · simp [hx0]
        · have h1 : ¬ (L - (t - s) ≤ s) := by omega
          have h2 : L - (t - s) + (t - s) = L := by omega
          simp only [h1, if_false, h2, hxL]
        · intro u hu
          by_cases hus : u ≤ s
          · simp only [hus, if_true]
            exact hxlt u (by omega)
          · simp only [hus, if_false]
            exact hxlt _ (by omega)
        · intro u hu
          by_cases hus : u + 1 ≤ s
          · have hus2 : u ≤ s := by omega
            simp only [hus, hus2, if_true]
            exact hxstep u (by omega)
          · by_cases hus2 : u ≤ s
            · have hue : u = s := by omega
              subst hue
              simp only [le_refl, if_true, hus, if_false]
              rw [hxst, show u + 1 + (t - u) = t + 1 by omega]
              exact hxstep t htL
            · simp only [hus, hus2, if_false]
              rw [show u + 1 + (t - s) = u + (t - s) + 1 by omega]
              exact hxstep _ (by omega)
      have h1 := ih (t - s) (by omega) hin
      have h2 := ih (L - (t - s)) (by omega) hout
      have he : (L : Int) = ((t - s : Nat) : Int) + ((L - (t - s) : Nat) : Int) := by omega
      rw [he]
      exact dvd_add h1 h2

theorem IsSimpleCycle.isCycle {P : NumericMatrix} {L : Nat} (h : IsSimpleCycle P L) :
    IsCycle P L := by
  obtain ⟨hL, x, h0, hlt, hstep, -⟩ := h
  exact ⟨hL, x 0, x, rfl, h0.symm, hlt, hstep⟩

/-- The period of a chain is determined by the chain. -/
theorem isPeriod_unique (P : NumericMatrix) (d1 d2 : Int) (h1 : IsPeriod P d1)
    (h2 : IsPeriod P d2) : d1 = d2 :=
  Int.dvd_antisymm h1.1 h2.1
    (h2.2.2 d1 (fun L hL => h1.2.1 L hL.isCycle))
    (h1.2.2 d2 (fun L hL => h2.2.1 L hL.isCycle))

/-- The invariant holds when the labelling loop starts. -/
theorem periodInv_init (P : NumericMatrix) (hn : 1 ≤ P.ncol) :
    PeriodInv P { r := [], T := [0], w := [], v := fun x => if x = 0 then 1 else 0, d := 0 }
      0 P.ncol := by
  refine ⟨?_, ?_, ?_, ?_, ?_, ?_, ?_, ?_, ?_, ?_⟩
  · intro x hx
    simp only [List.nil_append, List.mem_singleton] at hx
    omega
  · simp
  · intro x hx
    simp at hx
  · simp
  · intro x hx
    simp only [List.nil_append, List.mem_singleton] at hx
    subst hx
    simp only [if_true, sub_self, Int.toNat_zero, le_refl, true_and]
    exact IsWalk.refl P 0 (by omega)
  · intro x hx
    simp only [List.nil_append, List.mem_singleton] at hx
    subst hx
    simp
  · intro a ha
    simp at ha
  · intro g _
    exact dvd_zero g
  · exact le_refl _
  · simp

/-- What `period` returns on an irreducible chain is the period of the chain. -/
theorem period_sound {α : Type} (object : Markovchain α)
    (hn : 1 ≤ object.transitionMatrix.ncol)
    (hirr : ∀ i j, i < object.transitionMatrix.ncol → j < object.transitionMatrix.ncol →
      Reach object.transitionMatrix i j) (fuel : Nat) (d : Int)
    (h : period true fuel object = some d) : IsPeriod object.transitionMatrix d := by
  unfold period at h
  have h0 : 0 < object.transitionMatrix.ncol := by omega
  simp only [Bool.not_true, Bool.false_eq_true, if_false, h0, if_true] at h
  obtain ⟨h1, h2, h3⟩ := periodLoop_sound fuel object.transitionMatrix hirr fuel _ 0
    (periodInv_init object.transitionMatrix hn) d h
  exact ⟨h1, h2, fun g hg => h3 g (cycle_dvd_of_simple object.transitionMatrix g hg)⟩

/-- On an irreducible chain `period` returns when the fuel exceeds the number of states. -/
theorem period_returns {α : Type} (object : Markovchain α)
    (hn : 1 ≤ object.transitionMatrix.ncol)
    (hirr : ∀ i j, i < object.transitionMatrix.ncol → j < object.transitionMatrix.ncol →
      Reach object.transitionMatrix i j) :
    ∃ d, period true (object.transitionMatrix.ncol + 1) object = some d := by
  unfold period
  have h0 : 0 < object.transitionMatrix.ncol := by omega
  simp only [Bool.not_true, Bool.false_eq_true, if_false, h0, if_true]
  apply periodLoop_returns _ object.transitionMatrix hirr (by omega) _ _ 0
    (periodInv_init object.transitionMatrix hn)
  simp

/-- C19: for an irreducible transition matrix of order `n ≥ 1` the labelling loop of `period`
terminates, and what it returns is the period of the chain, the greatest common divisor of the
lengths of all cycles of the transition graph; so it returns 1 when that divisor is 1, and it
returns 2 for `P = [[0, 1], [1, 0]]`. -/
theorem period_gcd_of_cycles {α : Type} (object : Markovchain α)
    (_hsq : object.transitionMatrix.nrow = object.transitionMatrix.ncol)
    (hn : 1 ≤ object.transitionMatrix.ncol)
    (hirr : ∀ i j, i < object.transitionMatrix.ncol → j < object.transitionMatrix.ncol →
      Reach object.transitionMatrix i j) :
    (∃ d, (∃ fuel, period true fuel object = some d) ∧
      (∀ fuel d', period true fuel object = some d' → d' = d) ∧
      IsPeriod object.transitionMatrix d ∧
      (∀ d', IsPeriod object.transitionMatrix d' → d' = d) ∧
      (IsPeriod object.transitionMatrix 1 → d = 1)) ∧
    period true 4 swapChain = some 2 := by
  refine ⟨?_, by decide⟩
  obtain ⟨d, hd⟩ := period_returns object hn hirr
  have hp := period_sound object hn hirr _ d hd
  refine ⟨d, ⟨_, hd⟩, ?_, hp, ?_, ?_⟩
  · intro fuel d2 h2
    exact isPeriod_unique _ _ _ (period_sound object hn hirr fuel d2 h2) hp
  · intro d2 h2
    exact isPeriod_unique _ _ _ h2 hp
  · intro h1
    exact isPeriod_unique _ _ _ hp h1

/-- The chain `[[0, 1], [1, 0]]` is irreducible. -/
theorem swapMatrix_irreducible :
    ∀ i j, i < swapMatrix.ncol → j < swapMatrix.ncol → Reach swapMatrix i j := by
  have h01 : Reach swapMatrix 0 1 :=
    Relation.ReflTransGen.single ((mem_adjacencies swapMatrix 0 1).mpr (by decide))
  have h10 : Reach swapMatrix 1 0 :=
    Relation.ReflTransGen.single ((mem_adjacencies swapMatrix 1 0).mpr (by decide))
  intro i j hi hj
  have hi2 : i < 2 := hi
  have hj2 : j < 2 := hj
  interval_cases i <;> interval_cases j
  · exact Relation.ReflTransGen.refl
  · exact h01
  · exact h10
  · exact Relation.ReflTransGen.refl

/-- The theorem for C19 at the chain `[[0, 1], [1, 0]]`. -/
theorem period_gcd_of_cycles_witness :
    swapChain.transitionMatrix.nrow = swapChain.transitionMatrix.ncol ∧
    1 ≤ swapChain.transitionMatrix.ncol ∧
    (∀ i j, i < swapChain.transitionMatrix.ncol → j < swapChain.transitionMatrix.ncol →
      Reach swapChain.transitionMatrix i j) ∧
    (∃ d, (∃ fuel, period true fuel swapChain = some d) ∧
      (∀ fuel d', period true fuel swapChain = some d' → d' = d) ∧
      IsPeriod swapChain.transitionMatrix d ∧
      (∀ d', IsPeriod swapChain.transitionMatrix d' → d' = d) ∧
      (IsPeriod swapChain.transitionMatrix 1 → d = 1)) ∧
    period true 4 swapChain = some 2 :=
  ⟨by decide, by decide, swapMatrix_irreducible,
    period_gcd_of_cycles swapChain (by decide) (by decide) swapMatrix_irreducible⟩

/-! ## The predictive distribution -/

/-- The rearranged names, as a list of entries of the argument. -/
theorem permuteNames_eq_map {α : Type} (names : List α) (s : Equiv.Perm (Fin names.length)) :
    permuteNames s names = (List.finRange names.length).map (fun i => names.get (s i)) := by
  unfold permuteNames
  rw [← List.filterMap_eq_map]
  congr 1
  funext i
  simp

/-- Rearranging names by a permutation of the positions gives a permutation of the list. -/
theorem permuteNames_perm {α : Type} (n : Nat) (names : List α) (hlen : names.length = n)
    (s : Equiv.Perm (Fin n)) : (permuteNames s names).Perm names := by
  subst hlen
  rw [permuteNames_eq_map]
  have h1 : (List.finRange names.length).map (fun i => names.get (s i))
      = ((List.finRange names.length).map s).map names.get := by
    rw [List.map_map]
    rfl
  rw [h1]
  have h2 := (Equiv.Perm.map_finRange_perm s).map names.get
  rw [List.finRange_map_get] at h2
  exact h2

theorem permuteNames_length {α : Type} (n : Nat) (names : List α) (hlen : names.length = n)
    (s : Equiv.Perm (Fin n)) : (permuteNames s names).length = n := by
  rw [(permuteNames_perm n names hlen s).length_eq, hlen]

/-- Position `i` of the rearranged names holds the name at position `s i`. -/
theorem permuteNames_getElem? {α : Type} (n : Nat) (names : List α) (hlen : names.length = n)
    (s : Equiv.Perm (Fin n)) (i : Nat) (hi : i < n) :
    (permuteNames s names)[i]? = names[permuteIndex s i]? := by
  subst hlen
  rw [permuteNames_eq_map]
  simp only [permuteIndex, hi, dite_true]
  rw [List.getElem?_map, List.getElem?_eq_getElem (by simpa using hi),
    List.getElem?_eq_getElem (s ⟨i, hi⟩).isLt]
  simp

theorem permuteIndex_lt {n : Nat} (s : Equiv.Perm (Fin n)) (i : Nat) (hi : i < n) :
    permuteIndex s i < n := by
  simp only [permuteIndex, hi, dite_true]
  exact (s ⟨i, hi⟩).isLt

theorem permuteIndex_symm {n : Nat} (s : Equiv.Perm (Fin n)) (i : Nat) (hi : i < n) :
    permuteIndex s (permuteIndex s.symm i) = i := by
  have h1 : permuteIndex s.symm i < n := permuteIndex_lt s.symm i hi
  simp only [permuteIndex, hi, dite_true, (s.symm ⟨i, hi⟩).isLt, Fin.eta,
    Equiv.apply_symm_apply]

theorem permuteIndex_injective {n : Nat} (s : Equiv.Perm (Fin n)) (i j : Nat) (hi : i < n)
    (hj : j < n) (h : permuteIndex s i = permuteIndex s j) : i = j := by
  simp only [permuteIndex, hi, hj, dite_true] at h
  have := s.injective (Fin.ext h)
  exact congrArg Fin.val this

/-- Sorting does not see a rearrangement of the list. -/
theorem insertionSort_eq_of_perm {α : Type} [LinearOrder α] (l1 l2 : List α)
    (h : l1.Perm l2) : l1.insertionSort (· ≤ ·) = l2.insertionSort (· ≤ ·) :=
  List.eq_of_perm_of_sorted
    (((List.perm_insertionSort _ l1).trans h).trans (List.perm_insertionSort _ l2).symm)
    (List.sorted_insertionSort _ l1) (List.sorted_insertionSort _ l2)

/-- What the loop over the sorted names has checked and appended after `k` passes. -/
theorem predictiveNames_fold {α : Type} [DecidableEq α] (sc sr els : List α) (k : Nat)
    (els2 : List α)
    (h : (List.range k).foldl (predictiveNamesStep els.length sc sr) (some els) = some els2) :
    (∀ i, 0 < i → i < k → sc[i]? ≠ sc[i - 1]?) ∧ (∀ i, i < k → sc[i]? = sr[i]?) ∧
      (∀ i, i < k → i < sc.length) ∧
      els2 = els ++ (sc.take k).filter (fun c => decide (c ∉ els)) := by
  induction k generalizing els2 with
  | zero =>
    simp only [List.range_zero, List.foldl_nil, Option.some.injEq] at h
    subst h
    refine ⟨fun i _ hi => absurd hi (by omega), fun i hi => absurd hi (by omega),
      fun i hi => absurd hi (by omega), by simp⟩
  | succ k ih =>
    rw [List.range_succ, List.foldl_append] at h
    simp only [List.foldl_cons, List.foldl_nil] at h
    cases hprev : (List.range k).foldl (predictiveNamesStep els.length sc sr) (some els) with
    | none =>
      rw [hprev] at h
      simp [predictiveNamesStep] at h
    | some els1 =>
      rw [hprev] at h
      obtain ⟨h1, h2, h3, h4⟩ := ih els1 hprev
      simp only [predictiveNamesStep, Option.some_bind] at h
      by_cases hdup : 0 < k ∧ (sc[k]? = sc[k - 1]? ∨ sr[k]? = sr[k - 1]?)
      · rw [if_pos hdup] at h
        exact absurd h (by simp)
      · rw [if_neg hdup] at h
        by_cases hne : sc[k]? ≠ sr[k]?
        · rw [if_pos hne] at h
          exact absurd h (by simp)
        · rw [if_neg hne] at h
          have heq : sc[k]? = sr[k]? := by simpa using hne
          cases hc : sc[k]? with
          | none =>
            rw [hc] at h
            exact absurd h (by simp)
          | some c =>
            rw [hc] at h
            simp only at h
            have hklt : k < sc.length := by
              by_contra hge
              rw [List.getElem?_eq_none (by omega)] at hc
              exact absurd hc (by simp)
            have htake : els1.take els.length = els := by
              rw [h4, List.take_left]
            rw [htake] at h
            refine ⟨?_, ?_, ?_, ?_⟩
            · intro i hi0 hik
              by_cases hek : i = k
              · subst hek
                intro hx
                exact hdup ⟨hi0, Or.inl hx⟩
              · exact h1 i hi0 (by omega)
            · intro i hik
              by_cases hek : i = k
              · subst hek
                exact heq
              · exact h2 i (by omega)
            · intro i hik
              by_cases hek : i = k
              · subst hek
                exact hklt
              · exact h3 i (by omega)
            · have hts : sc.take (k + 1) = sc.take k ++ [c] := by
                rw [List.take_succ, hc]
                rfl
              rw [hts, List.filter_append]
              by_cases hmem : c ∈ els
              · rw [if_pos hmem] at h
                simp only [Option.some.injEq] at h
                rw [← h, h4]
                simp [hmem]
              · rw [if_neg hmem] at h
                simp only [Option.some.injEq] at h
                rw [← h, h4]
                simp [hmem]

/-- A sorted list whose neighbours differ has no repeated entry. -/
theorem nodup_of_sorted_of_adjacent {α : Type} [LinearOrder α] (l : List α)
    (hs : l.Sorted (· ≤ ·)) (hadj : ∀ i, 0 < i → i < l.length → l[i]? ≠ l[i - 1]?) :
    l.Nodup := by
  induction l with
  | nil => exact List.nodup_nil
  | cons a l ih =>
    rw [List.sorted_cons] at hs
    rw [List.nodup_cons]
    constructor
    · intro ha
      cases l with
      | nil => simp at ha
      | cons b l2 =>
        have h1 := hadj 1 (by omega) (by simp)
        simp only [List.getElem?_cons_succ, List.getElem?_cons_zero, Nat.sub_self, ne_eq,
          Option.some.injEq] at h1
        have hab : a ≤ b := hs.1 b (List.mem_cons_self _ _)
        have hba : b ≤ a := by
          rcases List.mem_cons.mp ha with h2 | h2
          · exact h2 ▸ le_refl _
          · exact (List.sorted_cons.mp hs.2).1 a h2
        exact h1 (le_antisymm hba hab)
    · apply ih hs.2
      intro i hi0 hil
      have := hadj (i + 1) (by omega) (by simpa using hil)
      simp only [List.getElem?_cons_succ, Nat.add_sub_cancel] at this
      have hi1 : i = (i - 1) + 1 := by omega
      rw [hi1, List.getElem?_cons_succ] at this
      rw [← hi1] at this
      exact this

/-- The states and the names that are not states, together, are as many as the names when
every state is a name. -/
theorem length_append_filter_not_mem {α : Type} [DecidableEq α] (els sc : List α)
    (hels : els.Nodup) (hsc : sc.Nodup) (hsub : ∀ e ∈ els, e ∈ sc) :
    (els ++ sc.filter (fun c => decide (c ∉ els))).length = sc.length := by
  have h1 : (sc.filter (fun c => decide (c ∈ els))).Perm els := by
    rw [List.perm_ext_iff_of_nodup (hsc.filter _) hels]
    intro a
    simp only [List.mem_filter, decide_eq_true_eq]
    constructor
    · exact fun h => h.2
    · exact fun h => ⟨hsub a h, h⟩
  have h2 := List.length_eq_countP_add_countP (fun c => decide (c ∈ els)) sc
  rw [List.countP_eq_length_filter, List.countP_eq_length_filter, h1.length_eq] at h2
  rw [List.length_append, h2]
  congr 2
  apply List.filter_congr
  intro x _
  simp

/-- In a list without repeated names, the position of a name in the rearranged list is sent by
the permutation to its position in the list. -/
theorem permuteIndex_indexOf {α : Type} [DecidableEq α] (n : Nat) (names : List α)
    (hlen : names.length = n) (hnd : names.Nodup) (s : Equiv.Perm (Fin n)) (a : α)
    (ha : a ∈ names) :
    permuteIndex s ((permuteNames s names).indexOf a) = names.indexOf a := by
  have hperm := permuteNames_perm n names hlen s
  have hk : (permuteNames s names).indexOf a < (permuteNames s names).length :=
    List.indexOf_lt_length.mpr (hperm.mem_iff.mpr ha)
  have hkn : (permuteNames s names).indexOf a < n := by
    rwa [permuteNames_length n names hlen s] at hk
  have h1 : (permuteNames s names)[(permuteNames s names).indexOf a]? = some a := by
    rw [List.getElem?_eq_getElem hk, List.getElem_indexOf hk]
  rw [permuteNames_getElem? n names hlen s _ hkn] at h1
  have hlt : permuteIndex s ((permuteNames s names).indexOf a) < names.length := by
    rw [hlen]
    exact permuteIndex_lt s _ hkn
  rw [List.getElem?_eq_getElem hlt] at h1
  simp only [Option.some.injEq] at h1
  have := List.indexOf_getElem hnd _ hlt
  rw [h1] at this
  exact this.symm

/-- On a matrix whose row names and column names have no repeated entry, the alignment with
the sorted names does not see a permutation of the rows, the columns and the names. -/
theorem sortByDimNames_permute {α : Type} [LinearOrder α] (H : NamedMatrix α)
    (hrow : H.rowNames.length = H.matrix.ncol) (hcol : H.colNames.length = H.matrix.ncol)
    (hrnd : H.rowNames.Nodup) (hcnd : H.colNames.Nodup)
    (s : Equiv.Perm (Fin H.matrix.ncol)) :
    (sortByDimNames (permuteHyperparam H s)).matrix.data = (sortByDimNames H).matrix.data := by
  funext i j
  simp only [sortByDimNames, permuteHyperparam]
  rw [insertionSort_eq_of_perm _ _ (permuteNames_perm _ H.rowNames hrow s),
    insertionSort_eq_of_perm _ _ (permuteNames_perm _ H.colNames hcol s)]
  cases hi : (H.rowNames.insertionSort (· ≤ ·))[i]? with
  | none => rfl
  | some a =>
    cases hj : (H.colNames.insertionSort (· ≤ ·))[j]? with
    | none => rfl
    | some b =>
      simp only
      have ha : a ∈ H.rowNames :=
        (List.mem_insertionSort _).mp (List.getElem?_mem hi)
      have hb : b ∈ H.colNames :=
        (List.mem_insertionSort _).mp (List.getElem?_mem hj)
      rw [permuteIndex_indexOf _ H.rowNames hrow hrnd s a ha,
        permuteIndex_indexOf _ H.colNames hcol hcnd s b hb]

/-- The test for an entry below 1 does not see a permutation of the rows and columns. -/
theorem exists_entry_lt_permute (n : Nat) (data : Nat → Nat → ℚ) (s : Equiv.Perm (Fin n)) :
    (∃ i ∈ List.range n, ∃ j ∈ List.range n, data (permuteIndex s i) (permuteIndex s j) < 1)
      ↔ ∃ i ∈ List.range n, ∃ j ∈ List.range n, data i j < 1 := by
  simp only [List.mem_range]
  constructor
  · rintro ⟨i, hi, j, hj, h⟩
    exact ⟨_, permuteIndex_lt s i hi, _, permuteIndex_lt s j hj, h⟩
  · rintro ⟨i, hi, j, hj, h⟩
    refine ⟨_, permuteIndex_lt s.symm i hi, _, permuteIndex_lt s.symm j hj, ?_⟩
    rw [permuteIndex_symm s i hi, permuteIndex_symm s j hj]
    exact h

/-- The part of `predictiveDistribution` after the default does not see a permutation of the
rows, the columns and the names of a square hyperparameter matrix. -/
theorem predictiveCore_permute {α : Type} [LinearOrder α] (lgamma : ℚ → ℚ)
    (stringchar newData elements : List α) (hels : elements.Nodup) (H : NamedMatrix α)
    (hrow : H.rowNames.length = H.matrix.ncol) (hcol : H.colNames.length = H.matrix.ncol)
    (s : Equiv.Perm (Fin H.matrix.ncol)) :
    predictiveCore lgamma stringchar newData elements (permuteHyperparam H s)
      = predictiveCore lgamma stringchar newData elements H := by
  have hrow2 := permuteNames_length _ H.rowNames hrow s
  have hcol2 := permuteNames_length _ H.colNames hcol s
  have e1 : (permuteNames s H.colNames).take H.matrix.ncol = permuteNames s H.colNames :=
    List.take_of_length_le (by omega)
  have e2 : (permuteNames s H.rowNames).take H.matrix.ncol = permuteNames s H.rowNames :=
    List.take_of_length_le (by omega)
  have e3 : H.colNames.take H.matrix.ncol = H.colNames := List.take_of_length_le (by omega)
  have e4 : H.rowNames.take H.matrix.ncol = H.rowNames := List.take_of_length_le (by omega)
  unfold predictiveCore
  simp only [permuteHyperparam, e1, e2, e3, e4, hrow2, hcol2, hrow, hcol,
    insertionSort_eq_of_perm _ _ (permuteNames_perm _ H.rowNames hrow s),
    insertionSort_eq_of_perm _ _ (permuteNames_perm _ H.colNames hcol s)]
  by_cases h1 : H.matrix.nrow ≠ H.matrix.ncol
  · rw [if_pos h1, if_pos h1]
  rw [if_neg h1, if_neg h1]
  by_cases h2 : H.matrix.nrow < elements.length
  · rw [if_pos h2, if_pos h2]
  rw [if_neg h2, if_neg h2]
  simp only [lt_self_iff_false, or_self, if_false]
  cases hloop : (List.range H.matrix.ncol).foldl
      (predictiveNamesStep elements.length (H.colNames.insertionSort (· ≤ ·))
        (H.rowNames.insertionSort (· ≤ ·))) (some elements) with
  | none => rfl
  | some elements2 =>
    simp only
    by_cases h3 : ¬ (∀ e ∈ elements2.take elements.length,
        e ∈ H.colNames.insertionSort (· ≤ ·))
    · rw [if_pos h3, if_pos h3]
    rw [if_neg h3, if_neg h3]
    have h3b : ∀ e ∈ elements2.take elements.length, e ∈ H.colNames.insertionSort (· ≤ ·) := by
      simpa using h3
    obtain ⟨hadj, hsame, -, hels2⟩ := predictiveNames_fold _ _ _ _ _ hloop
    have hsclen : (H.colNames.insertionSort (· ≤ ·)).length = H.matrix.ncol := by
      rw [List.length_insertionSort, hcol]
    have hsrlen : (H.rowNames.insertionSort (· ≤ ·)).length = H.matrix.ncol := by
      rw [List.length_insertionSort, hrow]
    have hscnd : (H.colNames.insertionSort (· ≤ ·)).Nodup :=
      nodup_of_sorted_of_adjacent _ (List.sorted_insertionSort _ _)
        (fun i hi0 hil => hadj i hi0 (by omega))
    have hsceq : H.colNames.insertionSort (· ≤ ·) = H.rowNames.insertionSort (· ≤ ·) := by
      apply List.ext_getElem?
      intro i
      by_cases hi : i < H.matrix.ncol
      · exact hsame i hi
      · rw [List.getElem?_eq_none (by omega), List.getElem?_eq_none (by omega)]
    have hcnd : H.colNames.Nodup := (List.perm_insertionSort _ _).nodup_iff.mp hscnd
    have hrnd : H.rowNames.Nodup :=
      (List.perm_insertionSort _ _).nodup_iff.mp (hsceq ▸ hscnd)
    have hlen2 : (elements2.insertionSort (· ≤ ·)).length = H.matrix.ncol := by
      have htake : (H.colNames.insertionSort (· ≤ ·)).take H.matrix.ncol
          = H.colNames.insertionSort (· ≤ ·) := List.take_of_length_le (by omega)
      rw [List.length_insertionSort, hels2, htake, ← hsclen]
      apply length_append_filter_not_mem _ _ hels hscnd
      intro e he
      apply h3b
      rw [hels2, List.take_left]
      exact he
    rw [hlen2]
    have hiff := exists_entry_lt_permute H.matrix.ncol H.matrix.data s
    by_cases h4 : ∃ i ∈ List.range H.matrix.ncol, ∃ j ∈ List.range H.matrix.ncol,
        H.matrix.data i j < 1
    · rw [if_pos h4, if_pos (hiff.mpr h4)]
    · rw [if_neg h4, if_neg (fun hx => h4 (hiff.mp hx))]
      exact congrArg
        (fun d => some (predictiveSum lgamma stringchar newData
          (elements2.insertionSort (· ≤ ·)) d))
        (sortByDimNames_permute H hrow hcol hrnd hcnd s)

/-- C20: `predictiveDistribution` is invariant under a consistent relabelling order of the
hyperparameter matrix: for all sequences `stringchar` and `newData`, every square
hyperparameter matrix `H` with a name for every row and column, and every permutation `s` of
its indices, the result with `H` is the result with the matrix obtained by applying `s` to the
rows and the columns of `H` and to its row and column names. -/
theorem predictiveDistribution_permutation_invariant {α : Type} [LinearOrder α]
    (lgamma : ℚ → ℚ) (stringchar newData : List α) (H : NamedMatrix α)
    (_hsq : H.matrix.nrow = H.matrix.ncol)
    (hrow : H.rowNames.length = H.matrix.ncol) (hcol : H.colNames.length = H.matrix.ncol)
    (s : Equiv.Perm (Fin H.matrix.ncol)) :
    predictiveDistribution lgamma stringchar newData (permuteHyperparam H s)
      = predictiveDistribution lgamma stringchar newData H := by
  unfold predictiveDistribution
  by_cases h11 : H.matrix.nrow = 1 ∧ H.matrix.ncol = 1
  · have h11b : (permuteHyperparam H s).matrix.nrow = 1 ∧
        (permuteHyperparam H s).matrix.ncol = 1 := h11
    rw [if_pos h11, if_pos h11b]
  · have h11b : ¬ ((permuteHyperparam H s).matrix.nrow = 1 ∧
        (permuteHyperparam H s).matrix.ncol = 1) := h11
    rw [if_neg h11, if_neg h11b]
    apply predictiveCore_permute lgamma stringchar newData _ _ H hrow hcol s
    exact (List.perm_insertionSort _ _).nodup_iff.mpr (List.nodup_dedup _)

/-- The theorem for C20 at a matrix for two states, the sequences `0, 1, 0` and `1, 0`, and
the permutation that swaps the two indices; the function returns a value there. -/
theorem predictiveDistribution_permutation_invariant_witness :
    exampleHyperparam.matrix.nrow = exampleHyperparam.matrix.ncol ∧
    exampleHyperparam.rowNames.length = exampleHyperparam.matrix.ncol ∧
    exampleHyperparam.colNames.length = exampleHyperparam.matrix.ncol ∧
    predictiveDistribution (fun x => x) [0, 1, 0] [1, 0]
        (permuteHyperparam exampleHyperparam (Equiv.swap (0 : Fin 2) (1 : Fin 2)))
      = predictiveDistribution (fun x => x) [0, 1, 0] [1, 0] exampleHyperparam ∧
    (predictiveDistribution (fun x => x) [0, 1, 0] [1, 0] exampleHyperparam).isSome = true :=
  ⟨by decide, by decide, by decide,
    predictiveDistribution_permutation_invariant (fun x => x) [0, 1, 0] [1, 0]
      exampleHyperparam (by decide) (by decide) (by decide) (Equiv.swap (0 : Fin 2) (1 : Fin 2)),
    by decide⟩

/-! ## The checks of `predictiveDistribution` -/

/-- When the loop over the sorted names and the test for missing hyperparameters have passed,
the list of states is as long as the list of names. -/
theorem predictiveNames_length {α : Type} [LinearOrder α] (els sc sr : List α)
    (hels : els.Nodup) (hsorted : sc.Sorted (· ≤ ·)) (els2 : List α)
    (hloop : (List.range sc.length).foldl (predictiveNamesStep els.length sc sr) (some els)
      = some els2)
    (hmiss : ∀ e ∈ els2.take els.length, e ∈ sc) : els2.length = sc.length := by
  obtain ⟨hadj, -, -, hels2⟩ := predictiveNames_fold _ _ _ _ _ hloop
  have hscnd : sc.Nodup := nodup_of_sorted_of_adjacent _ hsorted hadj
  rw [hels2, List.take_length]
  apply length_append_filter_not_mem _ _ hels hscnd
  intro e he
  apply hmiss
  rw [hels2, List.take_left]
  exact he

/-- C21, the statement of the specification fails: for the one state 0, the sequences `0, 0`
and `0`, and the 1-by-1 hyperparameter matrix with the entry 0, which is smaller than 1,
`predictiveDistribution` returns a value. -/
theorem predictiveDistribution_oneState_counterexample :
    oneStateHyperparam.matrix.data 0 0 < 1 ∧
    (predictiveDistribution (fun x => x) [0, 0] [0] oneStateHyperparam).isSome = true ∧
    predictiveDistribution (fun x => x) [0, 0] [0] oneStateHyperparam
      = predictiveDistribution (fun x => x) [0, 0] [0] (defaultHyperparam [0]) := by
  refine ⟨by decide, by decide, ?_⟩
  rfl

/-- C21, as the code has it: `predictiveDistribution` fails, returning no value, for every
hyperparameter matrix that is not 1-by-1 and contains an entry smaller than 1; a 1-by-1 matrix
is replaced by the default before any entry is looked at. -/
theorem predictiveDistribution_rejects_low_entry {α : Type} [LinearOrder α] (lgamma : ℚ → ℚ)
    (stringchar newData : List α) (H : NamedMatrix α)
    (hsize : ¬ (H.matrix.nrow = 1 ∧ H.matrix.ncol = 1))
    (hlow : ∃ i, i < H.matrix.nrow ∧ ∃ j, j < H.matrix.ncol ∧ H.matrix.data i j < 1) :
    predictiveDistribution lgamma stringchar newData H = none := by
  unfold predictiveDistribution
  rw [if_neg hsize]
  unfold predictiveCore
  by_cases h1 : H.matrix.nrow ≠ H.matrix.ncol
  · rw [if_pos h1]
  rw [if_neg h1]
  have hsq : H.matrix.nrow = H.matrix.ncol := by simpa using h1
  by_cases h2 : H.matrix.nrow < ((stringchar ++ newData).dedup.insertionSort (· ≤ ·)).length
  · rw [if_pos h2]
  rw [if_neg h2]
  by_cases h3 : H.colNames.length < H.matrix.ncol ∨ H.rowNames.length < H.matrix.ncol
  · rw [if_pos h3]
  rw [if_neg h3]
  have hsclen : ((H.colNames.take H.matrix.ncol).insertionSort (· ≤ ·)).length
      = H.matrix.ncol := by
    rw [List.length_insertionSort, List.length_take]
    omega
  cases hloop : (List.range H.matrix.ncol).foldl
      (predictiveNamesStep ((stringchar ++ newData).dedup.insertionSort (· ≤ ·)).length
        ((H.colNames.take H.matrix.ncol).insertionSort (· ≤ ·))
        ((H.rowNames.take H.matrix.ncol).insertionSort (· ≤ ·)))
      (some ((stringchar ++ newData).dedup.insertionSort (· ≤ ·))) with
  | none => rfl
  | some elements2 =>
    simp only
    by_cases h4 : ¬ (∀ e ∈ elements2.take
        ((stringchar ++ newData).dedup.insertionSort (· ≤ ·)).length,
        e ∈ (H.colNames.take H.matrix.ncol).insertionSort (· ≤ ·))
    · rw [if_pos h4]
    rw [if_neg h4]
    have h4b : ∀ e ∈ elements2.take
        ((stringchar ++ newData).dedup.insertionSort (· ≤ ·)).length,
        e ∈ (H.colNames.take H.matrix.ncol).insertionSort (· ≤ ·) := by
      simpa using h4
    have hlen : elements2.length = H.matrix.ncol := by
      rw [← hsclen]
      exact predictiveNames_length _ _
        ((H.rowNames.take H.matrix.ncol).insertionSort (· ≤ ·))
        ((List.perm_insertionSort _ _).nodup_iff.mpr (List.nodup_dedup _))
        (List.sorted_insertionSort _ _) elements2 (by rw [hsclen]; exact hloop) h4b
    obtain ⟨i, hi, j, hj, hij⟩ := hlow
    rw [if_pos]
    rw [List.length_insertionSort, hlen]
    exact ⟨i, List.mem_range.mpr (by omega), j, List.mem_range.mpr hj, hij⟩

/-- The theorem for C21 at a 2-by-2 matrix with the entry 0. -/
theorem predictiveDistribution_rejects_low_entry_witness :
    ¬ (lowHyperparam.matrix.nrow = 1 ∧ lowHyperparam.matrix.ncol = 1) ∧
    (∃ i, i < lowHyperparam.matrix.nrow ∧ ∃ j, j < lowHyperparam.matrix.ncol ∧
      lowHyperparam.matrix.data i j < 1) ∧
    predictiveDistribution (fun x => x) [0, 1, 0] [1, 0] lowHyperparam = none :=
  ⟨by decide, ⟨0, by decide, 0, by decide, by decide⟩,
    predictiveDistribution_rejects_low_entry (fun x => x) [0, 1, 0] [1, 0] lowHyperparam
      (by decide) ⟨0, by decide, 0, by decide, by decide⟩⟩

/-! ## The prior distribution -/

/-- C22, the code at an input where the claim fails: the transition matrix
`[[1/2, 1/2], [1/2, 1/2]]` has the states 0 and 1, the hyperparameter matrix `[[2, 2], [2, 2]]`
has the names 2 and 3, and `priorDistribution` returns a value for each state. -/
theorem priorDistribution_names_not_compared (log lgamma : ℚ → ℚ) :
    (∀ a ∈ priorHyperparam.rowNames, a ∉ priorTransition.rowNames) ∧
    priorDistribution log lgamma priorTransition priorHyperparam
      = some [log (1 / 2) - lgamma 2 + (log (1 / 2) - lgamma 2) + lgamma 4,
          log (1 / 2) - lgamma 2 + (log (1 / 2) - lgamma 2) + lgamma 4] := by
  refine ⟨by decide, ?_⟩
  simp [priorDistribution, priorCore, priorTransition, priorHyperparam, priorRow, priorInner,
    sortByDimNames, List.range_succ]
  norm_num

theorem foldl_add_eq_sum (f : Nat → ℚ) (k : Nat) :
    (List.range k).foldl (fun s j => s + f j) 0 = ((List.range k).map f).sum := by
  induction k with
  | zero => rfl
  | succ k ih =>
    rw [List.range_succ, List.foldl_append, ih, List.map_append, List.sum_append]
    simp

/-- With hyperparameters 1 in the row `i` and `lgamma 1 = 0`, the inner loop of
`priorDistribution` ends with the row sum `k` and the sum 0. -/
theorem priorInner_ones (log lgamma : ℚ → ℚ) (hl1 : lgamma 1 = 0) (t h : Nat → Nat → ℚ)
    (i k : Nat) (hones : ∀ j, j < k → h i j = 1) :
    priorInner log lgamma k t h i = ((k : ℚ), 0) := by
  unfold priorInner
  induction k with
  | zero => simp
  | succ k ih =>
    rw [List.range_succ, List.foldl_append, ih (fun j hj => hones j (by omega))]
    simp [hones k (by omega), hl1]

theorem map_range_eq_replicate (f : Nat → ℚ) (c : ℚ) (n : Nat) (h : ∀ i, i < n → f i = c) :
    (List.range n).map f = List.replicate n c := by
  apply List.ext_getElem
  · simp
  · intro i h1 h2
    simp only [List.getElem_map, List.getElem_range, List.getElem_replicate]
    exact h i (by simpa using h1)

/-- The entries of the aligned matrix are entries of the matrix. -/
theorem sortByDimNames_data_ones {α : Type} [LinearOrder α] (H : NamedMatrix α) (n : Nat)
    (hrow : H.rowNames.length = n) (hcol : H.colNames.length = n)
    (hones : ∀ i j, i < n → j < n → H.matrix.data i j = 1) (i j : Nat) (hi : i < n)
    (hj : j < n) : (sortByDimNames H).matrix.data i j = 1 := by
  simp only [sortByDimNames]
  have hi2 : i < (H.rowNames.insertionSort (· ≤ ·)).length := by
    rw [List.length_insertionSort, hrow]
    exact hi
  have hj2 : j < (H.colNames.insertionSort (· ≤ ·)).length := by
    rw [List.length_insertionSort, hcol]
    exact hj
  rw [List.getElem?_eq_getElem hi2, List.getElem?_eq_getElem hj2]
  simp only
  apply hones
  · rw [← hrow]
    exact List.indexOf_lt_length.mpr ((List.mem_insertionSort _).mp (List.getElem_mem _))
  · rw [← hcol]
    exact List.indexOf_lt_length.mpr ((List.mem_insertionSort _).mp (List.getElem_mem _))

/-- With an all-ones hyperparameter matrix of the order of the transition matrix, the part of
`priorDistribution` after the default returns `lgamma n` for every state. -/
theorem priorCore_ones {α : Type} [LinearOrder α] (log lgamma : ℚ → ℚ) (hl1 : lgamma 1 = 0)
    (T H : NamedMatrix α) (hn : 1 ≤ T.matrix.nrow)
    (hHr : H.matrix.nrow = T.matrix.nrow) (hHc : H.matrix.ncol = T.matrix.nrow)
    (hrow : H.rowNames.length = T.matrix.nrow) (hcol : H.colNames.length = T.matrix.nrow)
    (hones : ∀ i j, i < T.matrix.nrow → j < T.matrix.nrow → H.matrix.data i j = 1) :
    priorCore log lgamma T H
      = some (List.replicate T.matrix.nrow (lgamma (T.matrix.nrow : ℚ))) := by
  unfold priorCore
  have h1 : ¬ H.matrix.nrow ≠ H.matrix.ncol := by
    rw [hHr, hHc]
    simp
  have h2 : ¬ H.matrix.nrow ≠ T.matrix.nrow := by simp [hHr]
  have h3 : ¬ (H.rowNames = [] ∧ H.colNames = []) := by
    rintro ⟨h, -⟩
    rw [h] at hrow
    simp at hrow
    omega
  rw [if_neg h1, if_neg h2, if_neg h3, hHc]
  have h4 : ¬ ∃ i ∈ List.range T.matrix.nrow,
      ((T.colNames.take T.matrix.nrow).insertionSort (· ≤ ·))[i]?
        ≠ ((T.colNames.take T.matrix.nrow).insertionSort (· ≤ ·))[i]? ∨
      ((T.rowNames.take T.matrix.nrow).insertionSort (· ≤ ·))[i]?
        ≠ ((T.rowNames.take T.matrix.nrow).insertionSort (· ≤ ·))[i]? := by
    simp
  have h5 : ¬ ∃ i ∈ List.range T.matrix.nrow, ∃ j ∈ List.range T.matrix.nrow,
      H.matrix.data i j < 1 := by
    rintro ⟨i, hi, j, hj, hlt⟩
    rw [hones i j (List.mem_range.mp hi) (List.mem_range.mp hj)] at hlt
    exact lt_irrefl _ hlt
  rw [if_neg h4, if_neg h5]
  congr 1
  apply map_range_eq_replicate
  intro i hi
  unfold priorRow
  rw [priorInner_ones log lgamma hl1 _ _ i T.matrix.nrow
    (fun j hj => sortByDimNames_data_ones H T.matrix.nrow hrow hcol hones i j hi hj)]
  simp

/-- The checks of the transition matrix in `priorDistribution` pass for a square matrix with
entries in `[0, 1]`, rows that sum to 1 and rows and columns named by the same distinct
names. -/
theorem priorDistribution_valid {α : Type} [LinearOrder α] (log lgamma : ℚ → ℚ)
    (T H : NamedMatrix α) (hsq : T.matrix.nrow = T.matrix.ncol) (hn : 1 ≤ T.matrix.nrow)
    (hpos : ∀ i j, i < T.matrix.nrow → j < T.matrix.nrow → 0 < T.matrix.data i j)
    (hsum : ∀ i, i < T.matrix.nrow → rowSum T.matrix i = 1)
    (hrn : T.rowNames.length = T.matrix.nrow) (hcn : T.colNames.length = T.matrix.nrow)
    (hnd : T.rowNames.Nodup) (hperm : T.colNames.Perm T.rowNames) :
    priorDistribution log lgamma T H
      = if H.matrix.nrow = 1 ∧ H.matrix.ncol = 1 then
          priorCore log lgamma T
            { matrix :=
                { nrow := T.matrix.nrow, ncol := T.matrix.nrow, data := fun _ _ => 1 }
              rowNames := (T.colNames.take T.matrix.nrow).insertionSort (· ≤ ·)
              colNames := (T.colNames.take T.matrix.nrow).insertionSort (· ≤ ·) }
        else priorCore log lgamma T H := by
  unfold priorDistribution
  have h1 : ¬ T.matrix.nrow ≠ T.matrix.ncol := by simp [hsq]
  have hfold : ∀ i, i < T.matrix.nrow →
      (List.range T.matrix.nrow).foldl (fun s j => s + T.matrix.data i j) 0 = 1 := by
    intro i hi
    rw [foldl_add_eq_sum]
    have := hsum i hi
    unfold rowSum at this
    rw [← hsq] at this
    exact this
  have hle : ∀ i j, i < T.matrix.nrow → j < T.matrix.nrow → T.matrix.data i j ≤ 1 := by
    intro i j hi hj
    have h := hfold i hi
    rw [foldl_add_eq_sum, sum_map_range] at h
    rw [← h]
    exact Finset.single_le_sum (f := fun j => T.matrix.data i j)
      (fun k hk => (hpos i k hi (Finset.mem_range.mp hk)).le) (Finset.mem_range.mpr hj)
  have h2 : ¬ ∃ i ∈ List.range T.matrix.nrow,
      (∃ j ∈ List.range T.matrix.nrow, T.matrix.data i j < 0 ∨ T.matrix.data i j > 1) ∨
      (List.range T.matrix.nrow).foldl (fun s j => s + T.matrix.data i j) 0
        ≤ 1 - 1 / 10000000000 ∨
      (List.range T.matrix.nrow).foldl (fun s j => s + T.matrix.data i j) 0
        ≥ 1 + 1 / 10000000000 := by
    rintro ⟨i, hi, h | h⟩
    · obtain ⟨j, hj, h | h⟩ := h
      · exact absurd (hpos i j (List.mem_range.mp hi) (List.mem_range.mp hj)) (not_lt.mpr h.le)
      · exact absurd (hle i j (List.mem_range.mp hi) (List.mem_range.mp hj)) (not_le.mpr h)
    · rw [hfold i (List.mem_range.mp hi)] at h
      norm_num at h
  have h3 : ¬ (T.rowNames = [] ∧ T.colNames = []) := by
    rintro ⟨h, -⟩
    rw [h] at hrn
    simp at hrn
    omega
  have h4 : ¬ (T.colNames.length < T.matrix.nrow ∨ T.rowNames.length < T.matrix.nrow) := by
    omega
  have e1 : T.colNames.take T.matrix.nrow = T.colNames := List.take_of_length_le (by omega)
  have e2 : T.rowNames.take T.matrix.nrow = T.rowNames := List.take_of_length_le (by omega)
  have hsort : T.colNames.insertionSort (· ≤ ·) = T.rowNames.insertionSort (· ≤ ·) :=
    insertionSort_eq_of_perm _ _ hperm
  have hsnd : (T.rowNames.insertionSort (· ≤ ·)).Nodup :=
    (List.perm_insertionSort _ _).nodup_iff.mpr hnd
  have hslen : (T.rowNames.insertionSort (· ≤ ·)).length = T.matrix.nrow := by
    rw [List.length_insertionSort, hrn]
  have h5 : ¬ ∃ i ∈ List.range T.matrix.nrow,
      (0 < i ∧
        (((T.colNames.take T.matrix.nrow).insertionSort (· ≤ ·))[i]?
            = ((T.colNames.take T.matrix.nrow).insertionSort (· ≤ ·))[i - 1]? ∨
          ((T.rowNames.take T.matrix.nrow).insertionSort (· ≤ ·))[i]?
            = ((T.rowNames.take T.matrix.nrow).insertionSort (· ≤ ·))[i - 1]?)) ∨
      ((T.colNames.take T.matrix.nrow).insertionSort (· ≤ ·))[i]?
        ≠ ((T.rowNames.take T.matrix.nrow).insertionSort (· ≤ ·))[i]? := by
    rw [e1, e2, hsort]
    rintro ⟨i, hi, h | h⟩
    · obtain ⟨hi0, h⟩ := h
      have hi1 : i < (T.rowNames.insertionSort (· ≤ ·)).length := by
        rw [hslen]
        exact List.mem_range.mp hi
      have hi2 : i - 1 < (T.rowNames.insertionSort (· ≤ ·)).length := by omega
      have heq : (T.rowNames.insertionSort (· ≤ ·))[i]?
          = (T.rowNames.insertionSort (· ≤ ·))[i - 1]? := by
        rcases h with h | h <;> exact h
      rw [List.getElem?_eq_getElem hi1, List.getElem?_eq_getElem hi2] at heq
      have := (hsnd.getElem_inj_iff).mp (Option.some.inj heq)
      omega
    · exact h rfl
  rw [if_neg h1, if_neg h2, if_neg h3, if_neg h4, if_neg h5]

/-- C23: for a valid `n`-by-`n` transition matrix with strictly positive entries and an
all-ones hyperparameter matrix, supplied or defaulted (a 1-by-1 argument), `priorDistribution`
returns for every state the same value `lgamma n`, whatever the transition probabilities; for
`n = 2` every returned value is `lgamma 2`, which is 0. Here `log` and `lgamma` are any
functions with `lgamma 1 = 0`. -/
theorem priorDistribution_uniform {α : Type} [LinearOrder α] (log lgamma : ℚ → ℚ)
    (hl1 : lgamma 1 = 0) (T H : NamedMatrix α) (hsq : T.matrix.nrow = T.matrix.ncol)
    (hn : 1 ≤ T.matrix.nrow)
    (hpos : ∀ i j, i < T.matrix.nrow → j < T.matrix.nrow → 0 < T.matrix.data i j)
    (hsum : ∀ i, i < T.matrix.nrow → rowSum T.matrix i = 1)
    (hrn : T.rowNames.length = T.matrix.nrow) (hcn : T.colNames.length = T.matrix.nrow)
    (hnd : T.rowNames.Nodup) (hperm : T.colNames.Perm T.rowNames)
    (hH : (H.matrix.nrow = 1 ∧ H.matrix.ncol = 1) ∨
      (H.matrix.nrow = T.matrix.nrow ∧ H.matrix.ncol = T.matrix.nrow ∧
        H.rowNames.length = T.matrix.nrow ∧ H.colNames.length = T.matrix.nrow ∧
        ∀ i j, i < T.matrix.nrow → j < T.matrix.nrow → H.matrix.data i j = 1)) :
    priorDistribution log lgamma T H
        = some (List.replicate T.matrix.nrow (lgamma (T.matrix.nrow : ℚ))) ∧
      (T.matrix.nrow = 2 → lgamma 2 = 0 → priorDistribution log lgamma T H = some [0, 0]) := by
  have hmain : priorDistribution log lgamma T H
      = some (List.replicate T.matrix.nrow (lgamma (T.matrix.nrow : ℚ))) := by
    rw [priorDistribution_valid log lgamma T H hsq hn hpos hsum hrn hcn hnd hperm]
    by_cases h11 : H.matrix.nrow = 1 ∧ H.matrix.ncol = 1
    · rw [if_pos h11]
      refine priorCore_ones log lgamma hl1 T
        { matrix :=
            { nrow := T.matrix.nrow, ncol := T.matrix.nrow, data := fun _ _ => 1 }
          rowNames := (T.colNames.take T.matrix.nrow).insertionSort (· ≤ ·)
          colNames := (T.colNames.take T.matrix.nrow).insertionSort (· ≤ ·) }
        hn rfl rfl ?_ ?_ ?_
      · simp only [List.length_insertionSort, List.length_take]
        omega
      · simp only [List.length_insertionSort, List.length_take]
        omega
      · intro i j _ _
        rfl
    · rw [if_neg h11]
      rcases hH with h | ⟨h1, h2, h3, h4, h5⟩
      · exact absurd h h11
      · exact priorCore_ones log lgamma hl1 T H hn h1 h2 h3 h4 h5
  refine ⟨hmain, ?_⟩
  intro h2 hl2
  rw [hmain, h2]
  simp [hl2, List.replicate]
theorem priorTransition_pos : ∀ i j, i < priorTransition.matrix.nrow →
    j < priorTransition.matrix.nrow → 0 < priorTransition.matrix.data i j := by
  intro i j _ _
  norm_num [priorTransition]

theorem priorTransition_rowSum : ∀ i, i < priorTransition.matrix.nrow →
    rowSum priorTransition.matrix i = 1 := by
  intro i _
  norm_num [rowSum, priorTransition, List.range_succ]

/-- The theorem for C23 at the matrix `[[1/2, 1/2], [1/2, 1/2]]` with the all-ones
hyperparameter matrix for the states 0 and 1, for a function `lgamma` that is 0 everywhere. -/
theorem priorDistribution_uniform_witness :
    (fun _ : ℚ => (0 : ℚ)) 1 = 0 ∧
    priorTransition.matrix.nrow = priorTransition.matrix.ncol ∧
    1 ≤ priorTransition.matrix.nrow ∧
    (∀ i j, i < priorTransition.matrix.nrow → j < priorTransition.matrix.nrow →
      0 < priorTransition.matrix.data i j) ∧
    (∀ i, i < priorTransition.matrix.nrow → rowSum priorTransition.matrix i = 1) ∧
    priorTransition.rowNames.length = priorTransition.matrix.nrow ∧
    priorTransition.colNames.length = priorTransition.matrix.nrow ∧
    priorTransition.rowNames.Nodup ∧
    priorTransition.colNames.Perm priorTransition.rowNames ∧
    ((defaultHyperparam [0, 1]).matrix.nrow = priorTransition.matrix.nrow ∧
      (defaultHyperparam [0, 1]).matrix.ncol = priorTransition.matrix.nrow ∧
      (defaultHyperparam [0, 1]).rowNames.length = priorTransition.matrix.nrow ∧
      (defaultHyperparam [0, 1]).colNames.length = priorTransition.matrix.nrow ∧
      ∀ i j, i < priorTransition.matrix.nrow → j < priorTransition.matrix.nrow →
        (defaultHyperparam [0, 1]).matrix.data i j = 1) ∧
    (priorDistribution (fun x => x) (fun _ => 0) priorTransition (defaultHyperparam [0, 1])
        = some (List.replicate priorTransition.matrix.nrow
            ((fun _ : ℚ => (0 : ℚ)) (priorTransition.matrix.nrow : ℚ))) ∧
      (priorTransition.matrix.nrow = 2 → (fun _ : ℚ => (0 : ℚ)) 2 = 0 →
        priorDistribution (fun x => x) (fun _ => 0) priorTransition (defaultHyperparam [0, 1])
          = some [0, 0])) :=
  ⟨rfl, by decide, by decide, priorTransition_pos, priorTransition_rowSum, by decide,
    by decide, by decide, List.Perm.refl _,
    ⟨rfl, rfl, rfl, rfl, fun _ _ _ _ => rfl⟩,
    priorDistribution_uniform (fun x => x) (fun _ => 0) rfl priorTransition
      (defaultHyperparam [0, 1]) (by decide) (by decide) priorTransition_pos
      priorTransition_rowSum (by decide) (by decide) (by decide) (List.Perm.refl _)
      (Or.inr ⟨rfl, rfl, rfl, rfl, fun _ _ _ _ => rfl⟩)⟩

/-! ## Sorting the rows -/

theorem map_getD_range {β : Type} (l : List β) (d : β) (n : Nat) (hn : l.length = n) :
    (List.range n).map (fun i => l.getD i d) = l := by
  subst hn
  apply List.ext_getElem
  · simp
  · intro i h1 h2
    rw [List.getElem_map, List.getElem_range, List.getD_eq_getElem _ _ h2]

theorem length_matrixRows (m : NumericMatrix) : (matrixRows m).length = m.nrow := by
  simp [matrixRows]

theorem length_of_mem_matrixRows (m : NumericMatrix) (row : List ℚ)
    (h : row ∈ matrixRows m) : row.length = m.ncol := by
  obtain ⟨i, -, rfl⟩ := List.mem_map.mp h
  simp

/-- The rows of the matrix that `lexicographicalSort` returns are the sorted rows. -/
theorem matrixRows_lexicographicalSort (m : NumericMatrix) (h : 0 < m.nrow ∧ 0 < m.ncol) :
    matrixRows (lexicographicalSort m) = (matrixRows m).insertionSort (· ≤ ·) := by
  unfold lexicographicalSort
  rw [if_pos h]
  have hlen : ((matrixRows m).insertionSort (· ≤ ·)).length = m.nrow := by
    rw [List.length_insertionSort, length_matrixRows]
  show (List.range m.nrow).map (fun i => (List.range m.ncol).map
    (fun j => (((matrixRows m).insertionSort (· ≤ ·)).getD i []).getD j 0))
    = (matrixRows m).insertionSort (· ≤ ·)
  have hrow : ∀ i ∈ List.range m.nrow, (List.range m.ncol).map
      (fun j => (((matrixRows m).insertionSort (· ≤ ·)).getD i []).getD j 0)
      = ((matrixRows m).insertionSort (· ≤ ·)).getD i [] := by
    intro i hi
    apply map_getD_range
    have hi2 : i < ((matrixRows m).insertionSort (· ≤ ·)).length := by
      rw [hlen]
      exact List.mem_range.mp hi
    rw [List.getD_eq_getElem _ _ hi2]
    exact length_of_mem_matrixRows m _
      ((List.mem_insertionSort _).mp (List.getElem_mem _))
  rw [List.map_congr_left hrow]
  exact map_getD_range _ [] m.nrow hlen

/-- C24: for a matrix `m` with at least one row and one column, `lexicographicalSort(m)` has
the dimensions of `m`, its rows are a permutation of the rows of `m`, and no row is
lexicographically smaller than the row before it (the rows are the one sorted arrangement of
the rows of `m`); a matrix with no rows or no columns is returned unchanged. -/
theorem lexicographicalSort_sorted_permutation (m : NumericMatrix) :
    (0 < m.nrow ∧ 0 < m.ncol →
      (lexicographicalSort m).nrow = m.nrow ∧ (lexicographicalSort m).ncol = m.ncol ∧
      (matrixRows (lexicographicalSort m)).Perm (matrixRows m) ∧
      (∀ i, i + 1 < m.nrow →
        ¬ List.Lex (· < ·) ((matrixRows (lexicographicalSort m)).getD (i + 1) [])
          ((matrixRows (lexicographicalSort m)).getD i [])) ∧
      (∀ i j, i < j → j < m.nrow →
        ¬ List.Lex (· < ·) ((matrixRows (lexicographicalSort m)).getD j [])
          ((matrixRows (lexicographicalSort m)).getD i [])) ∧
      (∀ rows : List (List ℚ), rows.Perm (matrixRows m) → rows.Sorted (· ≤ ·) →
        rows = matrixRows (lexicographicalSort m))) ∧
    (¬ (0 < m.nrow ∧ 0 < m.ncol) → lexicographicalSort m = m) := by
  constructor
  · intro h
    have hrows := matrixRows_lexicographicalSort m h
    have hsorted : ((matrixRows m).insertionSort (· ≤ ·)).Sorted (· ≤ ·) :=
      List.sorted_insertionSort _ _
    have hlen : ((matrixRows m).insertionSort (· ≤ ·)).length = m.nrow := by
      rw [List.length_insertionSort, length_matrixRows]
    have hpair : ∀ i j, i < j → j < m.nrow →
        ¬ List.Lex (· < ·) ((matrixRows (lexicographicalSort m)).getD j [])
          ((matrixRows (lexicographicalSort m)).getD i []) := by
      intro i j hij hj
      rw [hrows, List.getD_eq_getElem _ _ (by omega), List.getD_eq_getElem _ _ (by omega)]
      have := List.pairwise_iff_getElem.mp hsorted i j (by omega) (by omega) hij
      exact not_lt.mpr this
    refine ⟨?_, ?_, ?_, fun i hi => hpair i (i + 1) (by omega) hi, hpair, ?_⟩
    · unfold lexicographicalSort
      rw [if_pos h]
    · unfold lexicographicalSort
      rw [if_pos h]
    · rw [hrows]
      exact List.perm_insertionSort _ _
    · intro rows hperm hs
      rw [hrows]
      exact List.eq_of_perm_of_sorted (hperm.trans (List.perm_insertionSort _ _).symm) hs
        hsorted
  · intro h
    unfold lexicographicalSort
    rw [if_neg h]

/-- The theorem for C24 at the matrix `[[2, 1], [1, 3], [1, 2]]`, whose sorted rows are
`[1, 2]`, `[1, 3]`, `[2, 1]`. -/
theorem lexicographicalSort_sorted_permutation_witness :
    (0 < unsortedMatrix.nrow ∧ 0 < unsortedMatrix.ncol) ∧
    (matrixRows (lexicographicalSort unsortedMatrix)).Perm (matrixRows unsortedMatrix) ∧
    matrixRows (lexicographicalSort unsortedMatrix) = [[1, 2], [1, 3], [2, 1]] :=
  ⟨by decide,
    ((lexicographicalSort_sorted_permutation unsortedMatrix).1 (by decide)).2.2.1,
    by decide⟩

/-! ## The function `gcd` -/

/-- C25: for all integers `a` and `b` the loop of `gcd` terminates (within `|a| + 1` tests of
its condition) and returns the greatest common divisor of `|a|` and `|b|`: a number that is
not negative, divides both, and is divisible by every common divisor; `gcd(0, b) = |b|`,
`gcd(a, 0) = |a|` and `gcd(0, 0) = 0`. The result is at most the larger of `|a|` and `|b|`. -/
theorem gcd_greatest_common_divisor (a b : Int) :
    ∃ g, gcd (a.natAbs + 1) a b = some g ∧ (∀ fuel g', gcd fuel a b = some g' → g' = g) ∧
      0 ≤ g ∧ g ∣ |a| ∧ g ∣ |b| ∧ (∀ c : Int, c ∣ |a| → c ∣ |b| → c ∣ g) ∧
      (a = 0 → g = |b|) ∧ (b = 0 → g = |a|) ∧ (a = 0 → b = 0 → g = 0) ∧
      g ≤ max |a| |b| := by
  refine ⟨(Int.gcd a b : Nat), gcd_returns _ a b (by omega), ?_, Int.natCast_nonneg _,
    (dvd_abs _ _).mpr Int.gcd_dvd_left, (dvd_abs _ _).mpr Int.gcd_dvd_right, ?_, ?_, ?_, ?_, ?_⟩
  · intro fuel g2 h
    exact gcd_sound fuel a b g2 h
  · intro c h1 h2
    exact Int.dvd_gcd ((dvd_abs c a).mp h1) ((dvd_abs c b).mp h2)
  · intro ha
    rw [ha, Int.gcd_zero_left, Int.natCast_natAbs]
  · intro hb
    rw [hb, Int.gcd_zero_right, Int.natCast_natAbs]
  · intro ha hb
    rw [ha, hb]
    rfl
  · by_cases ha : a = 0
    · rw [ha, Int.gcd_zero_left, Int.natCast_natAbs]
      exact le_max_right _ _
    · have hpos : 0 < a.natAbs := Int.natAbs_pos.mpr ha
      have h1 := Nat.gcd_le_left b.natAbs hpos
      rw [← Int.gcd_eq_natAbs] at h1
      have h2 : ((Int.gcd a b : Nat) : Int) ≤ (a.natAbs : Int) := by exact_mod_cast h1
      rw [Int.natCast_natAbs] at h2
      exact le_trans h2 (le_max_left _ _)

/-! ## The reachability matrix of `commStatesFinder` -/

theorem sum_pos_iff_exists (s : Finset Nat) (f : Nat → ℚ) (h : ∀ i ∈ s, 0 ≤ f i) :
    0 < s.sum f ↔ ∃ i ∈ s, 0 < f i := by
  constructor
  · intro hpos
    by_contra hcon
    push_neg at hcon
    have hz : s.sum f = 0 :=
      Finset.sum_eq_zero (fun i hi => le_antisymm (hcon i hi) (h i hi))
    rw [hz] at hpos
    exact lt_irrefl _ hpos
  · rintro ⟨i, hi, hpos⟩
    exact Finset.sum_pos' h ⟨i, hi, hpos⟩

/-- The first step of a walk. -/
theorem IsWalk.head {P : NumericMatrix} {a b L : Nat} (h : IsWalk P a b (L + 1)) :
    ∃ l, l < P.ncol ∧ 0 < P.data a l ∧ IsWalk P l b L := by
  obtain ⟨x, hx0, hxL, hxlt, hxstep⟩ := h
  refine ⟨x 1, hxlt 1 (by omega), ?_, fun t => x (t + 1), rfl, hxL,
    fun t ht => hxlt (t + 1) (by omega), fun t ht => hxstep (t + 1) (by omega)⟩
  have := hxstep 0 (by omega)
  rw [hx0] at this
  exact this

/-- A walk between two states can be cut down to fewer steps than there are states. -/
theorem IsWalk.shorten {P : NumericMatrix} {a b : Nat} :
    ∀ L, IsWalk P a b L → ∃ L', L' < P.ncol ∧ IsWalk P a b L' := by
  intro L
  induction L using Nat.strong_induction_on with
  | _ L ih =>
    intro hw
    by_cases hL : L < P.ncol
    · exact ⟨L, hL, hw⟩
    · obtain ⟨x, hx0, hxL, hxlt, hxstep⟩ := hw
      have hcard : (Finset.range P.ncol).card < (Finset.range (L + 1)).card := by
        simp only [Finset.card_range]
        omega
      obtain ⟨s0, hs0, t0, ht0, hne, heq⟩ :=
        Finset.exists_ne_map_eq_of_card_lt_of_maps_to hcard
          (fun u hu => Finset.mem_range.mpr (hxlt u (by
            have := Finset.mem_range.mp hu
            omega)))
      have key : ∀ s t, s < t → t ≤ L → x s = x t → ∃ L', L' < P.ncol ∧ IsWalk P a b L' := by
        intro s t hst htL hxst
        apply ih (L - (t - s)) (by omega)
        refine ⟨fun u => if u ≤ s then x u else x (u + (t - s)), ?_, ?_, ?_, ?_⟩
        · simp [hx0]
        · by_cases h1 : L - (t - s) ≤ s
          · have h2 : t = L := by omega
            have h3 : L - (t - s) = s := by omega
            simp only [h3, le_refl, if_true]
            rw [hxst, h2, hxL]
          · have h2 : L - (t - s) + (t - s) = L := by omega
            simp only [h1, if_false, h2, hxL]
        · intro u hu
          by_cases hus : u ≤ s
          · simp only [hus, if_true]
            exact hxlt u (by omega)
          · simp only [hus, if_false]
            exact hxlt _ (by omega)
        · intro u hu
          by_cases hus : u + 1 ≤ s
          · have hus2 : u ≤ s := by omega
            simp only [hus, hus2, if_true]
            exact hxstep u (by omega)
          · by_cases hus2 : u ≤ s
            · have hue : u = s := by omega
              subst hue
              simp only [le_refl, if_true, hus, if_false]
              rw [hxst, show u + 1 + (t - u) = t + 1 by omega]
              exact hxstep t (by omega)
            · simp only [hus, hus2, if_false]
              rw [show u + 1 + (t - s) = u + (t - s) + 1 by omega]
              exact hxstep _ (by omega)
      have hs0L : s0 ≤ L := by
        have := Finset.mem_range.mp hs0
        omega
      have ht0L : t0 ≤ L := by
        have := Finset.mem_range.mp ht0
        omega
      rcases Nat.lt_or_gt_of_ne hne with hlt | hgt
      · exact key s0 t0 hlt ht0L heq
      · exact key t0 s0 hgt hs0L heq.symm

theorem signum_of_nonneg (x : ℚ) (h : 0 ≤ x) : signum x = if 0 < x then 1 else 0 := by
  unfold signum
  by_cases hx : 0 < x
  · simp [hx]
  · have : ¬ x < 0 := not_lt.mpr h
    simp [hx, this]

/-- The entries of the powers of `I + sign(P)`: entry `(a, b)` of the power `k` is positive
exactly when a walk of at most `k` steps leads from `a` to `b`, and it is never negative. -/
theorem pow_pos_iff_walk (P : NumericMatrix)
    (hnonneg : ∀ i j, i < P.ncol → j < P.ncol → 0 ≤ P.data i j) (k : Nat) :
    ∀ a b, a < P.ncol → b < P.ncol →
      0 ≤ ((fun R => matMul P.ncol
          (fun a b => (if a = b then 1 else 0) + signum (P.data a b)) R)^[k]
          (fun a b => if a = b then 1 else 0)) a b ∧
      (0 < ((fun R => matMul P.ncol
          (fun a b => (if a = b then 1 else 0) + signum (P.data a b)) R)^[k]
          (fun a b => if a = b then 1 else 0)) a b ↔ ∃ L, L ≤ k ∧ IsWalk P a b L) := by
  induction k with
  | zero =>
    intro a b ha hb
    simp only [Function.iterate_zero, id_eq]
    by_cases hab : a = b
    · subst hab
      simp only [if_true, zero_le_one, zero_lt_one, true_and, true_iff]
      exact ⟨0, le_refl _, IsWalk.refl P a ha⟩
    · simp only [hab, if_false, le_refl, lt_self_iff_false, true_and, false_iff]
      rintro ⟨L, hL, x, hx0, hxL, -, -⟩
      have : L = 0 := by omega
      subst this
      exact hab (hx0.symm.trans hxL)
  | succ k ih =>
    intro a b ha hb
    rw [Function.iterate_succ_apply']
    have hA : ∀ l, l < P.ncol →
        0 ≤ (if a = l then (1 : ℚ) else 0) + signum (P.data a l) ∧
        (0 < (if a = l then (1 : ℚ) else 0) + signum (P.data a l) ↔ a = l ∨ 0 < P.data a l) := by
      intro l hl
      rw [signum_of_nonneg _ (hnonneg a l ha hl)]
      by_cases hal : a = l
      · rw [if_pos hal]
        by_cases hp : 0 < P.data a l
        · rw [if_pos hp]
          exact ⟨by norm_num, fun _ => Or.inl hal, fun _ => by norm_num⟩
        · rw [if_neg hp]
          exact ⟨by norm_num, fun _ => Or.inl hal, fun _ => by norm_num⟩
      · rw [if_neg hal]
        by_cases hp : 0 < P.data a l
        · rw [if_pos hp]
          exact ⟨by norm_num, fun _ => Or.inr hp, fun _ => by norm_num⟩
        · rw [if_neg hp]
          refine ⟨by norm_num, fun h => ?_, fun h => ?_⟩
          · norm_num at h
          · rcases h with h | h
            · exact absurd h hal
            · exact absurd h hp
    have hterm : ∀ l ∈ Finset.range P.ncol,
        0 ≤ ((if a = l then (1 : ℚ) else 0) + signum (P.data a l))
          * ((fun R => matMul P.ncol
            (fun a b => (if a = b then 1 else 0) + signum (P.data a b)) R)^[k]
            (fun a b => if a = b then 1 else 0)) l b := by
      intro l hl
      exact mul_nonneg (hA l (Finset.mem_range.mp hl)).1 (ih l b (Finset.mem_range.mp hl) hb).1
    refine ⟨Finset.sum_nonneg hterm, ?_⟩
    show 0 < (Finset.range P.ncol).sum _ ↔ _
    rw [sum_pos_iff_exists _ _ hterm]
    constructor
    · rintro ⟨l, hl, hpos⟩
      have hl2 := Finset.mem_range.mp hl
      have h1 : 0 < (if a = l then (1 : ℚ) else 0) + signum (P.data a l) := by
        rcases (hA l hl2).1.lt_or_eq with h | h
        · exact h
        · rw [← h, zero_mul] at hpos
          exact absurd hpos (lt_irrefl _)
      have h2 : 0 < ((fun R => matMul P.ncol
            (fun a b => (if a = b then 1 else 0) + signum (P.data a b)) R)^[k]
            (fun a b => if a = b then 1 else 0)) l b := by
        rcases (ih l b hl2 hb).1.lt_or_eq with h | h
        · exact h
        · rw [← h, mul_zero] at hpos
          exact absurd hpos (lt_irrefl _)
      obtain ⟨L, hL, hw⟩ := (ih l b hl2 hb).2.mp h2
      rcases (hA l hl2).2.mp h1 with h | h
      · subst h
        exact ⟨L, by omega, hw⟩
      · refine ⟨1 + L, by omega, (IsWalk.single P a l ha hl2 h).append hw⟩
    · rintro ⟨L, hL, hw⟩
      by_cases hLk : L ≤ k
      · refine ⟨a, Finset.mem_range.mpr ha, ?_⟩
        exact mul_pos ((hA a ha).2.mpr (Or.inl rfl)) ((ih a b ha hb).2.mpr ⟨L, hLk, hw⟩)
      · have hL1 : L = k + 1 := by omega
        subst hL1
        obtain ⟨l, hl, hpos, hw2⟩ := hw.head
        refine ⟨l, Finset.mem_range.mpr hl, ?_⟩
        exact mul_pos ((hA l hl).2.mpr (Or.inr hpos))
          ((ih l b hl hb).2.mpr ⟨k, le_refl _, hw2⟩)

/-- C26: the two reachability computations agree: for a square matrix `P` with non-negative
entries, entry `(i, j)` of `commStatesFinder(P)`, the sign of the power `n - 1` of
`I + sign(P)` in exact arithmetic, is 1 if the traversal of `commClassesKernel` reaches `j`
from `i` (`communicates[i][j]` is set) and 0 otherwise. -/
theorem commStatesFinder_agrees (P : NumericMatrix) (hsq : P.nrow = P.ncol)
    (hnonneg : ∀ i j, i < P.ncol → j < P.ncol → 0 ≤ P.data i j) :
    ∃ comm, (∃ fuel, communicates fuel P = some comm) ∧
      (∀ fuel c, communicates fuel P = some c → c = comm) ∧
      (commStatesFinder P).nrow = P.ncol ∧ (commStatesFinder P).ncol = P.ncol ∧
      ∀ i j, i < P.ncol → j < P.ncol →
        (commStatesFinder P).data i j = if comm i j = true then 1 else 0 := by
  obtain ⟨c, hc, hlow, -⟩ := communicates_spec P
  refine ⟨c, ⟨_, hc⟩, fun fuel c2 h2 => communicates_unique P _ _ _ _ h2 hc, ?_, ?_, ?_⟩
  · show P.nrow = P.ncol
    exact hsq
  · show P.nrow = P.ncol
    exact hsq
  · intro i j hi hj
    show signum (_pow P.nrow (fun a b => (if a = b then 1 else 0) + signum (P.data a b))
      ((P.nrow : Int) - 1) i j) = _
    unfold _pow
    rw [foldl_range_const (fun R => matMul P.nrow
      (fun a b => (if a = b then 1 else 0) + signum (P.data a b)) R), hsq]
    obtain ⟨h0, hiff⟩ := pow_pos_iff_walk P hnonneg ((P.ncol : Int) - 1).toNat i j hi hj
    rw [signum_of_nonneg _ h0]
    have hreach : c i j = true ↔ ∃ L, L ≤ ((P.ncol : Int) - 1).toNat ∧ IsWalk P i j L := by
      rw [hlow i hi j, reach_iff_isWalk P i j hi]
      constructor
      · rintro ⟨L, hw⟩
        obtain ⟨L2, hL2, hw2⟩ := IsWalk.shorten L hw
        exact ⟨L2, by omega, hw2⟩
      · rintro ⟨L, -, hw⟩
        exact ⟨L, hw⟩
    by_cases hcij : c i j = true
    · rw [if_pos hcij, if_pos (hiff.mpr (hreach.mp hcij))]
    · rw [if_neg hcij, if_neg (fun h => hcij (hreach.mpr (hiff.mp h)))]

/-- The theorem for C26 at the example chain. -/
theorem commStatesFinder_agrees_witness :
    exampleMatrix.nrow = exampleMatrix.ncol ∧
    (∀ i j, i < exampleMatrix.ncol → j < exampleMatrix.ncol → 0 ≤ exampleMatrix.data i j) ∧
    ∃ comm, (∃ fuel, communicates fuel exampleMatrix = some comm) ∧
      (∀ fuel c, communicates fuel exampleMatrix = some c → c = comm) ∧
      (commStatesFinder exampleMatrix).nrow = exampleMatrix.ncol ∧
      (commStatesFinder exampleMatrix).ncol = exampleMatrix.ncol ∧
      ∀ i j, i < exampleMatrix.ncol → j < exampleMatrix.ncol →
        (commStatesFinder exampleMatrix).data i j = if comm i j = true then 1 else 0 :=
  ⟨by decide, exampleMatrix_nonneg,
    commStatesFinder_agrees exampleMatrix (by decide) exampleMatrix_nonneg⟩

/-! ## Termination of the traversal -/

theorem traverseStep_nil (adj : Nat → List Nat) (row : Nat → Bool) (k : Nat) :
    (traverseStep adj)^[k] (row, []) = (row, []) := by
  induction k with
  | zero => rfl
  | succ k ih => rw [Function.iterate_succ_apply]; exact ih

/-- The function `traverse` runs the passes of the loop: with `fuel` passes allowed it returns
the row when the stack is empty after them, and nothing otherwise. -/
theorem traverse_eq_iterate (adj : Nat → List Nat) (fuel : Nat) (row : Nat → Bool)
    (stack : List Nat) :
    traverse adj fuel row stack
      = if ((traverseStep adj)^[fuel] (row, stack)).2 = [] then
          some ((traverseStep adj)^[fuel] (row, stack)).1
        else none := by
  induction fuel generalizing row stack with
  | zero =>
    cases stack with
    | nil => simp [traverse]
    | cons j rest => simp [traverse]
  | succ fuel ih =>
    cases stack with
    | nil =>
      rw [traverseStep_nil]
      simp [traverse]
    | cons j rest =>
      rw [traverse, ih, Function.iterate_succ_apply]
      rfl

/-- The invariant of the traversal holds after every pass of the loop. -/
theorem traverseInv_iterate (adj : Nat → List Nat) (n i : Nat)
    (hadj : ∀ a b, b ∈ adj a → b < n) (hi : i < n) (k : Nat) :
    TraverseInv adj n i ((traverseStep adj)^[k] (fun _ => false, [i])).1
      ((traverseStep adj)^[k] (fun _ => false, [i])).2 := by
  induction k with
  | zero => exact TraverseInv.init adj n i hi
  | succ k ih =>
    rw [Function.iterate_succ_apply']
    generalize (traverseStep adj)^[k] (fun _ => false, [i]) = st at ih
    obtain ⟨row, stack⟩ := st
    cases stack with
    | nil => exact ih
    | cons j rest => exact TraverseInv.step hadj ih

/-- C27: the traversal of `commClassesKernel` terminates for every square matrix `P` and every
start state `i`: the stack is empty after at most `n * (n + 1) + 1` passes of the loop and the
row is returned. After every pass every state on the stack is smaller than the number of
states, as is every entry of an adjacency list. A state can be on the stack more than once
before it is first popped: on `[[0, 1, 1], [0, 1, 0], [0, 1, 0]]` from the start state 0 the
stack holds state 1 twice after two passes, while state 1 is still unmarked. -/
theorem traverse_terminates (P : NumericMatrix) (_hsq : P.nrow = P.ncol) (i : Nat)
    (hi : i < P.ncol) :
    (∃ row, traverse (adjacencies P) (P.ncol * (P.ncol + 1) + 1) (fun _ => false) [i] = some row ∧
      (∀ fuel row', traverse (adjacencies P) fuel (fun _ => false) [i] = some row' →
        row' = row)) ∧
    ((traverseStep (adjacencies P))^[P.ncol * (P.ncol + 1) + 1] (fun _ => false, [i])).2 = [] ∧
    (∀ k, ∀ x ∈ ((traverseStep (adjacencies P))^[k] (fun _ => false, [i])).2, x < P.ncol) ∧
    (∀ a b, b ∈ adjacencies P a → b < P.ncol) ∧
    (((traverseStep (adjacencies doublePushMatrix))^[2] (fun _ => false, [0])).2 = [1, 1] ∧
      ((traverseStep (adjacencies doublePushMatrix))^[2] (fun _ => false, [0])).1 1 = false) := by
  have hadj : ∀ a b, b ∈ adjacencies P a → b < P.ncol :=
    fun a b h => ((mem_adjacencies P a b).mp h).1
  obtain ⟨row, hrow, -⟩ := traverse_from_start hadj (length_adjacencies_le P) hi
    (P.ncol * (P.ncol + 1) + 1) (le_refl _)
  refine ⟨⟨row, hrow, ?_⟩, ?_, ?_, hadj, by decide, by decide⟩
  · intro fuel row2 h2
    have e1 := traverse_fuel_mono (adjacencies P) _ (max fuel (P.ncol * (P.ncol + 1) + 1)) _ _
      _ h2 (le_max_left _ _)
    have e2 := traverse_fuel_mono (adjacencies P) _ (max fuel (P.ncol * (P.ncol + 1) + 1)) _ _
      _ hrow (le_max_right _ _)
    rw [e1] at e2
    exact Option.some.inj e2
  · rw [traverse_eq_iterate] at hrow
    by_contra hne
    rw [if_neg hne] at hrow
    exact absurd hrow (by simp)
  · intro k x hx
    exact (traverseInv_iterate (adjacencies P) P.ncol i hadj hi k).stack_lt x hx

/-- The theorem for C27 at the example chain and the start state 0. -/
theorem traverse_terminates_witness :
    exampleMatrix.nrow = exampleMatrix.ncol ∧ 0 < exampleMatrix.ncol ∧
    (∃ row, traverse (adjacencies exampleMatrix)
        (exampleMatrix.ncol * (exampleMatrix.ncol + 1) + 1) (fun _ => false) [0] = some row ∧
      (∀ fuel row', traverse (adjacencies exampleMatrix) fuel (fun _ => false) [0] = some row' →
        row' = row)) ∧
    ((traverseStep (adjacencies exampleMatrix))^[exampleMatrix.ncol * (exampleMatrix.ncol + 1) + 1]
      (fun _ => false, [0])).2 = [] ∧
    (∀ k, ∀ x ∈ ((traverseStep (adjacencies exampleMatrix))^[k] (fun _ => false, [0])).2,
      x < exampleMatrix.ncol) ∧
    (∀ a b, b ∈ adjacencies exampleMatrix a → b < exampleMatrix.ncol) ∧
    (((traverseStep (adjacencies doublePushMatrix))^[2] (fun _ => false, [0])).2 = [1, 1] ∧
      ((traverseStep (adjacencies doublePushMatrix))^[2] (fun _ => false, [0])).1 1 = false) :=
  ⟨by decide, by decide, traverse_terminates exampleMatrix (by decide) 0 (by decide)⟩

/-! ## A closed class always exists -/

/-- C28: for a chain with `n ≥ 1` states, `commClassesKernel` marks at least one state as
closed; so `recurrentClasses` returns at least one class (and no empty class),
`recurrentStates` returns at least one state, and `transientStates` returns fewer states than
there are: not every state is transient. -/
theorem exists_closed_class {α : Type} (object : Markovchain α)
    (_hsq : (byRowMatrix object).nrow = (byRowMatrix object).ncol)
    (hn : 1 ≤ (byRowMatrix object).ncol)
    (hlen : object.states.length = (byRowMatrix object).ncol) :
    ∃ r, (∃ fuel, commClassesKernel fuel (byRowMatrix object) = some r) ∧
      (∀ fuel r', commClassesKernel fuel (byRowMatrix object) = some r' → r' = r) ∧
      (∃ i, i < (byRowMatrix object).ncol ∧ r.closed i = true) ∧
      (∃ recClasses, (∃ fuel, recurrentClasses fuel object = some recClasses) ∧
        (∀ fuel cs, recurrentClasses fuel object = some cs → cs = recClasses) ∧
        recClasses ≠ [] ∧ ∀ c ∈ recClasses, c ≠ []) ∧
      (∃ recStates, (∃ fuel, recurrentStates fuel object = some recStates) ∧
        (∀ fuel ss, recurrentStates fuel object = some ss → ss = recStates) ∧
        recStates ≠ []) ∧
      (∃ traStates, (∃ fuel, transientStates fuel object = some traStates) ∧
        (∀ fuel ss, transientStates fuel object = some ss → ss = traStates) ∧
        traStates.length < object.states.length) := by
  obtain ⟨c, -, hk, -, -⟩ := commClassesKernel_spec (byRowMatrix object)
  generalize classify (byRowMatrix object).ncol c = r at hk
  have huniq : ∀ fuel r', commClassesKernel fuel (byRowMatrix object) = some r' → r' = r :=
    fun fuel r2 h2 => commClassesKernel_unique (byRowMatrix object) _ _ _ _ h2 hk
  have hcd := kernel_returns_classData (byRowMatrix object) _ r hk
  obtain ⟨x, -, hx⟩ := exists_closed_reachable (byRowMatrix object) _ r hk 0 (by omega)
  have hxn : x < (byRowMatrix object).ncol := hcd.closed_lt x hx
  have hxs : x < object.states.length := by omega
  have hmem : (x, object.states[x]) ∈ object.states.enum :=
    List.mk_mem_enum_iff_getElem?.mpr (List.getElem?_eq_getElem hxs)
  refine ⟨r, ⟨_, hk⟩, huniq, ⟨x, hxn, hx⟩, ?_, ?_, ?_⟩
  · refine ⟨computeRecurrentClasses r.classes r.closed object.states,
      ⟨(byRowMatrix object).ncol * ((byRowMatrix object).ncol + 1) + 1,
        by simp [recurrentClasses, hk]⟩, ?_, ?_, ?_⟩
    · intro fuel cs h
      cases hk2 : commClassesKernel fuel (byRowMatrix object) with
      | none => simp [recurrentClasses, hk2] at h
      | some r2 =>
        simp only [recurrentClasses, hk2, Option.some.injEq] at h
        rw [← h, huniq fuel r2 hk2]
    · rw [computeRecurrentClasses_eq_loop,
        classesLoop_eq hcd r.closed hcd.closed_eq object.states hlen]
      obtain ⟨s, hs, -⟩ := exists_seed hcd r.closed hcd.closed_eq x hxn hx
      intro hnil
      rw [List.map_eq_nil_iff] at hnil
      rw [hnil] at hs
      exact List.not_mem_nil _ hs
    · rw [computeRecurrentClasses_eq_loop,
        classesLoop_eq hcd r.closed hcd.closed_eq object.states hlen]
      exact seed_class_ne_nil hcd r.closed object.states hlen
  · refine ⟨computeRecurrentStates object.states r.closed,
      ⟨(byRowMatrix object).ncol * ((byRowMatrix object).ncol + 1) + 1,
        by simp [recurrentStates, hk]⟩, ?_, ?_⟩
    · intro fuel ss h
      cases hk2 : commClassesKernel fuel (byRowMatrix object) with
      | none => simp [recurrentStates, hk2] at h
      | some r2 =>
        simp only [recurrentStates, hk2, Option.some.injEq] at h
        rw [← h, huniq fuel r2 hk2]
    · unfold computeRecurrentStates
      intro hnil
      rw [List.map_eq_nil_iff, List.filter_eq_nil_iff] at hnil
      exact hnil _ hmem hx
  · refine ⟨computeTransientStates object.states r.closed,
      ⟨(byRowMatrix object).ncol * ((byRowMatrix object).ncol + 1) + 1,
        by simp [transientStates, hk]⟩, ?_, ?_⟩
    · intro fuel ss h
      cases hk2 : commClassesKernel fuel (byRowMatrix object) with
      | none => simp [transientStates, hk2] at h
      | some r2 =>
        simp only [transientStates, hk2, Option.some.injEq] at h
        rw [← h, huniq fuel r2 hk2]
    · unfold computeTransientStates
      rw [List.length_map]
      have h1 : (object.states.enum.filter (fun js => !r.closed js.1)).length
          < object.states.enum.length :=
        List.length_filter_lt_length_iff_exists.mpr ⟨_, hmem, by simp [hx]⟩
      simpa using h1

/-- The theorem for C28 at the example chain. -/
theorem exists_closed_class_witness :
    (byRowMatrix exampleChain).nrow = (byRowMatrix exampleChain).ncol ∧
    1 ≤ (byRowMatrix exampleChain).ncol ∧
    exampleChain.states.length = (byRowMatrix exampleChain).ncol ∧
    ∃ r, (∃ fuel, commClassesKernel fuel (byRowMatrix exampleChain) = some r) ∧
      (∀ fuel r', commClassesKernel fuel (byRowMatrix exampleChain) = some r' → r' = r) ∧
      (∃ i, i < (byRowMatrix exampleChain).ncol ∧ r.closed i = true) ∧
      (∃ recClasses, (∃ fuel, recurrentClasses fuel exampleChain = some recClasses) ∧
        (∀ fuel cs, recurrentClasses fuel exampleChain = some cs → cs = recClasses) ∧
        recClasses ≠ [] ∧ ∀ c ∈ recClasses, c ≠ []) ∧
      (∃ recStates, (∃ fuel, recurrentStates fuel exampleChain = some recStates) ∧
        (∀ fuel ss, recurrentStates fuel exampleChain = some ss → ss = recStates) ∧
        recStates ≠ []) ∧
      (∃ traStates, (∃ fuel, transientStates fuel exampleChain = some traStates) ∧
        (∀ fuel ss, transientStates fuel exampleChain = some ss → ss = traStates) ∧
        traStates.length < exampleChain.states.length) :=
  ⟨by decide, by decide, by decide,
    exists_closed_class exampleChain (by decide) (by decide) (by decide)⟩


/-! ## The block shape of the canonic form -/

/-- In a list of states sorted by `keyLt`, a state listed before a closed state is closed. -/
theorem keyLt_closed_left (r : KernelResult) (i j : Nat) (h : keyLt r i j)
    (hj : r.closed j = true) : r.closed i = true := by
  unfold keyLt at h
  cases hi : r.closed i <;> simp [hi, hj] at h ⊢

/-- Between two closed states sorted by `keyLt`, the lowest index of the class does not
decrease. -/
theorem keyLt_classMin_le (r : KernelResult) (i j : Nat) (h : keyLt r i j)
    (hj : r.closed j = true) : classMin r.classes i ≤ classMin r.classes j := by
  unfold keyLt at h
  cases hi : r.closed i <;> simp [hi, hj] at h
  omega

/-- C29: for a row-oriented square chain with non-negative entries and `n` pairwise distinct
labels, `canonicForm` returns a chain in canonical block shape. With `r` what
`commClassesKernel` returns for the returned matrix (its closed states and classes are those of
the argument, carried along the index vector `perm`): an entry whose row is a closed, that is
recurrent, state and whose column is outside the class of the row is 0; the closed states are
exactly the first `K` rows, so the block of the rows below `K` and the columns from `K` on is
zero; and each closed class is a run of consecutive indices, so the block of the first `K` rows
and columns is block-diagonal by class. -/
theorem canonicForm_block_shape {α : Type} [DecidableEq α] (obj : Markovchain α)
    (hsq : obj.transitionMatrix.nrow = obj.transitionMatrix.ncol)
    (hlen : obj.states.length = obj.transitionMatrix.ncol) (hnd : obj.states.Nodup)
    (hbyrow : obj.byrow = true)
    (hnonneg : ∀ i j, i < obj.transitionMatrix.ncol → j < obj.transitionMatrix.ncol →
      0 ≤ obj.transitionMatrix.data i j) :
    ∃ (res : Markovchain α) (r r0 : KernelResult) (perm : List Nat) (K : Nat),
      (∃ fuel, canonicForm fuel obj = some res ∧
        commClassesKernel fuel res.transitionMatrix = some r ∧
        commClassesKernel fuel obj.transitionMatrix = some r0 ∧
        canonicPermutation fuel obj = some perm) ∧
      (∀ fuel res', canonicForm fuel obj = some res' → res' = res) ∧
      (∀ fuel r', commClassesKernel fuel res.transitionMatrix = some r' → r' = r) ∧
      res.transitionMatrix.nrow = obj.transitionMatrix.ncol ∧
      res.transitionMatrix.ncol = obj.transitionMatrix.ncol ∧
      res.byrow = true ∧
      perm.Perm (List.range obj.transitionMatrix.ncol) ∧
      res.states.map some = perm.map (fun p => obj.states[p]?) ∧
      (∀ a b, a < obj.transitionMatrix.ncol → b < obj.transitionMatrix.ncol →
        r.classes a b = r0.classes (perm.getD a 0) (perm.getD b 0)) ∧
      (∀ a, a < obj.transitionMatrix.ncol → r.closed a = r0.closed (perm.getD a 0)) ∧
      K ≤ obj.transitionMatrix.ncol ∧
      (∀ a, a < obj.transitionMatrix.ncol → (r.closed a = true ↔ a < K)) ∧
      (∀ a b, a < obj.transitionMatrix.ncol → b < obj.transitionMatrix.ncol →
        r.closed a = true → r.classes a b = false → res.transitionMatrix.data a b = 0) ∧
      (∀ a b, a < K → K ≤ b → b < obj.transitionMatrix.ncol →
        res.transitionMatrix.data a b = 0) ∧
      (∀ a b c, a ≤ b → b ≤ c → c < K → r.classes a c = true → r.classes a b = true) ∧
      (∀ a b, a < K → b < K → r.classes a b = false → res.transitionMatrix.data a b = 0) := by
  obtain ⟨r0, hk0, hc0⟩ := kernel_byRowMatrix obj hsq
  obtain ⟨res, hres, h1, h2, h3, h4, h5⟩ := canonicForm_spec obj hsq hlen hnd _ _ hk0 hc0
  obtain ⟨hsq', hlen', hnd', hperm⟩ := canonicForm_wellformed obj hsq hlen hnd _ res hres
  obtain ⟨r, hk, hc⟩ := kernel_byRowMatrix res hsq'
  rw [h2] at hk hc
  have hTn := byRowMatrix_ncol obj hsq
  have hTn' : (byRowMatrix res).ncol = (byRowMatrix obj).ncol := by
    rw [byRowMatrix_ncol res hsq', h2, hTn]
  obtain ⟨hcls, hclosed⟩ := kernel_renumber
    (fun i => (canonicOrder obj.transitionMatrix.ncol r0).getD i 0) hTn'
    (fun i hi => by rw [hTn] at hi ⊢; exact canonicOrder_getD_lt hc0 i hi)
    (fun i j hi hj h => by rw [hTn] at hi hj; exact canonicOrder_getD_inj hc0 i j hi hj h)
    (fun y hy => by rw [hTn] at hy ⊢; exact canonicOrder_getD_surj hc0 y hy)
    (fun i j _ _ => byRowMatrix_canonicForm obj res _ h5 h3 i j) _ _ r0 r hk0 hk
  rw [hTn] at hcls hclosed
  have hsorted : ∀ i j, i < j → j < obj.transitionMatrix.ncol → keyLt r i j :=
    keyLt_transport hc0 hc _ (fun i hi => canonicOrder_getD_lt hc0 i hi) hcls hclosed
      (fun i j hij hj => canonicOrder_getD_sorted hc0 i j hij hj)
  have hbr : res.byrow = true := by rw [h5, hbyrow]
  have hres_row : byRowMatrix res = res.transitionMatrix := by simp [byRowMatrix, hbr]
  have hobj_row : byRowMatrix obj = obj.transitionMatrix := by simp [byRowMatrix, hbyrow]
  rw [hres_row] at hk
  rw [hobj_row] at hk0
  obtain ⟨perm, hp⟩ : ∃ perm, canonicPermutation
      (obj.transitionMatrix.ncol * (obj.transitionMatrix.ncol + 1) + 1) obj = some perm ∧
      perm = canonicOrder obj.transitionMatrix.ncol r0 := by
    have := canonicPermutation_spec obj hsq hlen hnd _ r0 (by rw [hobj_row]; exact hk0) hc0
    exact ⟨_, this, rfl⟩
  obtain ⟨hpk, hpeq⟩ := hp
  -- the closed states come first
  have hdown : ∀ a b, a ≤ b → b < obj.transitionMatrix.ncol → r.closed b = true →
      r.closed a = true := by
    intro a b hab hb hcb
    rcases Nat.lt_or_ge a b with h | h
    · exact keyLt_closed_left r a b (hsorted a b h hb) hcb
    · have : a = b := by omega
      rw [this]; exact hcb
  have hK := leastFrom_spec (fun a => !r.closed a) obj.transitionMatrix.ncol 0
  simp only [Nat.zero_add] at hK
  obtain ⟨-, hKle, hKmin, hKat⟩ := hK
  have hKiff : ∀ a, a < obj.transitionMatrix.ncol →
      (r.closed a = true ↔
        a < leastFrom (fun a => !r.closed a) 0 obj.transitionMatrix.ncol) := by
    intro a ha
    constructor
    · intro hca
      by_contra hge
      have hKlt : leastFrom (fun a => !r.closed a) 0 obj.transitionMatrix.ncol
          < obj.transitionMatrix.ncol := by omega
      have g1 := hKat hKlt
      have g2 := hdown (leastFrom (fun a => !r.closed a) 0 obj.transitionMatrix.ncol) a
        (by omega) ha hca
      simp only [g2] at g1
      exact Bool.noConfusion g1
    · intro hlt
      have := hKmin a (Nat.zero_le a) hlt
      simpa using this
  have hzero : ∀ a b, a < obj.transitionMatrix.ncol → b < obj.transitionMatrix.ncol →
      r.closed a = true → r.classes a b = false → res.transitionMatrix.data a b = 0 := by
    intro a b _ hb hca hab
    refine closed_row_zero res.transitionMatrix _ r hk ?_ a b hca (by rw [h2]; exact hb) hab
    intro i j hi hj
    rw [h2] at hi hj
    rw [h3]
    exact hnonneg _ _ (canonicOrder_getD_lt hc0 i hi) (canonicOrder_getD_lt hc0 j hj)
  refine ⟨res, r, r0, perm, leastFrom (fun a => !r.closed a) 0 obj.transitionMatrix.ncol,
    ⟨_, hres, hk, hk0, hpk⟩,
    fun fuel x hx => canonicForm_unique obj hsq hlen hnd _ _ _ _ hx hres,
    fun fuel x hx => commClassesKernel_unique _ _ _ _ _ hx hk,
    h1, h2, hbr, ?_, ?_, ?_, ?_, hKle, hKiff, hzero, ?_, ?_, ?_⟩
  · rw [hpeq]; exact canonicOrder_perm hc0
  · rw [hpeq]; exact h4
  · intro a b ha hb
    rw [hpeq]; exact hcls a b ha hb
  · intro a ha
    rw [hpeq]; exact hclosed a ha
  · intro a b ha hKb hb
    have han : a < obj.transitionMatrix.ncol := by omega
    have hca : r.closed a = true := (hKiff a han).mpr ha
    have hcb : r.closed b = false := by
      cases hb2 : r.closed b with
      | false => rfl
      | true => exact absurd ((hKiff b hb).mp hb2) (by omega)
    apply hzero a b han hb hca
    cases hab : r.classes a b with
    | false => rfl
    | true =>
      have := hc.closed_eq a b hab
      rw [hca, hcb] at this
      exact Bool.noConfusion this
  · intro a b c hab hbc hcK hac
    have hcn : c < obj.transitionMatrix.ncol := by omega
    have hbn : b < obj.transitionMatrix.ncol := by omega
    have han : a < obj.transitionMatrix.ncol := by omega
    have hcc : r.closed c = true := (hKiff c hcn).mpr hcK
    have hcb : r.closed b = true := (hKiff b hbn).mpr (by omega)
    have hm1 : classMin r.classes a ≤ classMin r.classes b := by
      rcases Nat.lt_or_ge a b with h | h
      · exact keyLt_classMin_le r a b (hsorted a b h hbn) hcb
      · have : a = b := by omega
        rw [this]
    have hm2 : classMin r.classes b ≤ classMin r.classes c := by
      rcases Nat.lt_or_ge b c with h | h
      · exact keyLt_classMin_le r b c (hsorted b c h hcn) hcc
      · have : b = c := by omega
        rw [this]
    have hm3 : classMin r.classes a = classMin r.classes c := classMin_congr hc a c hac
    have hm4 : classMin r.classes a = classMin r.classes b := by omega
    have ha1 := classMin_cls hc a han
    have hb1 := classMin_cls hc b hbn
    rw [← hm4] at hb1
    exact hc.trans _ _ _ (hc.symm _ _ ha1) hb1
  · intro a b ha hb hab
    exact hzero a b (by omega) (by omega) ((hKiff a (by omega)).mpr ha) hab

/-- The theorem for C29 at the example chain. -/
theorem canonicForm_block_shape_witness :
    exampleChain.transitionMatrix.nrow = exampleChain.transitionMatrix.ncol ∧
    exampleChain.states.length = exampleChain.transitionMatrix.ncol ∧
    exampleChain.states.Nodup ∧
    exampleChain.byrow = true ∧
    (∀ i j, i < exampleChain.transitionMatrix.ncol → j < exampleChain.transitionMatrix.ncol →
      0 ≤ exampleChain.transitionMatrix.data i j) ∧
    (∃ (res : Markovchain String) (r r0 : KernelResult) (perm : List Nat) (K : Nat),
      (∃ fuel, canonicForm fuel exampleChain = some res ∧
        commClassesKernel fuel res.transitionMatrix = some r ∧
        commClassesKernel fuel exampleChain.transitionMatrix = some r0 ∧
        canonicPermutation fuel exampleChain = some perm) ∧
      (∀ fuel res', canonicForm fuel exampleChain = some res' → res' = res) ∧
      (∀ fuel r', commClassesKernel fuel res.transitionMatrix = some r' → r' = r) ∧
      res.transitionMatrix.nrow = exampleChain.transitionMatrix.ncol ∧
      res.transitionMatrix.ncol = exampleChain.transitionMatrix.ncol ∧
      res.byrow = true ∧
      perm.Perm (List.range exampleChain.transitionMatrix.ncol) ∧
      res.states.map some = perm.map (fun p => exampleChain.states[p]?) ∧
      (∀ a b, a < exampleChain.transitionMatrix.ncol →
        b < exampleChain.transitionMatrix.ncol →
        r.classes a b = r0.classes (perm.getD a 0) (perm.getD b 0)) ∧
      (∀ a, a < exampleChain.transitionMatrix.ncol →
        r.closed a = r0.closed (perm.getD a 0)) ∧
      K ≤ exampleChain.transitionMatrix.ncol ∧
      (∀ a, a < exampleChain.transitionMatrix.ncol → (r.closed a = true ↔ a < K)) ∧
      (∀ a b, a < exampleChain.transitionMatrix.ncol →
        b < exampleChain.transitionMatrix.ncol →
        r.closed a = true → r.classes a b = false → res.transitionMatrix.data a b = 0) ∧
      (∀ a b, a < K → K ≤ b → b < exampleChain.transitionMatrix.ncol →
        res.transitionMatrix.data a b = 0) ∧
      (∀ a b c, a ≤ b → b ≤ c → c < K → r.classes a c = true → r.classes a b = true) ∧
      (∀ a b, a < K → b < K → r.classes a b = false →
        res.transitionMatrix.data a b = 0)) :=
  ⟨by decide, by decide, by decide, rfl, exampleMatrix_nonneg,
    canonicForm_block_shape exampleChain (by decide) (by decide) (by decide) rfl
      exampleMatrix_nonneg⟩

end MarkovChain
